import Mathlib

/-!
# UE_HierarchicalStateMachine : the runtime engine of `UHierarchicalStateMachine`

Shallow embedding of `Source/StateMachine/Private/HierarchicalStateMachine.cpp`.

* Heap objects (`Track`, `State`) live in two arenas; a C++ pointer is an index
  into its arena and a nullable pointer is an `Option`.
* `TMap<FName, X*>` is an association list in insertion order, `TArray` is a `List`
  whose last element is the one `Pop()` removes.
* The machine is split in two records: `Model` (what the builder makes, constant at run
  time) and `Runtime` (what `Start`, `Tick`, `Stop`, `PostEvent`, `DequeueEvents` change).
* Delegate invocations (`Enter/Tick/Exit.ExecuteIfBound`) are recorded in `calls`, one entry
  per invocation whether or not a delegate is bound; the delegates themselves do not call
  back into the machine.
* Every `while` loop takes a bound on its number of iterations (`fuel`);
  running out of it is the fault `outOfFuel`, distinct from the faults of the code.
* The `STATEMACHINE_HISTORY_ENABLED` blocks are diagnostic only and are left out.
-/

namespace HSM

abbrev FName := String
abbrev TrackPtr := Nat
abbrev StatePtr := Nat

/-- Ways an execution can fail to return. -/
inductive Fault where
  | nullDeref
  | assertFailed
  | outOfFuel
  deriving DecidableEq, Repr

/-- Result of running a piece of the engine. -/
inductive Res (α : Type) where
  | ok (a : α)
  | fault (f : Fault)
  deriving DecidableEq, Repr

/-- Sequencing of results: a fault aborts what follows. -/
def Res.bind {α β : Type} (r : Res α) (f : α → Res β) : Res β :=
  match r with
  | .ok a => f a
  | .fault e => .fault e

instance : Monad Res where
  pure := Res.ok
  bind := Res.bind

/-- Embedding of `class Track` : `m_name`, `m_states`, `m_parent`, `m_defaultState`. -/
structure Track where
  m_name : FName
  m_states : List (FName × StatePtr)
  m_parent : Option StatePtr
  m_defaultState : Option StatePtr
  deriving DecidableEq, Repr

/-- Embedding of `class State` : `m_name`, `m_tracks`, `m_parent` (never null: set to `this` by `Track::AddState`). -/
structure State where
  m_name : FName
  m_tracks : List (FName × TrackPtr)
  m_parent : TrackPtr
  deriving DecidableEq, Repr

/-- Embedding of `struct EventTransition`. -/
structure EventTransition where
  name : FName
  source : StatePtr
  target : StatePtr
  deriving DecidableEq, Repr

/-- The part of `UHierarchicalStateMachine` that is built before `Start`:
the two arenas, `m_rootTracks`, `m_tracks`, `m_states`, `m_eventTransitions`. -/
structure Model where
  trackHeap : List Track
  stateHeap : List State
  m_rootTracks : List TrackPtr
  m_tracks : List (FName × TrackPtr)
  m_states : List (FName × StatePtr)
  m_eventTransitions : List (FName × List EventTransition)
  deriving DecidableEq, Repr

/-- One delegate invocation. -/
inductive HookCall where
  | enter (s : StatePtr)
  | tick (s : StatePtr) (dt : Int)
  | exit (s : StatePtr)
  deriving DecidableEq, Repr

/-- The part of `UHierarchicalStateMachine` that changes at run time, with the
record of delegate invocations (`calls`) and of `UE_LOG` errors (`errorLogs`). -/
structure Runtime where
  m_currentStates : List StatePtr
  m_eventsQueue : List FName
  m_ticking : Bool
  m_started : Bool
  bImmediatelyDequeueEvents : Bool
  calls : List HookCall
  errorLogs : Nat
  deriving DecidableEq, Repr

/-- Dereference of a `Track*`. -/
def Model.track (M : Model) (p : TrackPtr) : Res Track :=
  match M.trackHeap[p]? with
  | some t => .ok t
  | none => .fault .nullDeref

/-- Dereference of a `State*`. -/
def Model.state (M : Model) (p : StatePtr) : Res State :=
  match M.stateHeap[p]? with
  | some s => .ok s
  | none => .fault .nullDeref

/-- Embedding of `TMap::Find`. -/
def tmapFind {α : Type} (m : List (FName × α)) (k : FName) : Option α :=
  match m with
  | [] => none
  | (k', v) :: rest => if k' = k then some v else tmapFind rest k

/-- The `while (currentTrack != nullptr)` loop of `State::IsInTrack`. -/
def IsInTrackLoop (M : Model) (_track : Option TrackPtr) : Nat → Option TrackPtr → Res Bool
  | 0, _ => .fault .outOfFuel
  | _ + 1, none => .ok false
  | fuel + 1, some currentTrack =>
    if some currentTrack = _track then .ok true
    else do
      let t ← M.track currentTrack
      match t.m_parent with
      | none => IsInTrackLoop M _track fuel none
      | some p => do
        let ps ← M.state p
        IsInTrackLoop M _track fuel (some ps.m_parent)

/-- Embedding of `State::IsInTrack`. -/
def IsInTrack (M : Model) (fuel : Nat) (self : StatePtr) (_track : Option TrackPtr) : Res Bool := do
  let s ← M.state self
  IsInTrackLoop M _track fuel (some s.m_parent)

/-- First loop of `_FindClosestCommonTrack`: the ancestor tracks of `_stateA` are added to `ATracks`. -/
def ATracksLoop (M : Model) : Nat → Option TrackPtr → List TrackPtr → Res (List TrackPtr)
  | 0, _, _ => .fault .outOfFuel
  | _ + 1, none, ATracks => .ok ATracks
  | fuel + 1, some currentTrack, ATracks => do
    let t ← M.track currentTrack
    match t.m_parent with
    | none => ATracksLoop M fuel none (ATracks ++ [currentTrack])
    | some p => do
      let ps ← M.state p
      ATracksLoop M fuel (some ps.m_parent) (ATracks ++ [currentTrack])

/-- Last loop of `_FindClosestCommonTrack`: walk up from `_stateB`; the step
`currentTrack->m_parent->m_parent` has no null test. -/
def BTracksLoop (M : Model) (ATracks : List TrackPtr) : Nat → Option TrackPtr → Res (Option TrackPtr)
  | 0, _ => .fault .outOfFuel
  | _ + 1, none => .ok none
  | fuel + 1, some currentTrack =>
    if currentTrack ∈ ATracks then .ok (some currentTrack)
    else do
      let t ← M.track currentTrack
      match t.m_parent with
      | none => .fault .nullDeref
      | some p => do
        let ps ← M.state p
        BTracksLoop M ATracks fuel (some ps.m_parent)

/-- Embedding of `UHierarchicalStateMachine::_FindClosestCommonTrack`. Both states belong to
this machine, so the `m_stateMachine` test never returns. -/
def _FindClosestCommonTrack (M : Model) (fuel : Nat) (_stateA _stateB : StatePtr) :
    Res (Option TrackPtr) := do
  let a ← M.state _stateA
  let b ← M.state _stateB
  if a.m_parent = b.m_parent then
    return some a.m_parent
  else
    let ATracks ← ATracksLoop M fuel (some a.m_parent) (a.m_tracks.map Prod.snd)
    match (b.m_tracks.map Prod.snd).find? (fun t => decide (t ∈ ATracks)) with
    | some t => return some t
    | none => BTracksLoop M ATracks fuel (some b.m_parent)

/-- The loop of `DequeueEvents` that collects `pathFromCommonTrackToState`.
The pointer inserted at the front is dereferenced by the next statement, so a
null one is a fault and the path only holds states. -/
def pathLoop (M : Model) (commonTrack : Option TrackPtr) :
    Nat → Option TrackPtr → List StatePtr → Res (List StatePtr)
  | 0, _, _ => .fault .outOfFuel
  | fuel + 1, currentTrack, path =>
    if currentTrack = commonTrack then .ok path
    else
      match currentTrack with
      | none => .fault .nullDeref
      | some ct => do
        let t ← M.track ct
        match t.m_parent with
        | none => .fault .nullDeref
        | some p => do
          let ps ← M.state p
          pathLoop M commonTrack fuel (some ps.m_parent) (p :: path)

/-- The exit loop of `DequeueEvents`: indices are visited from the last to the
first, and `RemoveAt(i)` leaves the lower indices in place. Returns the states
kept and the `Exit` calls made, in order. -/
def exitLoop (M : Model) (fuel : Nat) (commonTrack : Option TrackPtr) :
    List StatePtr → Res (List StatePtr × List HookCall)
  | [] => .ok ([], [])
  | s :: rest => do
    let (kept, calls) ← exitLoop M fuel commonTrack rest
    let b ← IsInTrack M fuel s commonTrack
    if b then .ok (kept, calls ++ [HookCall.exit s])
    else .ok (s :: kept, calls)

/-- The `while (tracksToSet.Num() != 0)` loop of `DequeueEvents`. -/
def enterLoop (M : Model) : Nat → List TrackPtr → List StatePtr → List StatePtr → List HookCall →
    Res (List StatePtr × List HookCall)
  | 0, _, _, _, _ => .fault .outOfFuel
  | fuel + 1, tracksToSet, path, cur, calls =>
    match tracksToSet.getLast? with
    | none => .ok (cur, calls)
    | some currentTrack => do
      let t ← M.track currentTrack
      let (currentState, path') ←
        (match path with
          | [] => Res.ok (t.m_defaultState, path)
          | p0 :: prest => do
            let ps ← M.state p0
            match tmapFind t.m_states ps.m_name with
            | some result => Res.ok (some result, prest)
            | none => Res.ok (t.m_defaultState, path))
      match currentState with
      | none => .fault .nullDeref
      | some cs => do
        let s ← M.state cs
        enterLoop M fuel (tracksToSet.dropLast ++ s.m_tracks.map Prod.snd) path'
          (cur ++ [cs]) (calls ++ [HookCall.enter cs])

/-- Body of the `for (const EventTransition* transition : transitions)` loop. -/
def fireTransition (M : Model) (fuel : Nat) (transition : EventTransition) (σ : Runtime) :
    Res Runtime :=
  if transition.source ∉ σ.m_currentStates then .ok σ
  else do
    let commonTrack ← _FindClosestCommonTrack M fuel transition.source transition.target
    let tgt ← M.state transition.target
    let path ← pathLoop M commonTrack fuel (some tgt.m_parent) [transition.target]
    let (kept, exits) ← exitLoop M fuel commonTrack σ.m_currentStates
    match commonTrack with
    | none => .fault .nullDeref
    | some ct => do
      let (cur, calls) ← enterLoop M fuel [ct] path kept (σ.calls ++ exits)
      return { σ with m_currentStates := cur, calls := calls }

/-- The `for` loop over the transitions of one event. -/
def fireTransitions (M : Model) (fuel : Nat) : List EventTransition → Runtime → Res Runtime
  | [], σ => .ok σ
  | tr :: rest, σ => do
    let σ' ← fireTransition M fuel tr σ
    fireTransitions M fuel rest σ'

/-- One iteration of the `while` loop of `DequeueEvents`: the oldest event is
removed from the queue and its transitions are processed. -/
def processEvent (M : Model) (fuel : Nat) (evt : FName) (σ : Runtime) : Res Runtime :=
  match tmapFind M.m_eventTransitions evt with
  | none => .fault .nullDeref
  | some transitions => fireTransitions M fuel transitions σ

/-- Embedding of `STATEMACHINE_DEQUEUEEVENTS_DEFAULTLIMIT`. -/
def STATEMACHINE_DEQUEUEEVENTS_DEFAULTLIMIT : Nat := 5000

/-- The `while ((dequeuedEventsCount < _dequeuedEventsLimit) && m_eventsQueue.Num() != 0)`
loop, by recursion on the number of iterations the limit still allows (the `uint16` counter
stays below the limit, so `++dequeuedEventsCount` never wraps). -/
def dequeueLoop (M : Model) (fuel : Nat) : Nat → Nat → Runtime → Res (Nat × Runtime)
  | 0, dequeuedEventsCount, σ => .ok (dequeuedEventsCount, σ)
  | remaining + 1, dequeuedEventsCount, σ =>
    match σ.m_eventsQueue with
    | [] => .ok (dequeuedEventsCount, σ)
    | evt :: queue => do
      let σ' ← processEvent M fuel evt { σ with m_eventsQueue := queue }
      dequeueLoop M fuel remaining (dequeuedEventsCount + 1) σ'

/-- Embedding of `UHierarchicalStateMachine::DequeueEvents(uint16 _dequeuedEventsLimit)`.
The parameter is a `uint16`: it is promoted to `int` for the comparison with `-1`. -/
def DequeueEvents (M : Model) (fuel : Nat) (_dequeuedEventsLimit : Nat) (σ : Runtime) :
    Res Runtime := do
  let arg : Nat := _dequeuedEventsLimit % 2 ^ 16
  let limit : Nat :=
    if (arg : Int) = -1 then STATEMACHINE_DEQUEUEEVENTS_DEFAULTLIMIT else arg
  let (dequeuedEventsCount, σ') ← dequeueLoop M fuel limit 0 σ
  if dequeuedEventsCount ≥ STATEMACHINE_DEQUEUEEVENTS_DEFAULTLIMIT then
    return { σ' with errorLogs := σ'.errorLogs + 1 }
  else
    return σ'

/-- Value of the default argument of `DequeueEvents` once converted to `uint16`. The header
`HierarchicalStateMachine.h` is not among the sources; the declaration is read off the sibling
`StateMachineComponent.h` (`uint16 _dequeuedEventsLimit = -1`), the value the test
`_dequeuedEventsLimit == -1` of `DequeueEvents` is written for. -/
def defaultLimitArg : Nat := 2 ^ 16 - 1

/-- The `while (waitingTracks.Num() != 0)` loop of `Start`. -/
def startLoop (M : Model) : Nat → List TrackPtr → List StatePtr → Res (List StatePtr)
  | 0, _, _ => .fault .outOfFuel
  | fuel + 1, waitingTracks, cur =>
    match waitingTracks.getLast? with
    | none => .ok cur
    | some track => do
      let t ← M.track track
      match t.m_defaultState with
      | none => .fault .nullDeref
      | some d => do
        let s ← M.state d
        startLoop M fuel (waitingTracks.dropLast ++ s.m_tracks.map Prod.snd) (cur ++ [d])

/-- Embedding of `UHierarchicalStateMachine::Start`. -/
def Start (M : Model) (fuel : Nat) (σ : Runtime) : Res Runtime :=
  if σ.m_started then .fault .assertFailed
  else if σ.m_currentStates.length ≠ 0 then .fault .assertFailed
  else do
    let cur ← startLoop M fuel M.m_rootTracks σ.m_currentStates
    return { σ with
      m_currentStates := cur
      calls := σ.calls ++ cur.map HookCall.enter
      m_started := true }

/-- Embedding of `UHierarchicalStateMachine::Stop`. -/
def Stop (σ : Runtime) : Res Runtime :=
  if ¬ σ.m_started then .fault .assertFailed
  else if ¬ σ.m_ticking then
    .ok { σ with
      m_started := false
      calls := σ.calls ++ σ.m_currentStates.reverse.map HookCall.exit
      m_currentStates := [] }
  else .ok { σ with m_started := false }

/-- Embedding of `UHierarchicalStateMachine::Tick`, the delegates not calling back into the machine. -/
def Tick (M : Model) (fuel : Nat) (_dt : Int) (σ : Runtime) : Res Runtime :=
  if ¬ σ.m_started then .fault .assertFailed
  else if σ.m_ticking then .fault .assertFailed
  else do
    let σ1 ← DequeueEvents M fuel defaultLimitArg σ
    let σ2 : Runtime :=
      { σ1 with calls := σ1.calls ++ σ1.m_currentStates.map (fun s => HookCall.tick s _dt) }
    let σ3 ← DequeueEvents M fuel defaultLimitArg σ2
    if ¬ σ3.m_started then Stop σ3 else return σ3

/-- Embedding of `UHierarchicalStateMachine::PostEvent`. -/
def PostEvent (M : Model) (fuel : Nat) (_eventName : FName) (σ : Runtime) : Res Runtime :=
  if (tmapFind M.m_eventTransitions _eventName).isNone then .fault .assertFailed
  else
    let σ1 : Runtime := { σ with m_eventsQueue := σ.m_eventsQueue ++ [_eventName] }
    if σ1.bImmediatelyDequeueEvents && !σ1.m_ticking && σ1.m_started then
      DequeueEvents M fuel defaultLimitArg σ1
    else .ok σ1

/-- Embedding of `TMap::Add(key) = value`: the value of an existing key is replaced, a new key is appended. -/
def tmapAdd {α : Type} (m : List (FName × α)) (k : FName) (v : α) : List (FName × α) :=
  match m with
  | [] => [(k, v)]
  | (k', v') :: rest => if k' = k then (k, v) :: rest else (k', v') :: tmapAdd rest k v

/-- A machine on which nothing has been built. -/
def Model.empty : Model :=
  { trackHeap := [], stateHeap := [], m_rootTracks := [], m_tracks := [], m_states := [],
    m_eventTransitions := [] }

/-- Embedding of `UHierarchicalStateMachine::AddRootTrack(FName)`: `new Track(_name, nullptr, this)`, then
the `_AssertIfTrackExists` visit of the new (stateless) track and its registration. -/
def AddRootTrack (M : Model) (_name : FName) : Res (Model × TrackPtr) :=
  if (tmapFind M.m_tracks _name).isSome then .fault .assertFailed
  else
    let track : TrackPtr := M.trackHeap.length
    .ok ({ M with
      trackHeap := M.trackHeap ++
        [{ m_name := _name, m_states := [], m_parent := none, m_defaultState := none }]
      m_rootTracks := M.m_rootTracks ++ [track]
      m_tracks := tmapAdd M.m_tracks _name track }, track)

/-- Embedding of `Track::AddState(FName)`. -/
def Track.AddState (M : Model) (self : TrackPtr) (_name : FName) : Res (Model × StatePtr) := do
  let t ← M.track self
  if (tmapFind M.m_states _name).isSome then .fault .assertFailed
  else
    let state : StatePtr := M.stateHeap.length
    .ok ({ M with
      stateHeap := M.stateHeap ++ [{ m_name := _name, m_tracks := [], m_parent := self }]
      trackHeap := M.trackHeap.set self { t with m_states := tmapAdd t.m_states _name state }
      m_states := tmapAdd M.m_states _name state }, state)

/-- Embedding of `Track::AddDefaultState(FName)`: no test of `m_defaultState`. -/
def Track.AddDefaultState (M : Model) (self : TrackPtr) (_name : FName) :
    Res (Model × StatePtr) := do
  let (M1, state) ← Track.AddState M self _name
  let t ← M1.track self
  .ok ({ M1 with trackHeap := M1.trackHeap.set self { t with m_defaultState := some state } },
    state)

/-- Embedding of `Track::AddDefaultState(FName, enter, tick, exit)`: asserts that `m_defaultState` is null. -/
def Track.AddDefaultStateWithDelegates (M : Model) (self : TrackPtr) (_name : FName) :
    Res (Model × StatePtr) := do
  let t0 ← M.track self
  if t0.m_defaultState.isSome then .fault .assertFailed
  else
    let (M1, state) ← Track.AddState M self _name
    let t ← M1.track self
    .ok ({ M1 with trackHeap := M1.trackHeap.set self { t with m_defaultState := some state } },
      state)

/-- Embedding of `State::AddTrack(FName)`. -/
def State.AddTrack (M : Model) (self : StatePtr) (_name : FName) : Res (Model × TrackPtr) := do
  let s ← M.state self
  if (tmapFind M.m_tracks _name).isSome then .fault .assertFailed
  else
    let track : TrackPtr := M.trackHeap.length
    .ok ({ M with
      trackHeap := M.trackHeap ++
        [{ m_name := _name, m_states := [], m_parent := some self, m_defaultState := none }]
      stateHeap := M.stateHeap.set self { s with m_tracks := tmapAdd s.m_tracks _name track }
      m_tracks := tmapAdd M.m_tracks _name track }, track)

/-- Embedding of `UHierarchicalStateMachine::AddEventTransition`: `*m_states.Find(name)` dereferences the
result of `Find`, null for an unknown name; `FindOrAdd(_eventName).Add(eventTransition)`. -/
def AddEventTransition (M : Model) (_eventName _sourceStateName _targetStateName : FName) :
    Res Model :=
  match tmapFind M.m_states _sourceStateName, tmapFind M.m_states _targetStateName with
  | some sourceState, some targetState =>
    let eventTransition : EventTransition :=
      { name := _eventName, source := sourceState, target := targetState }
    .ok { M with
      m_eventTransitions := tmapAdd M.m_eventTransitions _eventName
        ((tmapFind M.m_eventTransitions _eventName).getD [] ++ [eventTransition]) }
  | _, _ => .fault .nullDeref

/-- A machine as constructed: stopped, nothing active, nothing queued. -/
def Runtime.initial (immediate : Bool) : Runtime :=
  { m_currentStates := [], m_eventsQueue := [], m_ticking := false, m_started := false,
    bImmediatelyDequeueEvents := immediate, calls := [], errorLogs := 0 }

/-- Scenario B of the specification, built with the model builder in the order of the
`STATEMACHINE_DEFINITION` example: root track `life` with default `alive` and sibling `dead`;
`alive` owns `motion` (default `grounded`, sibling `jumping`), added first, and `health`
(default `healthy`, sibling `hurt`), added second. Events: `die` (alive -> dead),
`jump` (grounded -> jumping), `fall` (grounded -> dead). -/
def buildScenarioB : Res Model := do
  let (M, life) ← AddRootTrack Model.empty "life"
  let (M, alive) ← Track.AddDefaultState M life "alive"
  let (M, motion) ← State.AddTrack M alive "motion"
  let (M, _) ← Track.AddDefaultState M motion "grounded"
  let (M, _) ← Track.AddState M motion "jumping"
  let (M, health) ← State.AddTrack M alive "health"
  let (M, _) ← Track.AddDefaultState M health "healthy"
  let (M, _) ← Track.AddState M health "hurt"
  let (M, _) ← Track.AddState M life "dead"
  let M ← AddEventTransition M "die" "alive" "dead"
  let M ← AddEventTransition M "jump" "grounded" "jumping"
  AddEventTransition M "fall" "grounded" "dead"

/-! ## Notions used to state the properties -/

/-- Parent track of a state (`State::m_parent`), if the pointer is valid. -/
def Model.stateTrack (M : Model) (s : StatePtr) : Option TrackPtr :=
  (M.stateHeap[s]?).map State.m_parent

/-- Parent state of a track (`Track::m_parent`); `none` for a root track. -/
def Model.trackParent (M : Model) (t : TrackPtr) : Option StatePtr :=
  (M.trackHeap[t]?).bind Track.m_parent

/-- A root track: a track without parent state. -/
def Model.isRoot (M : Model) (t : TrackPtr) : Bool :=
  match M.trackHeap[t]? with
  | some tk => tk.m_parent.isNone
  | none => false

/-- Child tracks of a state, in the order of `m_tracks`. -/
def Model.childTracks (M : Model) (s : StatePtr) : List TrackPtr :=
  match M.stateHeap[s]? with
  | some st => st.m_tracks.map Prod.snd
  | none => []

/-- Default state of a track. -/
def Model.defaultState (M : Model) (t : TrackPtr) : Option StatePtr :=
  (M.trackHeap[t]?).bind Track.m_defaultState

/-- The ancestor-track chain of a track: the track, the track of its parent state, and so on
up to a root track. -/
def Model.ancestorsAux (M : Model) : Nat → TrackPtr → List TrackPtr
  | 0, _ => []
  | n + 1, t =>
    t :: (match M.trackParent t with
      | none => []
      | some p =>
        match M.stateTrack p with
        | none => []
        | some v => Model.ancestorsAux M n v)

/-- The ancestor-track chain, bounded by the number of tracks of the model. -/
def Model.ancestors (M : Model) (t : TrackPtr) : List TrackPtr :=
  M.ancestorsAux M.trackHeap.length t

/-- State `s` lies in the subtree of track `L`: `L` is on the ancestor-track chain of `s`. -/
def Model.inSubtree (M : Model) (L : TrackPtr) (s : StatePtr) : Bool :=
  match M.stateTrack s with
  | some t => decide (L ∈ M.ancestors t)
  | none => false

/-- A track is reachable in a configuration if it is a root track or its parent state is active. -/
def Reachable (M : Model) (cur : List StatePtr) (t : TrackPtr) : Prop :=
  M.isRoot t = true ∨ ∃ p ∈ cur, M.trackParent t = some p

instance (M : Model) (cur : List StatePtr) (t : TrackPtr) : Decidable (Reachable M cur t) := by
  unfold Reachable; infer_instance

/-- The reachable tracks of the model in a configuration. -/
def reachableTracks (M : Model) (cur : List StatePtr) : List TrackPtr :=
  (List.range M.trackHeap.length).filter (fun t => decide (Reachable M cur t))

/-- Ordering of a configuration: the parent state of the track of an active state is
active and stands at a strictly earlier position. -/
def Ordered (M : Model) (cur : List StatePtr) : Prop :=
  ∀ s ∈ cur, ∀ t ∈ M.stateTrack s, ∀ p ∈ M.trackParent t,
    p ∈ cur ∧ cur.indexOf p < cur.indexOf s

/-- One state per reachable track: active states are distinct valid states of reachable tracks,
no two in the same track, and every reachable track has one. -/
def OnePerTrack (M : Model) (cur : List StatePtr) : Prop :=
  (∀ s ∈ cur, ∃ t ∈ M.stateTrack s, Reachable M cur t) ∧
  (∀ t < M.trackHeap.length, Reachable M cur t → ∃ s ∈ cur, M.stateTrack s = some t) ∧
  (cur.map M.stateTrack).Nodup

instance (M : Model) (cur : List StatePtr) : Decidable (OnePerTrack M cur) := by
  unfold OnePerTrack; infer_instance

instance (M : Model) (cur : List StatePtr) : Decidable (Ordered M cur) := by
  unfold Ordered; infer_instance

/-- Shape of a model made with the builder. Pointers are valid, parent and child links agree,
a track is allocated after the track of its parent state, `m_rootTracks` lists the tracks
without parent, state names are unique, a default state belongs to its track, and transitions
join registered states. -/
structure Model.WF (M : Model) : Prop where
  state_in_track : ∀ s < M.stateHeap.length, ∀ st ∈ M.stateHeap[s]?,
    ∃ tk ∈ M.trackHeap[st.m_parent]?, (st.m_name, s) ∈ tk.m_states
  track_states : ∀ t < M.trackHeap.length, ∀ tk ∈ M.trackHeap[t]?, ∀ e ∈ tk.m_states,
    ∃ st ∈ M.stateHeap[e.2]?, st.m_parent = t ∧ st.m_name = e.1
  track_parent : ∀ t < M.trackHeap.length, ∀ tk ∈ M.trackHeap[t]?, ∀ p ∈ tk.m_parent,
    ∃ st ∈ M.stateHeap[p]?, (tk.m_name, t) ∈ st.m_tracks ∧ st.m_parent < t
  state_tracks : ∀ s < M.stateHeap.length, ∀ st ∈ M.stateHeap[s]?, ∀ e ∈ st.m_tracks,
    ∃ tk ∈ M.trackHeap[e.2]?, tk.m_parent = some s ∧ tk.m_name = e.1
  state_tracks_nodup : ∀ s < M.stateHeap.length, ∀ st ∈ M.stateHeap[s]?,
    (st.m_tracks.map Prod.snd).Nodup
  root_tracks : ∀ t ∈ M.m_rootTracks, M.isRoot t = true
  root_listed : ∀ t < M.trackHeap.length, M.isRoot t = true → t ∈ M.m_rootTracks
  root_nodup : M.m_rootTracks.Nodup
  state_names : ∀ s < M.stateHeap.length, ∀ s' < M.stateHeap.length,
    ∀ st ∈ M.stateHeap[s]?, ∀ st' ∈ M.stateHeap[s']?, st.m_name = st'.m_name → s = s'
  default_state : ∀ t < M.trackHeap.length, ∀ tk ∈ M.trackHeap[t]?, ∀ d ∈ tk.m_defaultState,
    ∃ st ∈ M.stateHeap[d]?, st.m_parent = t
  transitions : ∀ e ∈ M.m_eventTransitions, ∀ tr ∈ e.2,
    tr.source < M.stateHeap.length ∧ tr.target < M.stateHeap.length

set_option synthInstance.maxSize 4096 in
set_option synthInstance.maxHeartbeats 400000 in
instance (M : Model) : Decidable M.WF :=
  decidable_of_iff
    ((∀ s < M.stateHeap.length, ∀ st ∈ M.stateHeap[s]?,
        ∃ tk ∈ M.trackHeap[st.m_parent]?, (st.m_name, s) ∈ tk.m_states) ∧
     (∀ t < M.trackHeap.length, ∀ tk ∈ M.trackHeap[t]?, ∀ e ∈ tk.m_states,
        ∃ st ∈ M.stateHeap[e.2]?, st.m_parent = t ∧ st.m_name = e.1) ∧
     (∀ t < M.trackHeap.length, ∀ tk ∈ M.trackHeap[t]?, ∀ p ∈ tk.m_parent,
        ∃ st ∈ M.stateHeap[p]?, (tk.m_name, t) ∈ st.m_tracks ∧ st.m_parent < t) ∧
     (∀ s < M.stateHeap.length, ∀ st ∈ M.stateHeap[s]?, ∀ e ∈ st.m_tracks,
        ∃ tk ∈ M.trackHeap[e.2]?, tk.m_parent = some s ∧ tk.m_name = e.1) ∧
     (∀ s < M.stateHeap.length, ∀ st ∈ M.stateHeap[s]?, (st.m_tracks.map Prod.snd).Nodup) ∧
     (∀ t ∈ M.m_rootTracks, M.isRoot t = true) ∧
     (∀ t < M.trackHeap.length, M.isRoot t = true → t ∈ M.m_rootTracks) ∧
     M.m_rootTracks.Nodup ∧
     (∀ s < M.stateHeap.length, ∀ s' < M.stateHeap.length,
        ∀ st ∈ M.stateHeap[s]?, ∀ st' ∈ M.stateHeap[s']?, st.m_name = st'.m_name → s = s') ∧
     (∀ t < M.trackHeap.length, ∀ tk ∈ M.trackHeap[t]?, ∀ d ∈ tk.m_defaultState,
        ∃ st ∈ M.stateHeap[d]?, st.m_parent = t) ∧
     (∀ e ∈ M.m_eventTransitions, ∀ tr ∈ e.2,
        tr.source < M.stateHeap.length ∧ tr.target < M.stateHeap.length))
    ⟨fun ⟨h1, h2, h3, h4, h5, h6, h7, h8, h9, h10, h11⟩ =>
        ⟨h1, h2, h3, h4, h5, h6, h7, h8, h9, h10, h11⟩,
      fun h => ⟨h.1, h.2, h.3, h.4, h.5, h.6, h.7, h.8, h.9, h.10, h.11⟩⟩

/-- Every track of the model has a default state. -/
def Model.HasDefaults (M : Model) : Prop :=
  ∀ t < M.trackHeap.length, (M.defaultState t).isSome = true

instance (M : Model) : Decidable M.HasDefaults := by
  unfold Model.HasDefaults; infer_instance

/-- The arena that `buildScenarioB` produces. Tracks: 0 `life`, 1 `motion`, 2 `health`.
States: 0 `alive`, 1 `grounded`, 2 `jumping`, 3 `healthy`, 4 `hurt`, 5 `dead`. -/
def scenarioB : Model :=
  { trackHeap :=
      [{ m_name := "life", m_states := [("alive", 0), ("dead", 5)], m_parent := none,
         m_defaultState := some 0 },
       { m_name := "motion", m_states := [("grounded", 1), ("jumping", 2)], m_parent := some 0,
         m_defaultState := some 1 },
       { m_name := "health", m_states := [("healthy", 3), ("hurt", 4)], m_parent := some 0,
         m_defaultState := some 3 }]
    stateHeap :=
      [{ m_name := "alive", m_tracks := [("motion", 1), ("health", 2)], m_parent := 0 },
       { m_name := "grounded", m_tracks := [], m_parent := 1 },
       { m_name := "jumping", m_tracks := [], m_parent := 1 },
       { m_name := "healthy", m_tracks := [], m_parent := 2 },
       { m_name := "hurt", m_tracks := [], m_parent := 2 },
       { m_name := "dead", m_tracks := [], m_parent := 0 }]
    m_rootTracks := [0]
    m_tracks := [("life", 0), ("motion", 1), ("health", 2)]
    m_states := [("alive", 0), ("grounded", 1), ("jumping", 2), ("healthy", 3), ("hurt", 4),
      ("dead", 5)]
    m_eventTransitions :=
      [("die", [{ name := "die", source := 0, target := 5 }]),
       ("jump", [{ name := "jump", source := 1, target := 2 }]),
       ("fall", [{ name := "fall", source := 1, target := 5 }])] }

/-! ## Invariants of the exit and enter loops -/

/-- Result of the exit loop for common track `L`: the states kept (those outside the subtree
of `L`, in their order), and the exit calls (the states of the subtree, last to first). -/
def exitResult (M : Model) (L : TrackPtr) (cur : List StatePtr) :
    List StatePtr × List HookCall :=
  (cur.filter (fun s => !M.inSubtree L s),
    ((cur.filter (fun s => M.inSubtree L s)).reverse.map HookCall.exit))

/-- The state the enter loop activates for track `t`, and the path left: the head of the
explicit path if it belongs to `t`, else the default state of `t`. -/
def enterChoice (M : Model) (t : TrackPtr) (path : List StatePtr) :
    Option StatePtr × List StatePtr :=
  match path with
  | [] => (M.defaultState t, [])
  | h :: rest =>
    if M.stateTrack h = some t then (some h, rest) else (M.defaultState t, h :: rest)

/-- Track `u` holds one of the states of `E`. -/
def occupied (M : Model) (E : List StatePtr) (u : TrackPtr) : Prop :=
  ∃ s ∈ E, M.stateTrack s = some u

/-- Invariant of a descent from the tracks `Roots`: `E` are the states entered so far,
`stack` the tracks waiting. -/
structure Descent (M : Model) (Roots : List TrackPtr) (E : List StatePtr)
    (stack : List TrackPtr) : Prop where
  valid : ∀ s ∈ E, (M.stateTrack s).isSome = true
  nodupE : (E.map M.stateTrack).Nodup
  nodupS : stack.Nodup
  disjoint : ∀ s ∈ E, ∀ u ∈ stack, M.stateTrack s ≠ some u
  stack_origin : ∀ u ∈ stack, u < M.trackHeap.length ∧
    (u ∈ Roots ∨ ∃ p ∈ E, M.trackParent u = some p)
  entered_origin : ∀ s ∈ E, ∀ t, M.stateTrack s = some t →
    t ∈ Roots ∨ ∃ p ∈ E, M.trackParent t = some p ∧ E.indexOf p < E.indexOf s
  roots_covered : ∀ r ∈ Roots, r ∈ stack ∨ occupied M E r
  closed : ∀ p ∈ E, ∀ c ∈ M.childTracks p, c ∈ stack ∨ occupied M E c
  under_root : ∀ u, (u ∈ stack ∨ occupied M E u) →
    (∃ r ∈ Roots, r ∈ M.ancestors u) ∧ (∀ r ∈ Roots, u ∈ M.ancestors r → r = u)

/-- Two consecutive states of an explicit path: the second lies in a child track of the first. -/
def PathLink (M : Model) (a b : StatePtr) : Prop :=
  ∃ t, M.stateTrack b = some t ∧ M.trackParent t = some a

/-- Invariant of the enter loop about the explicit path `P`: `path` is what is left of it. -/
structure PathInv (M : Model) (P E : List StatePtr) (stack : List TrackPtr)
    (path : List StatePtr) : Prop where
  consumed : ∃ done, P = done ++ path ∧ ∀ x ∈ done, x ∈ E
  head : ∀ h ∈ path.head?, ∃ t ∈ stack, M.stateTrack h = some t
  chain : path.Chain' (PathLink M)
  choice : ∀ s ∈ E, s ∈ P ∨ ∃ t, M.stateTrack s = some t ∧ M.defaultState t = some s

/-- The states `Start` is to activate: the default state of a root track and, recursively,
the default state of a child track of such a state. -/
inductive DefaultActive (M : Model) : StatePtr → Prop where
  | root {t : TrackPtr} {d : StatePtr} :
      t ∈ M.m_rootTracks → M.defaultState t = some d → DefaultActive M d
  | child {p : StatePtr} {c : TrackPtr} {d : StatePtr} :
      DefaultActive M p → c ∈ M.childTracks p → M.defaultState c = some d → DefaultActive M d

/-- Every track reachable through default states has a default state. -/
def DefaultsReachable (M : Model) : Prop :=
  (∀ t ∈ M.m_rootTracks, (M.defaultState t).isSome = true) ∧
  ∀ p c, DefaultActive M p → c ∈ M.childTracks p → (M.defaultState c).isSome = true

/-- What is left of a configuration once the subtrees of the tracks `Roots` have been exited:
the states kept lie outside these subtrees, and the tracks left without a state are `Roots`. -/
structure Residual (M : Model) (Roots : List TrackPtr) (kept : List StatePtr) : Prop where
  valid : ∀ s ∈ kept, (M.stateTrack s).isSome = true
  nodup : (kept.map M.stateTrack).Nodup
  reach : ∀ u < M.trackHeap.length, Reachable M kept u ↔ (occupied M kept u ∨ u ∈ Roots)
  outside : ∀ s ∈ kept, ∀ t, M.stateTrack s = some t → ∀ r ∈ Roots, r ∉ M.ancestors t
  ordered : Ordered M kept

/-- The run-time states reached by `Start` followed by any sequence of `PostEvent`,
`DequeueEvents` (with any limit) and `Tick` calls that return. -/
inductive Reached (M : Model) : Runtime → Prop where
  | start {fuel : Nat} {σ0 σ : Runtime} : Start M fuel σ0 = Res.ok σ → Reached M σ
  | postEvent {fuel : Nat} {e : FName} {σ σ' : Runtime} :
      Reached M σ → PostEvent M fuel e σ = Res.ok σ' → Reached M σ'
  | dequeueEvents {fuel limit : Nat} {σ σ' : Runtime} :
      Reached M σ → DequeueEvents M fuel limit σ = Res.ok σ' → Reached M σ'
  | tick {fuel : Nat} {dt : Int} {σ σ' : Runtime} :
      Reached M σ → Tick M fuel dt σ = Res.ok σ' → Reached M σ'

/-- A machine with two root tracks, built with the model builder: `left` with default state
`a`, `right` with default state `b` and sibling `c`; event `cross` : a -> c. -/
def buildTwoRoots : Res Model := do
  let (M, left) ← AddRootTrack Model.empty "left"
  let (M, _) ← Track.AddDefaultState M left "a"
  let (M, right) ← AddRootTrack M "right"
  let (M, _) ← Track.AddDefaultState M right "b"
  let (M, _) ← Track.AddState M right "c"
  AddEventTransition M "cross" "a" "c"

/-- The arena that `buildTwoRoots` produces. Tracks: 0 `left`, 1 `right`.
States: 0 `a`, 1 `b`, 2 `c`. -/
def twoRoots : Model :=
  { trackHeap :=
      [{ m_name := "left", m_states := [("a", 0)], m_parent := none, m_defaultState := some 0 },
       { m_name := "right", m_states := [("b", 1), ("c", 2)], m_parent := none,
         m_defaultState := some 1 }]
    stateHeap :=
      [{ m_name := "a", m_tracks := [], m_parent := 0 },
       { m_name := "b", m_tracks := [], m_parent := 1 },
       { m_name := "c", m_tracks := [], m_parent := 1 }]
    m_rootTracks := [0, 1]
    m_tracks := [("left", 0), ("right", 1)]
    m_states := [("a", 0), ("b", 1), ("c", 2)]
    m_eventTransitions := [("cross", [{ name := "cross", source := 0, target := 2 }])] }

/-- Scenario B once started (fresh machine, immediate dequeuing): `[alive, healthy, grounded]`. -/
def scenarioB_started : Runtime :=
  { m_currentStates := [0, 3, 1], m_eventsQueue := [], m_ticking := false, m_started := true,
    bImmediatelyDequeueEvents := true,
    calls := [HookCall.enter 0, HookCall.enter 3, HookCall.enter 1], errorLogs := 0 }

/-- Scenario B after `jump` has been posted to the started machine:
`[alive, healthy, jumping]`. -/
def scenarioB_jumped : Runtime :=
  { m_currentStates := [0, 3, 2], m_eventsQueue := [], m_ticking := false, m_started := true,
    bImmediatelyDequeueEvents := true,
    calls := [HookCall.enter 0, HookCall.enter 3, HookCall.enter 1, HookCall.exit 1,
      HookCall.enter 2], errorLogs := 0 }

/-- The two-root machine once started (fresh machine, immediate dequeuing): `[b, a]`. -/
def twoRoots_started : Runtime :=
  { m_currentStates := [1, 0], m_eventsQueue := [], m_ticking := false, m_started := true,
    bImmediatelyDequeueEvents := true,
    calls := [HookCall.enter 1, HookCall.enter 0], errorLogs := 0 }

/-! ## Events processed in sequence -/

/-- Processing of a list of events one after the other, each against the run-time state left
by the one before. -/
def processEvents (M : Model) (fuel : Nat) : List FName → Runtime → Res Runtime
  | [], σ => .ok σ
  | evt :: rest, σ => do
    let σ' ← processEvent M fuel evt σ
    processEvents M fuel rest σ'

/-- The end of `DequeueEvents`: the `UE_LOG` error once `dequeuedEventsCount` has reached
`STATEMACHINE_DEQUEUEEVENTS_DEFAULTLIMIT`. -/
def logFeedbackLoop (dequeuedEventsCount : Nat) (σ : Runtime) : Runtime :=
  if dequeuedEventsCount ≥ STATEMACHINE_DEQUEUEEVENTS_DEFAULTLIMIT then
    { σ with errorLogs := σ.errorLogs + 1 }
  else σ

/-! ## Delegates that call back into the machine

The functions above take the delegates as inert. Here a bound delegate is the list of calls it
makes on the machine (`PostEvent`, `Stop`), and the engine is embedded again with the delegates
run where the source invokes them. A call made by a delegate is one more level of nesting;
`Reentry` is what the next level does, and `reentry` bounds the depth. -/

/-- A call a delegate makes on the machine. -/
inductive HookAction where
  | postEvent (e : FName)
  | stop
  deriving DecidableEq, Repr

/-- The calls made by the `Enter`, `Tick` and `Exit` delegates of each state, in order
(no call for an unbound delegate). -/
structure Hooks where
  Enter : StatePtr → List HookAction
  Tick : StatePtr → List HookAction
  Exit : StatePtr → List HookAction

/-- What `PostEvent` and `Stop` do when a delegate calls them. -/
structure Reentry where
  PostEvent : FName → Runtime → Res Runtime
  Stop : Runtime → Res Runtime

/-- Execution of a delegate: its calls, one after the other. -/
def runHook (re : Reentry) : List HookAction → Runtime → Res Runtime
  | [], σ => .ok σ
  | HookAction.postEvent e :: rest, σ => do
    let σ' ← re.PostEvent e σ
    runHook re rest σ'
  | HookAction.stop :: rest, σ => do
    let σ' ← re.Stop σ
    runHook re rest σ'

/-- The exit loop of `DequeueEvents` on the live array: `i + 1` indices are left to visit.
`m_currentStates[i]` and `RemoveAt(i)` are range-checked by `TArray`. -/
def exitLoopH (M : Model) (fuel : Nat) (H : Hooks) (re : Reentry)
    (commonTrack : Option TrackPtr) : Nat → Runtime → Res Runtime
  | 0, σ => .ok σ
  | i + 1, σ =>
    match σ.m_currentStates[i]? with
    | none => .fault .assertFailed
    | some s => do
      let b ← IsInTrack M fuel s commonTrack
      if b then do
        let σ1 ← runHook re (H.Exit s) { σ with calls := σ.calls ++ [HookCall.exit s] }
        if i < σ1.m_currentStates.length then
          exitLoopH M fuel H re commonTrack i
            { σ1 with m_currentStates := σ1.m_currentStates.eraseIdx i }
        else .fault .assertFailed
      else exitLoopH M fuel H re commonTrack i σ

/-- The `while (tracksToSet.Num() != 0)` loop of `DequeueEvents` on the live array. -/
def enterLoopH (M : Model) (H : Hooks) (re : Reentry) :
    Nat → List TrackPtr → List StatePtr → Runtime → Res Runtime
  | 0, _, _, _ => .fault .outOfFuel
  | fuel + 1, tracksToSet, path, σ =>
    match tracksToSet.getLast? with
    | none => .ok σ
    | some currentTrack => do
      let t ← M.track currentTrack
      let (currentState, path') ←
        (match path with
          | [] => Res.ok (t.m_defaultState, path)
          | p0 :: prest => do
            let ps ← M.state p0
            match tmapFind t.m_states ps.m_name with
            | some result => Res.ok (some result, prest)
            | none => Res.ok (t.m_defaultState, path))
      match currentState with
      | none => .fault .nullDeref
      | some cs => do
        let s ← M.state cs
        let σ1 ← runHook re (H.Enter cs) { σ with calls := σ.calls ++ [HookCall.enter cs] }
        enterLoopH M H re fuel (tracksToSet.dropLast ++ s.m_tracks.map Prod.snd) path'
          { σ1 with m_currentStates := σ1.m_currentStates ++ [cs] }

/-- Body of the `for (const EventTransition* transition : transitions)` loop, delegates run. -/
def fireTransitionH (M : Model) (fuel : Nat) (H : Hooks) (re : Reentry)
    (transition : EventTransition) (σ : Runtime) : Res Runtime :=
  if transition.source ∉ σ.m_currentStates then .ok σ
  else do
    let commonTrack ← _FindClosestCommonTrack M fuel transition.source transition.target
    let tgt ← M.state transition.target
    let path ← pathLoop M commonTrack fuel (some tgt.m_parent) [transition.target]
    let σ1 ← exitLoopH M fuel H re commonTrack σ.m_currentStates.length σ
    match commonTrack with
    | none => .fault .nullDeref
    | some ct => enterLoopH M H re fuel [ct] path σ1

/-- The `for` loop over the transitions of one event, delegates run. -/
def fireTransitionsH (M : Model) (fuel : Nat) (H : Hooks) (re : Reentry) :
    List EventTransition → Runtime → Res Runtime
  | [], σ => .ok σ
  | tr :: rest, σ => do
    let σ' ← fireTransitionH M fuel H re tr σ
    fireTransitionsH M fuel H re rest σ'

/-- One iteration of the `while` loop of `DequeueEvents`, delegates run. -/
def processEventH (M : Model) (fuel : Nat) (H : Hooks) (re : Reentry) (evt : FName)
    (σ : Runtime) : Res Runtime :=
  match tmapFind M.m_eventTransitions evt with
  | none => .fault .nullDeref
  | some transitions => fireTransitionsH M fuel H re transitions σ

/-- The `while` loop of `DequeueEvents`, delegates run: the queue is read again at every
iteration, so events posted by delegates are met. -/
def dequeueLoopH (M : Model) (fuel : Nat) (H : Hooks) (re : Reentry) :
    Nat → Nat → Runtime → Res (Nat × Runtime)
  | 0, dequeuedEventsCount, σ => .ok (dequeuedEventsCount, σ)
  | remaining + 1, dequeuedEventsCount, σ =>
    match σ.m_eventsQueue with
    | [] => .ok (dequeuedEventsCount, σ)
    | evt :: queue => do
      let σ' ← processEventH M fuel H re evt { σ with m_eventsQueue := queue }
      dequeueLoopH M fuel H re remaining (dequeuedEventsCount + 1) σ'

/-- The function `DequeueEvents`, delegates run. -/
def DequeueEventsH (M : Model) (fuel : Nat) (H : Hooks) (re : Reentry)
    (_dequeuedEventsLimit : Nat) (σ : Runtime) : Res Runtime := do
  let arg : Nat := _dequeuedEventsLimit % 2 ^ 16
  let limit : Nat :=
    if (arg : Int) = -1 then STATEMACHINE_DEQUEUEEVENTS_DEFAULTLIMIT else arg
  let (dequeuedEventsCount, σ') ← dequeueLoopH M fuel H re limit 0 σ
  if dequeuedEventsCount ≥ STATEMACHINE_DEQUEUEEVENTS_DEFAULTLIMIT then
    return { σ' with errorLogs := σ'.errorLogs + 1 }
  else
    return σ'

/-- The exit loop of `Stop` on the live array: `i + 1` indices are left to visit. -/
def stopLoopH (H : Hooks) (re : Reentry) : Nat → Runtime → Res Runtime
  | 0, σ => .ok σ
  | i + 1, σ =>
    match σ.m_currentStates[i]? with
    | none => .fault .assertFailed
    | some s => do
      let σ1 ← runHook re (H.Exit s) { σ with calls := σ.calls ++ [HookCall.exit s] }
      stopLoopH H re i σ1

/-- The function `Stop`, delegates run. -/
def StopH (H : Hooks) (re : Reentry) (σ : Runtime) : Res Runtime :=
  if ¬ σ.m_started then .fault .assertFailed
  else
    let σ1 : Runtime := { σ with m_started := false }
    if ¬ σ1.m_ticking then do
      let σ2 ← stopLoopH H re σ1.m_currentStates.length σ1
      return { σ2 with m_currentStates := [] }
    else .ok σ1

/-- The function `PostEvent`, delegates run. -/
def PostEventH (M : Model) (fuel : Nat) (H : Hooks) (re : Reentry) (_eventName : FName)
    (σ : Runtime) : Res Runtime :=
  if (tmapFind M.m_eventTransitions _eventName).isNone then .fault .assertFailed
  else
    let σ1 : Runtime := { σ with m_eventsQueue := σ.m_eventsQueue ++ [_eventName] }
    if σ1.bImmediatelyDequeueEvents && !σ1.m_ticking && σ1.m_started then
      DequeueEventsH M fuel H re defaultLimitArg σ1
    else .ok σ1

/-- The `for (State* state : m_currentStates)` loop of `Tick` on the live array: the bounds of
the range are taken when the loop starts (`n` states are left to visit, the next one at index
`i`), each element is read when it is reached, and the checked iterator of `TArray` fails if
the array has been resized. -/
def tickLoopH (H : Hooks) (re : Reentry) (_dt : Int) : Nat → Nat → Runtime → Res Runtime
  | 0, _, σ => .ok σ
  | n + 1, i, σ =>
    match σ.m_currentStates[i]? with
    | none => .fault .assertFailed
    | some s => do
      let σ1 ← runHook re (H.Tick s) { σ with calls := σ.calls ++ [HookCall.tick s _dt] }
      tickLoopH H re _dt n (i + 1) σ1

/-- The function `Tick`, delegates run. -/
def TickH (M : Model) (fuel : Nat) (H : Hooks) (re : Reentry) (_dt : Int) (σ : Runtime) :
    Res Runtime :=
  if ¬ σ.m_started then .fault .assertFailed
  else if σ.m_ticking then .fault .assertFailed
  else do
    let σ1 ← DequeueEventsH M fuel H re defaultLimitArg σ
    let σ2 ← tickLoopH H re _dt σ1.m_currentStates.length 0 { σ1 with m_ticking := true }
    let σ3 ← DequeueEventsH M fuel H re defaultLimitArg { σ2 with m_ticking := false }
    if ¬ σ3.m_started then StopH H re σ3 else return σ3

/-- What `PostEvent` and `Stop` do when called by a delegate, with at most `depth` levels of
nested calls below. -/
def reentry (M : Model) (fuel : Nat) (H : Hooks) : Nat → Reentry
  | 0 => { PostEvent := fun _ _ => .fault .outOfFuel, Stop := fun _ => .fault .outOfFuel }
  | depth + 1 =>
    { PostEvent := PostEventH M fuel H (reentry M fuel H depth)
      Stop := StopH H (reentry M fuel H depth) }

/-- Delegates that make no call. -/
def Hooks.inert : Hooks :=
  { Enter := fun _ => [], Tick := fun _ => [], Exit := fun _ => [] }

/-- Scenario B where the `Tick` delegate of `alive` calls `Stop`. -/
def hooksStopInTick : Hooks :=
  { Enter := fun _ => [], Tick := fun s => if s = 0 then [HookAction.stop] else [],
    Exit := fun _ => [] }

/-- Scenario B where the `Enter` delegate of `jumping` posts `die`. -/
def hooksPostInEnter : Hooks :=
  { Enter := fun s => if s = 2 then [HookAction.postEvent "die"] else [],
    Tick := fun _ => [], Exit := fun _ => [] }

/-! ## Persistence of the configuration -/

/-- Strings exchanged with the caller. `FName::ToString` and the constructor `FName(FString)`
are taken as the identity between `FName` and `FString`. -/
abbrev FString := String

/-- The `for (State* state : m_currentStates)` loop of `SerializeCurrentStates`:
`_outStates.Add(state->GetName().ToString())`. -/
def serializeLoop (M : Model) : List StatePtr → List FString → Res (List FString)
  | [], _outStates => .ok _outStates
  | state :: rest, _outStates => do
    let st ← M.state state
    serializeLoop M rest (_outStates ++ [st.m_name])

/-- Embedding of `UHierarchicalStateMachine::SerializeCurrentStates`. -/
def SerializeCurrentStates (M : Model) (σ : Runtime) (_outStates : List FString) :
    Res (List FString) :=
  if σ.m_ticking then .fault .assertFailed
  else serializeLoop M σ.m_currentStates _outStates

/-- The first loop of `DeserializeCurrentStates`: each name is looked up in `m_states` and the
state found is added to `states`; `none` is the `return` taken at the first unknown name. -/
def resolveLoop (M : Model) : List FString → List StatePtr → Option (List StatePtr)
  | [], states => some states
  | state :: rest, states =>
    match tmapFind M.m_states state with
    | none => none
    | some statePtr => resolveLoop M rest (states ++ [statePtr])

/-- The exit loop of `DeserializeCurrentStates`, `i + 1` indices left to visit, the delegates
only recorded. -/
def exitAllLoop : Nat → Runtime → Res Runtime
  | 0, σ => .ok σ
  | i + 1, σ =>
    match σ.m_currentStates[i]? with
    | none => .fault .assertFailed
    | some s => exitAllLoop i { σ with calls := σ.calls ++ [HookCall.exit s] }

/-- The last loop of `DeserializeCurrentStates`, the delegates only recorded. -/
def enterAllLoop : List StatePtr → Runtime → Runtime
  | [], σ => σ
  | state :: rest, σ => enterAllLoop rest { σ with calls := σ.calls ++ [HookCall.enter state] }

/-- Embedding of `UHierarchicalStateMachine::DeserializeCurrentStates`, the delegates not
calling back into the machine. The `UE_LOG` error of the unknown name is counted in
`errorLogs`. -/
def DeserializeCurrentStates (M : Model) (_states : List FString) (σ : Runtime) :
    Res Runtime :=
  if σ.m_ticking then .fault .assertFailed
  else
    match resolveLoop M _states [] with
    | none => .ok { σ with errorLogs := σ.errorLogs + 1 }
    | some states => do
      let σ1 ← exitAllLoop σ.m_currentStates.length σ
      let σ2 : Runtime := { σ1 with m_currentStates := states }
      return enterAllLoop σ2.m_currentStates σ2

/-- The last loop of `DeserializeCurrentStates` on the live array, delegates run: the bounds
of the range are taken when the loop starts (`n` states left to visit, the next at index
`i`). -/
def enterAllLoopH (H : Hooks) (re : Reentry) : Nat → Nat → Runtime → Res Runtime
  | 0, _, σ => .ok σ
  | n + 1, i, σ =>
    match σ.m_currentStates[i]? with
    | none => .fault .assertFailed
    | some s => do
      let σ1 ← runHook re (H.Enter s) { σ with calls := σ.calls ++ [HookCall.enter s] }
      enterAllLoopH H re n (i + 1) σ1

/-- The function `DeserializeCurrentStates`, delegates run. Its exit loop is the loop of
`Stop`. -/
def DeserializeCurrentStatesH (M : Model) (H : Hooks) (re : Reentry) (_states : List FString)
    (σ : Runtime) : Res Runtime :=
  if σ.m_ticking then .fault .assertFailed
  else
    match resolveLoop M _states [] with
    | none => .ok { σ with errorLogs := σ.errorLogs + 1 }
    | some states => do
      let σ1 ← stopLoopH H re σ.m_currentStates.length σ
      let σ2 : Runtime := { σ1 with m_currentStates := states }
      enterAllLoopH H re σ2.m_currentStates.length 0 σ2

/-- Every state of the arena is found under its name in the machine-wide map `m_states`, as
`Track::AddState` registers it. -/
def Model.StatesRegistered (M : Model) : Prop :=
  ∀ s < M.stateHeap.length, ∀ st ∈ M.stateHeap[s]?, tmapFind M.m_states st.m_name = some s

instance (M : Model) : Decidable M.StatesRegistered := by
  unfold Model.StatesRegistered; infer_instance

/-! ## Further machines -/

/-- Scenario B with one more event, `rise` : grounded -> alive, whose target is the parent
state of the track of its source. -/
def scenarioB_rise : Model :=
  { scenarioB with
    m_eventTransitions := scenarioB.m_eventTransitions ++
      [("rise", [{ name := "rise", source := 1, target := 0 }])] }

/-- Scenario B with one more event, `hit`, registering grounded -> jumping, then
healthy -> hurt. -/
def scenarioB_hit : Model :=
  { scenarioB with
    m_eventTransitions := scenarioB.m_eventTransitions ++
      [("hit", [{ name := "hit", source := 1, target := 2 },
                { name := "hit", source := 3, target := 4 }])] }

/-- Scenario B with the event `hit` registering healthy -> hurt, then grounded -> jumping. -/
def scenarioB_hit_swapped : Model :=
  { scenarioB with
    m_eventTransitions := scenarioB.m_eventTransitions ++
      [("hit", [{ name := "hit", source := 3, target := 4 },
                { name := "hit", source := 1, target := 2 }])] }

/-! ## The sibling implementations `UStateMachineComponent` and `HSM`

Both classes have the `Track` / `State` layout of `UHierarchicalStateMachine`, and their
`State::IsInTrack`, path walk, exit loop and enter loop are the same statements: the
embedding reuses `IsInTrack`, `pathLoop`, `exitLoop` and `enterLoop`. In `HSM` the delegates
are called `Begin` / `Update` / `End`; they are recorded as `enter` / `tick` / `exit`. -/

set_option linter.dupNamespace false

/-- Embedding of `UStateMachineComponent::_FindClosestCommonTrack`: `ATracks` starts empty and is
filled by the walk up from `_stateA` (`ATracksLoop`); the walk up from `_stateB` (`BTracksLoop`)
follows, its step `currentTrack->m_parent->m_parent` without null test; `return nullptr` ends
the function. Both states belong to this machine, so the `m_stateMachine` test never returns. -/
def UStateMachineComponent._FindClosestCommonTrack (M : Model) (fuel : Nat)
    (_stateA _stateB : StatePtr) : Res (Option TrackPtr) := do
  let a ← M.state _stateA
  let b ← M.state _stateB
  if a.m_parent = b.m_parent then
    return some a.m_parent
  else
    let ATracks ← ATracksLoop M fuel (some a.m_parent) []
    BTracksLoop M ATracks fuel (some b.m_parent)

/-- Body of the `for (const EventTransition* transition : transitions)` loop of
`UStateMachineComponent::DequeueEvents`: the transition is skipped when its source is not
active or its target is active. -/
def UStateMachineComponent.fireTransition (M : Model) (fuel : Nat) (transition : EventTransition)
    (σ : Runtime) : Res Runtime :=
  if transition.source ∉ σ.m_currentStates ∨ transition.target ∈ σ.m_currentStates then .ok σ
  else do
    let commonTrack ←
      UStateMachineComponent._FindClosestCommonTrack M fuel transition.source transition.target
    let tgt ← M.state transition.target
    let path ← pathLoop M commonTrack fuel (some tgt.m_parent) [transition.target]
    let (kept, exits) ← exitLoop M fuel commonTrack σ.m_currentStates
    match commonTrack with
    | none => .fault .nullDeref
    | some ct => do
      let (cur, calls) ← enterLoop M fuel [ct] path kept (σ.calls ++ exits)
      return { σ with m_currentStates := cur, calls := calls }

/-- The `for` loop over the transitions of one event in `UStateMachineComponent::DequeueEvents`. -/
def UStateMachineComponent.fireTransitions (M : Model) (fuel : Nat) :
    List EventTransition → Runtime → Res Runtime
  | [], σ => .ok σ
  | tr :: rest, σ => do
    let σ' ← UStateMachineComponent.fireTransition M fuel tr σ
    UStateMachineComponent.fireTransitions M fuel rest σ'

/-- The transitions of the event popped by `UStateMachineComponent::DequeueEvents` are looked
up with `*m_eventTransitions.Find(evt)` and processed. -/
def UStateMachineComponent.processEvent (M : Model) (fuel : Nat) (evt : FName) (σ : Runtime) :
    Res Runtime :=
  match tmapFind M.m_eventTransitions evt with
  | none => .fault .nullDeref
  | some transitions => UStateMachineComponent.fireTransitions M fuel transitions σ

/-- The `while` loop of `UStateMachineComponent::DequeueEvents`, by recursion on the number of
iterations the limit still allows; `m_eventsQueue.Pop()` removes the last element of the queue. -/
def UStateMachineComponent.dequeueLoop (M : Model) (fuel : Nat) :
    Nat → Nat → Runtime → Res (Nat × Runtime)
  | 0, dequeuedEventsCount, σ => .ok (dequeuedEventsCount, σ)
  | remaining + 1, dequeuedEventsCount, σ =>
    match σ.m_eventsQueue.getLast? with
    | none => .ok (dequeuedEventsCount, σ)
    | some evt => do
      let σ' ← UStateMachineComponent.processEvent M fuel evt
        { σ with m_eventsQueue := σ.m_eventsQueue.dropLast }
      UStateMachineComponent.dequeueLoop M fuel remaining (dequeuedEventsCount + 1) σ'

/-- Embedding of `UStateMachineComponent::DequeueEvents(uint16 _dequeuedEventsLimit)`. -/
def UStateMachineComponent.DequeueEvents (M : Model) (fuel : Nat) (_dequeuedEventsLimit : Nat)
    (σ : Runtime) : Res Runtime := do
  let arg : Nat := _dequeuedEventsLimit % 2 ^ 16
  let limit : Nat :=
    if (arg : Int) = -1 then STATEMACHINE_DEQUEUEEVENTS_DEFAULTLIMIT else arg
  let (dequeuedEventsCount, σ') ← UStateMachineComponent.dequeueLoop M fuel limit 0 σ
  if dequeuedEventsCount ≥ STATEMACHINE_DEQUEUEEVENTS_DEFAULTLIMIT then
    return { σ' with errorLogs := σ'.errorLogs + 1 }
  else
    return σ'

/-- Embedding of `HSM::FindClosestCommonTrack`: the two walks of
`UStateMachineComponent::_FindClosestCommonTrack`, then `checkNoEntry()` where the second walk
leaves its loop with a null `currentTrack`. -/
def HSM.FindClosestCommonTrack (M : Model) (fuel : Nat) (_stateA _stateB : StatePtr) :
    Res (Option TrackPtr) := do
  let a ← M.state _stateA
  let b ← M.state _stateB
  if a.m_parent = b.m_parent then
    return some a.m_parent
  else
    let ATracks ← ATracksLoop M fuel (some a.m_parent) []
    let found ← BTracksLoop M ATracks fuel (some b.m_parent)
    match found with
    | some t => return some t
    | none => .fault .assertFailed

/-- Body of the `for (const EventTransition* transition : transitions)` loop of
`HSM::UnqueueEvents`: the transition is skipped when its source is not active or its target is
active. -/
def HSM.fireTransition (M : Model) (fuel : Nat) (transition : EventTransition) (σ : Runtime) :
    Res Runtime :=
  if transition.source ∉ σ.m_currentStates ∨ transition.target ∈ σ.m_currentStates then .ok σ
  else do
    let commonTrack ← HSM.FindClosestCommonTrack M fuel transition.source transition.target
    let tgt ← M.state transition.target
    let path ← pathLoop M commonTrack fuel (some tgt.m_parent) [transition.target]
    let (kept, exits) ← exitLoop M fuel commonTrack σ.m_currentStates
    match commonTrack with
    | none => .fault .nullDeref
    | some ct => do
      let (cur, calls) ← enterLoop M fuel [ct] path kept (σ.calls ++ exits)
      return { σ with m_currentStates := cur, calls := calls }

/-- The `for` loop over the transitions of one event in `HSM::UnqueueEvents`. -/
def HSM.fireTransitions (M : Model) (fuel : Nat) : List EventTransition → Runtime → Res Runtime
  | [], σ => .ok σ
  | tr :: rest, σ => do
    let σ' ← HSM.fireTransition M fuel tr σ
    HSM.fireTransitions M fuel rest σ'

/-- The transitions of the event popped by `HSM::UnqueueEvents`, looked up with
`*m_eventTransitions.Find(evt)`, are processed. -/
def HSM.processEvent (M : Model) (fuel : Nat) (evt : FName) (σ : Runtime) : Res Runtime :=
  match tmapFind M.m_eventTransitions evt with
  | none => .fault .nullDeref
  | some transitions => HSM.fireTransitions M fuel transitions σ

/-- Embedding of `HSM::UnqueueEvents`: `while (m_eventsQueue.Num() != 0)`, with
`m_eventsQueue.Pop()` removing the last element of the queue. The first argument bounds the
number of iterations. -/
def HSM.UnqueueEvents (M : Model) (fuel : Nat) : Nat → Runtime → Res Runtime
  | 0, _ => .fault .outOfFuel
  | n + 1, σ =>
    match σ.m_eventsQueue.getLast? with
    | none => .ok σ
    | some evt => do
      let σ' ← HSM.processEvent M fuel evt { σ with m_eventsQueue := σ.m_eventsQueue.dropLast }
      HSM.UnqueueEvents M fuel n σ'

/-! ## The builder of `HSM` -/

/-- Embedding of the constructor `HSM::HSM()` : the member `m_root("root", nullptr, this)` is the
only track without parent; it is not registered in `m_tracks`. `m_rootTracks` stands for the
member itself. -/
def HSM.HSM : Model :=
  { trackHeap := [{ m_name := "root", m_states := [], m_parent := none, m_defaultState := none }]
    stateHeap := []
    m_rootTracks := [0]
    m_tracks := []
    m_states := []
    m_eventTransitions := [] }

/-- Embedding of `HSM::GetRootTrack` : `&m_root`. -/
def HSM.GetRootTrack : TrackPtr := 0

/-- Embedding of `HSM::Track::AddState`. -/
def HSM.Track.AddState (M : Model) (self : TrackPtr) (_name : FName) : Res (Model × StatePtr) := do
  let t ← M.track self
  if (tmapFind M.m_states _name).isSome then .fault .assertFailed
  else
    let state : StatePtr := M.stateHeap.length
    .ok ({ M with
      stateHeap := M.stateHeap ++ [{ m_name := _name, m_tracks := [], m_parent := self }]
      trackHeap := M.trackHeap.set self { t with m_states := tmapAdd t.m_states _name state }
      m_states := tmapAdd M.m_states _name state }, state)

/-- Embedding of `HSM::Track::AddDefaultState` : `check(m_defaultState == nullptr)`, then
`AddState` and the assignment of `m_defaultState`. -/
def HSM.Track.AddDefaultState (M : Model) (self : TrackPtr) (_name : FName) :
    Res (Model × StatePtr) := do
  let t0 ← M.track self
  if t0.m_defaultState.isSome then .fault .assertFailed
  else
    let (M1, state) ← HSM.Track.AddState M self _name
    let t ← M1.track self
    .ok ({ M1 with trackHeap := M1.trackHeap.set self { t with m_defaultState := some state } },
      state)

/-- Embedding of `HSM::State::AddTrack`. -/
def HSM.State.AddTrack (M : Model) (self : StatePtr) (_name : FName) : Res (Model × TrackPtr) := do
  let s ← M.state self
  if (tmapFind M.m_tracks _name).isSome then .fault .assertFailed
  else
    let track : TrackPtr := M.trackHeap.length
    .ok ({ M with
      trackHeap := M.trackHeap ++
        [{ m_name := _name, m_states := [], m_parent := some self, m_defaultState := none }]
      stateHeap := M.stateHeap.set self { s with m_tracks := tmapAdd s.m_tracks _name track }
      m_tracks := tmapAdd M.m_tracks _name track }, track)

/-- Embedding of `HSM::AddEventTransition(source, target, event)` : `*m_states.Find(name)`
dereferences the result of `Find`; `FindOrAdd(_eventName).Add(eventTransition)`. The `name`
field of the transition, absent from `HSM::EventTransition`, records the event. -/
def HSM.AddEventTransition (M : Model) (_sourceStateName _targetStateName _eventName : FName) :
    Res Model :=
  match tmapFind M.m_states _sourceStateName, tmapFind M.m_states _targetStateName with
  | some sourceState, some targetState =>
    let eventTransition : EventTransition :=
      { name := _eventName, source := sourceState, target := targetState }
    .ok { M with
      m_eventTransitions := tmapAdd M.m_eventTransitions _eventName
        ((tmapFind M.m_eventTransitions _eventName).getD [] ++ [eventTransition]) }
  | _, _ => .fault .nullDeref

/-- The machines that the builder of `HSM` can produce: the constructed machine, and any
machine obtained by a call of `Track::AddState`, `Track::AddDefaultState`, `State::AddTrack` or
`AddEventTransition` that returns. -/
inductive HSM.Built : Model → Prop where
  | init : HSM.Built HSM.HSM
  | addState {M M' : Model} {self : TrackPtr} {name : FName} {state : StatePtr} :
      HSM.Built M → HSM.Track.AddState M self name = Res.ok (M', state) → HSM.Built M'
  | addDefaultState {M M' : Model} {self : TrackPtr} {name : FName} {state : StatePtr} :
      HSM.Built M → HSM.Track.AddDefaultState M self name = Res.ok (M', state) → HSM.Built M'
  | addTrack {M M' : Model} {self : StatePtr} {name : FName} {track : TrackPtr} :
      HSM.Built M → HSM.State.AddTrack M self name = Res.ok (M', track) → HSM.Built M'
  | addEventTransition {M M' : Model} {src tgt ev : FName} :
      HSM.Built M → HSM.AddEventTransition M src tgt ev = Res.ok M' → HSM.Built M'

/-- The example of `HSM.h` built with the builder of `HSM` : under the root track, default
`alive` and `dead`; `alive` owns `motion` (default `grounded`, `jumping`) and `health`
(default `healthy`, `hurt`). -/
def HSM.buildExample : Res Model := do
  let (M, alive) ← HSM.Track.AddDefaultState HSM.HSM HSM.GetRootTrack "alive"
  let (M, motion) ← HSM.State.AddTrack M alive "motion"
  let (M, _) ← HSM.Track.AddDefaultState M motion "grounded"
  let (M, _) ← HSM.Track.AddState M motion "jumping"
  let (M, health) ← HSM.State.AddTrack M alive "health"
  let (M, _) ← HSM.Track.AddDefaultState M health "healthy"
  let (M, _) ← HSM.Track.AddState M health "hurt"
  let (M, _) ← HSM.Track.AddState M HSM.GetRootTrack "dead"
  HSM.AddEventTransition M "alive" "dead" "die"

/-- The arena that `HSM.buildExample` produces. Tracks: 0 `root`, 1 `motion`, 2 `health`.
States: 0 `alive`, 1 `grounded`, 2 `jumping`, 3 `healthy`, 4 `hurt`, 5 `dead`. -/
def HSM.exampleMachine : Model :=
  { trackHeap :=
      [{ m_name := "root", m_states := [("alive", 0), ("dead", 5)], m_parent := none,
         m_defaultState := some 0 },
       { m_name := "motion", m_states := [("grounded", 1), ("jumping", 2)], m_parent := some 0,
         m_defaultState := some 1 },
       { m_name := "health", m_states := [("healthy", 3), ("hurt", 4)], m_parent := some 0,
         m_defaultState := some 3 }]
    stateHeap :=
      [{ m_name := "alive", m_tracks := [("motion", 1), ("health", 2)], m_parent := 0 },
       { m_name := "grounded", m_tracks := [], m_parent := 1 },
       { m_name := "jumping", m_tracks := [], m_parent := 1 },
       { m_name := "healthy", m_tracks := [], m_parent := 2 },
       { m_name := "hurt", m_tracks := [], m_parent := 2 },
       { m_name := "dead", m_tracks := [], m_parent := 0 }]
    m_rootTracks := [0]
    m_tracks := [("motion", 1), ("health", 2)]
    m_states := [("alive", 0), ("grounded", 1), ("jumping", 2), ("healthy", 3), ("hurt", 4),
      ("dead", 5)]
    m_eventTransitions := [("die", [{ name := "die", source := 0, target := 5 }])] }

/-! ## Registration invariants of the builders -/

/-- Every entry of the machine-wide map `m_states` points into the arena of states. -/
def Model.StatesListed (M : Model) : Prop :=
  ∀ e ∈ M.m_states, e.2 < M.stateHeap.length

instance (M : Model) : Decidable M.StatesListed := by
  unfold Model.StatesListed; infer_instance

/-- Every child track of a state is registered under its name in the machine-wide map
`m_tracks`, as `State::AddTrack` registers it. -/
def Model.TracksRegistered (M : Model) : Prop :=
  ∀ s < M.stateHeap.length, ∀ st ∈ M.stateHeap[s]?, ∀ e ∈ st.m_tracks,
    (tmapFind M.m_tracks e.1).isSome = true

instance (M : Model) : Decidable M.TracksRegistered := by
  unfold Model.TracksRegistered; infer_instance

/-- What the builder operations maintain: the shape `Model.WF` and the registration of states
and tracks in the machine-wide maps. -/
structure Model.BuilderInv (M : Model) : Prop where
  wf : M.WF
  states_registered : M.StatesRegistered
  states_listed : M.StatesListed
  tracks_registered : M.TracksRegistered

instance (M : Model) : Decidable M.BuilderInv :=
  decidable_of_iff (M.WF ∧ M.StatesRegistered ∧ M.StatesListed ∧ M.TracksRegistered)
    ⟨fun ⟨h1, h2, h3, h4⟩ => ⟨h1, h2, h3, h4⟩, fun h => ⟨h.1, h.2, h.3, h.4⟩⟩

/-- The machines that the builder of `UHierarchicalStateMachine` can produce: the machine on
which nothing has been built, and any machine obtained by a call of `AddRootTrack`,
`Track::AddState`, `Track::AddDefaultState` (either overload), `State::AddTrack` or
`AddEventTransition` that returns. -/
inductive Constructed : Model → Prop where
  | empty : Constructed Model.empty
  | addRootTrack {M M' : Model} {name : FName} {track : TrackPtr} :
      Constructed M → AddRootTrack M name = Res.ok (M', track) → Constructed M'
  | addState {M M' : Model} {self : TrackPtr} {name : FName} {state : StatePtr} :
      Constructed M → Track.AddState M self name = Res.ok (M', state) → Constructed M'
  | addDefaultState {M M' : Model} {self : TrackPtr} {name : FName} {state : StatePtr} :
      Constructed M → Track.AddDefaultState M self name = Res.ok (M', state) → Constructed M'
  | addDefaultStateWithDelegates {M M' : Model} {self : TrackPtr} {name : FName}
      {state : StatePtr} :
      Constructed M → Track.AddDefaultStateWithDelegates M self name = Res.ok (M', state) →
      Constructed M'
  | addTrack {M M' : Model} {self : StatePtr} {name : FName} {track : TrackPtr} :
      Constructed M → State.AddTrack M self name = Res.ok (M', track) → Constructed M'
  | addEventTransition {M M' : Model} {ev src tgt : FName} :
      Constructed M → AddEventTransition M ev src tgt = Res.ok M' → Constructed M'

/-- Number of tracks in the subtree of track `L` : the tracks whose ancestor-track chain
holds `L`. -/
def Model.subtreeSize (M : Model) (L : TrackPtr) : Nat :=
  ((List.range M.trackHeap.length).filter (fun t => decide (L ∈ M.ancestors t))).length

/-- Depth of a track: the length of its ancestor-track chain. -/
def Model.depth (M : Model) (t : TrackPtr) : Nat :=
  (M.ancestors t).length

/-! ## Three sibling states -/

/-- A root track `main` with default state `A` and states `B`, `C`; the event `go` registers
`A -> B`, then `B -> C`. -/
def buildSiblings : Res Model := do
  let (M, main) ← AddRootTrack Model.empty "main"
  let (M, _) ← Track.AddDefaultState M main "A"
  let (M, _) ← Track.AddState M main "B"
  let (M, _) ← Track.AddState M main "C"
  let M ← AddEventTransition M "go" "A" "B"
  AddEventTransition M "go" "B" "C"

/-- The same machine with the event `go` registering `B -> C`, then `A -> B`. -/
def buildSiblingsSwapped : Res Model := do
  let (M, main) ← AddRootTrack Model.empty "main"
  let (M, _) ← Track.AddDefaultState M main "A"
  let (M, _) ← Track.AddState M main "B"
  let (M, _) ← Track.AddState M main "C"
  let M ← AddEventTransition M "go" "B" "C"
  AddEventTransition M "go" "A" "B"

/-- The arena that `buildSiblings` produces. Track 0 `main`; states 0 `A`, 1 `B`, 2 `C`. -/
def siblings : Model :=
  { trackHeap :=
      [{ m_name := "main", m_states := [("A", 0), ("B", 1), ("C", 2)], m_parent := none,
         m_defaultState := some 0 }]
    stateHeap :=
      [{ m_name := "A", m_tracks := [], m_parent := 0 },
       { m_name := "B", m_tracks := [], m_parent := 0 },
       { m_name := "C", m_tracks := [], m_parent := 0 }]
    m_rootTracks := [0]
    m_tracks := [("main", 0)]
    m_states := [("A", 0), ("B", 1), ("C", 2)]
    m_eventTransitions :=
      [("go", [{ name := "go", source := 0, target := 1 },
               { name := "go", source := 1, target := 2 }])] }

/-- The arena that `buildSiblingsSwapped` produces. -/
def siblingsSwapped : Model :=
  { siblings with
    m_eventTransitions :=
      [("go", [{ name := "go", source := 1, target := 2 },
               { name := "go", source := 0, target := 1 }])] }

/-- The configuration of `siblings` after `Start` : `A` is active. -/
def siblings_started : Runtime :=
  { m_currentStates := [0], m_eventsQueue := [], m_ticking := false, m_started := true,
    bImmediatelyDequeueEvents := true, calls := [HookCall.enter 0], errorLogs := 0 }

/-! ## Machines for the defects of the transition loop -/

/-- Scenario B with one more event, `up`, registering grounded -> alive, then
healthy -> hurt. The target of the first transition is the parent state of `motion`, the
track of its source. -/
def scenarioB_up : Model :=
  { scenarioB with
    m_eventTransitions := scenarioB.m_eventTransitions ++
      [("up", [{ name := "up", source := 1, target := 0 },
               { name := "up", source := 3, target := 4 }])] }

/-- Scenario B with the event `up` registering healthy -> hurt, then grounded -> alive. -/
def scenarioB_up_swapped : Model :=
  { scenarioB with
    m_eventTransitions := scenarioB.m_eventTransitions ++
      [("up", [{ name := "up", source := 3, target := 4 },
               { name := "up", source := 1, target := 0 }])] }

/-- Scenario B with one more event, `wound` : healthy -> hurt. -/
def scenarioB_wound : Model :=
  { scenarioB with
    m_eventTransitions := scenarioB.m_eventTransitions ++
      [("wound", [{ name := "wound", source := 3, target := 4 }])] }

/-- Scenario B where the `Exit` delegate of `grounded` posts `wound`. -/
def hooksPostInExit : Hooks :=
  { Enter := fun _ => [], Tick := fun _ => [],
    Exit := fun s => if s = 1 then [HookAction.postEvent "wound"] else [] }

/-! ## Results and heap access -/

@[simp] theorem Res.ok_bind {α β : Type} (a : α) (f : α → Res β) : (Res.ok a >>= f) = f a := rfl

@[simp] theorem Res.fault_bind {α β : Type} (e : Fault) (f : α → Res β) :
    (Res.fault e >>= f) = Res.fault e := rfl

@[simp] theorem Res.pure_eq {α : Type} (a : α) : (pure a : Res α) = Res.ok a := rfl

theorem Res.bind_eq_ok {α β : Type} {r : Res α} {f : α → Res β} {b : β} :
    (r >>= f) = Res.ok b ↔ ∃ a, r = Res.ok a ∧ f a = Res.ok b := by
  cases r with
  | ok a => simp
  | fault e => simp

theorem track_eq_ok {M : Model} {t : Nat} {tk : Track} :
    M.track t = Res.ok tk ↔ M.trackHeap[t]? = some tk := by
  unfold Model.track
  cases h : M.trackHeap[t]? <;> simp

theorem state_eq_ok {M : Model} {s : Nat} {st : State} :
    M.state s = Res.ok st ↔ M.stateHeap[s]? = some st := by
  unfold Model.state
  cases h : M.stateHeap[s]? <;> simp

theorem track_of_lt {M : Model} {t : Nat} (h : t < M.trackHeap.length) :
    ∃ tk, M.trackHeap[t]? = some tk ∧ M.track t = Res.ok tk :=
  ⟨M.trackHeap[t], List.getElem?_eq_getElem h, track_eq_ok.2 (List.getElem?_eq_getElem h)⟩

theorem state_of_lt {M : Model} {s : Nat} (h : s < M.stateHeap.length) :
    ∃ st, M.stateHeap[s]? = some st ∧ M.state s = Res.ok st :=
  ⟨M.stateHeap[s], List.getElem?_eq_getElem h, state_eq_ok.2 (List.getElem?_eq_getElem h)⟩

theorem lt_of_getElem?_eq_some {α : Type} {l : List α} {i : Nat} {a : α} (h : l[i]? = some a) :
    i < l.length := by
  obtain ⟨h', _⟩ := List.getElem?_eq_some.1 h
  exact h'

theorem stateTrack_eq_some {M : Model} {s : Nat} {t : Nat} :
    M.stateTrack s = some t ↔ ∃ st, M.stateHeap[s]? = some st ∧ st.m_parent = t := by
  unfold Model.stateTrack
  cases h : M.stateHeap[s]? <;> simp

theorem trackParent_eq_some {M : Model} {t : Nat} {p : Nat} :
    M.trackParent t = some p ↔ ∃ tk, M.trackHeap[t]? = some tk ∧ tk.m_parent = some p := by
  unfold Model.trackParent
  cases h : M.trackHeap[t]? <;> simp

theorem defaultState_eq_some {M : Model} {t : Nat} {d : Nat} :
    M.defaultState t = some d ↔ ∃ tk, M.trackHeap[t]? = some tk ∧ tk.m_defaultState = some d := by
  unfold Model.defaultState
  cases h : M.trackHeap[t]? <;> simp

theorem isRoot_iff {M : Model} {t : Nat} :
    M.isRoot t = true ↔ ∃ tk, M.trackHeap[t]? = some tk ∧ tk.m_parent = none := by
  unfold Model.isRoot
  cases h : M.trackHeap[t]? <;> simp

theorem trackParent_none_of_isRoot {M : Model} {t : Nat} (h : M.isRoot t = true) :
    M.trackParent t = none := by
  obtain ⟨tk, h1, h2⟩ := isRoot_iff.1 h
  simp [Model.trackParent, h1, h2]

theorem isRoot_of_trackParent_none {M : Model} {t : Nat} (ht : t < M.trackHeap.length)
    (h : M.trackParent t = none) : M.isRoot t = true := by
  obtain ⟨tk, h1, _⟩ := track_of_lt ht
  simp [Model.trackParent, h1] at h
  exact isRoot_iff.2 ⟨tk, h1, h⟩

theorem mem_childTracks {M : Model} {s : Nat} {c : Nat} :
    c ∈ M.childTracks s ↔ ∃ st, M.stateHeap[s]? = some st ∧ c ∈ st.m_tracks.map Prod.snd := by
  unfold Model.childTracks
  cases h : M.stateHeap[s]? <;> simp

theorem tmapFind_mem {α : Type} {m : List (FName × α)} {k : FName} {v : α}
    (h : tmapFind m k = some v) : (k, v) ∈ m := by
  induction m with
  | nil => simp [tmapFind] at h
  | cons e rest ih =>
    obtain ⟨k', v'⟩ := e
    unfold tmapFind at h
    by_cases hk : k' = k
    · simp [hk] at h
      simp [hk, h]
    · simp [hk] at h
      exact List.mem_cons_of_mem _ (ih h)

theorem tmapFind_isSome_of_mem {α : Type} {m : List (FName × α)} {k : FName} {v : α}
    (h : (k, v) ∈ m) : ∃ v', tmapFind m k = some v' := by
  induction m with
  | nil => simp at h
  | cons e rest ih =>
    obtain ⟨k', v'⟩ := e
    unfold tmapFind
    by_cases hk : k' = k
    · exact ⟨v', by simp [hk]⟩
    · simp only [hk, if_false]
      apply ih
      rcases List.mem_cons.1 h with h' | h'
      · exact absurd (congrArg Prod.fst h').symm hk
      · exact h'

/-! ## Consequences of the shape of a model -/

theorem Model.WF.stateTrack_lt {M : Model} (wf : M.WF) {s : Nat} {t : Nat}
    (h : M.stateTrack s = some t) : s < M.stateHeap.length ∧ t < M.trackHeap.length := by
  obtain ⟨st, h1, h2⟩ := stateTrack_eq_some.1 h
  have hs := lt_of_getElem?_eq_some h1
  obtain ⟨tk, h3, _⟩ := wf.state_in_track s hs st h1
  subst h2
  exact ⟨hs, lt_of_getElem?_eq_some h3⟩

theorem Model.WF.trackParent_lt {M : Model} (wf : M.WF) {t : Nat} {p : Nat}
    (h : M.trackParent t = some p) :
    t < M.trackHeap.length ∧ t ∈ M.childTracks p ∧ ∃ v : Nat, M.stateTrack p = some v ∧ v < t := by
  obtain ⟨tk, h1, h2⟩ := trackParent_eq_some.1 h
  have ht := lt_of_getElem?_eq_some h1
  obtain ⟨st, h3, h4, h5⟩ := wf.track_parent t ht tk h1 p h2
  refine ⟨ht, mem_childTracks.2 ⟨st, h3, ?_⟩, st.m_parent, stateTrack_eq_some.2 ⟨st, h3, rfl⟩, h5⟩
  exact List.mem_map.2 ⟨_, h4, rfl⟩

theorem Model.WF.up_lt {M : Model} (wf : M.WF) {t v : Nat} {p : Nat}
    (h : M.trackParent t = some p) (hv : M.stateTrack p = some v) : v < t := by
  obtain ⟨_, _, v', h1, h2⟩ := wf.trackParent_lt h
  rw [hv] at h1
  cases h1
  exact h2

theorem Model.WF.childTracks_parent {M : Model} (wf : M.WF) {s : Nat} {c : Nat}
    (h : c ∈ M.childTracks s) : M.trackParent c = some s ∧ c < M.trackHeap.length := by
  obtain ⟨st, h1, h2⟩ := mem_childTracks.1 h
  obtain ⟨e, he, rfl⟩ := List.mem_map.1 h2
  obtain ⟨tk, h3, h4, _⟩ := wf.state_tracks s (lt_of_getElem?_eq_some h1) st h1 e he
  exact ⟨trackParent_eq_some.2 ⟨tk, h3, h4⟩, lt_of_getElem?_eq_some h3⟩

theorem Model.WF.childTracks_nodup {M : Model} (wf : M.WF) (s : Nat) :
    (M.childTracks s).Nodup := by
  unfold Model.childTracks
  cases h : M.stateHeap[s]? with
  | none => simp
  | some st => exact wf.state_tracks_nodup s (lt_of_getElem?_eq_some h) st h

theorem Model.WF.defaultState_track {M : Model} (wf : M.WF) {t : Nat} {d : Nat}
    (h : M.defaultState t = some d) : M.stateTrack d = some t := by
  obtain ⟨tk, h1, h2⟩ := defaultState_eq_some.1 h
  obtain ⟨st, h3, h4⟩ := wf.default_state t (lt_of_getElem?_eq_some h1) tk h1 d h2
  exact stateTrack_eq_some.2 ⟨st, h3, h4⟩

/-- Looking a state up by name in a track finds that state exactly when it belongs to the track. -/
theorem Model.WF.find_by_name {M : Model} (wf : M.WF) {t : Nat} {tk : Track} {h : Nat}
    {hs : State} (ht : M.trackHeap[t]? = some tk) (hh : M.stateHeap[h]? = some hs) :
    (∀ r, tmapFind tk.m_states hs.m_name = some r → r = h ∧ M.stateTrack h = some t) ∧
    (tmapFind tk.m_states hs.m_name = none → M.stateTrack h ≠ some t) := by
  constructor
  · intro r hr
    have hm := tmapFind_mem hr
    obtain ⟨st, h1, h2, h3⟩ := wf.track_states t (lt_of_getElem?_eq_some ht) tk ht _ hm
    have : r = h := wf.state_names r (lt_of_getElem?_eq_some h1) h (lt_of_getElem?_eq_some hh)
      st h1 hs hh h3
    subst this
    exact ⟨rfl, stateTrack_eq_some.2 ⟨st, h1, h2⟩⟩
  · intro hn hc
    obtain ⟨st, h1, h2⟩ := stateTrack_eq_some.1 hc
    have : st = hs := by rw [hh] at h1; cases h1; rfl
    subst this
    obtain ⟨tk', h3, h4⟩ := wf.state_in_track h (lt_of_getElem?_eq_some hh) st hh
    rw [h2] at h3
    have : tk' = tk := by rw [ht] at h3; cases h3; rfl
    subst this
    obtain ⟨v, hv⟩ := tmapFind_isSome_of_mem h4
    rw [hn] at hv
    cases hv

/-! ## The ancestor-track chain -/

theorem Model.WF.ancestorsAux_fuel {M : Model} (wf : M.WF) :
    ∀ (t f1 f2 : Nat), t < f1 → t < f2 → M.ancestorsAux f1 t = M.ancestorsAux f2 t := by
  intro t
  induction t using Nat.strong_induction_on with
  | _ t ih =>
    intro f1 f2 h1 h2
    obtain ⟨a, rfl⟩ : ∃ a, f1 = a + 1 := ⟨f1 - 1, by omega⟩
    obtain ⟨b, rfl⟩ : ∃ b, f2 = b + 1 := ⟨f2 - 1, by omega⟩
    unfold Model.ancestorsAux
    cases hp : M.trackParent t with
    | none => rfl
    | some p =>
      cases hv : M.stateTrack p with
      | none => simp only [hv]
      | some v =>
        have := wf.up_lt hp hv
        simp only [hv]
        rw [ih v this a b (by omega) (by omega)]

/-- Unfolding of the ancestor chain: a track, followed by the chain of the track of its parent state. -/
theorem Model.WF.ancestors_eq {M : Model} (wf : M.WF) {t : Nat} (ht : t < M.trackHeap.length) :
    M.ancestors t = t :: (match M.trackParent t with
      | none => []
      | some p =>
        match M.stateTrack p with
        | none => []
        | some v => M.ancestors v) := by
  unfold Model.ancestors
  obtain ⟨n, hn⟩ : ∃ n, M.trackHeap.length = n + 1 := ⟨M.trackHeap.length - 1, by omega⟩
  rw [hn]
  conv => lhs; unfold Model.ancestorsAux
  cases hp : M.trackParent t with
  | none => rfl
  | some p =>
    cases hv : M.stateTrack p with
    | none => simp only [hv]
    | some v =>
      have := wf.up_lt hp hv
      simp only [hv]
      rw [wf.ancestorsAux_fuel v n (n + 1) (by omega) (by omega)]

theorem Model.WF.ancestors_root {M : Model} (wf : M.WF) {t : Nat} (h : M.isRoot t = true) :
    M.ancestors t = [t] := by
  obtain ⟨tk, h1, _⟩ := isRoot_iff.1 h
  rw [wf.ancestors_eq (lt_of_getElem?_eq_some h1), trackParent_none_of_isRoot h]

theorem Model.WF.ancestors_step {M : Model} (wf : M.WF) {t v : Nat} {p : Nat}
    (hp : M.trackParent t = some p) (hv : M.stateTrack p = some v) :
    M.ancestors t = t :: M.ancestors v := by
  rw [wf.ancestors_eq (wf.trackParent_lt hp).1, hp]
  simp only [hv]

theorem Model.WF.mem_ancestors_self {M : Model} (wf : M.WF) {t : Nat}
    (ht : t < M.trackHeap.length) : t ∈ M.ancestors t := by
  rw [wf.ancestors_eq ht]; exact List.mem_cons_self _ _

theorem Model.WF.mem_ancestors_le {M : Model} (wf : M.WF) :
    ∀ (t : Nat), t < M.trackHeap.length → ∀ x : Nat, x ∈ M.ancestors t → x ≤ t := by
  intro t
  induction t using Nat.strong_induction_on with
  | _ t ih =>
    intro ht x hx
    rw [wf.ancestors_eq ht] at hx
    rcases List.mem_cons.1 hx with rfl | hx
    · exact le_rfl
    · cases hp : M.trackParent t with
      | none => simp [hp] at hx
      | some p =>
        cases hv : M.stateTrack p with
        | none => simp [hp, hv] at hx
        | some v =>
          simp only [hp, hv] at hx
          have hlt := wf.up_lt hp hv
          have := ih v hlt (wf.stateTrack_lt hv).2 x hx
          omega

theorem Model.WF.ancestors_trans {M : Model} (wf : M.WF) :
    ∀ (t : Nat), t < M.trackHeap.length → ∀ x ∈ M.ancestors t,
      ∀ y ∈ M.ancestors x, y ∈ M.ancestors t := by
  intro t
  induction t using Nat.strong_induction_on with
  | _ t ih =>
    intro ht x hx y hy
    have hx' := hx
    rw [wf.ancestors_eq ht] at hx
    rcases List.mem_cons.1 hx with rfl | hx
    · exact hy
    · cases hp : M.trackParent t with
      | none => simp [hp] at hx
      | some p =>
        cases hv : M.stateTrack p with
        | none => simp [hp, hv] at hx
        | some v =>
          simp only [hp, hv] at hx
          rw [wf.ancestors_step hp hv]
          exact List.mem_cons_of_mem _ (ih v (wf.up_lt hp hv) (wf.stateTrack_lt hv).2 x hx y hy)

/-! ## `State::IsInTrack` and the exit loop -/

theorem Model.WF.isInTrackLoop_spec {M : Model} (wf : M.WF) (L : Nat) :
    ∀ (u : Nat), u < M.trackHeap.length → ∀ fuel : Nat,
      (u + 2 ≤ fuel →
        IsInTrackLoop M (some L) fuel (some u) = Res.ok (decide (L ∈ M.ancestors u))) ∧
      (IsInTrackLoop M (some L) fuel (some u) = Res.ok (decide (L ∈ M.ancestors u)) ∨
        IsInTrackLoop M (some L) fuel (some u) = Res.fault Fault.outOfFuel) := by
  intro u
  induction u using Nat.strong_induction_on with
  | _ u ih =>
    intro hu fuel
    cases fuel with
    | zero => exact ⟨fun h => by omega, Or.inr rfl⟩
    | succ f =>
      unfold IsInTrackLoop
      by_cases hL : some u = some L
      · have : u = L := by simpa using hL
        subst this
        simp [wf.mem_ancestors_self hu]
      · have hne : L ≠ u := fun h => hL (by rw [h])
        obtain ⟨tk, htk, htk'⟩ := track_of_lt hu
        simp only [hL, if_false, htk', Res.ok_bind]
        cases hp : tk.m_parent with
        | none =>
          have hroot : M.isRoot u = true := isRoot_iff.2 ⟨tk, htk, hp⟩
          have hd : decide (L ∈ M.ancestors u) = false := by
            simp [wf.ancestors_root hroot, hne]
          rw [hd]
          cases f with
          | zero => exact ⟨fun h => by omega, Or.inr rfl⟩
          | succ f' => exact ⟨fun _ => rfl, Or.inl rfl⟩
        | some p =>
          have hpar : M.trackParent u = some p := trackParent_eq_some.2 ⟨tk, htk, hp⟩
          obtain ⟨_, _, v, hv, hlt⟩ := wf.trackParent_lt hpar
          obtain ⟨ps, hps, rfl⟩ := stateTrack_eq_some.1 hv
          have hd : decide (L ∈ M.ancestors u) = decide (L ∈ M.ancestors ps.m_parent) := by
            rw [wf.ancestors_step hpar hv]
            simp [hne]
          simp only [state_eq_ok.2 hps, Res.ok_bind, hd]
          have := ih ps.m_parent hlt (wf.stateTrack_lt hv).2 f
          exact ⟨fun h => this.1 (by omega), this.2⟩

theorem inSubtree_eq {M : Model} {s t : Nat} (L : Nat) (h : M.stateTrack s = some t) :
    M.inSubtree L s = decide (L ∈ M.ancestors t) := by
  simp [Model.inSubtree, h]

theorem Model.WF.isInTrack_ok {M : Model} (wf : M.WF) {fuel s L : Nat} {b : Bool}
    (h : IsInTrack M fuel s (some L) = Res.ok b) : b = M.inSubtree L s := by
  unfold IsInTrack at h
  obtain ⟨st, hst, h⟩ := Res.bind_eq_ok.1 h
  have hs := state_eq_ok.1 hst
  have htr : M.stateTrack s = some st.m_parent := stateTrack_eq_some.2 ⟨st, hs, rfl⟩
  rw [inSubtree_eq L htr]
  rcases (wf.isInTrackLoop_spec L st.m_parent (wf.stateTrack_lt htr).2 fuel).2 with h' | h'
  · rw [h'] at h; cases h; rfl
  · rw [h'] at h; cases h

theorem Model.WF.isInTrack_total {M : Model} (wf : M.WF) {fuel s t L : Nat}
    (hs : M.stateTrack s = some t) (hf : M.trackHeap.length + 1 ≤ fuel) :
    IsInTrack M fuel s (some L) = Res.ok (M.inSubtree L s) := by
  obtain ⟨st, hst, rfl⟩ := stateTrack_eq_some.1 hs
  unfold IsInTrack
  simp only [state_eq_ok.2 hst, Res.ok_bind]
  rw [inSubtree_eq L hs]
  have hlt := (wf.stateTrack_lt hs).2
  exact (wf.isInTrackLoop_spec L st.m_parent hlt fuel).1 (by omega)

theorem Model.WF.exitLoop_ok {M : Model} (wf : M.WF) {fuel L : Nat} :
    ∀ (cur : List StatePtr) (r : List StatePtr × List HookCall),
      exitLoop M fuel (some L) cur = Res.ok r → r = exitResult M L cur := by
  intro cur
  induction cur with
  | nil => intro r h; simp [exitLoop] at h; simp [exitResult, ← h]
  | cons s rest ih =>
    intro r h
    unfold exitLoop at h
    obtain ⟨⟨kept, calls⟩, h1, h⟩ := Res.bind_eq_ok.1 h
    obtain ⟨b, h2, h⟩ := Res.bind_eq_ok.1 h
    have hb := wf.isInTrack_ok h2
    have hk := ih _ h1
    simp only [exitResult, Prod.mk.injEq] at hk
    obtain ⟨hk1, hk2⟩ := hk
    cases hbs : M.inSubtree L s with
    | true =>
      rw [hbs] at hb; subst hb
      simp at h
      simp [exitResult, ← h, hbs, hk1, hk2]
    | false =>
      rw [hbs] at hb; subst hb
      simp at h
      simp [exitResult, ← h, hbs, hk1, hk2]

theorem Model.WF.exitLoop_total {M : Model} (wf : M.WF) {fuel L : Nat}
    (hf : M.trackHeap.length + 1 ≤ fuel) :
    ∀ (cur : List StatePtr), (∀ s ∈ cur, (M.stateTrack s).isSome = true) →
      exitLoop M fuel (some L) cur = Res.ok (exitResult M L cur) := by
  intro cur
  induction cur with
  | nil => intro _; simp [exitLoop, exitResult]
  | cons s rest ih =>
    intro hv
    obtain ⟨t, ht⟩ := Option.isSome_iff_exists.1 (hv s (List.mem_cons_self _ _))
    unfold exitLoop
    rw [ih (fun x hx => hv x (List.mem_cons_of_mem _ hx))]
    simp only [exitResult, Res.ok_bind, wf.isInTrack_total ht hf]
    cases hbs : M.inSubtree L s <;> simp [hbs]

/-! ## One iteration of the enter loop -/

theorem enterChoice_track {M : Model} (wf : M.WF) {t c : Nat} {path : List StatePtr}
    (h : (enterChoice M t path).1 = some c) : M.stateTrack c = some t := by
  unfold enterChoice at h
  cases path with
  | nil => exact wf.defaultState_track h
  | cons x rest =>
    by_cases hx : M.stateTrack x = some t
    · simp [hx] at h; subst h; exact hx
    · simp [hx] at h; exact wf.defaultState_track h

theorem getLast?_concat_eq {α : Type} (rest : List α) (t : α) :
    (rest ++ [t]).getLast? = some t := by
  simp only [List.getLast?_append, List.getLast?_singleton, Option.or_some]

theorem Model.WF.enterLoop_step {M : Model} (wf : M.WF) {fuel t : Nat} {rest : List TrackPtr}
    {path cur : List StatePtr} {calls : List HookCall} (ht : t < M.trackHeap.length)
    (hh : ∀ h ∈ path.head?, (M.stateTrack h).isSome = true) :
    enterLoop M (fuel + 1) (rest ++ [t]) path cur calls =
      match (enterChoice M t path).1 with
      | none => Res.fault Fault.nullDeref
      | some c => enterLoop M fuel (rest ++ M.childTracks c) (enterChoice M t path).2
          (cur ++ [c]) (calls ++ [HookCall.enter c]) := by
  obtain ⟨tk, htk, htk'⟩ := track_of_lt ht
  have hdef : M.defaultState t = tk.m_defaultState := by simp [Model.defaultState, htk]
  have key : ∀ (o : Option StatePtr) (p' : List StatePtr), (∀ c, o = some c → M.stateTrack c = some t) →
      (match o with
        | none => (Res.fault Fault.nullDeref : Res (List StatePtr × List HookCall))
        | some cs => do
          let s ← M.state cs
          enterLoop M fuel (rest ++ s.m_tracks.map Prod.snd) p' (cur ++ [cs])
            (calls ++ [HookCall.enter cs])) =
      (match o with
        | none => Res.fault Fault.nullDeref
        | some c => enterLoop M fuel (rest ++ M.childTracks c) p' (cur ++ [c])
            (calls ++ [HookCall.enter c])) := by
    intro o p' ho
    cases o with
    | none => rfl
    | some c =>
      obtain ⟨st, hst, _⟩ := stateTrack_eq_some.1 (ho c rfl)
      simp [state_eq_ok.2 hst, Model.childTracks, hst]
  conv_lhs => unfold enterLoop
  simp only [getLast?_concat_eq, List.dropLast_concat, htk', Res.ok_bind]
  cases path with
  | nil =>
    simp only [enterChoice, Res.ok_bind, hdef]
    exact key _ _ (fun c hc => wf.defaultState_track (hdef ▸ hc))
  | cons x prest =>
    obtain ⟨tx, htx⟩ := Option.isSome_iff_exists.1 (hh x (by simp))
    obtain ⟨xs, hxs, _⟩ := stateTrack_eq_some.1 htx
    have hfind := wf.find_by_name htk hxs
    simp only [state_eq_ok.2 hxs, Res.ok_bind]
    cases hf : tmapFind tk.m_states xs.m_name with
    | some r =>
      obtain ⟨rfl, hr⟩ := hfind.1 r hf
      simp only [enterChoice, hr, if_true, Res.ok_bind]
      exact key _ _ (fun c hc => by rw [← Option.some.inj hc]; exact hr)
    | none =>
      have hne := hfind.2 hf
      simp only [enterChoice, hne, if_false, Res.ok_bind, hdef]
      exact key _ _ (fun c hc => wf.defaultState_track (hdef ▸ hc))

/-! ## The descent invariant is kept by an iteration -/

theorem occupied_append {M : Model} {E : List StatePtr} {c u : Nat} :
    occupied M (E ++ [c]) u ↔ occupied M E u ∨ M.stateTrack c = some u := by
  unfold occupied
  constructor
  · rintro ⟨s, hs, h⟩
    rcases List.mem_append.1 hs with h' | h'
    · exact Or.inl ⟨s, h', h⟩
    · rw [List.mem_singleton.1 h'] at h; exact Or.inr h
  · rintro (⟨s, hs, h⟩ | h)
    · exact ⟨s, List.mem_append_left _ hs, h⟩
    · exact ⟨c, by simp, h⟩

theorem indexOf_concat_new {E : List StatePtr} {c : Nat} (h : c ∉ E) :
    (E ++ [c]).indexOf c = E.length := by
  rw [List.indexOf_append_of_not_mem h]
  simp

theorem Descent.descent_step {M : Model} (wf : M.WF) {Roots rest : List TrackPtr} {E : List StatePtr}
    {t c : Nat} (hD : Descent M Roots E (rest ++ [t])) (hc : M.stateTrack c = some t) :
    Descent M Roots (E ++ [c]) (rest ++ M.childTracks c) := by
  have ht_mem : t ∈ rest ++ [t] := by simp
  have hcE : c ∉ E := fun h => hD.disjoint c h t ht_mem hc
  have ht_lt : t < M.trackHeap.length := (hD.stack_origin t ht_mem).1
  have hnd := List.nodup_append.1 hD.nodupS
  have ht_rest : t ∉ rest := fun h => hnd.2.2 h (List.mem_singleton_self t) 
  have hur_t := hD.under_root t (Or.inl ht_mem)
  have hchild : ∀ u : Nat, u ∈ M.childTracks c →
      M.trackParent u = some c ∧ u < M.trackHeap.length ∧ t < u ∧
        M.ancestors u = u :: M.ancestors t := by
    intro u hu
    have h1 := wf.childTracks_parent hu
    exact ⟨h1.1, h1.2, wf.up_lt h1.1 hc, wf.ancestors_step h1.1 hc⟩
  have key1 : ∀ u : Nat, u ∈ M.childTracks c → u ∉ Roots := by
    intro u hu hr
    obtain ⟨_, _, hlt, hanc⟩ := hchild u hu
    have : t ∈ M.ancestors u := by
      rw [hanc]; exact List.mem_cons_of_mem _ (wf.mem_ancestors_self ht_lt)
    have h2 : (u : Nat) = t := hur_t.2 u hr this
    omega
  have key2 : ∀ u : Nat, u ∈ M.childTracks c → ¬ ∃ p ∈ E, M.trackParent u = some p := by
    rintro u hu ⟨p, hp, hpar⟩
    rw [(hchild u hu).1] at hpar
    cases hpar
    exact hcE hp
  have key3 : ∀ u : Nat, u ∈ M.childTracks c → u ∉ rest ++ [t] := by
    intro u hu hmem
    rcases (hD.stack_origin u hmem).2 with h | h
    · exact key1 u hu h
    · exact key2 u hu h
  have key4 : ∀ u : Nat, u ∈ M.childTracks c → ¬ occupied M E u := by
    rintro u hu ⟨s, hs, hsu⟩
    rcases hD.entered_origin s hs u hsu with h | ⟨p, hp, hpar, _⟩
    · exact key1 u hu h
    · exact key2 u hu ⟨p, hp, hpar⟩
  refine ⟨?_, ?_, ?_, ?_, ?_, ?_, ?_, ?_, ?_⟩
  · -- valid
    intro s hs
    rcases List.mem_append.1 hs with h | h
    · exact hD.valid s h
    · rw [List.mem_singleton.1 h, hc]; rfl
  · -- nodupE
    rw [List.map_append, List.nodup_append]
    refine ⟨hD.nodupE, by simp, ?_⟩
    intro x hx hx'
    obtain ⟨s, hs, rfl⟩ := List.mem_map.1 hx
    simp only [List.map_cons, List.map_nil, List.mem_singleton] at hx'
    rw [hc] at hx'
    exact hD.disjoint s hs t ht_mem hx'
  · -- nodupS
    rw [List.nodup_append]
    refine ⟨hnd.1, wf.childTracks_nodup c, ?_⟩
    intro u hu hu'
    exact key3 u hu' (List.mem_append_left _ hu)
  · -- disjoint
    intro s hs u hu hsu
    rcases List.mem_append.1 hs with h | h
    · rcases List.mem_append.1 hu with h' | h'
      · exact hD.disjoint s h u (List.mem_append_left _ h') hsu
      · exact key4 u h' ⟨s, h, hsu⟩
    · rw [List.mem_singleton.1 h, hc] at hsu
      have : t = u := Option.some.inj hsu
      subst this
      rcases List.mem_append.1 hu with h' | h'
      · exact ht_rest h'
      · have := (hchild t h').2.2.1
        omega
  · -- stack_origin
    intro u hu
    rcases List.mem_append.1 hu with h | h
    · obtain ⟨h1, h2⟩ := hD.stack_origin u (List.mem_append_left _ h)
      refine ⟨h1, ?_⟩
      rcases h2 with h2 | ⟨p, hp, hpar⟩
      · exact Or.inl h2
      · exact Or.inr ⟨p, List.mem_append_left _ hp, hpar⟩
    · obtain ⟨h1, h2, _, _⟩ := hchild u h
      exact ⟨h2, Or.inr ⟨c, by simp, h1⟩⟩
  · -- entered_origin
    intro s hs u hsu
    rcases List.mem_append.1 hs with h | h
    · rcases hD.entered_origin s h u hsu with h' | ⟨p, hp, hpar, hlt⟩
      · exact Or.inl h'
      · refine Or.inr ⟨p, List.mem_append_left _ hp, hpar, ?_⟩
        rw [List.indexOf_append_of_mem hp, List.indexOf_append_of_mem h]
        exact hlt
    · rw [List.mem_singleton.1 h] at hsu ⊢
      rw [hc] at hsu
      have : t = u := Option.some.inj hsu
      subst this
      rcases (hD.stack_origin t ht_mem).2 with h' | ⟨p, hp, hpar⟩
      · exact Or.inl h'
      · refine Or.inr ⟨p, List.mem_append_left _ hp, hpar, ?_⟩
        rw [List.indexOf_append_of_mem hp, indexOf_concat_new hcE]
        exact List.indexOf_lt_length.2 hp
  · -- roots_covered
    intro r hr
    rcases hD.roots_covered r hr with h | h
    · rcases List.mem_append.1 h with h' | h'
      · exact Or.inl (List.mem_append_left _ h')
      · rw [List.mem_singleton.1 h']
        exact Or.inr (occupied_append.2 (Or.inr hc))
    · exact Or.inr (occupied_append.2 (Or.inl h))
  · -- closed
    intro p hp u hu
    rcases List.mem_append.1 hp with h | h
    · rcases hD.closed p h u hu with h' | h'
      · rcases List.mem_append.1 h' with h'' | h''
        · exact Or.inl (List.mem_append_left _ h'')
        · rw [List.mem_singleton.1 h'']
          exact Or.inr (occupied_append.2 (Or.inr hc))
      · exact Or.inr (occupied_append.2 (Or.inl h'))
    · rw [List.mem_singleton.1 h] at hu
      exact Or.inl (List.mem_append_right _ hu)
  · -- under_root
    have hnew : ∀ u : Nat, u ∈ M.childTracks c →
        (∃ r ∈ Roots, r ∈ M.ancestors u) ∧ (∀ r ∈ Roots, u ∈ M.ancestors r → r = u) := by
      intro u hu
      obtain ⟨hpar, hlt, htu, hanc⟩ := hchild u hu
      constructor
      · obtain ⟨r, hr, hra⟩ := hur_t.1
        exact ⟨r, hr, by rw [hanc]; exact List.mem_cons_of_mem _ hra⟩
      · intro r hr hur
        exfalso
        obtain ⟨r0, hr0, hr0a⟩ := hur_t.1
        have hr_lt : r < M.trackHeap.length := by
          rcases hD.roots_covered r hr with h | ⟨s, hs, hsr⟩
          · exact (hD.stack_origin r h).1
          · exact (wf.stateTrack_lt hsr).2
        have h1 : t ∈ M.ancestors r := by
          apply wf.ancestors_trans r hr_lt u hur t
          rw [hanc]; exact List.mem_cons_of_mem _ (wf.mem_ancestors_self ht_lt)
        have h2 : (r : Nat) = t := hur_t.2 r hr h1
        subst h2
        have := wf.mem_ancestors_le r ht_lt u hur
        omega
    intro u hu
    rcases hu with hu | hu
    · rcases List.mem_append.1 hu with h | h
      · exact hD.under_root u (Or.inl (List.mem_append_left _ h))
      · exact hnew u h
    · rcases occupied_append.1 hu with h | h
      · exact hD.under_root u (Or.inr h)
      · rw [hc] at h
        rw [← Option.some.inj h]
        exact hur_t

/-! ## The path invariant, and the enter loop as a whole -/

theorem list_nil_or_snoc {α : Type} (l : List α) : l = [] ∨ ∃ rest t, l = rest ++ [t] := by
  rcases List.eq_nil_or_concat l with h | ⟨rest, t, h⟩
  · exact Or.inl h
  · exact Or.inr ⟨rest, t, by rw [h, List.concat_eq_append]⟩

theorem enterChoice_cases {M : Model} {t c : Nat} {path : List StatePtr}
    (h : (enterChoice M t path).1 = some c) : c ∈ path ∨ M.defaultState t = some c := by
  unfold enterChoice at h
  cases path with
  | nil => exact Or.inr h
  | cons x rest =>
    by_cases hx : M.stateTrack x = some t
    · simp [hx] at h; subst h; exact Or.inl (List.mem_cons_self _ _)
    · simp [hx] at h; exact Or.inr h

theorem enterChoice_isSome {M : Model} {t : Nat} (path : List StatePtr)
    (h : (M.defaultState t).isSome = true) : ∃ c, (enterChoice M t path).1 = some c := by
  unfold enterChoice
  cases path with
  | nil => exact Option.isSome_iff_exists.1 h
  | cons x rest =>
    by_cases hx : M.stateTrack x = some t
    · exact ⟨x, by simp [hx]⟩
    · simp only [hx, if_false]; exact Option.isSome_iff_exists.1 h

theorem PathInv.path_step {M : Model} (wf : M.WF) {P E path : List StatePtr} {rest : List TrackPtr}
    {t c : Nat} (hP : PathInv M P E (rest ++ [t]) path)
    (hc : (enterChoice M t path).1 = some c) :
    PathInv M P (E ++ [c]) (rest ++ M.childTracks c) (enterChoice M t path).2 := by
  obtain ⟨done, hdone, hsub⟩ := hP.consumed
  have hchoice : ∀ s ∈ E ++ [c], s ∈ P ∨ ∃ t, M.stateTrack s = some t ∧ M.defaultState t = some s := by
    intro s hs
    rcases List.mem_append.1 hs with h | h
    · exact hP.choice s h
    · rw [List.mem_singleton.1 h]
      rcases enterChoice_cases hc with h' | h'
      · exact Or.inl (by rw [hdone]; exact List.mem_append_right _ h')
      · exact Or.inr ⟨t, wf.defaultState_track h', h'⟩
  cases path with
  | nil =>
    refine ⟨⟨done, ?_, fun x hx => List.mem_append_left _ (hsub x hx)⟩, ?_, ?_, hchoice⟩
    · simpa [enterChoice] using hdone
    · simp [enterChoice]
    · simp [enterChoice]
  | cons x r =>
    by_cases hx : M.stateTrack x = some t
    · have hcx : c = x := by simp [enterChoice, hx] at hc; exact hc.symm
      subst hcx
      have h2 : (enterChoice M t (c :: r)).2 = r := by simp [enterChoice, hx]
      rw [h2]
      refine ⟨⟨done ++ [c], by simp [hdone], ?_⟩, ?_, ?_, hchoice⟩
      · intro y hy
        rcases List.mem_append.1 hy with h | h
        · exact List.mem_append_left _ (hsub y h)
        · exact List.mem_append_right _ h
      · intro h' hh'
        cases r with
        | nil => simp at hh'
        | cons y r' =>
          simp only [List.head?_cons, Option.mem_def, Option.some.injEq] at hh'
          subst hh'
          have hlink : PathLink M c y := (List.chain'_cons.1 hP.chain).1
          obtain ⟨t', h1, h2⟩ := hlink
          exact ⟨t', List.mem_append_right _ (wf.trackParent_lt h2).2.1, h1⟩
      · exact hP.chain.tail
    · have h2 : (enterChoice M t (x :: r)).2 = x :: r := by simp [enterChoice, hx]
      rw [h2]
      refine ⟨⟨done, hdone, fun y hy => List.mem_append_left _ (hsub y hy)⟩, ?_, hP.chain, hchoice⟩
      intro h' hh'
      obtain ⟨t', ht', hxt⟩ := hP.head h' hh'
      simp only [List.head?_cons, Option.mem_def, Option.some.injEq] at hh'
      subst hh'
      rcases List.mem_append.1 ht' with h | h
      · exact ⟨t', List.mem_append_left _ h, hxt⟩
      · rw [List.mem_singleton.1 h] at hxt
        exact absurd hxt hx

theorem PathInv.done {M : Model} {P E path : List StatePtr} (hP : PathInv M P E [] path) :
    path = [] ∧ ∀ x ∈ P, x ∈ E := by
  have : path = [] := by
    cases path with
    | nil => rfl
    | cons x r =>
      obtain ⟨t, ht, _⟩ := hP.head x (by simp)
      simp at ht
  obtain ⟨done, hdone, hsub⟩ := hP.consumed
  subst this
  simp at hdone
  subst hdone
  exact ⟨rfl, hsub⟩

theorem Descent.length_le {M : Model} (wf : M.WF) {Roots stack : List TrackPtr}
    {E : List StatePtr} (hD : Descent M Roots E stack) :
    E.length + stack.length ≤ M.trackHeap.length := by
  have hnd : (E.map M.stateTrack ++ stack.map some).Nodup := by
    rw [List.nodup_append]
    refine ⟨hD.nodupE, hD.nodupS.map (Option.some_injective _), ?_⟩
    intro x hx hx'
    obtain ⟨s, hs, rfl⟩ := List.mem_map.1 hx
    obtain ⟨u, hu, hsu⟩ := List.mem_map.1 hx'
    exact hD.disjoint s hs u hu hsu.symm
  have hsub : E.map M.stateTrack ++ stack.map some ⊆ (List.range M.trackHeap.length).map some := by
    intro x hx
    rcases List.mem_append.1 hx with h | h
    · obtain ⟨s, hs, rfl⟩ := List.mem_map.1 h
      obtain ⟨t, ht⟩ := Option.isSome_iff_exists.1 (hD.valid s hs)
      rw [ht]
      exact List.mem_map.2 ⟨t, List.mem_range.2 (wf.stateTrack_lt ht).2, rfl⟩
    · obtain ⟨u, hu, rfl⟩ := List.mem_map.1 h
      exact List.mem_map.2 ⟨u, List.mem_range.2 (hD.stack_origin u hu).1, rfl⟩
  have := (hnd.subperm hsub).length_le
  simpa using this

theorem Descent.head_valid {M : Model} {P E path : List StatePtr} {stack : List TrackPtr}
    (hP : PathInv M P E stack path) : ∀ h ∈ path.head?, (M.stateTrack h).isSome = true := by
  intro h hh
  obtain ⟨t, _, ht⟩ := hP.head h hh
  rw [ht]; rfl

/-- If the enter loop returns, it has appended a list `E'` of states for which the two
invariants hold with nothing left on the stack. -/
theorem Model.WF.enterLoop_ok {M : Model} (wf : M.WF) (pre : List StatePtr)
    (calls : List HookCall) {Roots : List TrackPtr} {P : List StatePtr} :
    ∀ (fuel : Nat) (E : List StatePtr) (stack : List TrackPtr) (path : List StatePtr)
      (r : List StatePtr × List HookCall),
      Descent M Roots E stack → PathInv M P E stack path →
      enterLoop M fuel stack path (pre ++ E) (calls ++ E.map HookCall.enter) = Res.ok r →
      ∃ E', r = (pre ++ E', calls ++ E'.map HookCall.enter) ∧ Descent M Roots E' [] ∧
        PathInv M P E' [] [] := by
  intro fuel
  induction fuel with
  | zero => intro E stack path r _ _ h; simp [enterLoop] at h
  | succ fuel ih =>
    intro E stack path r hD hP h
    rcases list_nil_or_snoc stack with rfl | ⟨rest, t, rfl⟩
    · have hp := (PathInv.done hP).1
      subst hp
      simp [enterLoop] at h
      exact ⟨E, h.symm, hD, hP⟩
    · have ht := (hD.stack_origin t (by simp)).1
      rw [wf.enterLoop_step ht (Descent.head_valid hP)] at h
      cases hc : (enterChoice M t path).1 with
      | none => simp [hc] at h
      | some c =>
        simp only [hc] at h
        have hD' := hD.descent_step wf (enterChoice_track wf hc)
        have hP' := hP.path_step wf hc
        have e1 : pre ++ E ++ [c] = pre ++ (E ++ [c]) := by simp
        have e2 : calls ++ E.map HookCall.enter ++ [HookCall.enter c] =
            calls ++ (E ++ [c]).map HookCall.enter := by simp
        rw [e1, e2] at h
        exact ih _ _ _ r hD' hP' h

/-- The enter loop returns when it is given more iterations than the model has tracks, if
every track it can meet (`Q`) has a default state. -/
theorem Model.WF.enterLoop_total {M : Model} (wf : M.WF) {Roots : List TrackPtr}
    {P : List StatePtr} (Q : TrackPtr → Prop)
    (hQd : ∀ u, Q u → (M.defaultState u).isSome = true)
    (hQs : ∀ u c, Q u → M.stateTrack c = some u → (c ∈ P ∨ M.defaultState u = some c) →
      ∀ c' ∈ M.childTracks c, Q c') :
    ∀ (fuel : Nat) (E : List StatePtr) (stack : List TrackPtr) (path cur : List StatePtr)
      (calls : List HookCall),
      Descent M Roots E stack → PathInv M P E stack path → (∀ u ∈ stack, Q u) →
      M.trackHeap.length < fuel + E.length →
      ∃ r, enterLoop M fuel stack path cur calls = Res.ok r := by
  intro fuel
  induction fuel with
  | zero =>
    intro E stack path cur calls hD _ _ hf
    have := hD.length_le wf
    omega
  | succ fuel ih =>
    intro E stack path cur calls hD hP hQ hf
    rcases list_nil_or_snoc stack with rfl | ⟨rest, t, rfl⟩
    · exact ⟨(cur, calls), by simp [enterLoop]⟩
    · have ht := (hD.stack_origin t (by simp)).1
      rw [wf.enterLoop_step ht (Descent.head_valid hP)]
      have hQt := hQ t (by simp)
      obtain ⟨c, hc⟩ := enterChoice_isSome path (hQd t hQt)
      simp only [hc]
      have hct := enterChoice_track wf hc
      have hD' := hD.descent_step wf hct
      have hP' := hP.path_step wf hc
      apply ih _ _ _ _ _ hD' hP'
      · intro u hu
        rcases List.mem_append.1 hu with h | h
        · exact hQ u (List.mem_append_left _ h)
        · refine hQs t c hQt hct ?_ u h
          rcases enterChoice_cases hc with h' | h'
          · obtain ⟨done, hdone, _⟩ := hP.consumed
            exact Or.inl (by rw [hdone]; exact List.mem_append_right _ h')
          · exact Or.inr h'
      · simp only [List.length_append, List.length_singleton]
        omega

/-! ## More iterations never change a result -/

theorem IsInTrackLoop_mono {M : Model} {L : Option TrackPtr} :
    ∀ (fuel fuel' : Nat) (cur : Option TrackPtr) (b : Bool), fuel ≤ fuel' →
      IsInTrackLoop M L fuel cur = Res.ok b → IsInTrackLoop M L fuel' cur = Res.ok b := by
  intro fuel
  induction fuel with
  | zero => intro fuel' cur b _ h; cases cur <;> simp [IsInTrackLoop] at h
  | succ n ih =>
    intro fuel' cur b hle h
    obtain ⟨m, rfl⟩ : ∃ m, fuel' = m + 1 := ⟨fuel' - 1, by omega⟩
    cases cur with
    | none => simpa [IsInTrackLoop] using h
    | some c =>
      unfold IsInTrackLoop at h ⊢
      by_cases hc : some c = L
      · simpa [hc] using h
      · simp only [hc, if_false] at h ⊢
        obtain ⟨tk, h1, h⟩ := Res.bind_eq_ok.1 h
        simp only [h1, Res.ok_bind]
        cases hp : tk.m_parent with
        | none =>
          simp only [hp] at h
          exact ih m none b (by omega) h
        | some p =>
          simp only [hp] at h
          obtain ⟨ps, h2, h⟩ := Res.bind_eq_ok.1 h
          simp only [h2, Res.ok_bind]
          exact ih m _ b (by omega) h

theorem IsInTrack_mono {M : Model} {L : Option TrackPtr} {fuel fuel' s : Nat} {b : Bool}
    (hle : fuel ≤ fuel') (h : IsInTrack M fuel s L = Res.ok b) :
    IsInTrack M fuel' s L = Res.ok b := by
  unfold IsInTrack at h ⊢
  obtain ⟨st, h1, h⟩ := Res.bind_eq_ok.1 h
  simp only [h1, Res.ok_bind]
  exact IsInTrackLoop_mono _ _ _ _ hle h

theorem ATracksLoop_mono {M : Model} :
    ∀ (fuel fuel' : Nat) (cur : Option TrackPtr) (acc r : List TrackPtr), fuel ≤ fuel' →
      ATracksLoop M fuel cur acc = Res.ok r → ATracksLoop M fuel' cur acc = Res.ok r := by
  intro fuel
  induction fuel with
  | zero => intro fuel' cur acc r _ h; cases cur <;> simp [ATracksLoop] at h
  | succ n ih =>
    intro fuel' cur acc r hle h
    obtain ⟨m, rfl⟩ : ∃ m, fuel' = m + 1 := ⟨fuel' - 1, by omega⟩
    cases cur with
    | none => simpa [ATracksLoop] using h
    | some c =>
      unfold ATracksLoop at h ⊢
      obtain ⟨tk, h1, h⟩ := Res.bind_eq_ok.1 h
      simp only [h1, Res.ok_bind]
      cases hp : tk.m_parent with
      | none =>
        simp only [hp] at h
        exact ih m none _ r (by omega) h
      | some p =>
        simp only [hp] at h
        obtain ⟨ps, h2, h⟩ := Res.bind_eq_ok.1 h
        simp only [h2, Res.ok_bind]
        exact ih m _ _ r (by omega) h

theorem BTracksLoop_mono {M : Model} {A : List TrackPtr} :
    ∀ (fuel fuel' : Nat) (cur : Option TrackPtr) (r : Option TrackPtr), fuel ≤ fuel' →
      BTracksLoop M A fuel cur = Res.ok r → BTracksLoop M A fuel' cur = Res.ok r := by
  intro fuel
  induction fuel with
  | zero => intro fuel' cur r _ h; cases cur <;> simp [BTracksLoop] at h
  | succ n ih =>
    intro fuel' cur r hle h
    obtain ⟨m, rfl⟩ : ∃ m, fuel' = m + 1 := ⟨fuel' - 1, by omega⟩
    cases cur with
    | none => simpa [BTracksLoop] using h
    | some c =>
      unfold BTracksLoop at h ⊢
      by_cases hc : c ∈ A
      · simpa [hc] using h
      · simp only [hc, if_false] at h ⊢
        obtain ⟨tk, h1, h⟩ := Res.bind_eq_ok.1 h
        simp only [h1, Res.ok_bind]
        cases hp : tk.m_parent with
        | none => simp [hp] at h
        | some p =>
          simp only [hp] at h
          obtain ⟨ps, h2, h⟩ := Res.bind_eq_ok.1 h
          simp only [h2, Res.ok_bind]
          exact ih m _ r (by omega) h

theorem FindClosestCommonTrack_mono {M : Model} {fuel fuel' a b : Nat} {r : Option TrackPtr}
    (hle : fuel ≤ fuel') (h : _FindClosestCommonTrack M fuel a b = Res.ok r) :
    _FindClosestCommonTrack M fuel' a b = Res.ok r := by
  unfold _FindClosestCommonTrack at h ⊢
  obtain ⟨sa, h1, h⟩ := Res.bind_eq_ok.1 h
  obtain ⟨sb, h2, h⟩ := Res.bind_eq_ok.1 h
  simp only [h1, h2, Res.ok_bind]
  by_cases hp : sa.m_parent = sb.m_parent
  · simpa [hp] using h
  · simp only [hp, if_false] at h ⊢
    obtain ⟨A, h3, h⟩ := Res.bind_eq_ok.1 h
    simp only [ATracksLoop_mono _ _ _ _ _ hle h3, Res.ok_bind]
    cases hf : (sb.m_tracks.map Prod.snd).find? (fun t => decide (t ∈ A)) with
    | some t => simpa [hf] using h
    | none =>
      simp only [hf] at h ⊢
      exact BTracksLoop_mono _ _ _ _ hle h

theorem pathLoop_mono {M : Model} {L : Option TrackPtr} :
    ∀ (fuel fuel' : Nat) (cur : Option TrackPtr) (path r : List StatePtr), fuel ≤ fuel' →
      pathLoop M L fuel cur path = Res.ok r → pathLoop M L fuel' cur path = Res.ok r := by
  intro fuel
  induction fuel with
  | zero => intro fuel' cur path r _ h; simp [pathLoop] at h
  | succ n ih =>
    intro fuel' cur path r hle h
    obtain ⟨m, rfl⟩ : ∃ m, fuel' = m + 1 := ⟨fuel' - 1, by omega⟩
    unfold pathLoop at h ⊢
    by_cases hc : cur = L
    · simpa [hc] using h
    · simp only [hc, if_false] at h ⊢
      cases cur with
      | none => simp at h
      | some c =>
        simp only at h ⊢
        obtain ⟨tk, h1, h⟩ := Res.bind_eq_ok.1 h
        simp only [h1, Res.ok_bind]
        cases hp : tk.m_parent with
        | none => simp [hp] at h
        | some p =>
          simp only [hp] at h
          obtain ⟨ps, h2, h⟩ := Res.bind_eq_ok.1 h
          simp only [h2, Res.ok_bind]
          exact ih m _ _ r (by omega) h

theorem exitLoop_mono {M : Model} {L : Option TrackPtr} {fuel fuel' : Nat} (hle : fuel ≤ fuel') :
    ∀ (cur : List StatePtr) (r : List StatePtr × List HookCall),
      exitLoop M fuel L cur = Res.ok r → exitLoop M fuel' L cur = Res.ok r := by
  intro cur
  induction cur with
  | nil => intro r h; simpa [exitLoop] using h
  | cons s rest ih =>
    intro r h
    unfold exitLoop at h ⊢
    obtain ⟨⟨kept, calls⟩, h1, h⟩ := Res.bind_eq_ok.1 h
    obtain ⟨b, h2, h⟩ := Res.bind_eq_ok.1 h
    simp only [ih _ h1, IsInTrack_mono hle h2, Res.ok_bind]
    exact h

theorem enterLoop_mono {M : Model} :
    ∀ (fuel fuel' : Nat) (stack : List TrackPtr) (path cur : List StatePtr)
      (calls : List HookCall) (r : List StatePtr × List HookCall), fuel ≤ fuel' →
      enterLoop M fuel stack path cur calls = Res.ok r →
      enterLoop M fuel' stack path cur calls = Res.ok r := by
  intro fuel
  induction fuel with
  | zero => intro fuel' stack path cur calls r _ h; simp [enterLoop] at h
  | succ n ih =>
    intro fuel' stack path cur calls r hle h
    obtain ⟨m, rfl⟩ : ∃ m, fuel' = m + 1 := ⟨fuel' - 1, by omega⟩
    unfold enterLoop at h ⊢
    cases hl : stack.getLast? with
    | none => simpa [hl] using h
    | some t =>
      simp only [hl] at h ⊢
      obtain ⟨tk, h1, h⟩ := Res.bind_eq_ok.1 h
      obtain ⟨⟨cs, path'⟩, h2, h⟩ := Res.bind_eq_ok.1 h
      simp only [h1, h2, Res.ok_bind]
      cases cs with
      | none => simp at h
      | some c =>
        simp only at h ⊢
        obtain ⟨s, h3, h⟩ := Res.bind_eq_ok.1 h
        simp only [h3, Res.ok_bind]
        exact ih m _ _ _ _ r (by omega) h

theorem startLoop_mono {M : Model} :
    ∀ (fuel fuel' : Nat) (stack : List TrackPtr) (cur r : List StatePtr), fuel ≤ fuel' →
      startLoop M fuel stack cur = Res.ok r → startLoop M fuel' stack cur = Res.ok r := by
  intro fuel
  induction fuel with
  | zero => intro fuel' stack cur r _ h; simp [startLoop] at h
  | succ n ih =>
    intro fuel' stack cur r hle h
    obtain ⟨m, rfl⟩ : ∃ m, fuel' = m + 1 := ⟨fuel' - 1, by omega⟩
    unfold startLoop at h ⊢
    cases hl : stack.getLast? with
    | none => simpa [hl] using h
    | some t =>
      simp only [hl] at h ⊢
      obtain ⟨tk, h1, h⟩ := Res.bind_eq_ok.1 h
      simp only [h1, Res.ok_bind]
      cases hd : tk.m_defaultState with
      | none => simp [hd] at h
      | some d =>
        simp only [hd] at h
        obtain ⟨s, h3, h⟩ := Res.bind_eq_ok.1 h
        simp only [h3, Res.ok_bind]
        exact ih m _ _ r (by omega) h

theorem fireTransition_mono {M : Model} {fuel fuel' : Nat} {tr : EventTransition}
    {σ σ' : Runtime} (hle : fuel ≤ fuel') (h : fireTransition M fuel tr σ = Res.ok σ') :
    fireTransition M fuel' tr σ = Res.ok σ' := by
  unfold fireTransition at h ⊢
  by_cases hs : tr.source ∉ σ.m_currentStates
  · simpa [hs] using h
  · simp only [hs, if_false] at h ⊢
    obtain ⟨L, h1, h⟩ := Res.bind_eq_ok.1 h
    obtain ⟨tgt, h2, h⟩ := Res.bind_eq_ok.1 h
    obtain ⟨path, h3, h⟩ := Res.bind_eq_ok.1 h
    obtain ⟨⟨kept, exits⟩, h4, h⟩ := Res.bind_eq_ok.1 h
    simp only [FindClosestCommonTrack_mono hle h1, h2, pathLoop_mono _ _ _ _ _ hle h3,
      exitLoop_mono hle _ _ h4, Res.ok_bind]
    cases L with
    | none => simp at h
    | some ct =>
      simp only at h ⊢
      obtain ⟨⟨cur, calls⟩, h5, h⟩ := Res.bind_eq_ok.1 h
      simp only [enterLoop_mono _ _ _ _ _ _ _ hle h5, Res.ok_bind]
      exact h

theorem fireTransitions_mono {M : Model} {fuel fuel' : Nat} (hle : fuel ≤ fuel') :
    ∀ (trs : List EventTransition) (σ σ' : Runtime),
      fireTransitions M fuel trs σ = Res.ok σ' → fireTransitions M fuel' trs σ = Res.ok σ' := by
  intro trs
  induction trs with
  | nil => intro σ σ' h; simpa [fireTransitions] using h
  | cons tr rest ih =>
    intro σ σ' h
    unfold fireTransitions at h ⊢
    obtain ⟨σ1, h1, h⟩ := Res.bind_eq_ok.1 h
    simp only [fireTransition_mono hle h1, Res.ok_bind]
    exact ih _ _ h

theorem processEvent_mono {M : Model} {fuel fuel' : Nat} {evt : FName} {σ σ' : Runtime}
    (hle : fuel ≤ fuel') (h : processEvent M fuel evt σ = Res.ok σ') :
    processEvent M fuel' evt σ = Res.ok σ' := by
  unfold processEvent at h ⊢
  cases hf : tmapFind M.m_eventTransitions evt with
  | none => simp [hf] at h
  | some trs =>
    simp only [hf] at h ⊢
    exact fireTransitions_mono hle _ _ _ h

/-! ## `Start` -/

theorem Descent.init_roots {M : Model} (wf : M.WF) :
    Descent M M.m_rootTracks [] M.m_rootTracks := by
  have hlt : ∀ u ∈ M.m_rootTracks, u < M.trackHeap.length := by
    intro u hu
    obtain ⟨tk, h, _⟩ := isRoot_iff.1 (wf.root_tracks u hu)
    exact lt_of_getElem?_eq_some h
  refine ⟨by simp, by simp, wf.root_nodup, by simp, fun u hu => ⟨hlt u hu, Or.inl hu⟩, by simp,
    fun r hr => Or.inl hr, by simp, ?_⟩
  intro u hu
  rcases hu with hu | ⟨s, hs, _⟩
  · refine ⟨⟨u, hu, wf.mem_ancestors_self (hlt u hu)⟩, ?_⟩
    intro r hr hur
    rw [wf.ancestors_root (wf.root_tracks r hr)] at hur
    exact (List.mem_singleton.1 hur).symm
  · simp at hs

theorem Descent.init_single {M : Model} (wf : M.WF) {L : Nat} (hL : L < M.trackHeap.length) :
    Descent M [L] [] [L] := by
  refine ⟨by simp, by simp, by simp, by simp, fun u hu => ?_, by simp,
    fun r hr => Or.inl hr, by simp, ?_⟩
  · rw [List.mem_singleton.1 hu]; exact ⟨hL, Or.inl (by simp)⟩
  · intro u hu
    rcases hu with hu | ⟨s, hs, _⟩
    · rw [List.mem_singleton.1 hu]
      exact ⟨⟨L, by simp, wf.mem_ancestors_self hL⟩, fun r hr _ => List.mem_singleton.1 hr⟩
    · simp at hs

theorem PathInv.init_nil (M : Model) (stack : List TrackPtr) : PathInv M [] [] stack [] :=
  ⟨⟨[], by simp, by simp⟩, by simp, by simp, by simp⟩

theorem startLoop_eq_enterLoop {M : Model} :
    ∀ (fuel : Nat) (stack : List TrackPtr) (cur : List StatePtr) (calls : List HookCall),
      startLoop M fuel stack cur =
        (enterLoop M fuel stack [] cur calls >>= fun r => Res.ok r.1) := by
  intro fuel
  induction fuel with
  | zero => intro stack cur calls; simp [startLoop, enterLoop]
  | succ n ih =>
    intro stack cur calls
    unfold startLoop enterLoop
    cases hl : stack.getLast? with
    | none => simp
    | some t =>
      simp only
      cases ht : M.track t with
      | fault e => simp
      | ok tk =>
        simp only [Res.ok_bind]
        cases hd : tk.m_defaultState with
        | none => simp
        | some d =>
          simp only
          cases hs : M.state d with
          | fault e => simp
          | ok s =>
            simp only [Res.ok_bind]
            exact ih _ _ _

/-- What the descent of `Start` yields: for every number of iterations above the number of
tracks, `startLoop` returns a duplicate-free list made of exactly the states to activate. -/
theorem Model.WF.startLoop_spec {M : Model} (wf : M.WF) (hdef : DefaultsReachable M)
    {fuel : Nat} (hf : M.trackHeap.length < fuel) :
    ∃ cur, startLoop M fuel M.m_rootTracks [] = Res.ok cur ∧ cur.Nodup ∧
      (∀ s, s ∈ cur ↔ DefaultActive M s) ∧ Descent M M.m_rootTracks cur [] := by
  have hD0 := Descent.init_roots wf
  have hP0 := PathInv.init_nil M M.m_rootTracks
  obtain ⟨r, hr⟩ := wf.enterLoop_total (P := [])
    (fun u => u ∈ M.m_rootTracks ∨ ∃ p, DefaultActive M p ∧ u ∈ M.childTracks p)
    (by
      rintro u (hu | ⟨p, hp, hu⟩)
      · exact hdef.1 u hu
      · exact hdef.2 p u hp hu)
    (by
      rintro u c hu hc hch c' hc'
      rcases hch with h | h
      · simp at h
      · refine Or.inr ⟨c, ?_, hc'⟩
        rcases hu with hu | ⟨p, hp, hu⟩
        · exact DefaultActive.root hu h
        · exact DefaultActive.child hp hu h)
    fuel [] M.m_rootTracks [] [] [] hD0 hP0 (fun u hu => Or.inl hu) (by simpa using hf)
  obtain ⟨E, hE, hD, hP⟩ := wf.enterLoop_ok [] [] fuel [] _ _ r hD0 hP0
    (by simpa using hr)
  simp only [List.nil_append] at hE
  refine ⟨E, ?_, ?_, ?_, hD⟩
  · rw [startLoop_eq_enterLoop fuel _ _ [], hr, hE]; rfl
  · exact List.Nodup.of_map _ hD.nodupE
  · have hdflt : ∀ s ∈ E, ∀ t, M.stateTrack s = some t → M.defaultState t = some s := by
      intro s hs t hst
      rcases hP.choice s hs with h | ⟨t', h1, h2⟩
      · simp at h
      · rw [hst] at h1; cases h1; exact h2
    intro s
    constructor
    · intro hs
      have : ∀ n : Nat, ∀ s ∈ E, E.indexOf s = n → DefaultActive M s := by
        intro n
        induction n using Nat.strong_induction_on with
        | _ n ih =>
          intro s hs hn
          obtain ⟨t, ht⟩ := Option.isSome_iff_exists.1 (hD.valid s hs)
          rcases hD.entered_origin s hs t ht with h | ⟨p, hp, hpar, hlt⟩
          · exact DefaultActive.root h (hdflt s hs t ht)
          · exact DefaultActive.child (ih _ (hn ▸ hlt) p hp rfl) (wf.trackParent_lt hpar).2.1
              (hdflt s hs t ht)
      exact this _ s hs rfl
    · intro hs
      induction hs with
      | root ht hd =>
        rcases hD.roots_covered _ ht with h | ⟨s', hs', hst⟩
        · simp at h
        · have := hdflt s' hs' _ hst
          rw [hd] at this; cases this; exact hs'
      | child _ hc hd ih =>
        rcases hD.closed _ ih _ hc with h | ⟨s', hs', hst⟩
        · simp at h
        · have := hdflt s' hs' _ hst
          rw [hd] at this; cases this; exact hs'

/-! ## From the loop invariants to the invariants of the configuration -/

theorem Reachable.mono {M : Model} {cur cur' : List StatePtr} {t : Nat}
    (hsub : ∀ s ∈ cur, s ∈ cur') (h : Reachable M cur t) : Reachable M cur' t := by
  rcases h with h | ⟨p, hp, hpar⟩
  · exact Or.inl h
  · exact Or.inr ⟨p, hsub p hp, hpar⟩

theorem Reachable.lt {M : Model} {cur : List StatePtr} {t : Nat} (h : Reachable M cur t) :
    t < M.trackHeap.length := by
  rcases h with h | ⟨p, _, hpar⟩
  · obtain ⟨tk, h1, _⟩ := isRoot_iff.1 h
    exact lt_of_getElem?_eq_some h1
  · obtain ⟨tk, h1, _⟩ := trackParent_eq_some.1 hpar
    exact lt_of_getElem?_eq_some h1

/-- A kept configuration followed by the states of a finished descent is a configuration with
one state per reachable track, ancestors first. -/
theorem Residual.append {M : Model} (wf : M.WF) {Roots : List TrackPtr}
    {kept E : List StatePtr} (hR : Residual M Roots kept) (hD : Descent M Roots E []) :
    OnePerTrack M (kept ++ E) ∧ Ordered M (kept ++ E) := by
  have hdisj : ∀ s ∈ kept, ∀ s' ∈ E, M.stateTrack s ≠ M.stateTrack s' := by
    intro s hs s' hs' heq
    obtain ⟨t, ht⟩ := Option.isSome_iff_exists.1 (hD.valid s' hs')
    obtain ⟨r, hr, hra⟩ := (hD.under_root t (Or.inr ⟨s', hs', ht⟩)).1
    exact hR.outside s hs t (heq.trans ht) r hr hra
  have hnotin : ∀ s ∈ E, s ∉ kept := fun s hs hs' => hdisj s hs' s hs rfl
  have hroots : ∀ t : Nat, t < M.trackHeap.length → Reachable M kept t →
      ∃ s ∈ kept ++ E, M.stateTrack s = some t := by
    intro t ht hreach
    rcases (hR.reach t ht).1 hreach with ⟨s, hs, hst⟩ | h
    · exact ⟨s, List.mem_append_left _ hs, hst⟩
    · rcases hD.roots_covered t h with h' | ⟨s, hs, hst⟩
      · simp at h'
      · exact ⟨s, List.mem_append_right _ hs, hst⟩
  refine ⟨⟨?_, ?_, ?_⟩, ?_⟩
  · intro s hs
    rcases List.mem_append.1 hs with h | h
    · obtain ⟨t, ht⟩ := Option.isSome_iff_exists.1 (hR.valid s h)
      refine ⟨t, ht, Reachable.mono (fun x hx => List.mem_append_left _ hx) ?_⟩
      exact (hR.reach t (wf.stateTrack_lt ht).2).2 (Or.inl ⟨s, h, ht⟩)
    · obtain ⟨t, ht⟩ := Option.isSome_iff_exists.1 (hD.valid s h)
      refine ⟨t, ht, ?_⟩
      rcases hD.entered_origin s h t ht with h' | ⟨p, hp, hpar, _⟩
      · exact Reachable.mono (fun x hx => List.mem_append_left _ hx)
          ((hR.reach t (wf.stateTrack_lt ht).2).2 (Or.inr h'))
      · exact Or.inr ⟨p, List.mem_append_right _ hp, hpar⟩
  · intro t ht hreach
    rcases hreach with h | ⟨p, hp, hpar⟩
    · exact hroots t ht (Or.inl h)
    · rcases List.mem_append.1 hp with h | h
      · exact hroots t ht (Or.inr ⟨p, h, hpar⟩)
      · rcases hD.closed p h t (wf.trackParent_lt hpar).2.1 with h' | ⟨s, hs, hst⟩
        · simp at h'
        · exact ⟨s, List.mem_append_right _ hs, hst⟩
  · rw [List.map_append, List.nodup_append]
    refine ⟨hR.nodup, hD.nodupE, ?_⟩
    intro x hx hx'
    obtain ⟨s, hs, rfl⟩ := List.mem_map.1 hx
    obtain ⟨s', hs', heq⟩ := List.mem_map.1 hx'
    exact hdisj s hs s' hs' heq.symm
  · intro s hs t ht p hp
    simp only [Option.mem_def] at ht hp
    rcases List.mem_append.1 hs with h | h
    · obtain ⟨h1, h2⟩ := hR.ordered s h t ht p hp
      refine ⟨List.mem_append_left _ h1, ?_⟩
      rw [List.indexOf_append_of_mem h1, List.indexOf_append_of_mem h]
      exact h2
    · have hs_not := hnotin s h
      rw [List.indexOf_append_of_not_mem hs_not]
      rcases hD.entered_origin s h t ht with h' | ⟨p', hp', hpar, hlt⟩
      · have hreach := (hR.reach t (wf.stateTrack_lt ht).2).2 (Or.inr h')
        rcases hreach with hroot | ⟨p', hp', hpar⟩
        · rw [trackParent_none_of_isRoot hroot] at hp; cases hp
        · rw [hp] at hpar; cases hpar
          refine ⟨List.mem_append_left _ hp', ?_⟩
          rw [List.indexOf_append_of_mem hp']
          have := List.indexOf_lt_length.2 hp'
          omega
      · rw [hp] at hpar; cases hpar
        refine ⟨List.mem_append_right _ hp', ?_⟩
        rw [List.indexOf_append_of_not_mem (hnotin p hp')]
        omega

theorem Residual.nil {M : Model} (wf : M.WF) : Residual M M.m_rootTracks [] := by
  refine ⟨by simp, by simp, ?_, by simp, ?_⟩
  · intro u hu
    constructor
    · rintro (h | ⟨p, hp, _⟩)
      · exact Or.inr (wf.root_listed u hu h)
      · simp at hp
    · rintro (⟨s, hs, _⟩ | h)
      · simp at hs
      · exact Or.inl (wf.root_tracks u h)
  · intro s hs; simp at hs

theorem indexOf_filter_lt {f : StatePtr → Bool} :
    ∀ (l : List StatePtr) (p s : Nat), f p = true → f s = true → p ∈ l →
      l.indexOf p < l.indexOf s → (l.filter f).indexOf p < (l.filter f).indexOf s := by
  intro l
  induction l with
  | nil => intro p s _ _ hp; simp at hp
  | cons x r ih =>
    intro p s hfp hfs hp hlt
    by_cases hxp : x = p
    · subst hxp
      have hne : x ≠ s := by
        intro h; subst h; simp at hlt
      simp only [List.filter_cons, hfp, if_true]
      rw [List.indexOf_cons_self, List.indexOf_cons_ne _ hne]
      omega
    · have hxs : x ≠ s := by
        intro h; subst h
        rw [List.indexOf_cons_self] at hlt
        omega
      rw [List.indexOf_cons_ne _ hxp, List.indexOf_cons_ne _ hxs] at hlt
      have hp' : p ∈ r := by
        rcases List.mem_cons.1 hp with h | h
        · exact absurd h.symm hxp
        · exact h
      have := ih p s hfp hfs hp' (by omega)
      simp only [List.filter_cons]
      by_cases hfx : f x = true
      · simp only [hfx, if_true]
        rw [List.indexOf_cons_ne _ hxp, List.indexOf_cons_ne _ hxs]
        omega
      · simp only [hfx]
        exact this

/-! ## `_FindClosestCommonTrack` and the explicit path -/

theorem Model.WF.ATracksLoop_spec {M : Model} (wf : M.WF) :
    ∀ (u : Nat), u < M.trackHeap.length → ∀ (fuel : Nat) (acc : List TrackPtr),
      (u + 2 ≤ fuel → ATracksLoop M fuel (some u) acc = Res.ok (acc ++ M.ancestors u)) ∧
      (∀ r, ATracksLoop M fuel (some u) acc = Res.ok r → r = acc ++ M.ancestors u) := by
  intro u
  induction u using Nat.strong_induction_on with
  | _ u ih =>
    intro hu fuel acc
    cases fuel with
    | zero => exact ⟨fun h => by omega, fun r h => by simp [ATracksLoop] at h⟩
    | succ f =>
      obtain ⟨tk, htk, htk'⟩ := track_of_lt hu
      unfold ATracksLoop
      simp only [htk', Res.ok_bind]
      cases hp : tk.m_parent with
      | none =>
        have hroot : M.isRoot u = true := isRoot_iff.2 ⟨tk, htk, hp⟩
        rw [wf.ancestors_root hroot]
        cases f with
        | zero => exact ⟨fun h => by omega, fun r h => by simp [ATracksLoop] at h⟩
        | succ f' =>
          simp only [ATracksLoop]
          exact ⟨fun _ => trivial, fun r h => by cases h; rfl⟩
      | some p =>
        have hpar : M.trackParent u = some p := trackParent_eq_some.2 ⟨tk, htk, hp⟩
        obtain ⟨_, _, v, hv, hlt⟩ := wf.trackParent_lt hpar
        obtain ⟨ps, hps, rfl⟩ := stateTrack_eq_some.1 hv
        simp only [state_eq_ok.2 hps, Res.ok_bind]
        have := ih ps.m_parent hlt (wf.stateTrack_lt hv).2 f (acc ++ [u])
        rw [wf.ancestors_step hpar hv]
        simp only [List.append_assoc, List.singleton_append] at this
        exact ⟨fun h => this.1 (by omega), this.2⟩

theorem Model.WF.BTracksLoop_ok {M : Model} (wf : M.WF) {A : List TrackPtr} :
    ∀ (u : Nat), u < M.trackHeap.length → ∀ (fuel : Nat) (r : Option TrackPtr),
      BTracksLoop M A fuel (some u) = Res.ok r →
      ∃ L : Nat, r = some L ∧ L ∈ A ∧ L ∈ M.ancestors u := by
  intro u
  induction u using Nat.strong_induction_on with
  | _ u ih =>
    intro hu fuel r h
    cases fuel with
    | zero => simp [BTracksLoop] at h
    | succ f =>
      unfold BTracksLoop at h
      by_cases hA : u ∈ A
      · simp only [hA, if_true] at h
        cases h
        exact ⟨u, rfl, hA, wf.mem_ancestors_self hu⟩
      · simp only [hA, if_false] at h
        obtain ⟨tk, htk, h⟩ := Res.bind_eq_ok.1 h
        cases hp : tk.m_parent with
        | none => simp [hp] at h
        | some p =>
          simp only [hp] at h
          obtain ⟨ps, hps, h⟩ := Res.bind_eq_ok.1 h
          have hpar : M.trackParent u = some p :=
            trackParent_eq_some.2 ⟨tk, track_eq_ok.1 htk, hp⟩
          have hv : M.stateTrack p = some ps.m_parent :=
            stateTrack_eq_some.2 ⟨ps, state_eq_ok.1 hps, rfl⟩
          obtain ⟨L, h1, h2, h3⟩ := ih ps.m_parent (wf.up_lt hpar hv) (wf.stateTrack_lt hv).2 f r h
          exact ⟨L, h1, h2, by rw [wf.ancestors_step hpar hv]; exact List.mem_cons_of_mem _ h3⟩

theorem Model.WF.BTracksLoop_total {M : Model} (wf : M.WF) {A : List TrackPtr} :
    ∀ (u : Nat), u < M.trackHeap.length → ∀ (fuel : Nat),
      (∃ x ∈ M.ancestors u, x ∈ A) → u + 1 ≤ fuel →
      ∃ L, BTracksLoop M A fuel (some u) = Res.ok (some L) := by
  intro u
  induction u using Nat.strong_induction_on with
  | _ u ih =>
    intro hu fuel hx hf
    obtain ⟨f, rfl⟩ : ∃ f, fuel = f + 1 := ⟨fuel - 1, by omega⟩
    unfold BTracksLoop
    by_cases hA : u ∈ A
    · exact ⟨u, by simp [hA]⟩
    · simp only [hA, if_false]
      obtain ⟨x, hxu, hxA⟩ := hx
      rw [wf.ancestors_eq hu] at hxu
      rcases List.mem_cons.1 hxu with rfl | hxu
      · exact absurd hxA hA
      · cases hp : M.trackParent u with
        | none => simp [hp] at hxu
        | some p =>
          cases hv : M.stateTrack p with
          | none => simp [hp, hv] at hxu
          | some v =>
            simp only [hp, hv] at hxu
            obtain ⟨tk, htk, hpp⟩ := trackParent_eq_some.1 hp
            obtain ⟨ps, hps, rfl⟩ := stateTrack_eq_some.1 hv
            simp only [track_eq_ok.2 htk, Res.ok_bind, hpp, state_eq_ok.2 hps]
            have hlt := wf.up_lt hp hv
            exact ih ps.m_parent hlt (wf.stateTrack_lt hv).2 f ⟨x, hxu, hxA⟩ (by omega)

/-- What `_FindClosestCommonTrack` returns when it returns: never null; the common parent
track, or a track of `ATracks` (child tracks of `_stateA`, then its ancestor chain) that is a
child track of `_stateB` or on the ancestor chain of `_stateB`. -/
theorem Model.WF.fcct_ok {M : Model} (wf : M.WF) {fuel a b : Nat} {r : Option TrackPtr}
    (h : _FindClosestCommonTrack M fuel a b = Res.ok r) :
    ∃ L ta tb : Nat, r = some L ∧ M.stateTrack a = some ta ∧ M.stateTrack b = some tb ∧
      ((ta = tb ∧ L = ta) ∨
       (ta ≠ tb ∧ L ∈ M.childTracks a ++ M.ancestors ta ∧
         (L ∈ M.childTracks b ∨ L ∈ M.ancestors tb))) := by
  unfold _FindClosestCommonTrack at h
  obtain ⟨sa, hsa, h⟩ := Res.bind_eq_ok.1 h
  obtain ⟨sb, hsb, h⟩ := Res.bind_eq_ok.1 h
  have hta : M.stateTrack a = some sa.m_parent := stateTrack_eq_some.2 ⟨sa, state_eq_ok.1 hsa, rfl⟩
  have htb : M.stateTrack b = some sb.m_parent := stateTrack_eq_some.2 ⟨sb, state_eq_ok.1 hsb, rfl⟩
  have hca : M.childTracks a = sa.m_tracks.map Prod.snd := by
    simp [Model.childTracks, state_eq_ok.1 hsa]
  have hcb : M.childTracks b = sb.m_tracks.map Prod.snd := by
    simp [Model.childTracks, state_eq_ok.1 hsb]
  by_cases hp : sa.m_parent = sb.m_parent
  · simp only [hp, if_true] at h
    cases h
    exact ⟨sb.m_parent, sa.m_parent, sb.m_parent, rfl, hta, htb, Or.inl ⟨hp, hp.symm⟩⟩
  · simp only [hp, if_false] at h
    obtain ⟨A, hA, h⟩ := Res.bind_eq_ok.1 h
    have hA' := (wf.ATracksLoop_spec sa.m_parent (wf.stateTrack_lt hta).2 fuel _).2 A hA
    rw [← hca] at hA'
    cases hf : (sb.m_tracks.map Prod.snd).find? (fun t => decide (t ∈ A)) with
    | some t =>
      simp only [hf] at h
      cases h
      have h1 := List.find?_some hf
      have h2 := List.mem_of_find?_eq_some hf
      simp only [decide_eq_true_eq] at h1
      exact ⟨t, sa.m_parent, sb.m_parent, rfl, hta, htb,
        Or.inr ⟨hp, hA' ▸ h1, Or.inl (hcb ▸ h2)⟩⟩
    | none =>
      simp only [hf] at h
      obtain ⟨L, h1, h2, h3⟩ := wf.BTracksLoop_ok sb.m_parent (wf.stateTrack_lt htb).2 fuel r h
      exact ⟨L, sa.m_parent, sb.m_parent, h1, hta, htb, Or.inr ⟨hp, hA' ▸ h2, Or.inr h3⟩⟩

/-- The function `_FindClosestCommonTrack` returns a track of the target's ancestor chain when the two
chains share a track and no child track of the target is on the source's chain. -/
theorem Model.WF.fcct_total {M : Model} (wf : M.WF) {fuel a b ta tb : Nat}
    (ha : M.stateTrack a = some ta) (hb : M.stateTrack b = some tb)
    (hshare : ∃ x ∈ M.ancestors tb, x ∈ M.ancestors ta)
    (hnot : ∀ c ∈ M.childTracks b, c ∉ M.ancestors ta)
    (hf : M.trackHeap.length + 1 ≤ fuel) :
    ∃ L : Nat, _FindClosestCommonTrack M fuel a b = Res.ok (some L) ∧ L ∈ M.ancestors tb ∧
      (L ∈ M.ancestors ta ∨ L ∈ M.childTracks a) := by
  obtain ⟨sa, hsa, rfl⟩ := stateTrack_eq_some.1 ha
  obtain ⟨sb, hsb, rfl⟩ := stateTrack_eq_some.1 hb
  have hta := (wf.stateTrack_lt ha).2
  have htb := (wf.stateTrack_lt hb).2
  have hca : M.childTracks a = sa.m_tracks.map Prod.snd := by simp [Model.childTracks, hsa]
  have hcb : M.childTracks b = sb.m_tracks.map Prod.snd := by simp [Model.childTracks, hsb]
  unfold _FindClosestCommonTrack
  simp only [state_eq_ok.2 hsa, state_eq_ok.2 hsb, Res.ok_bind]
  by_cases hp : sa.m_parent = sb.m_parent
  · simp only [hp, if_true]
    exact ⟨sb.m_parent, rfl, wf.mem_ancestors_self htb, Or.inl (hp ▸ wf.mem_ancestors_self hta)⟩
  · simp only [hp, if_false]
    rw [(wf.ATracksLoop_spec sa.m_parent hta fuel _).1 (by omega)]
    simp only [Res.ok_bind]
    have hnone : (sb.m_tracks.map Prod.snd).find?
        (fun t => decide (t ∈ sa.m_tracks.map Prod.snd ++ M.ancestors sa.m_parent)) = none := by
      rw [List.find?_eq_none]
      intro c hc
      simp only [decide_eq_true_eq]
      intro hmem
      rw [← hcb] at hc
      rcases List.mem_append.1 hmem with h | h
      · rw [← hca] at h
        have h1 := (wf.childTracks_parent h).1
        have h2 := (wf.childTracks_parent hc).1
        rw [h1] at h2
        have : a = b := Option.some.inj h2
        subst this
        rw [hsa] at hsb
        cases hsb
        exact hp rfl
      · exact hnot c hc h
    simp only [hnone]
    obtain ⟨x, hx1, hx2⟩ := hshare
    obtain ⟨L, hL⟩ := wf.BTracksLoop_total sb.m_parent htb fuel
      ⟨x, hx1, List.mem_append_right _ hx2⟩ (by omega)
    obtain ⟨L', h1, h2, h3⟩ := wf.BTracksLoop_ok sb.m_parent htb fuel _ hL
    cases h1
    refine ⟨L, hL, h3, ?_⟩
    rcases List.mem_append.1 h2 with h | h
    · exact Or.inr (hca ▸ h)
    · exact Or.inl h

theorem pathLoop_ok {M : Model} {L : Nat} :
    ∀ (fuel u : Nat) (path r : List StatePtr),
      pathLoop M (some L) fuel (some u) path = Res.ok r →
      (∀ h ∈ path.head?, M.stateTrack h = some u) → path.Chain' (PathLink M) →
      ∃ pre, r = pre ++ path ∧ r.Chain' (PathLink M) ∧
        (∀ h ∈ r.head?, M.stateTrack h = some L) := by
  intro fuel
  induction fuel with
  | zero => intro u path r h; simp [pathLoop] at h
  | succ f ih =>
    intro u path r h hhead hchain
    unfold pathLoop at h
    by_cases hu : some u = some L
    · simp only [hu, if_true] at h
      cases h
      have : u = L := Option.some.inj hu
      subst this
      exact ⟨[], rfl, hchain, hhead⟩
    · simp only [hu, if_false] at h
      obtain ⟨tk, htk, h⟩ := Res.bind_eq_ok.1 h
      cases hp : tk.m_parent with
      | none => simp [hp] at h
      | some p =>
        simp only [hp] at h
        obtain ⟨ps, hps, h⟩ := Res.bind_eq_ok.1 h
        have hpar : M.trackParent u = some p :=
          trackParent_eq_some.2 ⟨tk, track_eq_ok.1 htk, hp⟩
        have hv : M.stateTrack p = some ps.m_parent :=
          stateTrack_eq_some.2 ⟨ps, state_eq_ok.1 hps, rfl⟩
        obtain ⟨pre, h1, h2, h3⟩ := ih ps.m_parent (p :: path) r h
          (by intro x hx; simp at hx; subst hx; exact hv)
          (by
            cases path with
            | nil => exact List.chain'_singleton _
            | cons y rest =>
              exact List.chain'_cons.2 ⟨⟨u, hhead y (by simp), hpar⟩, hchain⟩)
        exact ⟨pre ++ [p], by simp [h1], h2, h3⟩

theorem Model.WF.pathLoop_total {M : Model} (wf : M.WF) {L : Nat} :
    ∀ (u : Nat), u < M.trackHeap.length → L ∈ M.ancestors u →
      ∀ (fuel : Nat) (path : List StatePtr), u + 1 ≤ fuel →
      ∃ r, pathLoop M (some L) fuel (some u) path = Res.ok r := by
  intro u
  induction u using Nat.strong_induction_on with
  | _ u ih =>
    intro hu hL fuel path hf
    obtain ⟨f, rfl⟩ : ∃ f, fuel = f + 1 := ⟨fuel - 1, by omega⟩
    unfold pathLoop
    by_cases huL : some u = some L
    · exact ⟨path, by simp [huL]⟩
    · simp only [huL, if_false]
      have hne : L ≠ u := fun h => huL (by rw [h])
      rw [wf.ancestors_eq hu] at hL
      rcases List.mem_cons.1 hL with h | hL
      · exact absurd h hne
      · cases hp : M.trackParent u with
        | none => simp [hp] at hL
        | some p =>
          cases hv : M.stateTrack p with
          | none => simp [hp, hv] at hL
          | some v =>
            simp only [hp, hv] at hL
            obtain ⟨tk, htk, hpp⟩ := trackParent_eq_some.1 hp
            obtain ⟨ps, hps, rfl⟩ := stateTrack_eq_some.1 hv
            simp only [track_eq_ok.2 htk, Res.ok_bind, hpp, state_eq_ok.2 hps]
            have hlt := wf.up_lt hp hv
            exact ih ps.m_parent hlt (wf.stateTrack_lt hv).2 hL f _ (by omega)

/-! ## One transition -/

theorem Model.WF.mem_ancestors_lt {M : Model} (wf : M.WF) {t x : Nat}
    (ht : t < M.trackHeap.length) (hx : x ∈ M.ancestors t) : x < M.trackHeap.length := by
  have := wf.mem_ancestors_le t ht x hx
  omega

theorem inSubtree_iff {M : Model} {L s t : Nat} (h : M.stateTrack s = some t) :
    M.inSubtree L s = true ↔ L ∈ M.ancestors t := by
  rw [inSubtree_eq L h]; simp

/-- The tracks on the ancestor chain of an active state are reachable. -/
theorem Model.WF.reachable_of_ancestor {M : Model} (wf : M.WF) {cur : List StatePtr}
    (hO : OnePerTrack M cur) :
    ∀ (t : Nat), ∀ s ∈ cur, M.stateTrack s = some t → ∀ x ∈ M.ancestors t,
      Reachable M cur x := by
  intro t
  induction t using Nat.strong_induction_on with
  | _ t ih =>
    intro s hs hst x hx
    have hreach : Reachable M cur t := by
      obtain ⟨t', ht', hr⟩ := hO.1 s hs
      simp only [Option.mem_def] at ht'
      rw [hst] at ht'; cases ht'; exact hr
    rw [wf.ancestors_eq (wf.stateTrack_lt hst).2] at hx
    rcases List.mem_cons.1 hx with rfl | hx
    · exact hreach
    · cases hp : M.trackParent t with
      | none => simp [hp] at hx
      | some p =>
        cases hv : M.stateTrack p with
        | none => simp [hp, hv] at hx
        | some v =>
          simp only [hp, hv] at hx
          rcases hreach with hroot | ⟨p', hp', hpar⟩
          · rw [trackParent_none_of_isRoot hroot] at hp; cases hp
          · rw [hp] at hpar; cases hpar
            exact ih v (wf.up_lt hp hv) p hp' hv x hx

theorem Model.WF.reachable_common {M : Model} (wf : M.WF) {cur : List StatePtr}
    (hO : OnePerTrack M cur) {a ta L : Nat} (ha : a ∈ cur) (hta : M.stateTrack a = some ta)
    (hL : L ∈ M.childTracks a ++ M.ancestors ta) : Reachable M cur L := by
  rcases List.mem_append.1 hL with h | h
  · exact Or.inr ⟨a, ha, (wf.childTracks_parent h).1⟩
  · exact wf.reachable_of_ancestor hO ta a ha hta L h

/-- Exiting the subtree of a reachable track leaves a residual configuration. -/
theorem Residual.filter {M : Model} (wf : M.WF) {cur : List StatePtr} {L : Nat}
    (hO : OnePerTrack M cur) (hOrd : Ordered M cur) (hL : Reachable M cur L) :
    Residual M [L] (cur.filter (fun s => !M.inSubtree L s)) := by
  have hvalid : ∀ s ∈ cur, ∃ t : Nat, M.stateTrack s = some t ∧ Reachable M cur t := by
    intro s hs
    obtain ⟨t, ht, hr⟩ := hO.1 s hs
    exact ⟨t, ht, hr⟩
  have hmem : ∀ s, s ∈ cur.filter (fun s => !M.inSubtree L s) ↔
      s ∈ cur ∧ M.inSubtree L s = false := by
    intro s; simp [List.mem_filter]
  -- the parent state of the track of a kept state is kept
  have hparent : ∀ s ∈ cur, M.inSubtree L s = false → ∀ t : Nat, M.stateTrack s = some t →
      ∀ p : Nat, M.trackParent t = some p → M.inSubtree L p = false := by
    intro s _ hin t ht p hp
    obtain ⟨_, _, v, hv, _⟩ := wf.trackParent_lt hp
    cases hpin : M.inSubtree L p with
    | false => rfl
    | true =>
      have h1 := (inSubtree_iff hv).1 hpin
      have h2 : M.inSubtree L s = true := by
        rw [inSubtree_iff ht, wf.ancestors_step hp hv]
        exact List.mem_cons_of_mem _ h1
      rw [hin] at h2; cases h2
  refine ⟨?_, ?_, ?_, ?_, ?_⟩
  · intro s hs
    obtain ⟨t, ht, _⟩ := hvalid s ((hmem s).1 hs).1
    rw [ht]; rfl
  · exact hO.2.2.sublist ((List.filter_sublist _).map _)
  · intro u hu
    constructor
    · intro hreach
      have hreach' : Reachable M cur u := Reachable.mono (fun x hx => ((hmem x).1 hx).1) hreach
      obtain ⟨s, hs, hst⟩ := hO.2.1 u hu hreach'
      cases hin : M.inSubtree L s with
      | false => exact Or.inl ⟨s, (hmem s).2 ⟨hs, hin⟩, hst⟩
      | true =>
        right
        have hLu := (inSubtree_iff hst).1 hin
        rcases hreach with hroot | ⟨p, hp, hpar⟩
        · rw [wf.ancestors_root hroot] at hLu
          simp only [List.mem_singleton] at hLu
          simp [hLu]
        · obtain ⟨_, _, v, hv, _⟩ := wf.trackParent_lt hpar
          rw [wf.ancestors_step hpar hv] at hLu
          rcases List.mem_cons.1 hLu with h | h
          · simp [h]
          · have := (inSubtree_iff hv).2 h
            rw [((hmem p).1 hp).2] at this; cases this
    · rintro (⟨s, hs, hst⟩ | h)
      · obtain ⟨hs1, hs2⟩ := (hmem s).1 hs
        obtain ⟨t, ht, hr⟩ := hvalid s hs1
        rw [hst] at ht; cases ht
        rcases hr with hroot | ⟨p, hp, hpar⟩
        · exact Or.inl hroot
        · exact Or.inr ⟨p, (hmem p).2 ⟨hp, hparent s hs1 hs2 u hst p hpar⟩, hpar⟩
      · rw [List.mem_singleton.1 h]
        rcases hL with hroot | ⟨p, hp, hpar⟩
        · exact Or.inl hroot
        · refine Or.inr ⟨p, (hmem p).2 ⟨hp, ?_⟩, hpar⟩
          obtain ⟨_, _, v, hv, hlt⟩ := wf.trackParent_lt hpar
          cases hpin : M.inSubtree L p with
          | false => rfl
          | true =>
            have h1 := (inSubtree_iff hv).1 hpin
            have := wf.mem_ancestors_le v (wf.stateTrack_lt hv).2 L h1
            omega
  · intro s hs t ht r hr
    rw [List.mem_singleton.1 hr]
    intro hLt
    have := (inSubtree_iff ht).2 hLt
    rw [((hmem s).1 hs).2] at this; cases this
  · intro s hs t ht p hp
    simp only [Option.mem_def] at ht hp
    obtain ⟨hs1, hs2⟩ := (hmem s).1 hs
    obtain ⟨h1, h2⟩ := hOrd s hs1 t ht p hp
    have hpk := hparent s hs1 hs2 t ht p hp
    refine ⟨(hmem p).2 ⟨h1, hpk⟩, ?_⟩
    exact indexOf_filter_lt cur p s (by simp [hpk]) (by simp [hs2]) h1 h2

/-- Anatomy of a transition that fires and returns: common track `L`, explicit path, states
kept by the exit loop, and the list `E` of states the enter loop appends. -/
theorem Model.WF.fireTransition_ok {M : Model} (wf : M.WF) {fuel : Nat} {tr : EventTransition}
    {σ σ' : Runtime} (hs : tr.source ∈ σ.m_currentStates)
    (h : fireTransition M fuel tr σ = Res.ok σ') :
    ∃ (L tt : Nat) (path E : List StatePtr),
      _FindClosestCommonTrack M fuel tr.source tr.target = Res.ok (some L) ∧
      L < M.trackHeap.length ∧
      M.stateTrack tr.target = some tt ∧
      pathLoop M (some L) fuel (some tt) [tr.target] = Res.ok path ∧
      σ' = { σ with
        m_currentStates := (exitResult M L σ.m_currentStates).1 ++ E
        calls := σ.calls ++ (exitResult M L σ.m_currentStates).2 ++ E.map HookCall.enter } ∧
      Descent M [L] E [] ∧ PathInv M path E [] [] := by
  unfold fireTransition at h
  simp only [hs, not_true_eq_false, if_false] at h
  obtain ⟨r, hfc, h⟩ := Res.bind_eq_ok.1 h
  obtain ⟨tgt, htgt, h⟩ := Res.bind_eq_ok.1 h
  obtain ⟨path, hpath, h⟩ := Res.bind_eq_ok.1 h
  obtain ⟨⟨kept, exits⟩, hexit, h⟩ := Res.bind_eq_ok.1 h
  obtain ⟨L, ta, tb, rfl, hta, htb, hLrel⟩ := wf.fcct_ok hfc
  have hLlt : L < M.trackHeap.length := by
    rcases hLrel with ⟨_, h2⟩ | ⟨_, h2, _⟩
    · rw [h2]; exact (wf.stateTrack_lt hta).2
    · rcases List.mem_append.1 h2 with h3 | h3
      · exact (wf.childTracks_parent h3).2
      · exact wf.mem_ancestors_lt (wf.stateTrack_lt hta).2 h3
  simp only at h
  obtain ⟨⟨cur, calls⟩, henter, h⟩ := Res.bind_eq_ok.1 h
  have htt : M.stateTrack tr.target = some tgt.m_parent :=
    stateTrack_eq_some.2 ⟨tgt, state_eq_ok.1 htgt, rfl⟩
  obtain ⟨pre, hpre, hchain, hhead⟩ := pathLoop_ok fuel tgt.m_parent [tr.target] path hpath
    (by intro x hx; simp at hx; subst hx; exact htt) (List.chain'_singleton _)
  have hex := wf.exitLoop_ok _ _ hexit
  have hP0 : PathInv M path [] [L] path :=
    ⟨⟨[], by simp, by simp⟩, fun x hx => ⟨L, by simp, hhead x hx⟩, hchain, by simp⟩
  have hD0 := Descent.init_single wf hLlt
  obtain ⟨E, hE, hD, hP⟩ := wf.enterLoop_ok kept (σ.calls ++ exits)
    fuel [] [L] path (cur, calls) hD0 hP0 (by simpa using henter)
  simp only [Prod.mk.injEq] at hE
  refine ⟨L, tgt.m_parent, path, E, hfc, hLlt, htt, hpath, ?_, hD, hP⟩
  simp only [Res.pure_eq, Res.ok.injEq] at h
  rw [← h, hE.1, hE.2]
  have h1 : kept = (exitResult M L σ.m_currentStates).1 := by rw [← hex]
  have h2 : exits = (exitResult M L σ.m_currentStates).2 := by rw [← hex]
  rw [h1, h2]

/-- A transition that returns keeps the two invariants of the configuration and changes
nothing but the configuration and the record of calls. -/
theorem Model.WF.fireTransition_inv {M : Model} (wf : M.WF) {fuel : Nat} {tr : EventTransition}
    {σ σ' : Runtime} (hO : OnePerTrack M σ.m_currentStates) (hOrd : Ordered M σ.m_currentStates)
    (h : fireTransition M fuel tr σ = Res.ok σ') :
    OnePerTrack M σ'.m_currentStates ∧ Ordered M σ'.m_currentStates ∧
      σ'.m_eventsQueue = σ.m_eventsQueue ∧ σ'.m_ticking = σ.m_ticking ∧
      σ'.m_started = σ.m_started ∧
      σ'.bImmediatelyDequeueEvents = σ.bImmediatelyDequeueEvents ∧
      σ'.errorLogs = σ.errorLogs := by
  by_cases hs : tr.source ∈ σ.m_currentStates
  · obtain ⟨L, tt, path, E, hfc, hLlt, htt, hpath, hσ, hD, hP⟩ := wf.fireTransition_ok hs h
    obtain ⟨L', ta, tb, hL', hta, htb, hLrel⟩ := wf.fcct_ok hfc
    cases hL'
    have hreach : Reachable M σ.m_currentStates L := by
      rcases hLrel with ⟨_, h2⟩ | ⟨_, h2, _⟩
      · rw [h2]
        exact wf.reachable_common hO hs hta
          (List.mem_append_right _ (wf.mem_ancestors_self (wf.stateTrack_lt hta).2))
      · exact wf.reachable_common hO hs hta h2
    have hR := Residual.filter wf hO hOrd hreach
    have := Residual.append wf hR hD
    rw [hσ]
    exact ⟨this.1, this.2, rfl, rfl, rfl, rfl, rfl⟩
  · unfold fireTransition at h
    simp only [hs, not_false_eq_true, if_true, Res.ok.injEq] at h
    rw [← h]
    exact ⟨hO, hOrd, rfl, rfl, rfl, rfl, rfl⟩

/-! ## Invariants of the operations -/

/-- The two invariants of the configuration, and the flags a drain of the queue keeps. -/
theorem Model.WF.fireTransitions_inv {M : Model} (wf : M.WF) {fuel : Nat} :
    ∀ (trs : List EventTransition) (σ σ' : Runtime),
      OnePerTrack M σ.m_currentStates → Ordered M σ.m_currentStates →
      fireTransitions M fuel trs σ = Res.ok σ' →
      OnePerTrack M σ'.m_currentStates ∧ Ordered M σ'.m_currentStates ∧
        σ'.m_eventsQueue = σ.m_eventsQueue ∧ σ'.m_ticking = σ.m_ticking ∧
        σ'.m_started = σ.m_started ∧
        σ'.bImmediatelyDequeueEvents = σ.bImmediatelyDequeueEvents ∧
        σ'.errorLogs = σ.errorLogs := by
  intro trs
  induction trs with
  | nil =>
    intro σ σ' hO hOrd h
    simp only [fireTransitions, Res.ok.injEq] at h
    rw [← h]; exact ⟨hO, hOrd, rfl, rfl, rfl, rfl, rfl⟩
  | cons tr rest ih =>
    intro σ σ' hO hOrd h
    unfold fireTransitions at h
    obtain ⟨σ1, h1, h⟩ := Res.bind_eq_ok.1 h
    obtain ⟨a1, a2, a3, a4, a5, a6, a7⟩ := wf.fireTransition_inv hO hOrd h1
    obtain ⟨b1, b2, b3, b4, b5, b6, b7⟩ := ih σ1 σ' a1 a2 h
    exact ⟨b1, b2, b3.trans a3, b4.trans a4, b5.trans a5, b6.trans a6, b7.trans a7⟩

theorem Model.WF.processEvent_inv {M : Model} (wf : M.WF) {fuel : Nat} {evt : FName}
    {σ σ' : Runtime} (hO : OnePerTrack M σ.m_currentStates) (hOrd : Ordered M σ.m_currentStates)
    (h : processEvent M fuel evt σ = Res.ok σ') :
    OnePerTrack M σ'.m_currentStates ∧ Ordered M σ'.m_currentStates ∧
      σ'.m_eventsQueue = σ.m_eventsQueue ∧ σ'.m_ticking = σ.m_ticking ∧
      σ'.m_started = σ.m_started ∧
      σ'.bImmediatelyDequeueEvents = σ.bImmediatelyDequeueEvents ∧
      σ'.errorLogs = σ.errorLogs := by
  unfold processEvent at h
  cases hf : tmapFind M.m_eventTransitions evt with
  | none => simp [hf] at h
  | some trs =>
    simp only [hf] at h
    exact wf.fireTransitions_inv trs σ σ' hO hOrd h

theorem Model.WF.dequeueLoop_inv {M : Model} (wf : M.WF) {fuel : Nat} :
    ∀ (remaining count : Nat) (σ : Runtime) (r : Nat × Runtime),
      OnePerTrack M σ.m_currentStates → Ordered M σ.m_currentStates →
      dequeueLoop M fuel remaining count σ = Res.ok r →
      OnePerTrack M r.2.m_currentStates ∧ Ordered M r.2.m_currentStates ∧
        r.2.m_ticking = σ.m_ticking ∧ r.2.m_started = σ.m_started ∧
        r.2.bImmediatelyDequeueEvents = σ.bImmediatelyDequeueEvents := by
  intro remaining
  induction remaining with
  | zero =>
    intro count σ r hO hOrd h
    simp only [dequeueLoop, Res.ok.injEq] at h
    rw [← h]; exact ⟨hO, hOrd, rfl, rfl, rfl⟩
  | succ n ih =>
    intro count σ r hO hOrd h
    unfold dequeueLoop at h
    cases hq : σ.m_eventsQueue with
    | nil =>
      simp only [hq, Res.ok.injEq] at h
      rw [← h]; exact ⟨hO, hOrd, rfl, rfl, rfl⟩
    | cons evt queue =>
      simp only [hq] at h
      obtain ⟨σ1, h1, h⟩ := Res.bind_eq_ok.1 h
      obtain ⟨a1, a2, _, a4, a5, a6, _⟩ :=
        wf.processEvent_inv (σ := { σ with m_eventsQueue := queue }) hO hOrd h1
      obtain ⟨b1, b2, b3, b4, b5⟩ := ih _ σ1 r a1 a2 h
      exact ⟨b1, b2, b3.trans a4, b4.trans a5, b5.trans a6⟩

theorem Model.WF.DequeueEvents_inv {M : Model} (wf : M.WF) {fuel limit : Nat}
    {σ σ' : Runtime} (hO : OnePerTrack M σ.m_currentStates) (hOrd : Ordered M σ.m_currentStates)
    (h : DequeueEvents M fuel limit σ = Res.ok σ') :
    OnePerTrack M σ'.m_currentStates ∧ Ordered M σ'.m_currentStates ∧
      σ'.m_ticking = σ.m_ticking ∧ σ'.m_started = σ.m_started ∧
      σ'.bImmediatelyDequeueEvents = σ.bImmediatelyDequeueEvents := by
  unfold DequeueEvents at h
  obtain ⟨⟨count, σ1⟩, h1, h⟩ := Res.bind_eq_ok.1 h
  have := wf.dequeueLoop_inv _ _ σ (count, σ1) hO hOrd h1
  simp only at h this
  by_cases hc : count ≥ STATEMACHINE_DEQUEUEEVENTS_DEFAULTLIMIT
  · simp only [hc, if_true, Res.pure_eq, Res.ok.injEq] at h
    rw [← h]; exact this
  · simp only [hc, if_false, Res.pure_eq, Res.ok.injEq] at h
    rw [← h]; exact this

theorem Model.WF.Start_inv {M : Model} (wf : M.WF) {fuel : Nat} {σ0 σ : Runtime}
    (h : Start M fuel σ0 = Res.ok σ) :
    OnePerTrack M σ.m_currentStates ∧ Ordered M σ.m_currentStates := by
  unfold Start at h
  by_cases hs : σ0.m_started = true
  · simp [hs] at h
  · by_cases hl : σ0.m_currentStates.length ≠ 0
    · simp [hs, hl] at h
    · simp only [hs, hl, if_false] at h
      have hnil : σ0.m_currentStates = [] := by
        simpa using hl
      obtain ⟨cur, h1, h⟩ := Res.bind_eq_ok.1 h
      simp only [Res.pure_eq, Res.ok.injEq] at h
      rw [hnil, startLoop_eq_enterLoop fuel _ _ []] at h1
      obtain ⟨r, h2, h3⟩ := Res.bind_eq_ok.1 h1
      obtain ⟨E, hE, hD, _⟩ := wf.enterLoop_ok [] [] fuel [] _ _ r
        (Descent.init_roots wf) (PathInv.init_nil M M.m_rootTracks) (by simpa using h2)
      have hcur : cur = E := by
        simp only [Res.ok.injEq] at h3
        rw [← h3, hE]; simp
      have := Residual.append wf (Residual.nil wf) hD
      rw [← h]
      simpa [hcur] using this

theorem Model.WF.PostEvent_inv {M : Model} (wf : M.WF) {fuel : Nat} {e : FName}
    {σ σ' : Runtime} (hO : OnePerTrack M σ.m_currentStates) (hOrd : Ordered M σ.m_currentStates)
    (h : PostEvent M fuel e σ = Res.ok σ') :
    OnePerTrack M σ'.m_currentStates ∧ Ordered M σ'.m_currentStates := by
  unfold PostEvent at h
  by_cases hf : (tmapFind M.m_eventTransitions e).isNone = true
  · simp [hf] at h
  · simp only [hf] at h
    by_cases hc : (σ.bImmediatelyDequeueEvents && !σ.m_ticking && σ.m_started) = true
    · simp only [hc, if_true] at h
      have := wf.DequeueEvents_inv (σ := { σ with m_eventsQueue := σ.m_eventsQueue ++ [e] })
        hO hOrd h
      exact ⟨this.1, this.2.1⟩
    · simp only [hc] at h
      simp only [Bool.false_eq_true, if_false, Res.ok.injEq] at h
      rw [← h]; exact ⟨hO, hOrd⟩

theorem Model.WF.Tick_inv {M : Model} (wf : M.WF) {fuel : Nat} {dt : Int}
    {σ σ' : Runtime} (hO : OnePerTrack M σ.m_currentStates) (hOrd : Ordered M σ.m_currentStates)
    (h : Tick M fuel dt σ = Res.ok σ') :
    OnePerTrack M σ'.m_currentStates ∧ Ordered M σ'.m_currentStates := by
  unfold Tick at h
  by_cases hs : σ.m_started = true
  · by_cases ht : σ.m_ticking = true
    · simp [hs, ht] at h
    · simp only [hs, ht, not_true_eq_false, if_false] at h
      obtain ⟨σ1, h1, h⟩ := Res.bind_eq_ok.1 h
      obtain ⟨σ3, h3, h⟩ := Res.bind_eq_ok.1 h
      obtain ⟨a1, a2, a3, a4, a5⟩ := wf.DequeueEvents_inv hO hOrd h1
      obtain ⟨b1, b2, b3, b4, b5⟩ := wf.DequeueEvents_inv
        (σ := { σ1 with calls := σ1.calls ++ σ1.m_currentStates.map (fun s => HookCall.tick s dt) })
        a1 a2 h3
      have hst : σ3.m_started = true := by
        rw [b4]; simp only; rw [a4]; exact hs
      simp only [hst, not_true_eq_false, if_false, Res.pure_eq, Res.ok.injEq] at h
      rw [← h]; exact ⟨b1, b2⟩
  · simp [hs] at h

/-- Both invariants hold in every reached state. -/
theorem Model.WF.reached_inv {M : Model} (wf : M.WF) {σ : Runtime} (h : Reached M σ) :
    OnePerTrack M σ.m_currentStates ∧ Ordered M σ.m_currentStates := by
  induction h with
  | start h => exact wf.Start_inv h
  | postEvent _ h ih => exact wf.PostEvent_inv ih.1 ih.2 h
  | dequeueEvents _ h ih =>
    have := wf.DequeueEvents_inv ih.1 ih.2 h
    exact ⟨this.1, this.2.1⟩
  | tick _ h ih => exact wf.Tick_inv ih.1 ih.2 h

theorem OnePerTrack.nodup {M : Model} {cur : List StatePtr} (h : OnePerTrack M cur) :
    cur.Nodup := List.Nodup.of_map _ h.2.2

theorem OnePerTrack.length_eq {M : Model} {cur : List StatePtr} (h : OnePerTrack M cur) :
    cur.length = (reachableTracks M cur).length := by
  have hnd : ((reachableTracks M cur).map some).Nodup := by
    unfold reachableTracks
    exact ((List.nodup_range _).filter _).map (Option.some_injective _)
  have h1 : (cur.map M.stateTrack).Perm ((reachableTracks M cur).map some) := by
    rw [List.perm_ext_iff_of_nodup h.2.2 hnd]
    intro x
    constructor
    · intro hx
      obtain ⟨s, hs, rfl⟩ := List.mem_map.1 hx
      obtain ⟨t, ht, hr⟩ := h.1 s hs
      simp only [Option.mem_def] at ht
      rw [ht]
      refine List.mem_map.2 ⟨t, ?_, rfl⟩
      simp only [reachableTracks, List.mem_filter, List.mem_range, decide_eq_true_eq]
      exact ⟨hr.lt, hr⟩
    · intro hx
      obtain ⟨t, ht, rfl⟩ := List.mem_map.1 hx
      simp only [reachableTracks, List.mem_filter, List.mem_range, decide_eq_true_eq] at ht
      obtain ⟨s, hs, hst⟩ := h.2.1 t ht.1 ht.2
      exact List.mem_map.2 ⟨s, hs, hst⟩
  simpa using h1.length_eq

/-! ## More iterations never change a result: the operations -/

theorem dequeueLoop_mono {M : Model} {fuel fuel' : Nat} (hle : fuel ≤ fuel') :
    ∀ (remaining count : Nat) (σ : Runtime) (r : Nat × Runtime),
      dequeueLoop M fuel remaining count σ = Res.ok r →
      dequeueLoop M fuel' remaining count σ = Res.ok r := by
  intro remaining
  induction remaining with
  | zero => intro count σ r h; simpa [dequeueLoop] using h
  | succ n ih =>
    intro count σ r h
    unfold dequeueLoop at h ⊢
    cases hq : σ.m_eventsQueue with
    | nil => simpa [hq] using h
    | cons evt queue =>
      simp only [hq] at h ⊢
      obtain ⟨σ1, h1, h⟩ := Res.bind_eq_ok.1 h
      simp only [processEvent_mono hle h1, Res.ok_bind]
      exact ih _ _ _ h

theorem DequeueEvents_mono {M : Model} {fuel fuel' limit : Nat} {σ σ' : Runtime}
    (hle : fuel ≤ fuel') (h : DequeueEvents M fuel limit σ = Res.ok σ') :
    DequeueEvents M fuel' limit σ = Res.ok σ' := by
  unfold DequeueEvents at h ⊢
  obtain ⟨⟨count, σ1⟩, h1, h⟩ := Res.bind_eq_ok.1 h
  simp only [dequeueLoop_mono hle _ _ _ _ h1, Res.ok_bind]
  exact h

theorem Start_mono {M : Model} {fuel fuel' : Nat} {σ σ' : Runtime}
    (hle : fuel ≤ fuel') (h : Start M fuel σ = Res.ok σ') : Start M fuel' σ = Res.ok σ' := by
  unfold Start at h ⊢
  by_cases hs : σ.m_started = true
  · simp [hs] at h
  · by_cases hl : σ.m_currentStates.length ≠ 0
    · simp [hs, hl] at h
    · simp only [hs, hl, if_false] at h ⊢
      obtain ⟨cur, h1, h⟩ := Res.bind_eq_ok.1 h
      simp only [startLoop_mono _ _ _ _ _ hle h1, Res.ok_bind]
      exact h

theorem PostEvent_def (M : Model) (fuel : Nat) (e : FName) (σ : Runtime) :
    PostEvent M fuel e σ =
      if (tmapFind M.m_eventTransitions e).isNone then Res.fault Fault.assertFailed
      else if (σ.bImmediatelyDequeueEvents && !σ.m_ticking && σ.m_started) = true then
        DequeueEvents M fuel defaultLimitArg { σ with m_eventsQueue := σ.m_eventsQueue ++ [e] }
      else Res.ok { σ with m_eventsQueue := σ.m_eventsQueue ++ [e] } := rfl

theorem PostEvent_mono {M : Model} {fuel fuel' : Nat} {e : FName} {σ σ' : Runtime}
    (hle : fuel ≤ fuel') (h : PostEvent M fuel e σ = Res.ok σ') :
    PostEvent M fuel' e σ = Res.ok σ' := by
  rw [PostEvent_def] at h ⊢
  by_cases hf : (tmapFind M.m_eventTransitions e).isNone = true
  · rw [if_pos hf] at h; cases h
  · rw [if_neg hf] at h ⊢
    by_cases hc : (σ.bImmediatelyDequeueEvents && !σ.m_ticking && σ.m_started) = true
    · rw [if_pos hc] at h ⊢
      exact DequeueEvents_mono hle h
    · rw [if_neg hc] at h ⊢
      exact h

/-! ## The scenario models -/

set_option maxRecDepth 100000 in
/-- The arena `scenarioB` is the one the builder makes. -/
theorem buildScenarioB_eq : buildScenarioB = Res.ok scenarioB := by decide

set_option maxRecDepth 100000 in
/-- The arena `twoRoots` is the one the builder makes. -/
theorem buildTwoRoots_eq : buildTwoRoots = Res.ok twoRoots := by decide

theorem scenarioB_wf : scenarioB.WF := by decide

theorem twoRoots_wf : twoRoots.WF := by decide

theorem scenarioB_start : Start scenarioB 4 (Runtime.initial true) = Res.ok scenarioB_started := by
  decide

theorem scenarioB_jump :
    PostEvent scenarioB 4 "jump" scenarioB_started = Res.ok scenarioB_jumped := by
  decide

theorem scenarioB_reached : Reached scenarioB scenarioB_jumped :=
  Reached.postEvent (Reached.start scenarioB_start) scenarioB_jump

theorem DefaultsReachable.of_hasDefaults {M : Model} (wf : M.WF) (hd : M.HasDefaults) :
    DefaultsReachable M := by
  constructor
  · intro t ht
    obtain ⟨tk, h, _⟩ := isRoot_iff.1 (wf.root_tracks t ht)
    exact hd t (lt_of_getElem?_eq_some h)
  · intro p c _ hc
    exact hd c (wf.childTracks_parent hc).2

/-! ## C1, C2 : the invariants of the active configuration -/

/-- C1 (ordering invariant). On a well-formed model, in every state reached by `Start`
followed by any sequence of `PostEvent`, `DequeueEvents` and `Tick` calls that return, an
active state standing at position `j` whose parent track has a parent state `p` has `p` in the
configuration at a position `i < j`. -/
theorem C1_ordering_invariant (M : Model) (wf : M.WF) (σ : Runtime) (h : Reached M σ) :
    ∀ (j s : Nat), σ.m_currentStates[j]? = some s →
      ∀ (t p : Nat), M.stateTrack s = some t → M.trackParent t = some p →
        ∃ i, i < j ∧ σ.m_currentStates[i]? = some p := by
  obtain ⟨hO, hOrd⟩ := wf.reached_inv h
  intro j s hj t p ht hp
  obtain ⟨hlt, hget⟩ := List.getElem?_eq_some.1 hj
  have hs : s ∈ σ.m_currentStates := hget ▸ List.getElem_mem hlt
  obtain ⟨h1, h2⟩ := hOrd s hs t ht p hp
  have hidx : σ.m_currentStates.indexOf s = j := by
    rw [← hget]; exact List.indexOf_getElem hO.nodup j hlt
  exact ⟨σ.m_currentStates.indexOf p, hidx ▸ h2, List.getElem?_indexOf h1⟩

/-- Witness of C1 on Scenario B after `Start` and `PostEvent(jump)`. -/
theorem C1_ordering_invariant_witness :
    scenarioB.WF ∧ Reached scenarioB scenarioB_jumped ∧
    ∀ (j s : Nat), scenarioB_jumped.m_currentStates[j]? = some s →
      ∀ (t p : Nat), scenarioB.stateTrack s = some t → scenarioB.trackParent t = some p →
        ∃ i, i < j ∧ scenarioB_jumped.m_currentStates[i]? = some p :=
  ⟨scenarioB_wf, scenarioB_reached,
    C1_ordering_invariant scenarioB scenarioB_wf scenarioB_jumped scenarioB_reached⟩

/-- C2 (one state per reachable track). On a well-formed model, in every state reached by
`Start` followed by any sequence of `PostEvent`, `DequeueEvents` (any limit) and `Tick` calls
that return, every reachable track has exactly one active state, every active state belongs to
a reachable track, no state is listed twice, and the number of active states is the number of
reachable tracks. -/
theorem C2_one_state_per_reachable_track (M : Model) (wf : M.WF) (σ : Runtime)
    (h : Reached M σ) :
    (∀ t, Reachable M σ.m_currentStates t →
      ∃! s, s ∈ σ.m_currentStates ∧ M.stateTrack s = some t) ∧
    (∀ s ∈ σ.m_currentStates, ∃ t, M.stateTrack s = some t ∧ Reachable M σ.m_currentStates t) ∧
    σ.m_currentStates.Nodup ∧
    σ.m_currentStates.length = (reachableTracks M σ.m_currentStates).length := by
  obtain ⟨hO, _⟩ := wf.reached_inv h
  refine ⟨?_, ?_, hO.nodup, hO.length_eq⟩
  · intro t ht
    obtain ⟨s, hs, hst⟩ := hO.2.1 t ht.lt ht
    refine ⟨s, ⟨hs, hst⟩, ?_⟩
    rintro s' ⟨hs', hst'⟩
    exact List.inj_on_of_nodup_map hO.2.2 hs' hs (hst'.trans hst.symm)
  · intro s hs
    obtain ⟨t, ht, hr⟩ := hO.1 s hs
    exact ⟨t, ht, hr⟩

/-- Witness of C2 on Scenario B after `Start` and `PostEvent(jump)`. -/
theorem C2_one_state_per_reachable_track_witness :
    scenarioB.WF ∧ Reached scenarioB scenarioB_jumped ∧
    ((∀ t, Reachable scenarioB scenarioB_jumped.m_currentStates t →
      ∃! s, s ∈ scenarioB_jumped.m_currentStates ∧ scenarioB.stateTrack s = some t) ∧
    (∀ s ∈ scenarioB_jumped.m_currentStates,
      ∃ t, scenarioB.stateTrack s = some t ∧ Reachable scenarioB scenarioB_jumped.m_currentStates t) ∧
    scenarioB_jumped.m_currentStates.Nodup ∧
    scenarioB_jumped.m_currentStates.length =
      (reachableTracks scenarioB scenarioB_jumped.m_currentStates).length) :=
  ⟨scenarioB_wf, scenarioB_reached,
    C2_one_state_per_reachable_track scenarioB scenarioB_wf scenarioB_jumped scenarioB_reached⟩

/-! ## C3 : `Start` -/

/-- C3. `Start` on a stopped machine with an empty configuration, every track reachable through
default states having a default state, given more iterations than the model has tracks:
it returns; the configuration is a duplicate-free list of exactly the default states of the
root tracks and, recursively, of the child tracks of the listed states; `Enter` has been called
once on each of them, in configuration order; the machine is started. -/
theorem C3_start (M : Model) (wf : M.WF) (hdef : DefaultsReachable M) (σ : Runtime)
    (hs : σ.m_started = false) (hc : σ.m_currentStates = []) (fuel : Nat)
    (hf : M.trackHeap.length < fuel) :
    ∃ cur, Start M fuel σ = Res.ok { σ with
        m_currentStates := cur
        calls := σ.calls ++ cur.map HookCall.enter
        m_started := true } ∧
      cur.Nodup ∧ ∀ s, s ∈ cur ↔ DefaultActive M s := by
  obtain ⟨cur, h1, h2, h3, _⟩ := wf.startLoop_spec hdef hf
  refine ⟨cur, ?_, h2, h3⟩
  unfold Start
  simp only [hs, hc, List.length_nil, ne_eq, not_true_eq_false, if_false, Bool.false_eq_true,
    h1, Res.ok_bind, Res.pure_eq]

/-- Witness of C3 on Scenario B. -/
theorem C3_start_witness :
    scenarioB.WF ∧ DefaultsReachable scenarioB ∧ scenarioB.trackHeap.length < 4 ∧
    ∃ cur, Start scenarioB 4 (Runtime.initial true) = Res.ok { Runtime.initial true with
        m_currentStates := cur
        calls := (Runtime.initial true).calls ++ cur.map HookCall.enter
        m_started := true } ∧
      cur.Nodup ∧ ∀ s, s ∈ cur ↔ DefaultActive scenarioB s :=
  ⟨scenarioB_wf, DefaultsReachable.of_hasDefaults scenarioB_wf (by decide), by decide,
    C3_start scenarioB scenarioB_wf (DefaultsReachable.of_hasDefaults scenarioB_wf (by decide))
      (Runtime.initial true) rfl rfl 4 (by decide)⟩

/-! ## C5 : frame of one transition -/

/-- C5. When a transition whose source is active fires with common track `L` and returns,
the new configuration is the old one without the states of the subtree of `L`, in the same
order, followed by the newly entered states `E`; the calls made are the exits of the states of
the subtree of `L`, last to first, then the enters of `E`; and every state of `E` lies in the
subtree of `L`. So a state outside the subtree gets no call and keeps its place. -/
theorem C5_transition_frame (M : Model) (wf : M.WF) (fuel : Nat) (tr : EventTransition)
    (σ σ' : Runtime) (L : Nat) (hs : tr.source ∈ σ.m_currentStates)
    (hL : _FindClosestCommonTrack M fuel tr.source tr.target = Res.ok (some L))
    (h : fireTransition M fuel tr σ = Res.ok σ') :
    ∃ E : List StatePtr,
      σ'.m_currentStates = σ.m_currentStates.filter (fun s => !M.inSubtree L s) ++ E ∧
      σ'.calls = σ.calls ++
        ((σ.m_currentStates.filter (fun s => M.inSubtree L s)).reverse.map HookCall.exit) ++
        E.map HookCall.enter ∧
      ∀ s ∈ E, M.inSubtree L s = true := by
  obtain ⟨L', tt, path, E, hfc, _, _, _, hσ, hD, _⟩ := wf.fireTransition_ok hs h
  rw [hL] at hfc
  simp only [Res.ok.injEq, Option.some.injEq] at hfc
  subst hfc
  refine ⟨E, by rw [hσ]; rfl, by rw [hσ]; rfl, ?_⟩
  intro s hsE
  obtain ⟨t, ht⟩ := Option.isSome_iff_exists.1 (hD.valid s hsE)
  obtain ⟨r, hr, hra⟩ := (hD.under_root t (Or.inr ⟨s, hsE, ht⟩)).1
  rw [List.mem_singleton.1 hr] at hra
  exact (inSubtree_iff ht).2 hra

/-- Witness of C5: `grounded -> jumping` on started Scenario B, common track `motion`. -/
theorem C5_transition_frame_witness :
    scenarioB.WF ∧ (1 : Nat) ∈ scenarioB_started.m_currentStates ∧
    _FindClosestCommonTrack scenarioB 4 1 2 = Res.ok (some 1) ∧
    fireTransition scenarioB 4 ⟨"jump", 1, 2⟩ scenarioB_started = Res.ok scenarioB_jumped ∧
    ∃ E : List StatePtr,
      scenarioB_jumped.m_currentStates =
        scenarioB_started.m_currentStates.filter (fun s => !scenarioB.inSubtree 1 s) ++ E ∧
      scenarioB_jumped.calls = scenarioB_started.calls ++
        ((scenarioB_started.m_currentStates.filter
          (fun s => scenarioB.inSubtree 1 s)).reverse.map HookCall.exit) ++
        E.map HookCall.enter ∧
      ∀ s ∈ E, scenarioB.inSubtree 1 s = true :=
  ⟨scenarioB_wf, by decide, by decide, by decide,
    C5_transition_frame scenarioB scenarioB_wf 4 ⟨"jump", 1, 2⟩ scenarioB_started
      scenarioB_jumped 1 (by decide) (by decide) (by decide)⟩

/-! ## C6, C7 : Scenario B -/

theorem scenarioB_startLoop : startLoop scenarioB 4 scenarioB.m_rootTracks [] = Res.ok [0, 3, 1] := by
  decide

/-- C6, as the code has it. On the Scenario B model (`motion` added before `health`), `Start`
on a stopped machine with an empty configuration, given at least 4 iterations, returns with the
configuration `[alive, healthy, grounded]`: the waiting tracks are a stack, so the child track
added last is entered first. -/
theorem C6_scenarioB_start (fuel : Nat) (hf : 4 ≤ fuel) (σ : Runtime)
    (hs : σ.m_started = false) (hc : σ.m_currentStates = []) :
    Start scenarioB fuel σ = Res.ok { σ with
      m_currentStates := [0, 3, 1]
      calls := σ.calls ++ [HookCall.enter 0, HookCall.enter 3, HookCall.enter 1]
      m_started := true } := by
  have h := startLoop_mono 4 fuel _ _ _ hf scenarioB_startLoop
  unfold Start
  simp only [hs, hc, List.length_nil, ne_eq, not_true_eq_false, if_false, Bool.false_eq_true,
    h, Res.ok_bind, Res.pure_eq, List.map_cons, List.map_nil]

/-- Witness of the amended C6 on a fresh machine. -/
theorem C6_scenarioB_start_witness :
    4 ≤ 4 ∧ (Runtime.initial true).m_started = false ∧
    (Runtime.initial true).m_currentStates = [] ∧
    Start scenarioB 4 (Runtime.initial true) = Res.ok { Runtime.initial true with
      m_currentStates := [0, 3, 1]
      calls := (Runtime.initial true).calls ++
        [HookCall.enter 0, HookCall.enter 3, HookCall.enter 1]
      m_started := true } :=
  ⟨le_refl 4, rfl, rfl, C6_scenarioB_start 4 (le_refl 4) (Runtime.initial true) rfl rfl⟩

/-- C6 fails as stated: on Scenario B, `Start` returns and the configuration is not
`[alive, grounded, healthy]`. -/
theorem C6_counterexample :
    ∃ σ, Start scenarioB 4 (Runtime.initial true) = Res.ok σ ∧
      σ.m_currentStates = [0, 3, 1] ∧ σ.m_currentStates ≠ [0, 1, 3] :=
  ⟨scenarioB_started, by decide, by decide, by decide⟩

theorem scenarioB_processJump (q : List FName) (tk st im : Bool) (c : List HookCall) (e : Nat) :
    processEvent scenarioB 4 "jump"
      { m_currentStates := [0, 3, 1], m_eventsQueue := q, m_ticking := tk, m_started := st,
        bImmediatelyDequeueEvents := im, calls := c, errorLogs := e } =
    Res.ok
      { m_currentStates := [0, 3, 2], m_eventsQueue := q, m_ticking := tk, m_started := st,
        bImmediatelyDequeueEvents := im, calls := c ++ [HookCall.exit 1] ++ [HookCall.enter 2],
        errorLogs := e } := by
  rfl

/-- C7, as the code has it. On the Scenario B model, from the configuration produced by
`Start` (`[alive, healthy, grounded]`), processing the event `jump`, whose only transition is
grounded -> jumping, given at least 4 iterations, returns with the configuration
`[alive, healthy, jumping]`, after one `Exit` call on grounded and one `Enter` call on
jumping. -/
theorem C7_scenarioB_jump (fuel : Nat) (hf : 4 ≤ fuel) (σ : Runtime)
    (hc : σ.m_currentStates = [0, 3, 1]) :
    processEvent scenarioB fuel "jump" σ = Res.ok { σ with
      m_currentStates := [0, 3, 2]
      calls := σ.calls ++ [HookCall.exit 1] ++ [HookCall.enter 2] } := by
  obtain ⟨cs, q, tk, st, im, c, e⟩ := σ
  simp only at hc
  subst hc
  exact processEvent_mono hf (scenarioB_processJump q tk st im c e)

/-- Witness of the amended C7 on the started machine. -/
theorem C7_scenarioB_jump_witness :
    4 ≤ 4 ∧ scenarioB_started.m_currentStates = [0, 3, 1] ∧
    processEvent scenarioB 4 "jump" scenarioB_started = Res.ok { scenarioB_started with
      m_currentStates := [0, 3, 2]
      calls := scenarioB_started.calls ++ [HookCall.exit 1] ++ [HookCall.enter 2] } :=
  ⟨le_refl 4, rfl, C7_scenarioB_jump 4 (le_refl 4) scenarioB_started rfl⟩

/-- C7 fails as stated: on Scenario B, from the configuration produced by `Start`, posting
`jump` returns and the configuration is not `[alive, jumping, healthy]`. -/
theorem C7_counterexample :
    ∃ σ1 σ2, Start scenarioB 4 (Runtime.initial true) = Res.ok σ1 ∧
      PostEvent scenarioB 4 "jump" σ1 = Res.ok σ2 ∧
      σ2.m_currentStates = [0, 3, 2] ∧ σ2.m_currentStates ≠ [0, 2, 3] :=
  ⟨scenarioB_started, scenarioB_jumped, by decide, by decide, by decide, by decide⟩

/-! ## C9 : events whose transitions are all unsatisfied -/

theorem fireTransitions_noop {M : Model} {fuel : Nat} :
    ∀ (trs : List EventTransition) (σ : Runtime),
      (∀ tr ∈ trs, tr.source ∉ σ.m_currentStates) → fireTransitions M fuel trs σ = Res.ok σ := by
  intro trs
  induction trs with
  | nil => intro σ _; rfl
  | cons tr rest ih =>
    intro σ h
    unfold fireTransitions
    have h1 : fireTransition M fuel tr σ = Res.ok σ := by
      unfold fireTransition
      rw [if_pos (h tr (List.mem_cons_self _ _))]
    rw [h1]
    exact ih σ (fun t ht => h t (List.mem_cons_of_mem _ ht))

/-- C9. Processing a queued event none of whose registered transitions has its source in the
active configuration: the iteration of the dequeue loop only removes the event from the front
of the queue (no hook call, same configuration), for every remaining limit and count; in
particular `DequeueEvents(1)` returns the same run-time state with the event removed. -/
theorem C9_unsatisfied_event_noop (M : Model) (fuel : Nat) (evt : FName)
    (trs : List EventTransition) (σ : Runtime) (q : List FName)
    (hreg : tmapFind M.m_eventTransitions evt = some trs)
    (hq : σ.m_eventsQueue = evt :: q)
    (hno : ∀ tr ∈ trs, tr.source ∉ σ.m_currentStates) :
    (∀ remaining count, dequeueLoop M fuel (remaining + 1) count σ =
      dequeueLoop M fuel remaining (count + 1) { σ with m_eventsQueue := q }) ∧
    DequeueEvents M fuel 1 σ = Res.ok { σ with m_eventsQueue := q } := by
  have hp : processEvent M fuel evt { σ with m_eventsQueue := q } =
      Res.ok { σ with m_eventsQueue := q } := by
    unfold processEvent
    rw [hreg]
    exact fireTransitions_noop trs _ hno
  have hstep : ∀ remaining count, dequeueLoop M fuel (remaining + 1) count σ =
      dequeueLoop M fuel remaining (count + 1) { σ with m_eventsQueue := q } := by
    intro remaining count
    conv_lhs => unfold dequeueLoop
    simp only [hq, hp, Res.ok_bind]
  refine ⟨hstep, ?_⟩
  unfold DequeueEvents
  have h1 : (1 % 2 ^ 16 : Nat) = 0 + 1 := by decide
  have h2 : ¬ (((1 % 2 ^ 16 : Nat) : Int) = -1) := by decide
  simp only [h2, if_false]
  rw [h1, hstep 0 0]
  simp [dequeueLoop, STATEMACHINE_DEQUEUEEVENTS_DEFAULTLIMIT]

/-- Witness of C9: `jump` queued on Scenario B while `grounded` is not active. -/
theorem C9_unsatisfied_event_noop_witness :
    tmapFind scenarioB.m_eventTransitions "jump" = some [⟨"jump", 1, 2⟩] ∧
    ({ scenarioB_jumped with m_eventsQueue := ["jump"] } : Runtime).m_eventsQueue = "jump" :: [] ∧
    (∀ tr ∈ [(⟨"jump", 1, 2⟩ : EventTransition)],
      tr.source ∉ ({ scenarioB_jumped with m_eventsQueue := ["jump"] } : Runtime).m_currentStates) ∧
    ((∀ remaining count,
      dequeueLoop scenarioB 4 (remaining + 1) count
          { scenarioB_jumped with m_eventsQueue := ["jump"] } =
        dequeueLoop scenarioB 4 remaining (count + 1)
          { ({ scenarioB_jumped with m_eventsQueue := ["jump"] } : Runtime) with
            m_eventsQueue := [] }) ∧
    DequeueEvents scenarioB 4 1 { scenarioB_jumped with m_eventsQueue := ["jump"] } =
      Res.ok { ({ scenarioB_jumped with m_eventsQueue := ["jump"] } : Runtime) with
        m_eventsQueue := [] }) :=
  ⟨by decide, rfl, by decide,
    C9_unsatisfied_event_noop scenarioB 4 "jump" [⟨"jump", 1, 2⟩]
      { scenarioB_jumped with m_eventsQueue := ["jump"] } [] (by decide) rfl (by decide)⟩

/-! ## C10 : transitions across root tracks -/

/-- C10, the code at the failing input. On the two-root machine, started, with `a` active:
`_FindClosestCommonTrack(a, c)` dereferences the null parent of root track `right`; the
transition a -> c returns for no number of iterations; `PostEvent(cross)` faults on the null
dereference; and the explicit-path walk towards a null common track faults in the same way. -/
theorem C10_cross_root_transition_faults :
    Start twoRoots 3 (Runtime.initial true) = Res.ok twoRoots_started ∧
    (0 : Nat) ∈ twoRoots_started.m_currentStates ∧
    _FindClosestCommonTrack twoRoots 3 0 2 = Res.fault Fault.nullDeref ∧
    (∀ fuel σ', fireTransition twoRoots fuel ⟨"cross", 0, 2⟩ twoRoots_started ≠ Res.ok σ') ∧
    PostEvent twoRoots 3 "cross" twoRoots_started = Res.fault Fault.nullDeref ∧
    pathLoop twoRoots none 3 (some 1) [2] = Res.fault Fault.nullDeref := by
  refine ⟨by decide, by decide, by decide, ?_, by decide, by decide⟩
  intro fuel σ' h
  obtain ⟨L, tt, path, E, hfc, _, _, _, _, _, _⟩ :=
    twoRoots_wf.fireTransition_ok (by decide) h
  obtain ⟨L', ta, tb, hL, hta, htb, hrel⟩ := twoRoots_wf.fcct_ok hfc
  have h0 : twoRoots.stateTrack 0 = some 0 := by decide
  have h2 : twoRoots.stateTrack 2 = some 1 := by decide
  have ha : ta = 0 := by
    have := hta.symm.trans h0
    exact Option.some.inj this
  have hb : tb = 1 := by
    have := htb.symm.trans h2
    exact Option.some.inj this
  subst ha hb
  have hc0 : twoRoots.childTracks 0 = [] := by decide
  have hc2 : twoRoots.childTracks 2 = [] := by decide
  have ha0 : twoRoots.ancestors 0 = [0] := by decide
  have ha1 : twoRoots.ancestors 1 = [1] := by decide
  rcases hrel with ⟨h1, _⟩ | ⟨_, h1, h3⟩
  · exact absurd h1 (by decide)
  · simp only [hc0, hc2, ha0, ha1, List.nil_append, List.mem_singleton, List.not_mem_nil,
      false_or] at h1 h3
    omega

/-! ## C4 : firing a transition activates its target -/

theorem pathLoop_self {M : Model} {L : Nat} {fuel : Nat} (hf : 1 ≤ fuel) (path : List StatePtr) :
    pathLoop M (some L) fuel (some L) path = Res.ok path := by
  obtain ⟨f, rfl⟩ : ∃ f, fuel = f + 1 := ⟨fuel - 1, by omega⟩
  unfold pathLoop
  simp

/-- C4. On a well-formed model where every track has a default state, for a transition
`S -> T` with `S` active (in a configuration of valid states), `S` and `T` under the same root
track `r`, and `T` not a proper ancestor of `S` (no child track of `T` on the ancestor chain of
`S`): given more iterations than the model has tracks, the transition returns, the common-track
search returns a track `L`, the explicit path from `L` down to `T` is computed (a chain of
states starting in `L` and ending with `T`), and `T` and every state of that path are in the
new configuration. -/
theorem C4_transition_activates_target (M : Model) (wf : M.WF) (hd : M.HasDefaults)
    (σ : Runtime) (tr : EventTransition) (ta tb r : Nat) (fuel : Nat)
    (hvalid : ∀ s ∈ σ.m_currentStates, s < M.stateHeap.length)
    (hS : tr.source ∈ σ.m_currentStates)
    (hta : M.stateTrack tr.source = some ta) (htb : M.stateTrack tr.target = some tb)
    (hroot : M.isRoot r = true ∧ r ∈ M.ancestors ta ∧ r ∈ M.ancestors tb)
    (hnot : ∀ c ∈ M.childTracks tr.target, c ∉ M.ancestors ta)
    (hf : M.trackHeap.length + 1 ≤ fuel) :
    ∃ (σ' : Runtime) (L : Nat) (path : List StatePtr),
      fireTransition M fuel tr σ = Res.ok σ' ∧
      _FindClosestCommonTrack M fuel tr.source tr.target = Res.ok (some L) ∧
      pathLoop M (some L) fuel (some tb) [tr.target] = Res.ok path ∧
      path.getLast? = some tr.target ∧
      (∀ h ∈ path.head?, M.stateTrack h = some L) ∧
      path.Chain' (PathLink M) ∧
      tr.target ∈ σ'.m_currentStates ∧
      ∀ x ∈ path, x ∈ σ'.m_currentStates := by
  have htb_lt := (wf.stateTrack_lt htb).2
  obtain ⟨L, hfc, hLb, _⟩ := wf.fcct_total hta htb ⟨r, hroot.2.2, hroot.2.1⟩ hnot hf
  have hL_lt := wf.mem_ancestors_lt htb_lt hLb
  obtain ⟨path, hpath⟩ := wf.pathLoop_total tb htb_lt hLb fuel [tr.target] (by omega)
  obtain ⟨pre, hpre, hchain, hhead⟩ := pathLoop_ok fuel tb [tr.target] path hpath
    (by intro x hx; simp at hx; subst hx; exact htb) (List.chain'_singleton _)
  have hexit := wf.exitLoop_total (L := L) hf σ.m_currentStates (by
    intro s hs
    obtain ⟨st, hst, _⟩ := state_of_lt (hvalid s hs)
    simp [Model.stateTrack, hst])
  have hP0 : PathInv M path [] [L] path :=
    ⟨⟨[], by simp, by simp⟩, fun x hx => ⟨L, by simp, hhead x hx⟩, hchain, by simp⟩
  obtain ⟨res, hres⟩ := wf.enterLoop_total (P := path) (fun u => u < M.trackHeap.length)
    (fun u hu => hd u hu)
    (fun u c _ _ _ c' hc' => (wf.childTracks_parent hc').2)
    fuel [] [L] path (exitResult M L σ.m_currentStates).1
    (σ.calls ++ (exitResult M L σ.m_currentStates).2)
    (Descent.init_single wf hL_lt) hP0
    (by intro u hu; rw [List.mem_singleton.1 hu]; exact hL_lt)
    (by simp only [List.length_nil]; omega)
  obtain ⟨tgt, htgt, htgt'⟩ := stateTrack_eq_some.1 htb
  have hfire : fireTransition M fuel tr σ = Res.ok
      { σ with m_currentStates := res.1, calls := res.2 } := by
    unfold fireTransition
    simp only [hS, not_true_eq_false, if_false, hfc, Res.ok_bind, state_eq_ok.2 htgt, htgt',
      hpath, hexit, hres, Res.pure_eq]
  obtain ⟨L', tt, path', E, hfc', _, htt, hpath', hσ, _, hP⟩ := wf.fireTransition_ok hS hfire
  rw [hfc] at hfc'
  simp only [Res.ok.injEq, Option.some.injEq] at hfc'
  subst hfc'
  rw [htb] at htt
  simp only [Option.some.injEq] at htt
  subst htt
  rw [hpath] at hpath'
  simp only [Res.ok.injEq] at hpath'
  subst hpath'
  have hsub : ∀ x ∈ path, x ∈ ({ σ with m_currentStates := res.1, calls := res.2 } :
      Runtime).m_currentStates := by
    intro x hx
    rw [hσ]
    exact List.mem_append_right _ ((PathInv.done hP).2 x hx)
  have hlast : path.getLast? = some tr.target := by
    rw [hpre]; simp
  have hT : tr.target ∈ path := by
    rw [hpre]; simp
  exact ⟨_, L, path, hfire, hfc, hpath, hlast, hhead, hchain, hsub _ hT, hsub⟩

/-- Witness of C4: `grounded -> jumping` on started Scenario B. -/
theorem C4_transition_activates_target_witness :
    scenarioB.WF ∧ scenarioB.HasDefaults ∧
    (∀ s ∈ scenarioB_started.m_currentStates, s < scenarioB.stateHeap.length) ∧
    (1 : Nat) ∈ scenarioB_started.m_currentStates ∧
    scenarioB.stateTrack 1 = some 1 ∧ scenarioB.stateTrack 2 = some 1 ∧
    (scenarioB.isRoot 0 = true ∧ 0 ∈ scenarioB.ancestors 1 ∧ 0 ∈ scenarioB.ancestors 1) ∧
    (∀ c ∈ scenarioB.childTracks 2, c ∉ scenarioB.ancestors 1) ∧
    scenarioB.trackHeap.length + 1 ≤ 4 ∧
    ∃ (σ' : Runtime) (L : Nat) (path : List StatePtr),
      fireTransition scenarioB 4 ⟨"jump", 1, 2⟩ scenarioB_started = Res.ok σ' ∧
      _FindClosestCommonTrack scenarioB 4 1 2 = Res.ok (some L) ∧
      pathLoop scenarioB (some L) 4 (some 1) [2] = Res.ok path ∧
      path.getLast? = some 2 ∧
      (∀ h ∈ path.head?, scenarioB.stateTrack h = some L) ∧
      path.Chain' (PathLink scenarioB) ∧
      (2 : Nat) ∈ σ'.m_currentStates ∧
      ∀ x ∈ path, x ∈ σ'.m_currentStates :=
  ⟨scenarioB_wf, by decide, by decide, by decide, by decide, by decide, by decide, by decide,
    by decide,
    C4_transition_activates_target scenarioB scenarioB_wf (by decide) scenarioB_started
      ⟨"jump", 1, 2⟩ 1 1 0 4 (by decide) (by decide) (by decide) (by decide) (by decide)
      (by decide) (by decide)⟩

/-! ## C8 : from a nested region to a top-level sibling -/

theorem Model.WF.root_in_ancestors {M : Model} (wf : M.WF) :
    ∀ (t : Nat), t < M.trackHeap.length → ∃ r : Nat, r ∈ M.ancestors t ∧ M.isRoot r = true := by
  intro t
  induction t using Nat.strong_induction_on with
  | _ t ih =>
    intro ht
    cases hp : M.trackParent t with
    | none => exact ⟨t, wf.mem_ancestors_self ht, isRoot_of_trackParent_none ht hp⟩
    | some p =>
      obtain ⟨_, _, v, hv, hlt⟩ := wf.trackParent_lt hp
      obtain ⟨r, hr, hroot⟩ := ih v hlt (wf.stateTrack_lt hv).2
      exact ⟨r, by rw [wf.ancestors_step hp hv]; exact List.mem_cons_of_mem _ hr, hroot⟩

/-- C8. In a well-formed model whose single root track `life` has a state `dead` owning no
track, from the configuration produced by `Start`, processing an event whose only transition
goes from an active state `S` (the default state of `life` or any active descendant) to
`dead`, given more iterations than the model has tracks: the call returns, `Exit` has been
called on every previously active state (last to first), `Enter` on `dead` only, and the
configuration is exactly `[dead]`. -/
theorem C8_transition_to_top_level_sibling (M : Model) (wf : M.WF) (life dead S : Nat)
    (evt : FName) (fuel : Nat) (σ0 σ1 : Runtime)
    (hroot : M.m_rootTracks = [life])
    (hdead : M.stateTrack dead = some life)
    (hleaf : M.childTracks dead = [])
    (hreg : tmapFind M.m_eventTransitions evt = some [⟨evt, S, dead⟩])
    (hf : M.trackHeap.length + 1 ≤ fuel)
    (hstart : Start M fuel σ0 = Res.ok σ1)
    (hS : S ∈ σ1.m_currentStates) :
    processEvent M fuel evt σ1 = Res.ok { σ1 with
      m_currentStates := [dead]
      calls := σ1.calls ++ σ1.m_currentStates.reverse.map HookCall.exit ++
        [HookCall.enter dead] } := by
  obtain ⟨hO, _⟩ := wf.Start_inv hstart
  have hlife_lt := (wf.stateTrack_lt hdead).2
  have hlife_root : M.isRoot life = true := wf.root_tracks life (by rw [hroot]; simp)
  have hall : ∀ s ∈ σ1.m_currentStates, ∃ t : Nat, M.stateTrack s = some t ∧
      life ∈ M.ancestors t := by
    intro s hs
    obtain ⟨t, ht, _⟩ := hO.1 s hs
    simp only [Option.mem_def] at ht
    obtain ⟨r, hr, hrr⟩ := wf.root_in_ancestors t (wf.stateTrack_lt ht).2
    have : r ∈ M.m_rootTracks := wf.root_listed r (wf.mem_ancestors_lt (wf.stateTrack_lt ht).2 hr) hrr
    rw [hroot, List.mem_singleton] at this
    exact ⟨t, ht, this ▸ hr⟩
  have hin : ∀ s ∈ σ1.m_currentStates, M.inSubtree life s = true := by
    intro s hs
    obtain ⟨t, ht, hl⟩ := hall s hs
    exact (inSubtree_iff ht).2 hl
  have hexitRes : exitResult M life σ1.m_currentStates =
      ([], σ1.m_currentStates.reverse.map HookCall.exit) := by
    unfold exitResult
    have h1 : σ1.m_currentStates.filter (fun s => !M.inSubtree life s) = [] := by
      rw [List.filter_eq_nil_iff]
      intro s hs
      simp [hin s hs]
    have h2 : σ1.m_currentStates.filter (fun s => M.inSubtree life s) = σ1.m_currentStates := by
      rw [List.filter_eq_self]
      exact hin
    rw [h1, h2]
  obtain ⟨tS, htS, hlS⟩ := hall S hS
  obtain ⟨L, hfc, hLb, _⟩ := wf.fcct_total htS hdead
    ⟨life, wf.mem_ancestors_self hlife_lt, hlS⟩ (by rw [hleaf]; simp) hf
  rw [wf.ancestors_root hlife_root, List.mem_singleton] at hLb
  subst hLb
  have hexit := wf.exitLoop_total (L := L) hf σ1.m_currentStates (by
    intro s hs
    obtain ⟨t, ht, _⟩ := hall s hs
    rw [ht]; rfl)
  obtain ⟨ds, hds, hds'⟩ := stateTrack_eq_some.1 hdead
  obtain ⟨f, rfl⟩ : ∃ f, fuel = f + 2 := ⟨fuel - 2, by omega⟩
  have henter : ∀ cur calls, enterLoop M (f + 2) [L] [dead] cur calls =
      Res.ok (cur ++ [dead], calls ++ [HookCall.enter dead]) := by
    intro cur calls
    have h1 : enterLoop M (f + 1 + 1) ([] ++ [L]) [dead] cur calls = _ :=
      wf.enterLoop_step hlife_lt (by intro h hh; simp at hh; subst hh; rw [hdead]; rfl)
    simp only [List.nil_append] at h1
    rw [h1]
    simp [enterChoice, hdead, hleaf, enterLoop]
  unfold processEvent
  rw [hreg]
  simp only [fireTransitions, fireTransition, hS, not_true_eq_false, if_false, hfc, Res.ok_bind,
    state_eq_ok.2 hds, hds', pathLoop_self (by omega : 1 ≤ f + 2), hexit, hexitRes, henter,
    Res.pure_eq, List.nil_append]

/-- Witness of C8: Scenario C, `fall` (grounded -> dead) on started Scenario B. -/
theorem C8_transition_to_top_level_sibling_witness :
    scenarioB.WF ∧ scenarioB.m_rootTracks = [0] ∧ scenarioB.stateTrack 5 = some 0 ∧
    scenarioB.childTracks 5 = [] ∧
    tmapFind scenarioB.m_eventTransitions "fall" = some [⟨"fall", 1, 5⟩] ∧
    scenarioB.trackHeap.length + 1 ≤ 4 ∧
    Start scenarioB 4 (Runtime.initial true) = Res.ok scenarioB_started ∧
    (1 : Nat) ∈ scenarioB_started.m_currentStates ∧
    processEvent scenarioB 4 "fall" scenarioB_started = Res.ok { scenarioB_started with
      m_currentStates := [5]
      calls := scenarioB_started.calls ++
        scenarioB_started.m_currentStates.reverse.map HookCall.exit ++ [HookCall.enter 5] } :=
  ⟨scenarioB_wf, by decide, by decide, by decide, by decide, by decide, by decide, by decide,
    C8_transition_to_top_level_sibling scenarioB scenarioB_wf 0 5 1 "fall" 4
      (Runtime.initial true) scenarioB_started (by decide) (by decide) (by decide) (by decide)
      (by decide) (by decide) (by decide)⟩

/-! ## The queue is a frame of event processing -/

theorem fireTransition_queue (M : Model) (fuel : Nat) (tr : EventTransition) (σ : Runtime)
    (q : List FName) :
    fireTransition M fuel tr { σ with m_eventsQueue := q } =
      (fireTransition M fuel tr σ >>= fun σ' => Res.ok { σ' with m_eventsQueue := q }) := by
  unfold fireTransition
  by_cases hs : tr.source ∈ σ.m_currentStates
  · simp only [hs, not_true_eq_false, if_false]
    cases _FindClosestCommonTrack M fuel tr.source tr.target with
    | fault e => rfl
    | ok L =>
      simp only [Res.ok_bind]
      cases M.state tr.target with
      | fault e => rfl
      | ok tgt =>
        simp only [Res.ok_bind]
        cases pathLoop M L fuel (some tgt.m_parent) [tr.target] with
        | fault e => rfl
        | ok path =>
          simp only [Res.ok_bind]
          cases exitLoop M fuel L σ.m_currentStates with
          | fault e => rfl
          | ok r =>
            simp only [Res.ok_bind]
            cases L with
            | none => rfl
            | some ct =>
              simp only
              cases enterLoop M fuel [ct] path r.1 (σ.calls ++ r.2) with
              | fault e => rfl
              | ok r2 => rfl
  · simp only [hs, not_false_eq_true, if_true, Res.ok_bind]

theorem fireTransitions_queue (M : Model) (fuel : Nat) (q : List FName) :
    ∀ (trs : List EventTransition) (σ : Runtime),
      fireTransitions M fuel trs { σ with m_eventsQueue := q } =
        (fireTransitions M fuel trs σ >>= fun σ' => Res.ok { σ' with m_eventsQueue := q }) := by
  intro trs
  induction trs with
  | nil => intro σ; rfl
  | cons tr rest ih =>
    intro σ
    unfold fireTransitions
    rw [fireTransition_queue]
    cases fireTransition M fuel tr σ with
    | fault e => rfl
    | ok σ1 =>
      simp only [Res.ok_bind]
      exact ih σ1

theorem processEvent_queue (M : Model) (fuel : Nat) (evt : FName) (σ : Runtime)
    (q : List FName) :
    processEvent M fuel evt { σ with m_eventsQueue := q } =
      (processEvent M fuel evt σ >>= fun σ' => Res.ok { σ' with m_eventsQueue := q }) := by
  unfold processEvent
  cases tmapFind M.m_eventTransitions evt with
  | none => rfl
  | some trs => exact fireTransitions_queue M fuel q trs σ

/-- Processing an event from a state with an empty queue leaves the queue empty. -/
theorem processEvent_queue_nil {M : Model} {fuel : Nat} {evt : FName} {σ σ' : Runtime}
    (hq : σ.m_eventsQueue = []) (h : processEvent M fuel evt σ = Res.ok σ') :
    σ'.m_eventsQueue = [] := by
  have hσ : σ = { σ with m_eventsQueue := [] } := by
    cases σ
    simp only at hq
    subst hq
    rfl
  rw [hσ, processEvent_queue] at h
  obtain ⟨σ1, _, h1⟩ := Res.bind_eq_ok.1 h
  simp only [Res.ok.injEq] at h1
  rw [← h1]

/-- The dequeue loop, as a sequence: with `remaining` iterations allowed, the first
`remaining` events of the queue are processed in order and the others stay queued. -/
theorem dequeueLoop_eq (M : Model) (fuel : Nat) :
    ∀ (remaining count : Nat) (σ : Runtime),
      dequeueLoop M fuel remaining count σ =
        (processEvents M fuel (σ.m_eventsQueue.take remaining) { σ with m_eventsQueue := [] }
          >>= fun σ' => Res.ok (count + min remaining σ.m_eventsQueue.length,
            { σ' with m_eventsQueue := σ.m_eventsQueue.drop remaining })) := by
  intro remaining
  induction remaining with
  | zero =>
    intro count σ
    simp [dequeueLoop, processEvents]
  | succ n ih =>
    intro count σ
    obtain ⟨cs, queue, tk, st, im, calls, el⟩ := σ
    cases queue with
    | nil => simp [dequeueLoop, processEvents]
    | cons evt q =>
      simp only [dequeueLoop, List.take_succ_cons, processEvents, List.drop_succ_cons,
        List.length_cons]
      rw [processEvent_queue M fuel evt
        { m_currentStates := cs, m_eventsQueue := [], m_ticking := tk, m_started := st,
          bImmediatelyDequeueEvents := im, calls := calls, errorLogs := el } q]
      cases hp : processEvent M fuel evt
        { m_currentStates := cs, m_eventsQueue := [], m_ticking := tk, m_started := st,
          bImmediatelyDequeueEvents := im, calls := calls, errorLogs := el } with
      | fault e => rfl
      | ok σ1 =>
        have hq : σ1.m_eventsQueue = [] := processEvent_queue_nil rfl hp
        obtain ⟨cs1, q1, tk1, st1, im1, calls1, el1⟩ := σ1
        simp only at hq
        subst hq
        simp only [Res.ok_bind]
        rw [ih]
        have : count + 1 + min n q.length = count + min (n + 1) (q.length + 1) := by omega
        simp only [this]

/-- The function `DequeueEvents` with a limit that fits `uint16`, as a sequence. -/
theorem DequeueEvents_eq (M : Model) (fuel k : Nat) (σ : Runtime) (hk : k < 2 ^ 16) :
    DequeueEvents M fuel k σ =
      (processEvents M fuel (σ.m_eventsQueue.take k) { σ with m_eventsQueue := [] }
        >>= fun σ' => Res.ok (logFeedbackLoop (min k σ.m_eventsQueue.length)
          { σ' with m_eventsQueue := σ.m_eventsQueue.drop k })) := by
  unfold DequeueEvents
  have h1 : k % 2 ^ 16 = k := Nat.mod_eq_of_lt hk
  have h2 : ¬ ((k : Int) = -1) := by omega
  simp only [h1, h2, if_false, dequeueLoop_eq, Nat.zero_add]
  cases processEvents M fuel (σ.m_eventsQueue.take k) { σ with m_eventsQueue := [] } with
  | fault e => rfl
  | ok σ' =>
    simp only [Res.ok_bind, logFeedbackLoop]
    split <;> rfl

theorem processEvents_noop {M : Model} {fuel : Nat} {evt : FName} (trs : List EventTransition)
    {σ : Runtime} (hreg : tmapFind M.m_eventTransitions evt = some trs)
    (hno : ∀ tr ∈ trs, tr.source ∉ σ.m_currentStates) :
    ∀ n : Nat, processEvents M fuel (List.replicate n evt) σ = Res.ok σ := by
  intro n
  induction n with
  | zero => rfl
  | succ n ih =>
    have hp : processEvent M fuel evt σ = Res.ok σ := by
      unfold processEvent
      rw [hreg]
      exact fireTransitions_noop trs σ hno
    simp only [List.replicate_succ, processEvents, hp, Res.ok_bind]
    exact ih

/-! ## Flags and queue are a frame of event processing (delegates inert) -/

theorem fireTransition_flags {M : Model} {fuel : Nat} {tr : EventTransition} {σ σ' : Runtime}
    (h : fireTransition M fuel tr σ = Res.ok σ') :
    σ'.m_eventsQueue = σ.m_eventsQueue ∧ σ'.m_ticking = σ.m_ticking ∧
    σ'.m_started = σ.m_started ∧
    σ'.bImmediatelyDequeueEvents = σ.bImmediatelyDequeueEvents ∧
    σ'.errorLogs = σ.errorLogs := by
  unfold fireTransition at h
  by_cases hs : tr.source ∈ σ.m_currentStates
  · simp only [hs, not_true_eq_false, if_false] at h
    obtain ⟨L, _, h⟩ := Res.bind_eq_ok.1 h
    obtain ⟨tgt, _, h⟩ := Res.bind_eq_ok.1 h
    obtain ⟨path, _, h⟩ := Res.bind_eq_ok.1 h
    obtain ⟨r, _, h⟩ := Res.bind_eq_ok.1 h
    cases L with
    | none => exact absurd h (by simp)
    | some ct =>
      simp only at h
      obtain ⟨r2, _, h⟩ := Res.bind_eq_ok.1 h
      simp only [Res.pure_eq, Res.ok.injEq] at h
      subst h
      exact ⟨rfl, rfl, rfl, rfl, rfl⟩
  · simp only [hs, not_false_eq_true, if_true, Res.ok.injEq] at h
    subst h
    exact ⟨rfl, rfl, rfl, rfl, rfl⟩

theorem fireTransitions_flags {M : Model} {fuel : Nat} :
    ∀ (trs : List EventTransition) {σ σ' : Runtime},
      fireTransitions M fuel trs σ = Res.ok σ' →
      σ'.m_eventsQueue = σ.m_eventsQueue ∧ σ'.m_ticking = σ.m_ticking ∧
      σ'.m_started = σ.m_started ∧
      σ'.bImmediatelyDequeueEvents = σ.bImmediatelyDequeueEvents ∧
      σ'.errorLogs = σ.errorLogs := by
  intro trs
  induction trs with
  | nil =>
    intro σ σ' h
    simp only [fireTransitions, Res.ok.injEq] at h
    subst h
    exact ⟨rfl, rfl, rfl, rfl, rfl⟩
  | cons tr rest ih =>
    intro σ σ' h
    unfold fireTransitions at h
    obtain ⟨σ1, h1, h2⟩ := Res.bind_eq_ok.1 h
    obtain ⟨a1, a2, a3, a4, a5⟩ := fireTransition_flags h1
    obtain ⟨b1, b2, b3, b4, b5⟩ := ih h2
    exact ⟨b1.trans a1, b2.trans a2, b3.trans a3, b4.trans a4, b5.trans a5⟩

theorem processEvent_flags {M : Model} {fuel : Nat} {evt : FName} {σ σ' : Runtime}
    (h : processEvent M fuel evt σ = Res.ok σ') :
    σ'.m_eventsQueue = σ.m_eventsQueue ∧ σ'.m_ticking = σ.m_ticking ∧
    σ'.m_started = σ.m_started ∧
    σ'.bImmediatelyDequeueEvents = σ.bImmediatelyDequeueEvents ∧
    σ'.errorLogs = σ.errorLogs := by
  unfold processEvent at h
  cases hf : tmapFind M.m_eventTransitions evt with
  | none => rw [hf] at h; exact absurd h (by simp)
  | some trs => rw [hf] at h; exact fireTransitions_flags trs h

theorem dequeueLoop_flags {M : Model} {fuel : Nat} :
    ∀ (remaining count : Nat) {σ : Runtime} {r : Nat × Runtime},
      dequeueLoop M fuel remaining count σ = Res.ok r →
      r.2.m_ticking = σ.m_ticking ∧ r.2.m_started = σ.m_started ∧
      r.2.bImmediatelyDequeueEvents = σ.bImmediatelyDequeueEvents ∧
      r.2.errorLogs = σ.errorLogs := by
  intro remaining
  induction remaining with
  | zero =>
    intro count σ r h
    simp only [dequeueLoop, Res.ok.injEq] at h
    subst h
    exact ⟨rfl, rfl, rfl, rfl⟩
  | succ n ih =>
    intro count σ r h
    unfold dequeueLoop at h
    cases hq : σ.m_eventsQueue with
    | nil =>
      simp only [hq, Res.ok.injEq] at h
      subst h
      exact ⟨rfl, rfl, rfl, rfl⟩
    | cons evt q =>
      simp only [hq] at h
      obtain ⟨σ1, h1, h2⟩ := Res.bind_eq_ok.1 h
      obtain ⟨_, a2, a3, a4, a5⟩ := processEvent_flags h1
      obtain ⟨b2, b3, b4, b5⟩ := ih _ h2
      exact ⟨b2.trans a2, b3.trans a3, b4.trans a4, b5.trans a5⟩

theorem DequeueEvents_flags {M : Model} {fuel k : Nat} {σ σ' : Runtime}
    (h : DequeueEvents M fuel k σ = Res.ok σ') :
    σ'.m_ticking = σ.m_ticking ∧ σ'.m_started = σ.m_started ∧
    σ'.bImmediatelyDequeueEvents = σ.bImmediatelyDequeueEvents := by
  unfold DequeueEvents at h
  obtain ⟨r, h1, h2⟩ := Res.bind_eq_ok.1 h
  obtain ⟨a1, a2, a3, _⟩ := dequeueLoop_flags _ _ h1
  obtain ⟨c, σ1⟩ := r
  simp only at h2 a1 a2 a3
  split at h2
  · simp only [Res.pure_eq, Res.ok.injEq] at h2
    subst h2
    exact ⟨a1, a2, a3⟩
  · simp only [Res.pure_eq, Res.ok.injEq] at h2
    subst h2
    exact ⟨a1, a2, a3⟩

/-! ## Calls made by delegates while the machine is ticking or stopped -/

theorem PostEventH_quiet (M : Model) (fuel : Nat) (H : Hooks) (re : Reentry) (e : FName)
    (σ : Runtime) (hq : σ.m_ticking = true ∨ σ.m_started = false) :
    PostEventH M fuel H re e σ =
      if (tmapFind M.m_eventTransitions e).isNone then Res.fault Fault.assertFailed
      else Res.ok { σ with m_eventsQueue := σ.m_eventsQueue ++ [e] } := by
  unfold PostEventH
  by_cases hr : (tmapFind M.m_eventTransitions e).isNone
  · simp only [hr, if_true]
  · simp only [hr, if_false]
    have : (σ.bImmediatelyDequeueEvents && !σ.m_ticking && σ.m_started) = false := by
      rcases hq with hq | hq <;> simp [hq]
    simp only [this, Bool.false_eq_true, if_false]

theorem StopH_ticking (H : Hooks) (re : Reentry) (σ : Runtime) (ht : σ.m_ticking = true) :
    StopH H re σ =
      if ¬ σ.m_started then Res.fault Fault.assertFailed
      else Res.ok { σ with m_started := false } := by
  unfold StopH
  by_cases hs : σ.m_started
  · simp [hs, ht]
  · simp [hs]

/-- A delegate run while the machine is ticking, or stopped, leaves the configuration, the
record of delegate invocations and the flag `m_ticking` as they are: its `PostEvent` calls only
enqueue and its `Stop` calls only clear `m_started`. -/
theorem runHook_quiet {M : Model} {fuel : Nat} {H : Hooks} (d : Nat) :
    ∀ (acts : List HookAction) {σ σ' : Runtime},
      (σ.m_ticking = true ∨ σ.m_started = false) →
      runHook (reentry M fuel H d) acts σ = Res.ok σ' →
      σ'.m_currentStates = σ.m_currentStates ∧ σ'.calls = σ.calls ∧
      σ'.m_ticking = σ.m_ticking ∧
      σ'.bImmediatelyDequeueEvents = σ.bImmediatelyDequeueEvents ∧
      σ'.errorLogs = σ.errorLogs ∧
      (σ.m_started = false → σ'.m_started = false) ∧
      (∃ q, σ'.m_eventsQueue = σ.m_eventsQueue ++ q) := by
  intro acts
  induction acts with
  | nil =>
    intro σ σ' _ h
    simp only [runHook, Res.ok.injEq] at h
    subst h
    exact ⟨rfl, rfl, rfl, rfl, rfl, id, [], by simp⟩
  | cons a rest ih =>
    intro σ σ' hq h
    cases d with
    | zero =>
      cases a <;> exact absurd h (by simp [runHook, reentry, Res.fault_bind])
    | succ d =>
      cases a with
      | postEvent e =>
        simp only [runHook, reentry] at h
        obtain ⟨σ1, h1, h2⟩ := Res.bind_eq_ok.1 h
        rw [PostEventH_quiet M fuel H _ e σ hq] at h1
        split at h1
        · exact absurd h1 (by simp)
        · simp only [Res.ok.injEq] at h1
          subst h1
          obtain ⟨b1, b2, b3, b4, b5, b6, q, b7⟩ :=
            ih (σ := { σ with m_eventsQueue := σ.m_eventsQueue ++ [e] }) hq h2
          exact ⟨b1, b2, b3, b4, b5, b6, [e] ++ q, by rw [b7]; simp⟩
      | stop =>
        simp only [runHook, reentry] at h
        obtain ⟨σ1, h1, h2⟩ := Res.bind_eq_ok.1 h
        rcases hq with hq | hq
        · rw [StopH_ticking H _ σ hq] at h1
          split at h1
          · exact absurd h1 (by simp)
          · simp only [Res.ok.injEq] at h1
            subst h1
            obtain ⟨b1, b2, b3, b4, b5, b6, q, b7⟩ :=
              ih (σ := { σ with m_started := false }) (Or.inl hq) h2
            exact ⟨b1, b2, b3, b4, b5, fun _ => b6 rfl, q, b7⟩
        · unfold StopH at h1
          simp [hq] at h1

theorem runHook_nil (re : Reentry) (σ : Runtime) : runHook re [] σ = Res.ok σ := rfl

/-- The on-tick loop, the machine ticking: whatever the delegates call, the configuration is
left as it is and the record of invocations grows by the `Tick` call of each state visited. -/
theorem tickLoopH_frame {M : Model} {fuel : Nat} {H : Hooks} (d : Nat) (dt : Int) :
    ∀ (n i : Nat) {σ σ' : Runtime}, σ.m_ticking = true →
      tickLoopH H (reentry M fuel H d) dt n i σ = Res.ok σ' →
      σ'.m_currentStates = σ.m_currentStates ∧
      σ'.calls = σ.calls ++
        ((σ.m_currentStates.drop i).take n).map (fun s => HookCall.tick s dt) ∧
      σ'.m_ticking = true ∧
      σ'.bImmediatelyDequeueEvents = σ.bImmediatelyDequeueEvents ∧
      σ'.errorLogs = σ.errorLogs ∧
      (∃ q, σ'.m_eventsQueue = σ.m_eventsQueue ++ q) := by
  intro n
  induction n with
  | zero =>
    intro i σ σ' ht h
    simp only [tickLoopH, Res.ok.injEq] at h
    subst h
    exact ⟨rfl, by simp, ht, rfl, rfl, [], by simp⟩
  | succ n ih =>
    intro i σ σ' ht h
    unfold tickLoopH at h
    cases hi : σ.m_currentStates[i]? with
    | none => rw [hi] at h; exact absurd h (by simp)
    | some s =>
      rw [hi] at h
      simp only at h
      obtain ⟨σ1, h1, h2⟩ := Res.bind_eq_ok.1 h
      obtain ⟨a1, a2, a3, a4, a5, _, q1, a7⟩ :=
        runHook_quiet d (H.Tick s) (σ := { σ with calls := σ.calls ++ [HookCall.tick s dt] })
          (Or.inl ht) h1
      simp only at a1 a2 a3 a4 a5 a7
      have ht1 : σ1.m_ticking = true := a3.trans ht
      obtain ⟨b1, b2, b3, b4, b5, q2, b7⟩ := ih (i + 1) ht1 h2
      refine ⟨b1.trans a1, ?_, b3, b4.trans a4, b5.trans a5, q1 ++ q2, ?_⟩
      · rw [b2, a2, a1]
        have hlt : i < σ.m_currentStates.length := lt_of_getElem?_eq_some hi
        have hd : σ.m_currentStates.drop i = s :: σ.m_currentStates.drop (i + 1) := by
          rw [List.drop_eq_getElem_cons hlt]
          congr 1
          have := List.getElem?_eq_getElem hlt
          rw [this] at hi
          exact Option.some.inj hi
        rw [hd]
        simp
      · rw [b7, a7]; simp

/-- The on-tick loop when the `Tick` delegates of the active states make no call. -/
theorem tickLoopH_inert (H : Hooks) (re : Reentry) (dt : Int) :
    ∀ (n i : Nat) (σ : Runtime), i + n ≤ σ.m_currentStates.length →
      (∀ s ∈ σ.m_currentStates, H.Tick s = []) →
      tickLoopH H re dt n i σ = Res.ok { σ with
        calls := σ.calls ++
          ((σ.m_currentStates.drop i).take n).map (fun s => HookCall.tick s dt) } := by
  intro n
  induction n with
  | zero =>
    intro i σ _ _
    simp [tickLoopH]
  | succ n ih =>
    intro i σ hle hin
    have hlt : i < σ.m_currentStates.length := by omega
    have hi : σ.m_currentStates[i]? = some σ.m_currentStates[i] := List.getElem?_eq_getElem hlt
    unfold tickLoopH
    rw [hi]
    simp only
    rw [hin _ (List.getElem_mem hlt), runHook_nil, Res.ok_bind]
    rw [ih (i + 1) _ (by simp only; omega) (by simpa using hin)]
    have hd : σ.m_currentStates.drop i =
        σ.m_currentStates[i] :: σ.m_currentStates.drop (i + 1) :=
      List.drop_eq_getElem_cons hlt
    simp only [hd, List.take_succ_cons, List.map_cons, List.append_assoc, List.singleton_append]

/-! ## The exit loop of `Stop` -/

/-- The exit loop of `Stop`, the machine already marked stopped: whatever the delegates call,
the configuration is left as it is and the record of invocations grows by the `Exit` call of
each state visited, from the last index to the first. -/
theorem stopLoopH_frame {M : Model} {fuel : Nat} {H : Hooks} (d : Nat) :
    ∀ (n : Nat) {σ σ' : Runtime}, σ.m_started = false →
      stopLoopH H (reentry M fuel H d) n σ = Res.ok σ' →
      σ'.m_currentStates = σ.m_currentStates ∧
      σ'.calls = σ.calls ++ (σ.m_currentStates.take n).reverse.map HookCall.exit ∧
      σ'.m_started = false ∧ σ'.m_ticking = σ.m_ticking ∧
      σ'.bImmediatelyDequeueEvents = σ.bImmediatelyDequeueEvents ∧
      σ'.errorLogs = σ.errorLogs ∧
      (∃ q, σ'.m_eventsQueue = σ.m_eventsQueue ++ q) := by
  intro n
  induction n with
  | zero =>
    intro σ σ' hs h
    simp only [stopLoopH, Res.ok.injEq] at h
    subst h
    exact ⟨rfl, by simp, hs, rfl, rfl, rfl, [], by simp⟩
  | succ n ih =>
    intro σ σ' hs h
    unfold stopLoopH at h
    cases hi : σ.m_currentStates[n]? with
    | none => rw [hi] at h; exact absurd h (by simp)
    | some s =>
      rw [hi] at h
      simp only at h
      obtain ⟨σ1, h1, h2⟩ := Res.bind_eq_ok.1 h
      obtain ⟨a1, a2, a3, a4, a5, a6, q1, a7⟩ :=
        runHook_quiet d (H.Exit s) (σ := { σ with calls := σ.calls ++ [HookCall.exit s] })
          (Or.inr hs) h1
      simp only at a1 a2 a3 a4 a5 a6 a7
      have hs1 : σ1.m_started = false := a6 hs
      obtain ⟨b1, b2, b3, b4, b5, b6, q2, b7⟩ := ih hs1 h2
      refine ⟨b1.trans a1, ?_, b3, b4.trans a3, b5.trans a4, b6.trans a5, q1 ++ q2, ?_⟩
      · rw [b2, a2, a1, List.take_succ, hi]
        simp
      · rw [b7, a7]; simp

/-- The exit loop of `Stop` when the `Exit` delegates of the active states make no call. -/
theorem stopLoopH_inert (H : Hooks) (re : Reentry) :
    ∀ (n : Nat) (σ : Runtime), n ≤ σ.m_currentStates.length →
      (∀ s ∈ σ.m_currentStates, H.Exit s = []) →
      stopLoopH H re n σ = Res.ok { σ with
        calls := σ.calls ++ (σ.m_currentStates.take n).reverse.map HookCall.exit } := by
  intro n
  induction n with
  | zero =>
    intro σ _ _
    simp [stopLoopH]
  | succ n ih =>
    intro σ hle hin
    have hlt : n < σ.m_currentStates.length := by omega
    have hi : σ.m_currentStates[n]? = some σ.m_currentStates[n] := List.getElem?_eq_getElem hlt
    unfold stopLoopH
    rw [hi]
    simp only
    rw [hin _ (List.getElem_mem hlt), runHook_nil, Res.ok_bind]
    rw [ih _ (by simp only; omega) (by simpa using hin)]
    simp only [List.take_succ, hi, Option.toList_some, List.reverse_append, List.reverse_cons,
      List.reverse_nil, List.nil_append, List.singleton_append, List.map_cons, List.append_assoc]

/-! ## Delegates that make no call: the two embeddings agree -/

theorem exitLoop_cons (M : Model) (fuel : Nat) (L : Option TrackPtr) (y : StatePtr)
    (l : List StatePtr) :
    exitLoop M fuel L (y :: l) =
      (exitLoop M fuel L l >>= fun r => IsInTrack M fuel y L >>= fun b =>
        if b then Res.ok (r.1, r.2 ++ [HookCall.exit y]) else Res.ok (y :: r.1, r.2)) := by
  conv_lhs => unfold exitLoop

theorem exitLoop_snoc (M : Model) (fuel : Nat) (L : Option TrackPtr) (s : StatePtr) :
    ∀ l : List StatePtr,
      exitLoop M fuel L (l ++ [s]) =
        (IsInTrack M fuel s L >>= fun b => exitLoop M fuel L l >>= fun r =>
          Res.ok (if b then (r.1, HookCall.exit s :: r.2) else (r.1 ++ [s], r.2))) := by
  intro l
  induction l with
  | nil =>
    rw [List.nil_append, exitLoop_cons]
    simp only [exitLoop, Res.ok_bind, List.nil_append]
    cases IsInTrack M fuel s L with
    | fault e => rfl
    | ok b => cases b <;> rfl
  | cons x rest ih =>
    rw [List.cons_append, exitLoop_cons, ih, exitLoop_cons]
    cases IsInTrack M fuel s L with
    | fault e => rfl
    | ok b =>
      simp only [Res.ok_bind]
      cases exitLoop M fuel L rest with
      | fault e => rfl
      | ok r =>
        simp only [Res.ok_bind]
        cases IsInTrack M fuel x L with
        | fault e => rfl
        | ok bx => cases b <;> cases bx <;> simp

theorem take_eraseIdx_self {α : Type} (l : List α) (n : Nat) (h : n < l.length) :
    (l.eraseIdx n).take n = l.take n := by
  rw [List.eraseIdx_eq_take_drop_succ]
  exact List.take_left' (by simp; omega)

theorem drop_eraseIdx_self {α : Type} (l : List α) (n : Nat) (h : n < l.length) :
    (l.eraseIdx n).drop n = l.drop (n + 1) := by
  rw [List.eraseIdx_eq_take_drop_succ]
  exact List.drop_left' (by simp; omega)

theorem exitLoopH_inert (M : Model) (fuel : Nat) (re : Reentry) (L : Option TrackPtr) :
    ∀ (n : Nat) (σ : Runtime), n ≤ σ.m_currentStates.length →
      exitLoopH M fuel Hooks.inert re L n σ =
        (exitLoop M fuel L (σ.m_currentStates.take n) >>= fun r =>
          Res.ok { σ with
            m_currentStates := r.1 ++ σ.m_currentStates.drop n
            calls := σ.calls ++ r.2 }) := by
  intro n
  induction n with
  | zero =>
    intro σ _
    simp [exitLoopH, exitLoop]
  | succ n ih =>
    intro σ hle
    have hlt : n < σ.m_currentStates.length := by omega
    have hi : σ.m_currentStates[n]? = some σ.m_currentStates[n] := List.getElem?_eq_getElem hlt
    have hd : σ.m_currentStates.drop n =
        σ.m_currentStates[n] :: σ.m_currentStates.drop (n + 1) :=
      List.drop_eq_getElem_cons hlt
    unfold exitLoopH
    rw [hi]
    simp only [List.take_succ, hi, Option.toList_some, exitLoop_snoc]
    cases IsInTrack M fuel σ.m_currentStates[n] L with
    | fault e => rfl
    | ok b =>
      simp only [Res.ok_bind]
      cases b with
      | true =>
        have hE : Hooks.inert.Exit σ.m_currentStates[n] = [] := rfl
        simp only [if_true, hE, runHook_nil, Res.ok_bind, hlt]
        rw [ih _ (by simp only [List.length_eraseIdx, hlt, if_true]; omega)]
        simp only [take_eraseIdx_self _ _ hlt, drop_eraseIdx_self _ _ hlt]
        cases exitLoop M fuel L (σ.m_currentStates.take n) with
        | fault e => rfl
        | ok r => simp
      | false =>
        simp only [Bool.false_eq_true, if_false]
        rw [ih σ (by omega), hd]
        cases exitLoop M fuel L (σ.m_currentStates.take n) with
        | fault e => rfl
        | ok r => simp

theorem enterLoopH_inert (M : Model) (re : Reentry) :
    ∀ (fuel : Nat) (ts : List TrackPtr) (path : List StatePtr) (σ : Runtime),
      enterLoopH M Hooks.inert re fuel ts path σ =
        (enterLoop M fuel ts path σ.m_currentStates σ.calls >>= fun r =>
          Res.ok { σ with m_currentStates := r.1, calls := r.2 }) := by
  intro fuel
  induction fuel with
  | zero => intro ts path σ; rfl
  | succ n ih =>
    intro ts path σ
    have tail : ∀ (cs0 : Option StatePtr) (p1 : List StatePtr),
        (match cs0 with
          | none => (Res.fault Fault.nullDeref : Res Runtime)
          | some cs => do
            let s ← M.state cs
            let σ1 ← runHook re (Hooks.inert.Enter cs)
              { σ with calls := σ.calls ++ [HookCall.enter cs] }
            enterLoopH M Hooks.inert re n (ts.dropLast ++ s.m_tracks.map Prod.snd) p1
              { σ1 with m_currentStates := σ1.m_currentStates ++ [cs] }) =
        ((match cs0 with
          | none => (Res.fault Fault.nullDeref : Res (List StatePtr × List HookCall))
          | some cs => do
            let s ← M.state cs
            enterLoop M n (ts.dropLast ++ s.m_tracks.map Prod.snd) p1
              (σ.m_currentStates ++ [cs]) (σ.calls ++ [HookCall.enter cs])) >>= fun r =>
          Res.ok { σ with m_currentStates := r.1, calls := r.2 }) := by
      intro cs0 p1
      cases cs0 with
      | none => rfl
      | some c =>
        simp only
        cases M.state c with
        | fault e => rfl
        | ok s =>
          have hE : Hooks.inert.Enter c = [] := rfl
          simp only [Res.ok_bind, hE, runHook_nil]
          rw [ih]
    unfold enterLoopH enterLoop
    cases ts.getLast? with
    | none => rfl
    | some ct =>
      simp only
      cases M.track ct with
      | fault e => rfl
      | ok t =>
        simp only [Res.ok_bind]
        cases path with
        | nil =>
          simp only [Res.ok_bind]
          exact tail t.m_defaultState []
        | cons p0 prest =>
          simp only
          cases M.state p0 with
          | fault e => rfl
          | ok ps =>
            simp only [Res.ok_bind]
            cases tmapFind t.m_states ps.m_name with
            | none =>
              simp only [Res.ok_bind]
              exact tail t.m_defaultState (p0 :: prest)
            | some result =>
              simp only [Res.ok_bind]
              exact tail (some result) prest

theorem fireTransitionH_inert (M : Model) (fuel : Nat) (re : Reentry) (tr : EventTransition)
    (σ : Runtime) :
    fireTransitionH M fuel Hooks.inert re tr σ = fireTransition M fuel tr σ := by
  unfold fireTransitionH fireTransition
  split
  · rfl
  · cases _FindClosestCommonTrack M fuel tr.source tr.target with
    | fault e => rfl
    | ok L =>
      simp only [Res.ok_bind]
      cases M.state tr.target with
      | fault e => rfl
      | ok tgt =>
        simp only [Res.ok_bind]
        cases pathLoop M L fuel (some tgt.m_parent) [tr.target] with
        | fault e => rfl
        | ok path =>
          simp only [Res.ok_bind]
          rw [exitLoopH_inert M fuel re L _ σ (le_refl _)]
          simp only [List.take_length, List.drop_length, List.append_nil]
          cases exitLoop M fuel L σ.m_currentStates with
          | fault e => rfl
          | ok r =>
            obtain ⟨kept, exits⟩ := r
            simp only [Res.ok_bind]
            cases L with
            | none => rfl
            | some ct =>
              simp only
              rw [enterLoopH_inert]
              cases enterLoop M fuel [ct] path kept (σ.calls ++ exits) with
              | fault e => rfl
              | ok r2 => rfl

theorem fireTransitionsH_inert (M : Model) (fuel : Nat) (re : Reentry) :
    ∀ (trs : List EventTransition) (σ : Runtime),
      fireTransitionsH M fuel Hooks.inert re trs σ = fireTransitions M fuel trs σ := by
  intro trs
  induction trs with
  | nil => intro σ; rfl
  | cons tr rest ih =>
    intro σ
    unfold fireTransitionsH fireTransitions
    rw [fireTransitionH_inert]
    cases fireTransition M fuel tr σ with
    | fault e => rfl
    | ok σ1 => simp only [Res.ok_bind]; exact ih σ1

theorem processEventH_inert (M : Model) (fuel : Nat) (re : Reentry) (evt : FName)
    (σ : Runtime) :
    processEventH M fuel Hooks.inert re evt σ = processEvent M fuel evt σ := by
  unfold processEventH processEvent
  cases tmapFind M.m_eventTransitions evt with
  | none => rfl
  | some trs => exact fireTransitionsH_inert M fuel re trs σ

theorem dequeueLoopH_inert (M : Model) (fuel : Nat) (re : Reentry) :
    ∀ (remaining count : Nat) (σ : Runtime),
      dequeueLoopH M fuel Hooks.inert re remaining count σ =
        dequeueLoop M fuel remaining count σ := by
  intro remaining
  induction remaining with
  | zero => intro count σ; rfl
  | succ n ih =>
    intro count σ
    unfold dequeueLoopH dequeueLoop
    cases σ.m_eventsQueue with
    | nil => rfl
    | cons evt q =>
      simp only
      rw [processEventH_inert]
      cases processEvent M fuel evt { σ with m_eventsQueue := q } with
      | fault e => rfl
      | ok σ1 => simp only [Res.ok_bind]; exact ih _ σ1

/-- With delegates that make no call, the embedding that runs the delegates is the embedding
that only records them: `DequeueEvents`. -/
theorem DequeueEventsH_inert (M : Model) (fuel : Nat) (re : Reentry) (k : Nat) (σ : Runtime) :
    DequeueEventsH M fuel Hooks.inert re k σ = DequeueEvents M fuel k σ := by
  unfold DequeueEventsH DequeueEvents
  simp only [dequeueLoopH_inert]

/-- With delegates that make no call: `PostEvent`. -/
theorem PostEventH_inert (M : Model) (fuel : Nat) (re : Reentry) (e : FName) (σ : Runtime) :
    PostEventH M fuel Hooks.inert re e σ = PostEvent M fuel e σ := by
  unfold PostEventH
  rw [PostEvent_def]
  simp only [DequeueEventsH_inert]

/-- With delegates that make no call: `Stop`. -/
theorem StopH_inert (re : Reentry) (σ : Runtime) : StopH Hooks.inert re σ = Stop σ := by
  obtain ⟨cs, queue, tk, st, im, calls, el⟩ := σ
  unfold StopH Stop
  cases st with
  | false => simp
  | true =>
    cases tk with
    | true => simp
    | false =>
      simp only [not_true_eq_false, if_false, Bool.false_eq_true, not_false_eq_true, if_true]
      have hl := stopLoopH_inert Hooks.inert re cs.length
        { m_currentStates := cs, m_eventsQueue := queue, m_ticking := false, m_started := false,
          bImmediatelyDequeueEvents := im, calls := calls, errorLogs := el } (le_refl _)
        (fun _ _ => rfl)
      rw [hl]
      simp only [Res.ok_bind, List.take_length, Res.pure_eq]

/-- With delegates that make no call: `Tick`. -/
theorem TickH_inert (M : Model) (fuel : Nat) (re : Reentry) (dt : Int) (σ : Runtime) :
    TickH M fuel Hooks.inert re dt σ = Tick M fuel dt σ := by
  unfold TickH Tick
  by_cases hs : σ.m_started = true
  · by_cases ht : σ.m_ticking = true
    · simp [hs, ht]
    · simp only [hs, ht, not_true_eq_false, if_false, Bool.false_eq_true, DequeueEventsH_inert]
      cases h1 : DequeueEvents M fuel defaultLimitArg σ with
      | fault e => rfl
      | ok σ1 =>
        obtain ⟨t1, _, _⟩ := DequeueEvents_flags h1
        have ht1 : σ1.m_ticking = false := by
          rw [t1]; simpa using ht
        simp only [Res.ok_bind]
        rw [tickLoopH_inert Hooks.inert re dt _ 0 { σ1 with m_ticking := true } (by simp)
          (fun _ _ => rfl)]
        simp only [Res.ok_bind, List.drop_zero, List.take_length, StopH_inert]
        have hσ : ({ σ1 with
            m_ticking := false
            calls := σ1.calls ++ σ1.m_currentStates.map (fun s => HookCall.tick s dt) }
              : Runtime) =
            { σ1 with
              calls := σ1.calls ++ σ1.m_currentStates.map (fun s => HookCall.tick s dt) } := by
          cases σ1
          simp only at ht1
          subst ht1
          rfl
        rw [hσ]
  · simp [hs]

/-! ## C11, C12, C13 : the event queue -/

/-- C11 (FIFO processing). For a limit `k` that fits `uint16` and a queue of at most `k`
events, `DequeueEvents(k)` is the processing of the queued events one after the other, oldest
first, each against the state left by the one before; the queue is left empty (and the error
is logged if 5000 events or more were processed). This holds of the embedding that records
the delegates and of the one that runs them, the delegates making no call. -/
theorem C11_fifo_processing (M : Model) (fuel k : Nat) (σ : Runtime) (hk : k < 2 ^ 16)
    (hn : σ.m_eventsQueue.length ≤ k) :
    DequeueEvents M fuel k σ =
      (processEvents M fuel σ.m_eventsQueue { σ with m_eventsQueue := [] }
        >>= fun σ' => Res.ok (logFeedbackLoop σ.m_eventsQueue.length
          { σ' with m_eventsQueue := [] })) ∧
    (∀ re : Reentry, DequeueEventsH M fuel Hooks.inert re k σ =
      (processEvents M fuel σ.m_eventsQueue { σ with m_eventsQueue := [] }
        >>= fun σ' => Res.ok (logFeedbackLoop σ.m_eventsQueue.length
          { σ' with m_eventsQueue := [] }))) := by
  have h : DequeueEvents M fuel k σ =
      (processEvents M fuel σ.m_eventsQueue { σ with m_eventsQueue := [] }
        >>= fun σ' => Res.ok (logFeedbackLoop σ.m_eventsQueue.length
          { σ' with m_eventsQueue := [] })) := by
    rw [DequeueEvents_eq M fuel k σ hk, List.take_of_length_le hn, List.drop_of_length_le hn,
      Nat.min_eq_right hn]
  exact ⟨h, fun re => (DequeueEventsH_inert M fuel re k σ).trans h⟩

/-- C12 (processing limit). For every limit `k` that fits `uint16` and every queue of `n`
events, `DequeueEvents(k)` is the processing, in order, of the first `min k n` events of the
queue, and the other `n - min k n` events stay queued in their order (the error is logged if
5000 events or more were processed). This holds of the embedding that records the delegates
and of the one that runs them, the delegates making no call. -/
theorem C12_processing_limit (M : Model) (fuel k : Nat) (σ : Runtime) (hk : k < 2 ^ 16) :
    DequeueEvents M fuel k σ =
      (processEvents M fuel (σ.m_eventsQueue.take k) { σ with m_eventsQueue := [] }
        >>= fun σ' => Res.ok (logFeedbackLoop (min k σ.m_eventsQueue.length)
          { σ' with m_eventsQueue := σ.m_eventsQueue.drop k })) ∧
    (∀ re : Reentry, DequeueEventsH M fuel Hooks.inert re k σ =
      (processEvents M fuel (σ.m_eventsQueue.take k) { σ with m_eventsQueue := [] }
        >>= fun σ' => Res.ok (logFeedbackLoop (min k σ.m_eventsQueue.length)
          { σ' with m_eventsQueue := σ.m_eventsQueue.drop k }))) ∧
    (σ.m_eventsQueue.take k).length = min k σ.m_eventsQueue.length ∧
    (σ.m_eventsQueue.drop k).length = σ.m_eventsQueue.length - min k σ.m_eventsQueue.length ∧
    σ.m_eventsQueue.take k ++ σ.m_eventsQueue.drop k = σ.m_eventsQueue := by
  refine ⟨DequeueEvents_eq M fuel k σ hk,
    fun re => (DequeueEventsH_inert M fuel re k σ).trans (DequeueEvents_eq M fuel k σ hk),
    by simp, by simp; omega, List.take_append_drop _ _⟩

/-- Witness of C11: `jump` then `die` queued on started Scenario B, limit 5. -/
theorem C11_fifo_processing_witness :
    (5 : Nat) < 2 ^ 16 ∧
    ({ scenarioB_started with m_eventsQueue := ["jump", "die"] } : Runtime).m_eventsQueue.length
      ≤ 5 ∧
    DequeueEvents scenarioB 4 5 { scenarioB_started with m_eventsQueue := ["jump", "die"] } =
      (processEvents scenarioB 4
          ({ scenarioB_started with m_eventsQueue := ["jump", "die"] } : Runtime).m_eventsQueue
          { ({ scenarioB_started with m_eventsQueue := ["jump", "die"] } : Runtime) with
            m_eventsQueue := [] }
        >>= fun σ' => Res.ok (logFeedbackLoop
          ({ scenarioB_started with m_eventsQueue := ["jump", "die"] } : Runtime).m_eventsQueue.length
          { σ' with m_eventsQueue := [] })) :=
  ⟨by decide, by decide,
    (C11_fifo_processing scenarioB 4 5
      { scenarioB_started with m_eventsQueue := ["jump", "die"] } (by decide) (by decide)).1⟩

/-- Witness of C12: `jump` then `die` queued on started Scenario B, limit 1: only `jump` is
processed and `die` stays queued. -/
theorem C12_processing_limit_witness :
    (1 : Nat) < 2 ^ 16 ∧
    DequeueEvents scenarioB 4 1 { scenarioB_started with m_eventsQueue := ["jump", "die"] } =
      Res.ok { scenarioB_jumped with m_eventsQueue := ["die"] } ∧
    (DequeueEvents scenarioB 4 1 { scenarioB_started with m_eventsQueue := ["jump", "die"] } =
      (processEvents scenarioB 4
          (({ scenarioB_started with m_eventsQueue := ["jump", "die"] } : Runtime).m_eventsQueue.take 1)
          { ({ scenarioB_started with m_eventsQueue := ["jump", "die"] } : Runtime) with
            m_eventsQueue := [] }
        >>= fun σ' => Res.ok (logFeedbackLoop
          (min 1 ({ scenarioB_started with m_eventsQueue := ["jump", "die"] } : Runtime).m_eventsQueue.length)
          { σ' with m_eventsQueue :=
              ({ scenarioB_started with m_eventsQueue := ["jump", "die"] } : Runtime).m_eventsQueue.drop 1 })) ∧
    (({ scenarioB_started with m_eventsQueue := ["jump", "die"] } : Runtime).m_eventsQueue.take 1).length =
      min 1 ({ scenarioB_started with m_eventsQueue := ["jump", "die"] } : Runtime).m_eventsQueue.length ∧
    (({ scenarioB_started with m_eventsQueue := ["jump", "die"] } : Runtime).m_eventsQueue.drop 1).length =
      ({ scenarioB_started with m_eventsQueue := ["jump", "die"] } : Runtime).m_eventsQueue.length -
        min 1 ({ scenarioB_started with m_eventsQueue := ["jump", "die"] } : Runtime).m_eventsQueue.length ∧
    ({ scenarioB_started with m_eventsQueue := ["jump", "die"] } : Runtime).m_eventsQueue.take 1 ++
        ({ scenarioB_started with m_eventsQueue := ["jump", "die"] } : Runtime).m_eventsQueue.drop 1 =
      ({ scenarioB_started with m_eventsQueue := ["jump", "die"] } : Runtime).m_eventsQueue) :=
  ⟨by decide, by decide,
    (C12_processing_limit scenarioB 4 1
      { scenarioB_started with m_eventsQueue := ["jump", "die"] } (by decide)).1,
    (C12_processing_limit scenarioB 4 1
      { scenarioB_started with m_eventsQueue := ["jump", "die"] } (by decide)).2.2⟩

/-- C13, the code at the failing input. The default argument `-1` converted to `uint16` is
65535, and the test `_dequeuedEventsLimit == -1` compares that value, promoted to `int`, with
-1: it is false, so the limit of a call without argument is 65535 and `DequeueEvents()`
processes the first 65535 events of any queue. On Scenario B in configuration
[alive, healthy, jumping] with 5001 `jump` events queued, `DequeueEvents()` processes all 5001
events (none stays queued) and then logs the feedback-loop error. -/
theorem C13_default_limit_is_65535 :
    defaultLimitArg = 65535 ∧
    ¬ (((defaultLimitArg % 2 ^ 16 : Nat) : Int) = -1) ∧
    (∀ (M : Model) (fuel : Nat) (σ : Runtime),
      DequeueEvents M fuel defaultLimitArg σ =
        (processEvents M fuel (σ.m_eventsQueue.take 65535) { σ with m_eventsQueue := [] }
          >>= fun σ' => Res.ok (logFeedbackLoop (min 65535 σ.m_eventsQueue.length)
            { σ' with m_eventsQueue := σ.m_eventsQueue.drop 65535 }))) ∧
    DequeueEvents scenarioB 4 defaultLimitArg
        { scenarioB_jumped with m_eventsQueue := List.replicate 5001 "jump" } =
      Res.ok { scenarioB_jumped with
        m_eventsQueue := [], errorLogs := scenarioB_jumped.errorLogs + 1 } ∧
    (∀ re : Reentry, DequeueEventsH scenarioB 4 Hooks.inert re defaultLimitArg
        { scenarioB_jumped with m_eventsQueue := List.replicate 5001 "jump" } =
      Res.ok { scenarioB_jumped with
        m_eventsQueue := [], errorLogs := scenarioB_jumped.errorLogs + 1 }) := by
  have hd : defaultLimitArg = 65535 := by decide
  have hgen : ∀ (M : Model) (fuel : Nat) (σ : Runtime),
      DequeueEvents M fuel defaultLimitArg σ =
        (processEvents M fuel (σ.m_eventsQueue.take 65535) { σ with m_eventsQueue := [] }
          >>= fun σ' => Res.ok (logFeedbackLoop (min 65535 σ.m_eventsQueue.length)
            { σ' with m_eventsQueue := σ.m_eventsQueue.drop 65535 })) := by
    intro M fuel σ
    rw [hd]
    exact DequeueEvents_eq M fuel 65535 σ (by decide)
  have hrun : DequeueEvents scenarioB 4 defaultLimitArg
        { scenarioB_jumped with m_eventsQueue := List.replicate 5001 "jump" } =
      Res.ok { scenarioB_jumped with
        m_eventsQueue := [], errorLogs := scenarioB_jumped.errorLogs + 1 } := ?_
  · exact ⟨hd, by rw [hd]; decide, hgen, hrun,
      fun re => (DequeueEventsH_inert scenarioB 4 re _ _).trans hrun⟩
  rw [hgen]
  have hlen : (List.replicate 5001 "jump").length ≤ 65535 := by
    rw [List.length_replicate]; decide
  have hp : processEvents scenarioB 4 (List.replicate 5001 "jump")
      { scenarioB_jumped with m_eventsQueue := [] } =
      Res.ok { scenarioB_jumped with m_eventsQueue := [] } :=
    processEvents_noop [⟨"jump", 1, 2⟩] (by decide) (by decide) 5001
  simp only [List.take_of_length_le hlen, List.drop_of_length_le hlen, hp, Res.ok_bind,
    List.length_replicate]
  have hm : min 65535 5001 = 5001 := by decide
  rw [hm]
  rfl

/-! ## C14 : order of `Tick` -/

/-- C14 (Tick order). On a started machine that is not ticking, whatever the delegates call on
the machine and however deep they nest: `Tick(dt)` is the first `DequeueEvents()`, then the
on-tick loop over the configuration left by that drain with `m_ticking` set, then the second
`DequeueEvents()` with `m_ticking` cleared (then the test of `m_started`); an on-tick loop
that returns has invoked `Tick(dt)` once on each state of that configuration, in configuration
order, and has left the configuration as it was; it does return when the `Tick` delegates
make no call. With delegates that make no call, `Tick(dt)` is the embedding `Tick` that only
records the delegates, which is exactly: drain, on-tick on each state of the resulting
configuration in order, drain. -/
theorem C14_tick_order (M : Model) (fuel : Nat) (H : Hooks) (d : Nat) (dt : Int) (σ : Runtime)
    (hs : σ.m_started = true) (ht : σ.m_ticking = false) :
    TickH M fuel H (reentry M fuel H d) dt σ =
      (DequeueEventsH M fuel H (reentry M fuel H d) defaultLimitArg σ >>= fun σ1 =>
        tickLoopH H (reentry M fuel H d) dt σ1.m_currentStates.length 0
            { σ1 with m_ticking := true } >>= fun σ2 =>
        DequeueEventsH M fuel H (reentry M fuel H d) defaultLimitArg
            { σ2 with m_ticking := false } >>= fun σ3 =>
        if ¬ σ3.m_started then StopH H (reentry M fuel H d) σ3 else Res.ok σ3) ∧
    (∀ σ1 σ2 : Runtime,
      tickLoopH H (reentry M fuel H d) dt σ1.m_currentStates.length 0
          { σ1 with m_ticking := true } = Res.ok σ2 →
        σ2.m_currentStates = σ1.m_currentStates ∧
        σ2.calls = σ1.calls ++ σ1.m_currentStates.map (fun s => HookCall.tick s dt) ∧
        σ2.m_ticking = true) ∧
    (∀ σ1 : Runtime, (∀ s ∈ σ1.m_currentStates, H.Tick s = []) →
      tickLoopH H (reentry M fuel H d) dt σ1.m_currentStates.length 0
          { σ1 with m_ticking := true } =
        Res.ok { σ1 with
          m_ticking := true
          calls := σ1.calls ++ σ1.m_currentStates.map (fun s => HookCall.tick s dt) }) ∧
    (∀ re : Reentry, TickH M fuel Hooks.inert re dt σ = Tick M fuel dt σ) ∧
    Tick M fuel dt σ =
      (DequeueEvents M fuel defaultLimitArg σ >>= fun σ1 =>
        DequeueEvents M fuel defaultLimitArg
          { σ1 with
            calls := σ1.calls ++ σ1.m_currentStates.map (fun s => HookCall.tick s dt) }) := by
  refine ⟨?_, ?_, ?_, fun re => TickH_inert M fuel re dt σ, ?_⟩
  · unfold TickH
    simp only [hs, ht, not_true_eq_false, if_false, Bool.false_eq_true]
    rfl
  · intro σ1 σ2 h
    obtain ⟨a1, a2, a3, _⟩ :=
      tickLoopH_frame d dt σ1.m_currentStates.length 0 (σ := { σ1 with m_ticking := true }) rfl h
    simp only [List.drop_zero, List.take_length] at a1 a2
    exact ⟨a1, a2, a3⟩
  · intro σ1 hin
    have := tickLoopH_inert H (reentry M fuel H d) dt σ1.m_currentStates.length 0
      { σ1 with m_ticking := true } (by simp) hin
    simpa only [List.drop_zero, List.take_length] using this
  · unfold Tick
    simp only [hs, ht, not_true_eq_false, if_false, Bool.false_eq_true]
    cases h1 : DequeueEvents M fuel defaultLimitArg σ with
    | fault e => rfl
    | ok σ1 =>
      simp only [Res.ok_bind]
      obtain ⟨_, s1, _⟩ := DequeueEvents_flags h1
      cases h3 : DequeueEvents M fuel defaultLimitArg
          { σ1 with
            calls := σ1.calls ++ σ1.m_currentStates.map (fun s => HookCall.tick s dt) } with
      | fault e => rfl
      | ok σ3 =>
        obtain ⟨_, s3, _⟩ := DequeueEvents_flags h3
        simp only at s3
        simp only [Res.ok_bind, s3, s1, hs, not_true_eq_false, if_false, Res.pure_eq]

/-- Witness of C14: started Scenario B, delegates that make no call, `Tick(16)`. -/
theorem C14_tick_order_witness :
    scenarioB_started.m_started = true ∧ scenarioB_started.m_ticking = false ∧
    TickH scenarioB 4 Hooks.inert (reentry scenarioB 4 Hooks.inert 1) 16 scenarioB_started =
      Res.ok { scenarioB_started with
        calls := scenarioB_started.calls ++
          [HookCall.tick 0 16, HookCall.tick 3 16, HookCall.tick 1 16] } ∧
    Tick scenarioB 4 16 scenarioB_started =
      (DequeueEvents scenarioB 4 defaultLimitArg scenarioB_started >>= fun σ1 =>
        DequeueEvents scenarioB 4 defaultLimitArg
          { σ1 with
            calls := σ1.calls ++ σ1.m_currentStates.map (fun s => HookCall.tick s 16) }) :=
  ⟨rfl, rfl, by decide,
    (C14_tick_order scenarioB 4 Hooks.inert 1 16 scenarioB_started rfl rfl).2.2.2.2⟩

/-! ## C15 : `Stop` called by a `Tick` delegate -/

/-- C15, the code at the failing input. Started Scenario B where the `Tick` delegate of
`alive` calls `Stop`, then `Tick(16)`. During the on-tick loop no `Exit` delegate runs and the
configuration stays [alive, healthy, grounded], `m_started` being cleared; but the deferred
`Stop()` at the end of `Tick` then fails its `STATEMACHINE_ASSERT(IsStarted())`, so `Tick`
does not return and the teardown is never carried out. This is so for every machine: `Stop`
on a machine whose `m_started` is cleared fails the assertion, and a `Tick` whose three phases
return with `m_started` cleared fails it. -/
theorem C15_deferred_stop_asserts :
    tickLoopH hooksStopInTick (reentry scenarioB 4 hooksStopInTick 1) 16 3 0
        { scenarioB_started with m_ticking := true } =
      Res.ok { scenarioB_started with
        m_ticking := true
        m_started := false
        calls := scenarioB_started.calls ++
          [HookCall.tick 0 16, HookCall.tick 3 16, HookCall.tick 1 16] } ∧
    TickH scenarioB 4 hooksStopInTick (reentry scenarioB 4 hooksStopInTick 1) 16
        scenarioB_started = Res.fault Fault.assertFailed ∧
    (∀ (H : Hooks) (re : Reentry) (σ : Runtime), σ.m_started = false →
      StopH H re σ = Res.fault Fault.assertFailed ∧ Stop σ = Res.fault Fault.assertFailed) ∧
    (∀ (M : Model) (fuel : Nat) (H : Hooks) (re : Reentry) (dt : Int) (σ σ1 σ2 σ3 : Runtime),
      σ.m_started = true → σ.m_ticking = false →
      DequeueEventsH M fuel H re defaultLimitArg σ = Res.ok σ1 →
      tickLoopH H re dt σ1.m_currentStates.length 0 { σ1 with m_ticking := true } = Res.ok σ2 →
      DequeueEventsH M fuel H re defaultLimitArg { σ2 with m_ticking := false } = Res.ok σ3 →
      σ3.m_started = false →
      TickH M fuel H re dt σ = Res.fault Fault.assertFailed) := by
  refine ⟨by decide, by decide, ?_, ?_⟩
  · intro H re σ hs
    constructor
    · unfold StopH; simp [hs]
    · unfold Stop; simp [hs]
  · intro M fuel H re dt σ σ1 σ2 σ3 hs ht h1 h2 h3 hs3
    unfold TickH
    simp only [hs, ht, not_true_eq_false, if_false, Bool.false_eq_true, h1, Res.ok_bind, h2, h3,
      hs3, not_false_eq_true, if_true]
    unfold StopH
    simp [hs3]

/-! ## C16 : `Stop` outside `Tick` -/

/-- C16 (Stop outside Tick). On a started machine that is not ticking, whatever the `Exit`
delegates call on the machine: a `Stop()` that returns has invoked `Exit` once on each active
state, from the last of the configuration to the first, has emptied the configuration and
cleared `m_started`; it does return when the `Exit` delegates make no call. `Stop()` on a
machine that is not started fails the assertion. -/
theorem C16_stop_outside_tick (M : Model) (fuel : Nat) (H : Hooks) (d : Nat) (σ : Runtime)
    (hs : σ.m_started = true) (ht : σ.m_ticking = false) :
    (∀ σ' : Runtime, StopH H (reentry M fuel H d) σ = Res.ok σ' →
      σ'.m_currentStates = [] ∧ σ'.m_started = false ∧ σ'.m_ticking = false ∧
      σ'.calls = σ.calls ++ σ.m_currentStates.reverse.map HookCall.exit) ∧
    ((∀ s ∈ σ.m_currentStates, H.Exit s = []) →
      StopH H (reentry M fuel H d) σ = Res.ok { σ with
        m_started := false
        calls := σ.calls ++ σ.m_currentStates.reverse.map HookCall.exit
        m_currentStates := [] }) ∧
    Stop σ = Res.ok { σ with
      m_started := false
      calls := σ.calls ++ σ.m_currentStates.reverse.map HookCall.exit
      m_currentStates := [] } ∧
    (∀ τ : Runtime, τ.m_started = false →
      StopH H (reentry M fuel H d) τ = Res.fault Fault.assertFailed ∧
      Stop τ = Res.fault Fault.assertFailed) := by
  obtain ⟨cs, queue, tk, st, im, calls, el⟩ := σ
  simp only at hs ht
  subst hs ht
  refine ⟨?_, ?_, ?_, ?_⟩
  · intro σ' h
    unfold StopH at h
    simp only [not_true_eq_false, if_false, Bool.false_eq_true, not_false_eq_true,
      if_true] at h
    obtain ⟨σ2, h1, h2⟩ := Res.bind_eq_ok.1 h
    obtain ⟨a1, a2, a3, a4, _⟩ := stopLoopH_frame d cs.length rfl h1
    simp only [List.take_length] at a1 a2 a4
    simp only [Res.pure_eq, Res.ok.injEq] at h2
    subst h2
    exact ⟨rfl, a3, a4, a2⟩
  · intro hin
    unfold StopH
    simp only [not_true_eq_false, if_false, Bool.false_eq_true, not_false_eq_true, if_true]
    have hl := stopLoopH_inert H (reentry M fuel H d) cs.length
      { m_currentStates := cs, m_eventsQueue := queue, m_ticking := false, m_started := false,
        bImmediatelyDequeueEvents := im, calls := calls, errorLogs := el } (le_refl _) hin
    rw [hl]
    simp only [Res.ok_bind, List.take_length, Res.pure_eq]
  · unfold Stop
    simp only [not_true_eq_false, if_false, Bool.false_eq_true, not_false_eq_true, if_true]
  · intro τ hτ
    constructor
    · unfold StopH; simp [hτ]
    · unfold Stop; simp [hτ]

/-- Witness of C16: `Stop()` on started Scenario B, delegates that make no call. -/
theorem C16_stop_outside_tick_witness :
    scenarioB_started.m_started = true ∧ scenarioB_started.m_ticking = false ∧
    StopH Hooks.inert (reentry scenarioB 4 Hooks.inert 1) scenarioB_started =
      Res.ok { scenarioB_started with
        m_started := false
        calls := scenarioB_started.calls ++
          [HookCall.exit 1, HookCall.exit 3, HookCall.exit 0]
        m_currentStates := [] } ∧
    Stop scenarioB_started = Res.ok { scenarioB_started with
      m_started := false
      calls := scenarioB_started.calls ++
        scenarioB_started.m_currentStates.reverse.map HookCall.exit
      m_currentStates := [] } :=
  ⟨rfl, rfl, by decide,
    (C16_stop_outside_tick scenarioB 4 Hooks.inert 1 scenarioB_started rfl rfl).2.2.1⟩

/-! ## `PostEvent` called by a delegate while `m_ticking` is set -/

/-- The re-entrancy protection that the code has. While `m_ticking` is set, that is
during the on-tick loop of `Tick`, a `PostEvent` of a registered event returns the same
run-time state with the event appended to the queue, whatever the delegates and the nesting:
no `DequeueEvents` is run; and a delegate run in that state, whatever it calls, leaves the
configuration and the record of delegate invocations as they are and only extends the
queue. -/
theorem postEvent_while_ticking (M : Model) (fuel : Nat) (H : Hooks) (re : Reentry)
    (e : FName) (σ : Runtime) (ht : σ.m_ticking = true)
    (hreg : (tmapFind M.m_eventTransitions e).isSome = true) :
    PostEventH M fuel H re e σ =
      Res.ok { σ with m_eventsQueue := σ.m_eventsQueue ++ [e] } ∧
    PostEvent M fuel e σ = Res.ok { σ with m_eventsQueue := σ.m_eventsQueue ++ [e] } ∧
    (∀ (d : Nat) (acts : List HookAction) (σ' : Runtime),
      runHook (reentry M fuel H d) acts σ = Res.ok σ' →
        σ'.m_currentStates = σ.m_currentStates ∧ σ'.calls = σ.calls ∧
        σ'.m_ticking = true ∧ ∃ q, σ'.m_eventsQueue = σ.m_eventsQueue ++ q) := by
  have hn : ¬ (tmapFind M.m_eventTransitions e).isNone = true := by
    cases h : tmapFind M.m_eventTransitions e with
    | none => rw [h] at hreg; exact absurd hreg (by simp)
    | some v => simp
  refine ⟨?_, ?_, ?_⟩
  · rw [PostEventH_quiet M fuel H re e σ (Or.inl ht), if_neg hn]
  · rw [PostEvent_def, if_neg hn, if_neg (by simp [ht])]
  · intro d acts σ' h
    obtain ⟨a1, a2, a3, _, _, _, a7⟩ := runHook_quiet d acts (Or.inl ht) h
    exact ⟨a1, a2, a3.trans ht, a7⟩

/-- The event `jump` posted on Scenario B while it is ticking is only queued. -/
theorem postEvent_while_ticking_scenarioB :
    ({ scenarioB_started with m_ticking := true } : Runtime).m_ticking = true ∧
    (tmapFind scenarioB.m_eventTransitions "jump").isSome = true ∧
    PostEventH scenarioB 4 hooksPostInEnter (reentry scenarioB 4 hooksPostInEnter 1) "jump"
        { scenarioB_started with m_ticking := true } =
      Res.ok { ({ scenarioB_started with m_ticking := true } : Runtime) with
        m_eventsQueue :=
          ({ scenarioB_started with m_ticking := true } : Runtime).m_eventsQueue ++ ["jump"] } :=
  ⟨rfl, by decide,
    (postEvent_while_ticking scenarioB 4 hooksPostInEnter
      (reentry scenarioB 4 hooksPostInEnter 1) "jump"
      { scenarioB_started with m_ticking := true } rfl (by decide)).1⟩

/-! ## Event processing fails no assertion (delegates inert) -/

theorem Res.bind_ne_assert {α β : Type} {x : Res α} {f : α → Res β}
    (hx : x ≠ Res.fault Fault.assertFailed) (hf : ∀ a, f a ≠ Res.fault Fault.assertFailed) :
    (x >>= f) ≠ Res.fault Fault.assertFailed := by
  cases x with
  | ok a => simpa using hf a
  | fault e => simpa using hx

theorem track_ne_assert (M : Model) (p : Nat) : M.track p ≠ Res.fault Fault.assertFailed := by
  unfold Model.track
  split <;> simp

theorem state_ne_assert (M : Model) (p : Nat) : M.state p ≠ Res.fault Fault.assertFailed := by
  unfold Model.state
  split <;> simp

theorem IsInTrackLoop_ne_assert (M : Model) (tr : Option TrackPtr) :
    ∀ (fuel : Nat) (cur : Option TrackPtr),
      IsInTrackLoop M tr fuel cur ≠ Res.fault Fault.assertFailed := by
  intro fuel
  induction fuel with
  | zero => intro cur; simp [IsInTrackLoop]
  | succ n ih =>
    intro cur
    cases cur with
    | none => simp [IsInTrackLoop]
    | some c =>
      unfold IsInTrackLoop
      split
      · simp
      · refine Res.bind_ne_assert (track_ne_assert M c) (fun t => ?_)
        split
        · exact ih none
        · exact Res.bind_ne_assert (state_ne_assert M _) (fun ps => ih _)

theorem IsInTrack_ne_assert (M : Model) (fuel : Nat) (s : StatePtr) (tr : Option TrackPtr) :
    IsInTrack M fuel s tr ≠ Res.fault Fault.assertFailed := by
  unfold IsInTrack
  exact Res.bind_ne_assert (state_ne_assert M s) (fun _ => IsInTrackLoop_ne_assert M tr fuel _)

theorem ATracksLoop_ne_assert (M : Model) :
    ∀ (fuel : Nat) (cur : Option TrackPtr) (A : List TrackPtr),
      ATracksLoop M fuel cur A ≠ Res.fault Fault.assertFailed := by
  intro fuel
  induction fuel with
  | zero => intro cur A; simp [ATracksLoop]
  | succ n ih =>
    intro cur A
    cases cur with
    | none => simp [ATracksLoop]
    | some c =>
      unfold ATracksLoop
      refine Res.bind_ne_assert (track_ne_assert M c) (fun t => ?_)
      split
      · exact ih none _
      · exact Res.bind_ne_assert (state_ne_assert M _) (fun ps => ih _ _)

theorem BTracksLoop_ne_assert (M : Model) (A : List TrackPtr) :
    ∀ (fuel : Nat) (cur : Option TrackPtr),
      BTracksLoop M A fuel cur ≠ Res.fault Fault.assertFailed := by
  intro fuel
  induction fuel with
  | zero => intro cur; simp [BTracksLoop]
  | succ n ih =>
    intro cur
    cases cur with
    | none => simp [BTracksLoop]
    | some c =>
      unfold BTracksLoop
      split
      · simp
      · refine Res.bind_ne_assert (track_ne_assert M c) (fun t => ?_)
        split
        · simp
        · exact Res.bind_ne_assert (state_ne_assert M _) (fun ps => ih _)

theorem fcct_ne_assert (M : Model) (fuel : Nat) (a b : StatePtr) :
    _FindClosestCommonTrack M fuel a b ≠ Res.fault Fault.assertFailed := by
  unfold _FindClosestCommonTrack
  refine Res.bind_ne_assert (state_ne_assert M a) (fun sa => ?_)
  refine Res.bind_ne_assert (state_ne_assert M b) (fun sb => ?_)
  split
  · simp
  · refine Res.bind_ne_assert (ATracksLoop_ne_assert M fuel _ _) (fun A => ?_)
    split
    · simp
    · exact BTracksLoop_ne_assert M A fuel _

theorem pathLoop_ne_assert (M : Model) (L : Option TrackPtr) :
    ∀ (fuel : Nat) (cur : Option TrackPtr) (path : List StatePtr),
      pathLoop M L fuel cur path ≠ Res.fault Fault.assertFailed := by
  intro fuel
  induction fuel with
  | zero => intro cur path; simp [pathLoop]
  | succ n ih =>
    intro cur path
    unfold pathLoop
    split
    · simp
    · split
      · simp
      · refine Res.bind_ne_assert (track_ne_assert M _) (fun t => ?_)
        split
        · simp
        · exact Res.bind_ne_assert (state_ne_assert M _) (fun ps => ih _ _)

theorem exitLoop_ne_assert (M : Model) (fuel : Nat) (L : Option TrackPtr) :
    ∀ cur : List StatePtr, exitLoop M fuel L cur ≠ Res.fault Fault.assertFailed := by
  intro cur
  induction cur with
  | nil => simp [exitLoop]
  | cons s rest ih =>
    unfold exitLoop
    refine Res.bind_ne_assert ih (fun r => ?_)
    refine Res.bind_ne_assert (IsInTrack_ne_assert M fuel s L) (fun b => ?_)
    split <;> simp

theorem enterLoop_ne_assert (M : Model) :
    ∀ (fuel : Nat) (ts : List TrackPtr) (path cur : List StatePtr) (calls : List HookCall),
      enterLoop M fuel ts path cur calls ≠ Res.fault Fault.assertFailed := by
  intro fuel
  induction fuel with
  | zero => intro ts path cur calls; simp [enterLoop]
  | succ n ih =>
    intro ts path cur calls
    unfold enterLoop
    split
    · simp
    · refine Res.bind_ne_assert (track_ne_assert M _) (fun t => ?_)
      refine Res.bind_ne_assert ?_ (fun r => ?_)
      · split
        · simp
        · refine Res.bind_ne_assert (state_ne_assert M _) (fun ps => ?_)
          split <;> simp
      · obtain ⟨cs0, p0⟩ := r
        cases cs0 with
        | none => simp
        | some c => exact Res.bind_ne_assert (state_ne_assert M _) (fun s => ih _ _ _ _)

theorem fireTransition_ne_assert (M : Model) (fuel : Nat) (tr : EventTransition) (σ : Runtime) :
    fireTransition M fuel tr σ ≠ Res.fault Fault.assertFailed := by
  unfold fireTransition
  split
  · simp
  · refine Res.bind_ne_assert (fcct_ne_assert M fuel _ _) (fun L => ?_)
    refine Res.bind_ne_assert (state_ne_assert M _) (fun tgt => ?_)
    refine Res.bind_ne_assert (pathLoop_ne_assert M L fuel _ _) (fun path => ?_)
    refine Res.bind_ne_assert (exitLoop_ne_assert M fuel L _) (fun r => ?_)
    obtain ⟨kept, exits⟩ := r
    cases L with
    | none => simp
    | some ct =>
      exact Res.bind_ne_assert (enterLoop_ne_assert M fuel _ _ _ _) (fun r2 => by simp)

theorem fireTransitions_ne_assert (M : Model) (fuel : Nat) :
    ∀ (trs : List EventTransition) (σ : Runtime),
      fireTransitions M fuel trs σ ≠ Res.fault Fault.assertFailed := by
  intro trs
  induction trs with
  | nil => intro σ; simp [fireTransitions]
  | cons tr rest ih =>
    intro σ
    unfold fireTransitions
    exact Res.bind_ne_assert (fireTransition_ne_assert M fuel tr σ) (fun σ1 => ih σ1)

theorem processEvent_ne_assert (M : Model) (fuel : Nat) (evt : FName) (σ : Runtime) :
    processEvent M fuel evt σ ≠ Res.fault Fault.assertFailed := by
  unfold processEvent
  split
  · simp
  · exact fireTransitions_ne_assert M fuel _ σ

theorem dequeueLoop_ne_assert (M : Model) (fuel : Nat) :
    ∀ (remaining count : Nat) (σ : Runtime),
      dequeueLoop M fuel remaining count σ ≠ Res.fault Fault.assertFailed := by
  intro remaining
  induction remaining with
  | zero => intro count σ; simp [dequeueLoop]
  | succ n ih =>
    intro count σ
    unfold dequeueLoop
    split
    · simp
    · exact Res.bind_ne_assert (processEvent_ne_assert M fuel _ _) (fun σ1 => ih _ _)

theorem DequeueEvents_ne_assert (M : Model) (fuel k : Nat) (σ : Runtime) :
    DequeueEvents M fuel k σ ≠ Res.fault Fault.assertFailed := by
  unfold DequeueEvents
  refine Res.bind_ne_assert (dequeueLoop_ne_assert M fuel _ _ σ) (fun r => ?_)
  obtain ⟨c, σ1⟩ := r
  simp only
  split <;> simp

/-! ## C18 : `PostEvent` -/

/-- C18 (PostEvent). `PostEvent(name)` fails its assertion, before anything is written, if and
only if no transition is registered under `name`. Otherwise `name` is appended at the end of
the queue, and the call continues with `DequeueEvents()` on that state exactly when immediate
dequeuing is enabled on a started machine that is not ticking; in every other case, so
whenever immediate dequeuing is disabled, the call returns the same run-time state with the
queue extended by `name`: configuration, flags and delegate record are unchanged. The
embedding that runs the delegates agrees when the delegates make no call. -/
theorem C18_post_event (M : Model) (fuel : Nat) (name : FName) (σ : Runtime) :
    (PostEvent M fuel name σ = Res.fault Fault.assertFailed ↔
      tmapFind M.m_eventTransitions name = none) ∧
    (tmapFind M.m_eventTransitions name ≠ none →
      PostEvent M fuel name σ =
        if (σ.bImmediatelyDequeueEvents && !σ.m_ticking && σ.m_started) = true then
          DequeueEvents M fuel defaultLimitArg
            { σ with m_eventsQueue := σ.m_eventsQueue ++ [name] }
        else Res.ok { σ with m_eventsQueue := σ.m_eventsQueue ++ [name] }) ∧
    (tmapFind M.m_eventTransitions name ≠ none → σ.bImmediatelyDequeueEvents = false →
      PostEvent M fuel name σ =
        Res.ok { σ with m_eventsQueue := σ.m_eventsQueue ++ [name] }) ∧
    (∀ re : Reentry, PostEventH M fuel Hooks.inert re name σ = PostEvent M fuel name σ) := by
  have hiff : (tmapFind M.m_eventTransitions name).isNone = true ↔
      tmapFind M.m_eventTransitions name = none := Option.isNone_iff_eq_none
  refine ⟨⟨?_, ?_⟩, ?_, ?_, fun re => PostEventH_inert M fuel re name σ⟩
  · intro h
    by_contra hn
    rw [PostEvent_def, if_neg (fun c => hn (hiff.1 c))] at h
    split at h
    · exact DequeueEvents_ne_assert M fuel _ _ h
    · exact absurd h (by simp)
  · intro h
    rw [PostEvent_def, if_pos (hiff.2 h)]
  · intro hn
    rw [PostEvent_def, if_neg (fun c => hn (hiff.1 c))]
  · intro hn hb
    rw [PostEvent_def, if_neg (fun c => hn (hiff.1 c)), if_neg (by simp [hb])]

/-! ## The model builder -/

theorem tmapFind_tmapAdd_self {α : Type} (m : List (FName × α)) (k : FName) (v : α) :
    tmapFind (tmapAdd m k v) k = some v := by
  induction m with
  | nil => simp [tmapAdd, tmapFind]
  | cons e rest ih =>
    obtain ⟨k', v'⟩ := e
    unfold tmapAdd
    by_cases h : k' = k
    · simp [h, tmapFind]
    · simp [h, tmapFind, ih]

theorem tmapFind_tmapAdd_ne {α : Type} (m : List (FName × α)) (k k' : FName) (v : α)
    (hne : k' ≠ k) : tmapFind (tmapAdd m k v) k' = tmapFind m k' := by
  induction m with
  | nil => simp [tmapAdd, tmapFind, Ne.symm hne]
  | cons e rest ih =>
    obtain ⟨k0, v0⟩ := e
    unfold tmapAdd
    by_cases h : k0 = k
    · subst h
      simp [tmapFind, Ne.symm hne]
    · by_cases h2 : k0 = k'
      · subst h2
        simp [h, tmapFind]
      · simp [h, h2, tmapFind, ih]

theorem isSome_false_of_none {α : Type} {o : Option α} (h : o = none) : ¬ o.isSome = true := by
  simp [h]

theorem AddState_spec (M : Model) (self : Nat) (t : Track) (name : FName)
    (ht : M.track self = Res.ok t) :
    (Track.AddState M self name = Res.fault Fault.assertFailed ↔
      (tmapFind M.m_states name).isSome = true) ∧
    (tmapFind M.m_states name = none →
      ∃ M' : Model, Track.AddState M self name = Res.ok (M', M.stateHeap.length) ∧
        tmapFind M'.m_states name = some M.stateHeap.length ∧
        (∃ t' : Track, M'.track self = Res.ok t' ∧
          tmapFind t'.m_states name = some M.stateHeap.length ∧
          t'.m_defaultState = t.m_defaultState) ∧
        M'.state M.stateHeap.length =
          Res.ok { m_name := name, m_tracks := [], m_parent := self } ∧
        M'.m_tracks = M.m_tracks) := by
  have hlt : self < M.trackHeap.length := lt_of_getElem?_eq_some (track_eq_ok.1 ht)
  constructor
  · unfold Track.AddState
    rw [ht]
    simp only [Res.ok_bind]
    by_cases h : (tmapFind M.m_states name).isSome = true
    · simp [h]
    · simp [h]
  · intro hn
    refine ⟨{ M with
      stateHeap := M.stateHeap ++ [{ m_name := name, m_tracks := [], m_parent := self }]
      trackHeap := M.trackHeap.set self
        { t with m_states := tmapAdd t.m_states name M.stateHeap.length }
      m_states := tmapAdd M.m_states name M.stateHeap.length }, ?_, ?_, ?_, ?_, ?_⟩
    · unfold Track.AddState
      rw [ht]
      simp only [Res.ok_bind, if_neg (isSome_false_of_none hn)]
    · exact tmapFind_tmapAdd_self _ _ _
    · refine ⟨{ t with m_states := tmapAdd t.m_states name M.stateHeap.length }, ?_, ?_, rfl⟩
      · rw [track_eq_ok]
        simp [hlt]
      · exact tmapFind_tmapAdd_self _ _ _
    · rw [state_eq_ok]
      simp
    · rfl

theorem AddTrack_spec (M : Model) (self : Nat) (s : State) (name : FName)
    (hs : M.state self = Res.ok s) :
    (State.AddTrack M self name = Res.fault Fault.assertFailed ↔
      (tmapFind M.m_tracks name).isSome = true) ∧
    (tmapFind M.m_tracks name = none →
      ∃ M' : Model, State.AddTrack M self name = Res.ok (M', M.trackHeap.length) ∧
        tmapFind M'.m_tracks name = some M.trackHeap.length ∧
        (∃ s' : State, M'.state self = Res.ok s' ∧
          tmapFind s'.m_tracks name = some M.trackHeap.length) ∧
        M'.track M.trackHeap.length =
          Res.ok { m_name := name, m_states := [], m_parent := some self,
                   m_defaultState := none } ∧
        M'.m_states = M.m_states) := by
  have hlt : self < M.stateHeap.length := lt_of_getElem?_eq_some (state_eq_ok.1 hs)
  constructor
  · unfold State.AddTrack
    rw [hs]
    simp only [Res.ok_bind]
    by_cases h : (tmapFind M.m_tracks name).isSome = true
    · simp [h]
    · simp [h]
  · intro hn
    refine ⟨{ M with
      trackHeap := M.trackHeap ++
        [{ m_name := name, m_states := [], m_parent := some self, m_defaultState := none }]
      stateHeap := M.stateHeap.set self
        { s with m_tracks := tmapAdd s.m_tracks name M.trackHeap.length }
      m_tracks := tmapAdd M.m_tracks name M.trackHeap.length }, ?_, ?_, ?_, ?_, ?_⟩
    · unfold State.AddTrack
      rw [hs]
      simp only [Res.ok_bind, if_neg (isSome_false_of_none hn)]
    · exact tmapFind_tmapAdd_self _ _ _
    · refine ⟨{ s with m_tracks := tmapAdd s.m_tracks name M.trackHeap.length }, ?_, ?_⟩
      · rw [state_eq_ok]
        simp [hlt]
      · exact tmapFind_tmapAdd_self _ _ _
    · rw [track_eq_ok]
      simp
    · rfl

theorem AddRootTrack_spec (M : Model) (name : FName) :
    (AddRootTrack M name = Res.fault Fault.assertFailed ↔
      (tmapFind M.m_tracks name).isSome = true) ∧
    (tmapFind M.m_tracks name = none →
      ∃ M' : Model, AddRootTrack M name = Res.ok (M', M.trackHeap.length) ∧
        tmapFind M'.m_tracks name = some M.trackHeap.length ∧
        M'.m_rootTracks = M.m_rootTracks ++ [M.trackHeap.length] ∧
        M'.track M.trackHeap.length =
          Res.ok { m_name := name, m_states := [], m_parent := none,
                   m_defaultState := none } ∧
        M'.m_states = M.m_states) := by
  constructor
  · unfold AddRootTrack
    by_cases h : (tmapFind M.m_tracks name).isSome = true
    · simp [h]
    · simp [h]
  · intro hn
    refine ⟨{ M with
      trackHeap := M.trackHeap ++
        [{ m_name := name, m_states := [], m_parent := none, m_defaultState := none }]
      m_rootTracks := M.m_rootTracks ++ [M.trackHeap.length]
      m_tracks := tmapAdd M.m_tracks name M.trackHeap.length }, ?_, ?_, rfl, ?_, ?_⟩
    · unfold AddRootTrack
      simp only [if_neg (isSome_false_of_none hn)]
    · exact tmapFind_tmapAdd_self _ _ _
    · rw [track_eq_ok]
      simp
    · rfl

/-! ## C19 : name uniqueness in the builder -/

/-- C19 (name uniqueness in the builder). On every machine, for every name: `Track::AddState`
called on a track of the machine fails its assertion if and only if the name is found in the
machine-wide map of states `m_states`, whatever `m_tracks` holds; `State::AddTrack` called on
a state of the machine, and `AddRootTrack`, fail theirs if and only if the name is found in
the machine-wide map of tracks `m_tracks`, whatever `m_states` holds. When the call succeeds
the new node is allocated and is found under its name both in the map of its parent (for a
root track: it is listed in `m_rootTracks`) and in the machine-wide map, and the map of the
other kind is unchanged. On the empty machine a root track and a state of it can both be
named `x`, and a second state `x`, in whichever track, is refused. -/
theorem C19_builder_name_uniqueness (M : Model) (name : FName) :
    (∀ (self : TrackPtr) (t : Track), M.track self = Res.ok t →
      (Track.AddState M self name = Res.fault Fault.assertFailed ↔
        (tmapFind M.m_states name).isSome = true) ∧
      (tmapFind M.m_states name = none →
        ∃ M' : Model, Track.AddState M self name = Res.ok (M', M.stateHeap.length) ∧
          tmapFind M'.m_states name = some M.stateHeap.length ∧
          (∃ t' : Track, M'.track self = Res.ok t' ∧
            tmapFind t'.m_states name = some M.stateHeap.length ∧
            t'.m_defaultState = t.m_defaultState) ∧
          M'.state M.stateHeap.length =
            Res.ok { m_name := name, m_tracks := [], m_parent := self } ∧
          M'.m_tracks = M.m_tracks)) ∧
    (∀ (self : StatePtr) (s : State), M.state self = Res.ok s →
      (State.AddTrack M self name = Res.fault Fault.assertFailed ↔
        (tmapFind M.m_tracks name).isSome = true) ∧
      (tmapFind M.m_tracks name = none →
        ∃ M' : Model, State.AddTrack M self name = Res.ok (M', M.trackHeap.length) ∧
          tmapFind M'.m_tracks name = some M.trackHeap.length ∧
          (∃ s' : State, M'.state self = Res.ok s' ∧
            tmapFind s'.m_tracks name = some M.trackHeap.length) ∧
          M'.track M.trackHeap.length =
            Res.ok { m_name := name, m_states := [], m_parent := some self,
                     m_defaultState := none } ∧
          M'.m_states = M.m_states)) ∧
    ((AddRootTrack M name = Res.fault Fault.assertFailed ↔
        (tmapFind M.m_tracks name).isSome = true) ∧
      (tmapFind M.m_tracks name = none →
        ∃ M' : Model, AddRootTrack M name = Res.ok (M', M.trackHeap.length) ∧
          tmapFind M'.m_tracks name = some M.trackHeap.length ∧
          M'.m_rootTracks = M.m_rootTracks ++ [M.trackHeap.length] ∧
          M'.track M.trackHeap.length =
            Res.ok { m_name := name, m_states := [], m_parent := none,
                     m_defaultState := none } ∧
          M'.m_states = M.m_states)) ∧
    ((AddRootTrack Model.empty "x" >>= fun r =>
        Track.AddState r.1 r.2 "x" >>= fun r2 => Res.ok (r.2, r2.2)) = Res.ok (0, 0) ∧
      (AddRootTrack Model.empty "x" >>= fun r =>
        Track.AddState r.1 r.2 "x" >>= fun r2 =>
        AddRootTrack r2.1 "y" >>= fun r3 =>
        Track.AddState r3.1 r3.2 "x") = Res.fault Fault.assertFailed) :=
  ⟨fun self t ht => AddState_spec M self t name ht,
    fun self s hs => AddTrack_spec M self s name hs,
    AddRootTrack_spec M name, by decide, by decide⟩

/-! ## C20 : a second default state -/

/-- C20, the code at the failing input. On Scenario B, whose root track `life` has the default
state `alive`: `AddDefaultState("ghost")` on `life` returns, and the default state of `life`
is then the new state `ghost`; only the overload with delegates fails the assertion. This is
so for every machine: on a track of the machine and with a name not yet in `m_states`,
`AddDefaultState(name)` returns with the new state as the default state of the track,
whether or not the track had one, and the overload with delegates fails if it had one. -/
theorem C20_default_state_overwritten :
    scenarioB.defaultState 0 = some 0 ∧
    (Track.AddDefaultState scenarioB 0 "ghost" >>= fun r =>
      Res.ok (r.2, r.1.defaultState 0)) = Res.ok (6, some 6) ∧
    Track.AddDefaultStateWithDelegates scenarioB 0 "ghost" = Res.fault Fault.assertFailed ∧
    (∀ (M : Model) (self : TrackPtr) (t : Track) (name : FName),
      M.track self = Res.ok t → tmapFind M.m_states name = none →
      (∃ M' : Model, Track.AddDefaultState M self name = Res.ok (M', M.stateHeap.length) ∧
        M'.defaultState self = some M.stateHeap.length) ∧
      (t.m_defaultState.isSome = true →
        Track.AddDefaultStateWithDelegates M self name = Res.fault Fault.assertFailed)) := by
  refine ⟨by decide, by decide, by decide, ?_⟩
  intro M self t name ht hn
  constructor
  · obtain ⟨M1, h1, _, ⟨t1, ht1, _, _⟩, _, _⟩ := (AddState_spec M self t name ht).2 hn
    have hlt : self < M1.trackHeap.length := lt_of_getElem?_eq_some (track_eq_ok.1 ht1)
    refine ⟨{ M1 with
      trackHeap := M1.trackHeap.set self
        { t1 with m_defaultState := some M.stateHeap.length } }, ?_, ?_⟩
    · unfold Track.AddDefaultState
      rw [h1]
      simp only [Res.ok_bind, ht1]
    · simp [Model.defaultState, hlt]
  · intro hd
    unfold Track.AddDefaultStateWithDelegates
    rw [ht]
    simp [hd]

/-! ## C21 : registration of event transitions -/

theorem fireTransitions_cons (M : Model) (fuel : Nat) (x : EventTransition)
    (rest : List EventTransition) (σ : Runtime) :
    fireTransitions M fuel (x :: rest) σ =
      (fireTransition M fuel x σ >>= fun σ1 => fireTransitions M fuel rest σ1) := by
  conv_lhs => unfold fireTransitions

theorem fireTransitions_append (M : Model) (fuel : Nat) :
    ∀ (xs ys : List EventTransition) (σ : Runtime),
      fireTransitions M fuel (xs ++ ys) σ =
        (fireTransitions M fuel xs σ >>= fun σ1 => fireTransitions M fuel ys σ1) := by
  intro xs
  induction xs with
  | nil => intro ys σ; rfl
  | cons x rest ih =>
    intro ys σ
    rw [List.cons_append, fireTransitions_cons, fireTransitions_cons]
    cases fireTransition M fuel x σ with
    | fault e => rfl
    | ok σ1 =>
      simp only [Res.ok_bind]
      exact ih ys σ1

theorem fireTransitions_singleton (M : Model) (fuel : Nat) (tr : EventTransition)
    (σ : Runtime) : fireTransitions M fuel [tr] σ = fireTransition M fuel tr σ := by
  unfold fireTransitions
  cases fireTransition M fuel tr σ with
  | fault e => rfl
  | ok σ1 => rfl

theorem processEvent_registered {M : Model} {evt : FName} {trs : List EventTransition}
    (h : tmapFind M.m_eventTransitions evt = some trs) (fuel : Nat) (σ : Runtime) :
    processEvent M fuel evt σ = fireTransitions M fuel trs σ := by
  unfold processEvent
  rw [h]

theorem AddEventTransition_spec (M : Model) (ev src tgt : FName) :
    (AddEventTransition M ev src tgt = Res.fault Fault.nullDeref ↔
      (tmapFind M.m_states src = none ∨ tmapFind M.m_states tgt = none)) ∧
    (∀ s t : StatePtr, tmapFind M.m_states src = some s → tmapFind M.m_states tgt = some t →
      AddEventTransition M ev src tgt = Res.ok { M with
        m_eventTransitions := tmapAdd M.m_eventTransitions ev
          ((tmapFind M.m_eventTransitions ev).getD [] ++
            [{ name := ev, source := s, target := t }]) }) := by
  unfold AddEventTransition
  cases hs : tmapFind M.m_states src with
  | none => simp
  | some s =>
    cases ht : tmapFind M.m_states tgt with
    | none => simp
    | some t => simp

/-- C21 (AddEventTransition). The call fails, on the dereference of the null result of
`m_states.Find`, if and only if one of the two state names is not in `m_states`; no machine
results, so the transition table is not written. Otherwise it returns the machine with only
`m_eventTransitions` changed: the list found under the event is the former list (empty if the
event was new) with the transition from the source state to the target state appended at its
end, and the list found under any other event is the former one. Processing an event is the
evaluation of the transitions of its list from the first to the last, each on the run-time
state left by the one before: on the new machine, of the former transitions, then of the new
one. -/
theorem C21_add_event_transition (M : Model) (ev src tgt : FName) :
    (AddEventTransition M ev src tgt = Res.fault Fault.nullDeref ↔
      (tmapFind M.m_states src = none ∨ tmapFind M.m_states tgt = none)) ∧
    ((tmapFind M.m_states src = none ∨ tmapFind M.m_states tgt = none) →
      ∀ M' : Model, AddEventTransition M ev src tgt ≠ Res.ok M') ∧
    (∀ s t : StatePtr, tmapFind M.m_states src = some s → tmapFind M.m_states tgt = some t →
      ∃ M' : Model, AddEventTransition M ev src tgt = Res.ok M' ∧
        tmapFind M'.m_eventTransitions ev =
          some ((tmapFind M.m_eventTransitions ev).getD [] ++
            [{ name := ev, source := s, target := t }]) ∧
        (∀ e : FName, e ≠ ev →
          tmapFind M'.m_eventTransitions e = tmapFind M.m_eventTransitions e) ∧
        M'.trackHeap = M.trackHeap ∧ M'.stateHeap = M.stateHeap ∧
        M'.m_rootTracks = M.m_rootTracks ∧ M'.m_tracks = M.m_tracks ∧
        M'.m_states = M.m_states ∧
        (∀ (fuel : Nat) (σ : Runtime),
          processEvent M' fuel ev σ =
            (fireTransitions M' fuel ((tmapFind M.m_eventTransitions ev).getD []) σ
              >>= fun σ1 =>
                fireTransition M' fuel { name := ev, source := s, target := t } σ1))) ∧
    (∀ (e : FName) (xs ys : List EventTransition) (fuel : Nat) (σ : Runtime),
      tmapFind M.m_eventTransitions e = some (xs ++ ys) →
      processEvent M fuel e σ =
        (fireTransitions M fuel xs σ >>= fun σ1 => fireTransitions M fuel ys σ1)) := by
  obtain ⟨hfail, hok⟩ := AddEventTransition_spec M ev src tgt
  refine ⟨hfail, ?_, ?_, ?_⟩
  · intro h M' hM'
    rw [hfail.2 h] at hM'
    exact absurd hM' (by simp)
  · intro s t hs ht
    refine ⟨_, hok s t hs ht, tmapFind_tmapAdd_self _ _ _,
      fun e he => tmapFind_tmapAdd_ne _ _ _ _ he, rfl, rfl, rfl, rfl, rfl, ?_⟩
    intro fuel σ
    rw [processEvent_registered (tmapFind_tmapAdd_self _ _ _), fireTransitions_append]
    simp only [fireTransitions_singleton]
  · intro e xs ys fuel σ h
    rw [processEvent_registered h, fireTransitions_append]

/-! ## The loops of `SerializeCurrentStates` and `DeserializeCurrentStates` -/

theorem resolveLoop_eq_none (M : Model) :
    ∀ (names : List FString) (acc : List StatePtr),
      resolveLoop M names acc = none ↔ ∃ n ∈ names, tmapFind M.m_states n = none := by
  intro names
  induction names with
  | nil => intro acc; simp [resolveLoop]
  | cons n rest ih =>
    intro acc
    unfold resolveLoop
    cases h : tmapFind M.m_states n with
    | none => simp [h]
    | some s => simp [h, ih]

theorem resolveLoop_some (M : Model) :
    ∀ (names : List FString) (acc : List StatePtr),
      (∀ n ∈ names, (tmapFind M.m_states n).isSome = true) →
      ∃ l, resolveLoop M names acc = some (acc ++ l) ∧
        List.Forall₂ (fun n s => tmapFind M.m_states n = some s) names l := by
  intro names
  induction names with
  | nil => intro acc _; exact ⟨[], by simp [resolveLoop], List.Forall₂.nil⟩
  | cons n rest ih =>
    intro acc h
    obtain ⟨s, hs⟩ := Option.isSome_iff_exists.1 (h n (List.mem_cons_self _ _))
    obtain ⟨l, hl, hf⟩ := ih (acc ++ [s]) (fun m hm => h m (List.mem_cons_of_mem _ hm))
    refine ⟨s :: l, ?_, List.Forall₂.cons hs hf⟩
    unfold resolveLoop
    rw [hs]
    simp only [hl, List.append_assoc, List.singleton_append]

theorem exitAllLoop_eq :
    ∀ (n : Nat) (σ : Runtime), n ≤ σ.m_currentStates.length →
      exitAllLoop n σ = Res.ok { σ with
        calls := σ.calls ++ (σ.m_currentStates.take n).reverse.map HookCall.exit } := by
  intro n
  induction n with
  | zero => intro σ _; simp [exitAllLoop]
  | succ n ih =>
    intro σ hle
    have hlt : n < σ.m_currentStates.length := by omega
    have hi : σ.m_currentStates[n]? = some σ.m_currentStates[n] := List.getElem?_eq_getElem hlt
    unfold exitAllLoop
    rw [hi]
    simp only
    rw [ih _ (by simp only; omega)]
    simp only [List.take_succ, hi, Option.toList_some, List.reverse_append, List.reverse_cons,
      List.reverse_nil, List.nil_append, List.singleton_append, List.map_cons, List.append_assoc]

theorem enterAllLoop_eq :
    ∀ (l : List StatePtr) (σ : Runtime),
      enterAllLoop l σ = { σ with calls := σ.calls ++ l.map HookCall.enter } := by
  intro l
  induction l with
  | nil => intro σ; simp [enterAllLoop]
  | cons s rest ih =>
    intro σ
    unfold enterAllLoop
    rw [ih]
    simp

/-- The last loop of `DeserializeCurrentStates` when the `Enter` delegates make no call. -/
theorem enterAllLoopH_inert (re : Reentry) :
    ∀ (n i : Nat) (σ : Runtime), i + n ≤ σ.m_currentStates.length →
      enterAllLoopH Hooks.inert re n i σ = Res.ok { σ with
        calls := σ.calls ++ ((σ.m_currentStates.drop i).take n).map HookCall.enter } := by
  intro n
  induction n with
  | zero => intro i σ _; simp [enterAllLoopH]
  | succ n ih =>
    intro i σ hle
    have hlt : i < σ.m_currentStates.length := by omega
    have hi : σ.m_currentStates[i]? = some σ.m_currentStates[i] := List.getElem?_eq_getElem hlt
    have hE : Hooks.inert.Enter σ.m_currentStates[i] = [] := rfl
    unfold enterAllLoopH
    rw [hi]
    simp only
    rw [hE, runHook_nil, Res.ok_bind, ih (i + 1) _ (by simp only; omega)]
    have hd : σ.m_currentStates.drop i =
        σ.m_currentStates[i] :: σ.m_currentStates.drop (i + 1) :=
      List.drop_eq_getElem_cons hlt
    simp only [hd, List.take_succ_cons, List.map_cons, List.append_assoc, List.singleton_append]

theorem DeserializeCurrentStates_eq (M : Model) (names : List FString) (σ : Runtime)
    (states : List StatePtr) (ht : σ.m_ticking = false)
    (hr : resolveLoop M names [] = some states) :
    DeserializeCurrentStates M names σ = Res.ok { σ with
      calls := σ.calls ++ σ.m_currentStates.reverse.map HookCall.exit ++
        states.map HookCall.enter
      m_currentStates := states } := by
  obtain ⟨cs, queue, tk, st, im, calls, el⟩ := σ
  simp only at ht
  subst ht
  unfold DeserializeCurrentStates
  simp only [Bool.false_eq_true, if_false, hr]
  have hl := exitAllLoop_eq cs.length
    { m_currentStates := cs, m_eventsQueue := queue, m_ticking := false, m_started := st,
      bImmediatelyDequeueEvents := im, calls := calls, errorLogs := el } (le_refl _)
  rw [hl]
  simp only [Res.ok_bind, List.take_length, enterAllLoop_eq, Res.pure_eq]

/-- With delegates that make no call: `DeserializeCurrentStates`. -/
theorem DeserializeCurrentStatesH_inert (M : Model) (re : Reentry) (names : List FString)
    (σ : Runtime) :
    DeserializeCurrentStatesH M Hooks.inert re names σ = DeserializeCurrentStates M names σ := by
  unfold DeserializeCurrentStatesH DeserializeCurrentStates
  by_cases ht : σ.m_ticking = true
  · simp [ht]
  · simp only [ht, Bool.false_eq_true, if_false]
    cases resolveLoop M names [] with
    | none => rfl
    | some states =>
      simp only
      rw [stopLoopH_inert Hooks.inert re _ σ (le_refl _) (fun _ _ => rfl),
        exitAllLoop_eq _ σ (le_refl _)]
      simp only [Res.ok_bind, List.take_length]
      rw [enterAllLoopH_inert re _ 0 _ (by simp)]
      simp only [List.drop_zero, List.take_length, enterAllLoop_eq, Res.pure_eq]

theorem serializeLoop_eq (M : Model) :
    ∀ (cur : List StatePtr) (out : List FString),
      (∀ s ∈ cur, s < M.stateHeap.length) →
      ∃ names, serializeLoop M cur out = Res.ok (out ++ names) ∧
        List.Forall₂ (fun s n => ∃ st, M.stateHeap[s]? = some st ∧ st.m_name = n)
          cur names := by
  intro cur
  induction cur with
  | nil => intro out _; exact ⟨[], by simp [serializeLoop], List.Forall₂.nil⟩
  | cons s rest ih =>
    intro out h
    obtain ⟨st, hst, hst'⟩ := state_of_lt (h s (List.mem_cons_self _ _))
    obtain ⟨names, hn, hf⟩ := ih (out ++ [st.m_name])
      (fun x hx => h x (List.mem_cons_of_mem _ hx))
    refine ⟨st.m_name :: names, ?_, List.Forall₂.cons ⟨st, hst, rfl⟩ hf⟩
    unfold serializeLoop
    rw [hst']
    simp only [Res.ok_bind, hn, List.append_assoc, List.singleton_append]

/-- On a machine whose states are registered, the names written for a list of states resolve
to these states. -/
theorem resolveLoop_of_serialized (M : Model) (hreg : M.StatesRegistered) :
    ∀ (cur : List StatePtr) (names : List FString) (acc : List StatePtr),
      List.Forall₂ (fun s n => ∃ st, M.stateHeap[s]? = some st ∧ st.m_name = n) cur names →
      resolveLoop M names acc = some (acc ++ cur) := by
  intro cur names acc h
  induction h generalizing acc with
  | nil => simp [resolveLoop]
  | cons hx _ ih =>
    obtain ⟨st, hst, hname⟩ := hx
    have := hreg _ (lt_of_getElem?_eq_some hst) st hst
    rw [hname] at this
    unfold resolveLoop
    rw [this]
    simp only [ih, List.append_assoc, List.singleton_append]

/-! ## C22, C23, C24 : restoring a configuration -/

/-- C22 (atomic failure of restore). If one of the names passed to `DeserializeCurrentStates`
is not in `m_states`, then whatever the delegates are and whatever they would call, the call
returns the run-time state it was given with only the error logged (or fails the assertion
`!m_ticking` before doing anything): no `Exit` and no `Enter` delegate is invoked and the
configuration is the same. -/
theorem C22_restore_atomic_failure (M : Model) (H : Hooks) (re : Reentry)
    (names : List FString) (σ : Runtime)
    (h : ∃ n ∈ names, tmapFind M.m_states n = none) :
    DeserializeCurrentStatesH M H re names σ =
      (if σ.m_ticking then Res.fault Fault.assertFailed
       else Res.ok { σ with errorLogs := σ.errorLogs + 1 }) ∧
    DeserializeCurrentStates M names σ =
      (if σ.m_ticking then Res.fault Fault.assertFailed
       else Res.ok { σ with errorLogs := σ.errorLogs + 1 }) ∧
    (∀ σ' : Runtime, DeserializeCurrentStatesH M H re names σ = Res.ok σ' →
      σ'.calls = σ.calls ∧ σ'.m_currentStates = σ.m_currentStates ∧
      σ'.m_eventsQueue = σ.m_eventsQueue ∧ σ'.m_started = σ.m_started ∧
      σ'.m_ticking = σ.m_ticking) := by
  have hr := (resolveLoop_eq_none M names []).2 h
  have hH : DeserializeCurrentStatesH M H re names σ =
      (if σ.m_ticking then Res.fault Fault.assertFailed
       else Res.ok { σ with errorLogs := σ.errorLogs + 1 }) := by
    unfold DeserializeCurrentStatesH
    rw [hr]
  refine ⟨hH, ?_, ?_⟩
  · unfold DeserializeCurrentStates
    rw [hr]
  · intro σ' h'
    rw [hH] at h'
    split at h'
    · exact absurd h' (by simp)
    · simp only [Res.ok.injEq] at h'
      subst h'
      exact ⟨rfl, rfl, rfl, rfl, rfl⟩

/-- Witness of C22: the unknown name `ghost` restored into started Scenario B, the `Enter`
delegate of `jumping` posting `die`. -/
theorem C22_restore_atomic_failure_witness :
    (∃ n ∈ ["alive", "ghost"], tmapFind scenarioB.m_states n = none) ∧
    DeserializeCurrentStatesH scenarioB hooksPostInEnter
        (reentry scenarioB 4 hooksPostInEnter 1) ["alive", "ghost"] scenarioB_started =
      (if scenarioB_started.m_ticking then Res.fault Fault.assertFailed
       else Res.ok { scenarioB_started with errorLogs := scenarioB_started.errorLogs + 1 }) :=
  ⟨⟨"ghost", by decide, by decide⟩,
    (C22_restore_atomic_failure scenarioB hooksPostInEnter
      (reentry scenarioB 4 hooksPostInEnter 1) ["alive", "ghost"] scenarioB_started
      ⟨"ghost", by decide, by decide⟩).1⟩

/-- C23 (successful restore). On a machine that is not ticking (the assertion of the
function), if every name passed to `DeserializeCurrentStates` is in `m_states`, the call
returns: `Exit` has been invoked on every state of the former configuration, from the last to
the first, the configuration is exactly the list of the states found under the names, in the
order of the names and without any resolution of default states or common track, and `Enter`
has then been invoked on each of them in that order. This holds of the embedding that records
the delegates and of the one that runs them, the delegates making no call. On a machine that
is ticking the call fails the assertion. -/
theorem C23_restore_success (M : Model) (names : List FString) (σ : Runtime)
    (ht : σ.m_ticking = false)
    (hreg : ∀ n ∈ names, (tmapFind M.m_states n).isSome = true) :
    ∃ states : List StatePtr,
      List.Forall₂ (fun n s => tmapFind M.m_states n = some s) names states ∧
      DeserializeCurrentStates M names σ = Res.ok { σ with
        calls := σ.calls ++ σ.m_currentStates.reverse.map HookCall.exit ++
          states.map HookCall.enter
        m_currentStates := states } ∧
      (∀ re : Reentry, DeserializeCurrentStatesH M Hooks.inert re names σ = Res.ok { σ with
        calls := σ.calls ++ σ.m_currentStates.reverse.map HookCall.exit ++
          states.map HookCall.enter
        m_currentStates := states }) ∧
      (∀ τ : Runtime, τ.m_ticking = true →
        DeserializeCurrentStates M names τ = Res.fault Fault.assertFailed) := by
  obtain ⟨states, hr, hf⟩ := resolveLoop_some M names [] hreg
  rw [List.nil_append] at hr
  have h := DeserializeCurrentStates_eq M names σ states ht hr
  refine ⟨states, hf, h, fun re => (DeserializeCurrentStatesH_inert M re names σ).trans h, ?_⟩
  intro τ hτ
  unfold DeserializeCurrentStates
  simp [hτ]

/-- Witness of C23: `[alive, healthy, jumping]` restored into started Scenario B. -/
theorem C23_restore_success_witness :
    scenarioB_started.m_ticking = false ∧
    (∀ n ∈ ["alive", "healthy", "jumping"], (tmapFind scenarioB.m_states n).isSome = true) ∧
    DeserializeCurrentStates scenarioB ["alive", "healthy", "jumping"] scenarioB_started =
      Res.ok { scenarioB_started with
        calls := scenarioB_started.calls ++
          [HookCall.exit 1, HookCall.exit 3, HookCall.exit 0,
           HookCall.enter 0, HookCall.enter 3, HookCall.enter 2]
        m_currentStates := [0, 3, 2] } ∧
    ∃ states : List StatePtr,
      List.Forall₂ (fun n s => tmapFind scenarioB.m_states n = some s)
        ["alive", "healthy", "jumping"] states ∧
      DeserializeCurrentStates scenarioB ["alive", "healthy", "jumping"] scenarioB_started =
        Res.ok { scenarioB_started with
          calls := scenarioB_started.calls ++
            scenarioB_started.m_currentStates.reverse.map HookCall.exit ++
            states.map HookCall.enter
          m_currentStates := states } :=
  ⟨rfl, by decide, by decide,
    (C23_restore_success scenarioB ["alive", "healthy", "jumping"] scenarioB_started rfl
      (by decide)).imp (fun _ h => ⟨h.1, h.2.1⟩)⟩

/-- C24 (round trip). On a well-formed machine whose states are registered in `m_states`, for
every run-time state reached by `Start` and any sequence of `PostEvent`, `DequeueEvents` and
`Tick` calls (and not ticking, as `SerializeCurrentStates` asserts): `SerializeCurrentStates`
into an empty list returns a list `names`; on the machine built from the same model and
freshly started, `DeserializeCurrentStates(names)` returns, the configuration it leaves is
the one that was serialized, and `SerializeCurrentStates` into an empty list then returns
`names` again. -/
theorem C24_serialize_round_trip (M : Model) (wf : M.WF) (hreg : M.StatesRegistered)
    (σ : Runtime) (hr : Reached M σ) (ht : σ.m_ticking = false)
    (fuel : Nat) (immediate : Bool) (σ0 : Runtime)
    (h0 : Start M fuel (Runtime.initial immediate) = Res.ok σ0) :
    ∃ (names : List FString) (σ1 : Runtime),
      SerializeCurrentStates M σ [] = Res.ok names ∧
      names.length = σ.m_currentStates.length ∧
      DeserializeCurrentStates M names σ0 = Res.ok σ1 ∧
      σ1.m_currentStates = σ.m_currentStates ∧
      SerializeCurrentStates M σ1 [] = Res.ok names := by
  have hvalid : ∀ s ∈ σ.m_currentStates, s < M.stateHeap.length := by
    intro s hs
    obtain ⟨t, ht', _⟩ := (wf.reached_inv hr).1.1 s hs
    exact (wf.stateTrack_lt (Option.mem_def.1 ht')).1
  obtain ⟨names, hser, hf⟩ := serializeLoop_eq M σ.m_currentStates [] hvalid
  rw [List.nil_append] at hser
  have hres := resolveLoop_of_serialized M hreg σ.m_currentStates names [] hf
  rw [List.nil_append] at hres
  have ht0 : σ0.m_ticking = false := by
    unfold Start at h0
    simp only [Runtime.initial, Bool.false_eq_true, if_false, List.length_nil, ne_eq,
      not_true_eq_false] at h0
    obtain ⟨cur, _, h0⟩ := Res.bind_eq_ok.1 h0
    simp only [Res.pure_eq, Res.ok.injEq] at h0
    rw [← h0]
  have hS : SerializeCurrentStates M σ [] = Res.ok names := by
    unfold SerializeCurrentStates
    simp only [ht, Bool.false_eq_true, if_false, hser]
  refine ⟨names, _, hS, hf.length_eq.symm,
    DeserializeCurrentStates_eq M names σ0 σ.m_currentStates ht0 hres, rfl, ?_⟩
  unfold SerializeCurrentStates
  simp only [ht0, Bool.false_eq_true, if_false, hser]

/-- Witness of C24: Scenario B after `jump`, restored into the freshly started machine. -/
theorem C24_serialize_round_trip_witness :
    scenarioB.WF ∧ scenarioB.StatesRegistered ∧ Reached scenarioB scenarioB_jumped ∧
    scenarioB_jumped.m_ticking = false ∧
    Start scenarioB 4 (Runtime.initial true) = Res.ok scenarioB_started ∧
    SerializeCurrentStates scenarioB scenarioB_jumped [] =
      Res.ok ["alive", "healthy", "jumping"] ∧
    ∃ (names : List FString) (σ1 : Runtime),
      SerializeCurrentStates scenarioB scenarioB_jumped [] = Res.ok names ∧
      names.length = scenarioB_jumped.m_currentStates.length ∧
      DeserializeCurrentStates scenarioB names scenarioB_started = Res.ok σ1 ∧
      σ1.m_currentStates = scenarioB_jumped.m_currentStates ∧
      SerializeCurrentStates scenarioB σ1 [] = Res.ok names :=
  ⟨scenarioB_wf, by decide, scenarioB_reached, rfl, scenarioB_start, by decide,
    C24_serialize_round_trip scenarioB scenarioB_wf (by decide) scenarioB_jumped
      scenarioB_reached rfl 4 true scenarioB_started scenarioB_start⟩

/-! ## The builder keeps the states registered -/

theorem StatesRegistered.empty : Model.empty.StatesRegistered := by
  intro s hs
  simp [Model.empty] at hs

theorem StatesRegistered.addState {M M' : Model} {self : TrackPtr} {name : FName}
    {state : StatePtr} (hreg : M.StatesRegistered)
    (h : Track.AddState M self name = Res.ok (M', state)) : M'.StatesRegistered := by
  unfold Track.AddState at h
  obtain ⟨t, ht, h⟩ := Res.bind_eq_ok.1 h
  by_cases hn : (tmapFind M.m_states name).isSome = true
  · simp [hn] at h
  · simp only [hn, Bool.false_eq_true, if_false, Res.ok.injEq, Prod.mk.injEq] at h
    obtain ⟨hM, _⟩ := h
    subst hM
    intro s hs st hst
    simp only [List.length_append, List.length_singleton] at hs
    by_cases hlt : s < M.stateHeap.length
    · have hst' : M.stateHeap[s]? = some st := by
        have := Option.mem_def.1 hst
        simpa [List.getElem?_append_left hlt] using this
      have hfound := hreg s hlt st hst'
      have hne : st.m_name ≠ name := by
        intro hc
        rw [hc] at hfound
        exact hn (by simp [hfound])
      show tmapFind (tmapAdd M.m_states name M.stateHeap.length) st.m_name = some s
      rw [tmapFind_tmapAdd_ne _ _ _ _ hne]
      exact hfound
    · have hs' : s = M.stateHeap.length := by omega
      subst hs'
      have hst' : st = { m_name := name, m_tracks := [], m_parent := self } := by
        have := Option.mem_def.1 hst
        simpa using this.symm
      subst hst'
      exact tmapFind_tmapAdd_self _ _ _

theorem StatesRegistered.of_stateHeap {M M' : Model} (hreg : M.StatesRegistered)
    (hh : M'.stateHeap = M.stateHeap) (hm : M'.m_states = M.m_states) :
    M'.StatesRegistered := by
  intro s hs st hst
  rw [hh] at hs hst
  rw [hm]
  exact hreg s hs st hst

theorem StatesRegistered.addDefaultState {M M' : Model} {self : TrackPtr} {name : FName}
    {state : StatePtr} (hreg : M.StatesRegistered)
    (h : Track.AddDefaultState M self name = Res.ok (M', state)) : M'.StatesRegistered := by
  unfold Track.AddDefaultState at h
  obtain ⟨r, h1, h⟩ := Res.bind_eq_ok.1 h
  obtain ⟨M1, s1⟩ := r
  obtain ⟨t, _, h⟩ := Res.bind_eq_ok.1 h
  simp only [Res.ok.injEq, Prod.mk.injEq] at h
  obtain ⟨hM, _⟩ := h
  subst hM
  exact StatesRegistered.of_stateHeap (StatesRegistered.addState hreg h1) rfl rfl

theorem StatesRegistered.addDefaultStateWithDelegates {M M' : Model} {self : TrackPtr}
    {name : FName} {state : StatePtr} (hreg : M.StatesRegistered)
    (h : Track.AddDefaultStateWithDelegates M self name = Res.ok (M', state)) :
    M'.StatesRegistered := by
  unfold Track.AddDefaultStateWithDelegates at h
  obtain ⟨t0, _, h⟩ := Res.bind_eq_ok.1 h
  split at h
  · exact absurd h (by simp)
  · obtain ⟨r, h1, h⟩ := Res.bind_eq_ok.1 h
    obtain ⟨M1, s1⟩ := r
    obtain ⟨t, _, h⟩ := Res.bind_eq_ok.1 h
    simp only [Res.ok.injEq, Prod.mk.injEq] at h
    obtain ⟨hM, _⟩ := h
    subst hM
    exact StatesRegistered.of_stateHeap (StatesRegistered.addState hreg h1) rfl rfl

theorem StatesRegistered.addRootTrack {M M' : Model} {name : FName} {track : TrackPtr}
    (hreg : M.StatesRegistered) (h : AddRootTrack M name = Res.ok (M', track)) :
    M'.StatesRegistered := by
  unfold AddRootTrack at h
  split at h
  · exact absurd h (by simp)
  · simp only [Res.ok.injEq, Prod.mk.injEq] at h
    obtain ⟨hM, _⟩ := h
    subst hM
    exact StatesRegistered.of_stateHeap hreg rfl rfl

theorem StatesRegistered.addTrack {M M' : Model} {self : StatePtr} {name : FName}
    {track : TrackPtr} (hreg : M.StatesRegistered)
    (h : State.AddTrack M self name = Res.ok (M', track)) : M'.StatesRegistered := by
  unfold State.AddTrack at h
  obtain ⟨s0, hs0, h⟩ := Res.bind_eq_ok.1 h
  split at h
  · exact absurd h (by simp)
  · simp only [Res.ok.injEq, Prod.mk.injEq] at h
    obtain ⟨hM, _⟩ := h
    subst hM
    have hs0' := state_eq_ok.1 hs0
    intro s hs st hst
    simp only [List.length_set] at hs
    have hst' := Option.mem_def.1 hst
    simp only [List.getElem?_set] at hst'
    by_cases he : self = s
    · subst he
      simp only [if_true, hs, Option.some.injEq] at hst'
      subst hst'
      exact hreg self hs s0 hs0'
    · simp only [he, if_false] at hst'
      exact hreg s hs st hst'

theorem StatesRegistered.addEventTransition {M M' : Model} {ev src tgt : FName}
    (hreg : M.StatesRegistered) (h : AddEventTransition M ev src tgt = Res.ok M') :
    M'.StatesRegistered := by
  unfold AddEventTransition at h
  split at h
  · simp only [Res.ok.injEq] at h
    subst h
    exact StatesRegistered.of_stateHeap hreg rfl rfl
  · exact absurd h (by simp)

/-! ## What `_FindClosestCommonTrack` returns, exactly -/

theorem find?_congr_mem {α : Type} {p q : α → Bool} :
    ∀ l : List α, (∀ x ∈ l, p x = q x) → l.find? p = l.find? q := by
  intro l
  induction l with
  | nil => intro _; rfl
  | cons a rest ih =>
    intro h
    simp only [List.find?_cons, h a (List.mem_cons_self _ _)]
    rw [ih (fun x hx => h x (List.mem_cons_of_mem _ hx))]

/-- The last loop of `_FindClosestCommonTrack` returns the first track of the ancestor chain
that is in `ATracks`. -/
theorem Model.WF.BTracksLoop_first {M : Model} (wf : M.WF) {A : List TrackPtr} :
    ∀ (u : Nat), u < M.trackHeap.length → ∀ (fuel : Nat) (r : Option TrackPtr),
      BTracksLoop M A fuel (some u) = Res.ok r →
      r = (M.ancestors u).find? (fun x => decide (x ∈ A)) := by
  intro u
  induction u using Nat.strong_induction_on with
  | _ u ih =>
    intro hu fuel r h
    cases fuel with
    | zero => simp [BTracksLoop] at h
    | succ f =>
      unfold BTracksLoop at h
      rw [wf.ancestors_eq hu]
      by_cases hA : u ∈ A
      · simp only [hA, if_true] at h
        cases h
        simp [hA]
      · simp only [hA, if_false] at h
        obtain ⟨tk, htk, h⟩ := Res.bind_eq_ok.1 h
        cases hp : tk.m_parent with
        | none => simp [hp] at h
        | some p =>
          simp only [hp] at h
          obtain ⟨ps, hps, h⟩ := Res.bind_eq_ok.1 h
          have hpar : M.trackParent u = some p :=
            trackParent_eq_some.2 ⟨tk, track_eq_ok.1 htk, hp⟩
          have hv : M.stateTrack p = some ps.m_parent :=
            stateTrack_eq_some.2 ⟨ps, state_eq_ok.1 hps, rfl⟩
          have := ih ps.m_parent (wf.up_lt hpar hv) (wf.stateTrack_lt hv).2 f r h
          simp only [hpar, hv, List.find?_cons, hA, decide_False]
          exact this

/-- The value of `_FindClosestCommonTrack` when it returns: the common parent track; else the
first child track of `_stateB` that is in `ATracks` (child tracks of `_stateA`, then its
ancestor chain); else the first track of the ancestor chain of `_stateB` that is in
`ATracks`. -/
theorem Model.WF.fcct_exact {M : Model} (wf : M.WF) {fuel a b ta tb : Nat}
    {r : Option TrackPtr} (ha : M.stateTrack a = some ta) (hb : M.stateTrack b = some tb)
    (h : _FindClosestCommonTrack M fuel a b = Res.ok r) :
    r = if ta = tb then some ta
        else match (M.childTracks b).find?
            (fun x => decide (x ∈ M.childTracks a ++ M.ancestors ta)) with
          | some t => some t
          | none => (M.ancestors tb).find?
              (fun x => decide (x ∈ M.childTracks a ++ M.ancestors ta)) := by
  obtain ⟨sa, hsa, rfl⟩ := stateTrack_eq_some.1 ha
  obtain ⟨sb, hsb, rfl⟩ := stateTrack_eq_some.1 hb
  have hca : M.childTracks a = sa.m_tracks.map Prod.snd := by simp [Model.childTracks, hsa]
  have hcb : M.childTracks b = sb.m_tracks.map Prod.snd := by simp [Model.childTracks, hsb]
  unfold _FindClosestCommonTrack at h
  simp only [state_eq_ok.2 hsa, state_eq_ok.2 hsb, Res.ok_bind] at h
  by_cases hp : sa.m_parent = sb.m_parent
  · simp only [hp, if_true, Res.pure_eq, Res.ok.injEq] at h ⊢
    exact h.symm
  · simp only [hp, if_false] at h ⊢
    obtain ⟨A, hA, h⟩ := Res.bind_eq_ok.1 h
    have hA' := (wf.ATracksLoop_spec sa.m_parent (wf.stateTrack_lt ha).2 fuel _).2 A hA
    subst hA'
    rw [hca, hcb]
    cases hf : (sb.m_tracks.map Prod.snd).find?
        (fun t => decide (t ∈ sa.m_tracks.map Prod.snd ++ M.ancestors sa.m_parent)) with
    | some t =>
      simp only [hf, Res.pure_eq, Res.ok.injEq] at h
      exact h.symm
    | none =>
      simp only [hf] at h
      exact wf.BTracksLoop_first sb.m_parent (wf.stateTrack_lt hb).2 fuel r h

/-- On an ancestor chain, the first track with a property is below every track of the chain
with that property. -/
theorem Model.WF.first_is_deepest {M : Model} (wf : M.WF) (q : TrackPtr → Bool) :
    ∀ (t : Nat), t < M.trackHeap.length → ∀ L : Nat, (M.ancestors t).find? q = some L →
      ∀ x ∈ M.ancestors t, q x = true → x ∈ M.ancestors L := by
  intro t
  induction t using Nat.strong_induction_on with
  | _ t ih =>
    intro ht L hL x hx hq
    have hx0 := hx
    rw [wf.ancestors_eq ht] at hL hx
    by_cases hqt : q t = true
    · simp only [List.find?_cons, hqt, Option.some.injEq] at hL
      subst hL
      exact hx0
    · have hqt' : q t = false := by simpa using hqt
      simp only [List.find?_cons, hqt'] at hL
      rcases List.mem_cons.1 hx with rfl | hx
      · exact absurd hq hqt
      · cases hp : M.trackParent t with
        | none => simp [hp] at hx
        | some p =>
          cases hv : M.stateTrack p with
          | none => simp [hp, hv] at hx
          | some v =>
            simp only [hp, hv] at hx hL
            exact ih v (wf.up_lt hp hv) (wf.stateTrack_lt hv).2 L hL x hx hq

/-- The walk that collects the explicit path only returns if the common track is on the
ancestor chain of the track it starts from. -/
theorem Model.WF.pathLoop_reaches {M : Model} (wf : M.WF) {L : Nat} :
    ∀ (u : Nat), u < M.trackHeap.length → ∀ (fuel : Nat) (path r : List StatePtr),
      pathLoop M (some L) fuel (some u) path = Res.ok r → L ∈ M.ancestors u := by
  intro u
  induction u using Nat.strong_induction_on with
  | _ u ih =>
    intro hu fuel path r h
    cases fuel with
    | zero => simp [pathLoop] at h
    | succ f =>
      unfold pathLoop at h
      by_cases hL : u = L
      · subst hL
        exact wf.mem_ancestors_self hu
      · have hne : ¬ (some u = some L) := by simpa using hL
        simp only [hne, if_false] at h
        obtain ⟨tk, htk, h⟩ := Res.bind_eq_ok.1 h
        cases hp : tk.m_parent with
        | none => simp [hp] at h
        | some p =>
          simp only [hp] at h
          obtain ⟨ps, hps, h⟩ := Res.bind_eq_ok.1 h
          have hpar : M.trackParent u = some p :=
            trackParent_eq_some.2 ⟨tk, track_eq_ok.1 htk, hp⟩
          have hv : M.stateTrack p = some ps.m_parent :=
            stateTrack_eq_some.2 ⟨ps, state_eq_ok.1 hps, rfl⟩
          have := ih ps.m_parent (wf.up_lt hpar hv) (wf.stateTrack_lt hv).2 f _ r h
          rw [wf.ancestors_step hpar hv]
          exact List.mem_cons_of_mem _ this

/-! ## C25 : the common track -/

/-- C25, amended (common-track computation). On a well-formed model, for two states `S` and
`T` whose ancestor-track chains share a track and of which neither is a proper ancestor of the
other (no child track of one is on the chain of the other): given more iterations than the
model has tracks, `_FindClosestCommonTrack(S, T)` returns a track `L` that belongs to both
chains, is the first track of the chain of `T` that occurs in the chain of `S`, and is the
deepest common track (every common track is on the chain of `L`); when `S` and `T` have the
same parent track, `L` is that track. -/
theorem C25_common_track (M : Model) (wf : M.WF) (fuel a b ta tb : Nat)
    (ha : M.stateTrack a = some ta) (hb : M.stateTrack b = some tb)
    (hshare : ∃ x ∈ M.ancestors tb, x ∈ M.ancestors ta)
    (hnotA : ∀ c ∈ M.childTracks a, c ∉ M.ancestors tb)
    (hnotB : ∀ c ∈ M.childTracks b, c ∉ M.ancestors ta)
    (hf : M.trackHeap.length + 1 ≤ fuel) :
    ∃ L : Nat, _FindClosestCommonTrack M fuel a b = Res.ok (some L) ∧
      L ∈ M.ancestors ta ∧ L ∈ M.ancestors tb ∧
      (M.ancestors tb).find? (fun x => decide (x ∈ M.ancestors ta)) = some L ∧
      (∀ x, x ∈ M.ancestors ta → x ∈ M.ancestors tb → x ∈ M.ancestors L) ∧
      (ta = tb → L = ta) := by
  have hta := (wf.stateTrack_lt ha).2
  have htb := (wf.stateTrack_lt hb).2
  obtain ⟨L, hfc, hLb, hLa⟩ := wf.fcct_total ha hb hshare hnotB hf
  have hLa' : L ∈ M.ancestors ta := by
    rcases hLa with h | h
    · exact h
    · exact absurd hLb (hnotA L h)
  have hex := wf.fcct_exact ha hb hfc
  have hfirst : (M.ancestors tb).find? (fun x => decide (x ∈ M.ancestors ta)) = some L := by
    by_cases hp : ta = tb
    · subst hp
      simp only [if_true, Option.some.injEq] at hex
      subst hex
      rw [wf.ancestors_eq hta]
      have : L ∈ M.ancestors L := wf.mem_ancestors_self hta
      rw [wf.ancestors_eq hta] at this
      simp [this]
    · simp only [hp, if_false] at hex
      cases hc : (M.childTracks b).find?
          (fun x => decide (x ∈ M.childTracks a ++ M.ancestors ta)) with
      | some t =>
        rw [hc] at hex
        simp only [Option.some.injEq] at hex
        subst hex
        have hmem := List.mem_of_find?_eq_some hc
        have hpar := (wf.childTracks_parent hmem).1
        have h1 : (tb : Nat) < L := wf.up_lt hpar hb
        have h2 : (L : Nat) ≤ tb := wf.mem_ancestors_le tb htb L hLb
        omega
      | none =>
        rw [hc] at hex
        simp only at hex
        rw [hex]
        apply find?_congr_mem
        intro x hx
        have hxa : x ∉ M.childTracks a := fun h => hnotA x h hx
        simp [hxa]
  refine ⟨L, hfc, hLa', hLb, hfirst, ?_, ?_⟩
  · intro x hxa hxb
    exact wf.first_is_deepest _ tb htb L hfirst x hxb (by simpa using hxa)
  · intro hp
    subst hp
    have := wf.fcct_exact ha hb hfc
    simp only [if_true, Option.some.injEq] at this
    exact this

/-- Witness of C25 amended: `grounded` and `hurt` on Scenario B, common track `life`. -/
theorem C25_common_track_witness :
    scenarioB.WF ∧ scenarioB.stateTrack 1 = some 1 ∧ scenarioB.stateTrack 4 = some 2 ∧
    (∃ x ∈ scenarioB.ancestors 2, x ∈ scenarioB.ancestors 1) ∧
    (∀ c ∈ scenarioB.childTracks 1, c ∉ scenarioB.ancestors 2) ∧
    (∀ c ∈ scenarioB.childTracks 4, c ∉ scenarioB.ancestors 1) ∧
    scenarioB.trackHeap.length + 1 ≤ 4 ∧
    _FindClosestCommonTrack scenarioB 4 1 4 = Res.ok (some 0) ∧
    ∃ L : Nat, _FindClosestCommonTrack scenarioB 4 1 4 = Res.ok (some L) ∧
      L ∈ scenarioB.ancestors 1 ∧ L ∈ scenarioB.ancestors 2 ∧
      (scenarioB.ancestors 2).find? (fun x => decide (x ∈ scenarioB.ancestors 1)) = some L ∧
      (∀ x, x ∈ scenarioB.ancestors 1 → x ∈ scenarioB.ancestors 2 →
        x ∈ scenarioB.ancestors L) ∧
      ((1 : Nat) = 2 → L = 1) :=
  ⟨scenarioB_wf, by decide, by decide, ⟨0, by decide, by decide⟩, by decide, by decide,
    by decide, by decide,
    C25_common_track scenarioB scenarioB_wf 4 1 4 1 2 (by decide) (by decide)
      ⟨0, by decide, by decide⟩ (by decide) (by decide) (by decide)⟩

/-- C25 fails as stated: on Scenario B take `S = alive` and `T = grounded`. The chain of
`S` is [life], the chain of `T` is [motion, life]; they share `life`, which is the first
track of the chain of `T` that occurs in the chain of `S`. But the child tracks of `S` are
put in `ATracks` before its chain, and `_FindClosestCommonTrack(S, T)` returns `motion`,
which is not on the chain of `S`. -/
theorem C25_counterexample :
    scenarioB.stateTrack 0 = some 0 ∧ scenarioB.stateTrack 1 = some 1 ∧
    scenarioB.ancestors 0 = [0] ∧ scenarioB.ancestors 1 = [1, 0] ∧
    (scenarioB.ancestors 1).find? (fun x => decide (x ∈ scenarioB.ancestors 0)) = some 0 ∧
    _FindClosestCommonTrack scenarioB 4 0 1 = Res.ok (some 1) ∧
    (1 : Nat) ∉ scenarioB.ancestors 0 ∧
    (∀ (fuel : Nat) (r : Option TrackPtr),
      _FindClosestCommonTrack scenarioB fuel 0 1 = Res.ok r → r = some 1) := by
  refine ⟨by decide, by decide, by decide, by decide, by decide, by decide, by decide, ?_⟩
  intro fuel r h
  have := scenarioB_wf.fcct_exact (a := 0) (b := 1) (by decide : scenarioB.stateTrack 0 = some 0)
    (by decide : scenarioB.stateTrack 1 = some 1) h
  rw [this]
  decide

/-! ## C26 : the walk that collects the explicit path -/

/-- A transition whose target is a proper ancestor of its source (a child track of the target
is on the ancestor chain of the source) never returns once its source is active:
`_FindClosestCommonTrack` returns a child track of the target, which the walk up from the
parent track of the target cannot meet. -/
theorem Model.WF.fireTransition_ancestor_target {M : Model} (wf : M.WF) {fuel ta : Nat}
    {tr : EventTransition} {σ σ' : Runtime} (hs : tr.source ∈ σ.m_currentStates)
    (hta : M.stateTrack tr.source = some ta)
    (hanc : ∃ c ∈ M.childTracks tr.target, c ∈ M.ancestors ta) :
    fireTransition M fuel tr σ ≠ Res.ok σ' := by
  intro h
  obtain ⟨L, tb, path, E, hfc, _, htb, hpath, _⟩ := wf.fireTransition_ok hs h
  have htb_lt := (wf.stateTrack_lt htb).2
  have hta_lt := (wf.stateTrack_lt hta).2
  obtain ⟨c, hc, hca⟩ := hanc
  have hcpar := (wf.childTracks_parent hc).1
  have hlt : (tb : Nat) < c := wf.up_lt hcpar htb
  have hne : ta ≠ tb := by
    intro he
    subst he
    have := wf.mem_ancestors_le ta hta_lt c hca
    omega
  have hex := wf.fcct_exact hta htb hfc
  simp only [hne, if_false] at hex
  have hsome : ∃ t, (M.childTracks tr.target).find?
      (fun x => decide (x ∈ M.childTracks tr.source ++ M.ancestors ta)) = some t := by
    cases hf : (M.childTracks tr.target).find?
        (fun x => decide (x ∈ M.childTracks tr.source ++ M.ancestors ta)) with
    | some t => exact ⟨t, rfl⟩
    | none =>
      rw [List.find?_eq_none] at hf
      exact absurd (by simpa using Or.inr hca) (hf c hc)
  obtain ⟨t, ht⟩ := hsome
  rw [ht] at hex
  simp only [Option.some.injEq] at hex
  subst hex
  have hmem := List.mem_of_find?_eq_some ht
  have hpar := (wf.childTracks_parent hmem).1
  have h1 : (tb : Nat) < L := wf.up_lt hpar htb
  have h2 : (L : Nat) ≤ tb :=
    wf.mem_ancestors_le tb htb_lt L (wf.pathLoop_reaches tb htb_lt fuel _ _ hpath)
  omega

/-- C26, the code at the failing input. Scenario B with the transition `rise` :
grounded -> alive registered, started, `grounded` active. The target `alive` is the parent
state of `motion`, the track of `grounded`. `_FindClosestCommonTrack(grounded, alive)` finds
`motion`, a child track of the target, in `ATracks` and returns it. The walk starts at `life`,
the parent track of `alive`, which is not `motion`: it reads the null `m_parent` of the root
track `life` and dereferences it. The walk returns for no number of iterations, the
transition never returns and `PostEvent(rise)` faults on the null dereference. This is so on
every well-formed model for every transition whose target is a proper ancestor of its
source. -/
theorem C26_path_walk_past_root :
    AddEventTransition scenarioB "rise" "grounded" "alive" = Res.ok scenarioB_rise ∧
    Start scenarioB_rise 4 (Runtime.initial true) = Res.ok scenarioB_started ∧
    (1 : Nat) ∈ scenarioB_started.m_currentStates ∧
    scenarioB_rise.stateTrack 1 = some 1 ∧ scenarioB_rise.trackParent 1 = some 0 ∧
    scenarioB_rise.stateTrack 0 = some 0 ∧ scenarioB_rise.isRoot 0 = true ∧
    _FindClosestCommonTrack scenarioB_rise 4 1 0 = Res.ok (some 1) ∧
    pathLoop scenarioB_rise (some 1) 4 (some 0) [0] = Res.fault Fault.nullDeref ∧
    (∀ (fuel : Nat) (path : List StatePtr),
      pathLoop scenarioB_rise (some 1) fuel (some 0) [0] ≠ Res.ok path) ∧
    (∀ (fuel : Nat) (σ' : Runtime),
      fireTransition scenarioB_rise fuel ⟨"rise", 1, 0⟩ scenarioB_started ≠ Res.ok σ') ∧
    PostEvent scenarioB_rise 4 "rise" scenarioB_started = Res.fault Fault.nullDeref ∧
    (∀ (M : Model) (fuel ta : Nat) (tr : EventTransition) (σ σ' : Runtime), M.WF →
      tr.source ∈ σ.m_currentStates → M.stateTrack tr.source = some ta →
      (∃ c ∈ M.childTracks tr.target, c ∈ M.ancestors ta) →
      fireTransition M fuel tr σ ≠ Res.ok σ') := by
  have wf : scenarioB_rise.WF := by decide
  refine ⟨by decide, by decide, by decide, by decide, by decide, by decide, by decide,
    by decide, by decide, ?_, ?_, by decide, ?_⟩
  · intro fuel path h
    have := wf.pathLoop_reaches 0 (by decide) fuel _ _ h
    revert this
    decide
  · intro fuel σ'
    exact wf.fireTransition_ancestor_target (by decide)
      (by decide : scenarioB_rise.stateTrack 1 = some 1) ⟨1, by decide, by decide⟩
  · intro M fuel ta tr σ σ' wf' hs hta hanc
    exact wf'.fireTransition_ancestor_target hs hta hanc

/-! ## C27 : the exit phase -/

/-- In an ordered configuration, a state that owns a track of the ancestor chain of an active
state is active and stands before it. -/
theorem Model.WF.ancestor_before {M : Model} (wf : M.WF) {cur : List StatePtr}
    (hO : Ordered M cur) :
    ∀ (t : Nat), t < M.trackHeap.length → ∀ s ∈ cur, M.stateTrack s = some t →
      ∀ (p : StatePtr) (c : TrackPtr), c ∈ M.childTracks p → c ∈ M.ancestors t →
      p ∈ cur ∧ cur.indexOf p < cur.indexOf s := by
  intro t
  induction t using Nat.strong_induction_on with
  | _ t ih =>
    intro ht s hs hst p c hc hca
    have hcpar := (wf.childTracks_parent hc).1
    rw [wf.ancestors_eq ht] at hca
    rcases List.mem_cons.1 hca with rfl | hca
    · exact hO s hs c (Option.mem_def.2 hst) p (Option.mem_def.2 hcpar)
    · cases hp : M.trackParent t with
      | none => simp [hp] at hca
      | some p' =>
        cases hv : M.stateTrack p' with
        | none => simp [hp, hv] at hca
        | some v =>
          simp only [hp, hv] at hca
          obtain ⟨h1, h2⟩ := hO s hs t (Option.mem_def.2 hst) p' (Option.mem_def.2 hp)
          obtain ⟨h3, h4⟩ := ih v (wf.up_lt hp hv) (wf.stateTrack_lt hv).2 p' h1 hv p c hc hca
          exact ⟨h3, by omega⟩

theorem inSubtree_track {M : Model} {L s : Nat} (h : M.inSubtree L s = true) :
    ∃ t : Nat, M.stateTrack s = some t ∧ L ∈ M.ancestors t := by
  unfold Model.inSubtree at h
  cases hs : M.stateTrack s with
  | none => simp [hs] at h
  | some t =>
    simp only [hs, decide_eq_true_eq] at h
    exact ⟨t, rfl, h⟩

/-- In an ordered configuration without repetition, no state stands before a state whose
subtree contains it. -/
theorem Model.WF.pairwise_not_descendant {M : Model} (wf : M.WF) {cur : List StatePtr}
    (hO : Ordered M cur) (hnd : cur.Nodup) :
    cur.Pairwise (fun a b => ¬ ∃ c ∈ M.childTracks b, M.inSubtree c a = true) := by
  rw [List.pairwise_iff_getElem]
  intro i j hi hj hij hex
  obtain ⟨c, hc, hin⟩ := hex
  obtain ⟨t, hst, hca⟩ := inSubtree_track hin
  have := wf.ancestor_before hO t (wf.stateTrack_lt hst).2 cur[i] (List.getElem_mem hi) hst
    cur[j] c hc hca
  rw [List.indexOf_getElem hnd i hi, List.indexOf_getElem hnd j hj] at this
  omega

/-- C27, amended (exit phase). On a well-formed model, in an ordered configuration of valid
states without repetition, the exit loop for common track `L`, given more iterations than the
model has tracks, returns: `Exit` has been invoked exactly once on each active state of the
subtree of `L` and on no other state, in reverse configuration order, so that no state is
exited before a state of its own subtree; the states kept are the others, in their order; and
these are the `Exit` calls of a transition that fires with common track `L`. On Scenario B,
firing grounded -> dead from the configuration [alive, healthy, grounded] left by `Start`
exits grounded, healthy, alive in that order. -/
theorem C27_exit_phase (M : Model) (wf : M.WF) (fuel L : Nat) (σ : Runtime)
    (hvalid : ∀ s ∈ σ.m_currentStates, s < M.stateHeap.length)
    (hnd : σ.m_currentStates.Nodup) (hord : Ordered M σ.m_currentStates)
    (hf : M.trackHeap.length + 1 ≤ fuel) :
    ∃ exited : List StatePtr,
      exited = (σ.m_currentStates.filter (fun s => M.inSubtree L s)).reverse ∧
      exitLoop M fuel (some L) σ.m_currentStates =
        Res.ok (σ.m_currentStates.filter (fun s => !M.inSubtree L s),
          exited.map HookCall.exit) ∧
      exited.Nodup ∧
      (∀ s, s ∈ exited ↔ s ∈ σ.m_currentStates ∧ M.inSubtree L s = true) ∧
      exited.Pairwise (fun x y => ¬ ∃ c ∈ M.childTracks x, M.inSubtree c y = true) ∧
      (∀ (tr : EventTransition) (σ' : Runtime), tr.source ∈ σ.m_currentStates →
        _FindClosestCommonTrack M fuel tr.source tr.target = Res.ok (some L) →
        fireTransition M fuel tr σ = Res.ok σ' →
        ∃ E : List StatePtr,
          σ'.calls = σ.calls ++ exited.map HookCall.exit ++ E.map HookCall.enter ∧
          σ'.m_currentStates =
            σ.m_currentStates.filter (fun s => !M.inSubtree L s) ++ E) ∧
      fireTransition scenarioB 4 ⟨"fall", 1, 5⟩ scenarioB_started =
        Res.ok { scenarioB_started with
          m_currentStates := [5]
          calls := scenarioB_started.calls ++
            [HookCall.exit 1, HookCall.exit 3, HookCall.exit 0, HookCall.enter 5] } := by
  refine ⟨_, rfl, ?_, ?_, ?_, ?_, ?_, by decide⟩
  · exact wf.exitLoop_total hf σ.m_currentStates (by
      intro s hs
      obtain ⟨st, hst, _⟩ := state_of_lt (hvalid s hs)
      simp [Model.stateTrack, hst])
  · exact List.nodup_reverse.2 (hnd.filter _)
  · intro s
    simp [List.mem_filter]
  · rw [List.pairwise_reverse]
    exact (wf.pairwise_not_descendant hord hnd).filter _
  · intro tr σ' hs hfc h
    obtain ⟨L', tt, path, E, hfc', _, _, _, hσ, _⟩ := wf.fireTransition_ok hs h
    rw [hfc] at hfc'
    simp only [Res.ok.injEq, Option.some.injEq] at hfc'
    subst hfc'
    exact ⟨E, by rw [hσ]; rfl, by rw [hσ]; rfl⟩

/-- Witness of C27 amended: the exit loop for `life` on started Scenario B. -/
theorem C27_exit_phase_witness :
    scenarioB.WF ∧
    (∀ s ∈ scenarioB_started.m_currentStates, s < scenarioB.stateHeap.length) ∧
    scenarioB_started.m_currentStates.Nodup ∧
    Ordered scenarioB scenarioB_started.m_currentStates ∧
    scenarioB.trackHeap.length + 1 ≤ 4 ∧
    exitLoop scenarioB 4 (some 0) scenarioB_started.m_currentStates =
      Res.ok ([], [HookCall.exit 1, HookCall.exit 3, HookCall.exit 0]) ∧
    ∃ exited : List StatePtr,
      exited = (scenarioB_started.m_currentStates.filter
        (fun s => scenarioB.inSubtree 0 s)).reverse ∧
      exitLoop scenarioB 4 (some 0) scenarioB_started.m_currentStates =
        Res.ok (scenarioB_started.m_currentStates.filter (fun s => !scenarioB.inSubtree 0 s),
          exited.map HookCall.exit) :=
  ⟨scenarioB_wf, by decide, by decide, by decide, by decide, by decide,
    (C27_exit_phase scenarioB scenarioB_wf 4 0 scenarioB_started (by decide) (by decide)
      (by decide) (by decide)).imp (fun _ h => ⟨h.1, h.2.1⟩)⟩

/-- C27 fails as stated: on Scenario B, `Start` leaves [alive, healthy, grounded], and firing
grounded -> dead from there exits grounded, healthy, alive in that order, not healthy,
grounded, alive. -/
theorem C27_counterexample :
    Start scenarioB 4 (Runtime.initial true) = Res.ok scenarioB_started ∧
    scenarioB_started.m_currentStates = [0, 3, 1] ∧
    _FindClosestCommonTrack scenarioB 4 1 5 = Res.ok (some 0) ∧
    fireTransition scenarioB 4 ⟨"fall", 1, 5⟩ scenarioB_started =
      Res.ok { scenarioB_started with
        m_currentStates := [5]
        calls := scenarioB_started.calls ++
          [HookCall.exit 1, HookCall.exit 3, HookCall.exit 0, HookCall.enter 5] } ∧
    fireTransition scenarioB 4 ⟨"fall", 1, 5⟩ scenarioB_started ≠
      Res.ok { scenarioB_started with
        m_currentStates := [5]
        calls := scenarioB_started.calls ++
          [HookCall.exit 3, HookCall.exit 1, HookCall.exit 0, HookCall.enter 5] } := by
  refine ⟨by decide, by decide, by decide, by decide, by decide⟩

/-! ## C28 : the enter phase -/

/-- A transition whose source is active returns, given more iterations than the model has
tracks, once `_FindClosestCommonTrack` has returned a track of the ancestor chain of its
target, on a well-formed model where every track has a default state. -/
theorem Model.WF.fireTransition_returns {M : Model} (wf : M.WF) (hd : M.HasDefaults)
    {σ : Runtime} {tr : EventTransition} {tb L fuel : Nat}
    (hvalid : ∀ s ∈ σ.m_currentStates, s < M.stateHeap.length)
    (hS : tr.source ∈ σ.m_currentStates)
    (htb : M.stateTrack tr.target = some tb)
    (hfc : _FindClosestCommonTrack M fuel tr.source tr.target = Res.ok (some L))
    (hLb : L ∈ M.ancestors tb)
    (hf : M.trackHeap.length + 1 ≤ fuel) :
    ∃ σ' : Runtime, fireTransition M fuel tr σ = Res.ok σ' := by
  have htb_lt := (wf.stateTrack_lt htb).2
  have hL_lt := wf.mem_ancestors_lt htb_lt hLb
  obtain ⟨path, hpath⟩ := wf.pathLoop_total tb htb_lt hLb fuel [tr.target] (by omega)
  obtain ⟨pre, hpre, hchain, hhead⟩ := pathLoop_ok fuel tb [tr.target] path hpath
    (by intro x hx; simp at hx; subst hx; exact htb) (List.chain'_singleton _)
  have hexit := wf.exitLoop_total (L := L) hf σ.m_currentStates (by
    intro s hs
    obtain ⟨st, hst, _⟩ := state_of_lt (hvalid s hs)
    simp [Model.stateTrack, hst])
  have hP0 : PathInv M path [] [L] path :=
    ⟨⟨[], by simp, by simp⟩, fun x hx => ⟨L, by simp, hhead x hx⟩, hchain, by simp⟩
  obtain ⟨res, hres⟩ := wf.enterLoop_total (P := path) (fun u => u < M.trackHeap.length)
    (fun u hu => hd u hu)
    (fun u c _ _ _ c' hc' => (wf.childTracks_parent hc').2)
    fuel [] [L] path (exitResult M L σ.m_currentStates).1
    (σ.calls ++ (exitResult M L σ.m_currentStates).2)
    (Descent.init_single wf hL_lt) hP0
    (by intro u hu; rw [List.mem_singleton.1 hu]; exact hL_lt)
    (by simp only [List.length_nil]; omega)
  obtain ⟨tgt, htgt, htgt'⟩ := stateTrack_eq_some.1 htb
  refine ⟨{ σ with m_currentStates := res.1, calls := res.2 }, ?_⟩
  unfold fireTransition
  simp only [hS, not_true_eq_false, if_false, hfc, Res.ok_bind, state_eq_ok.2 htgt, htgt',
    hpath, hexit, hres, Res.pure_eq]

/-- C28 (enter phase). On a well-formed model where every track has a default state, for a
transition `S -> T` with `S` active, `S` and `T` under the same root track and `T` not a
proper ancestor of `S`: given more iterations than the model has tracks the transition
returns, with common track `L` and explicit path `path`; the states entered, `E`, are appended
to the configuration in the order of their `Enter` calls, one call per state and one state
per track entered; every state of the explicit path is entered, so a track that holds a state
of the path gets that state; a state entered that is not on the path is the default state of
its track; and the track of a state entered is `L` or a track whose parent state was entered
earlier. -/
theorem C28_enter_phase (M : Model) (wf : M.WF) (hd : M.HasDefaults)
    (σ : Runtime) (tr : EventTransition) (ta tb r : Nat) (fuel : Nat)
    (hvalid : ∀ s ∈ σ.m_currentStates, s < M.stateHeap.length)
    (hS : tr.source ∈ σ.m_currentStates)
    (hta : M.stateTrack tr.source = some ta) (htb : M.stateTrack tr.target = some tb)
    (hroot : M.isRoot r = true ∧ r ∈ M.ancestors ta ∧ r ∈ M.ancestors tb)
    (hnot : ∀ c ∈ M.childTracks tr.target, c ∉ M.ancestors ta)
    (hf : M.trackHeap.length + 1 ≤ fuel) :
    ∃ (σ' : Runtime) (L : Nat) (path E : List StatePtr),
      fireTransition M fuel tr σ = Res.ok σ' ∧
      _FindClosestCommonTrack M fuel tr.source tr.target = Res.ok (some L) ∧
      pathLoop M (some L) fuel (some tb) [tr.target] = Res.ok path ∧
      σ'.m_currentStates = σ.m_currentStates.filter (fun s => !M.inSubtree L s) ++ E ∧
      σ'.calls = σ.calls ++
        ((σ.m_currentStates.filter (fun s => M.inSubtree L s)).reverse.map HookCall.exit) ++
        E.map HookCall.enter ∧
      E.Nodup ∧ (E.map M.stateTrack).Nodup ∧
      (∀ p ∈ path, p ∈ E) ∧
      (∀ e ∈ E, ∀ p ∈ path, M.stateTrack e = M.stateTrack p → e = p) ∧
      (∀ e ∈ E, e ∉ path → ∃ t, M.stateTrack e = some t ∧ M.defaultState t = some e) ∧
      (∀ e ∈ E, ∀ t, M.stateTrack e = some t →
        t = L ∨ ∃ p ∈ E, M.trackParent t = some p ∧ E.indexOf p < E.indexOf e) := by
  obtain ⟨L, hfc, hLb, _⟩ := wf.fcct_total hta htb ⟨r, hroot.2.2, hroot.2.1⟩ hnot hf
  obtain ⟨σ', hfire⟩ := wf.fireTransition_returns hd hvalid hS htb hfc hLb hf
  obtain ⟨L', tt, path, E, hfc', _, htt, hpath, hσ, hD, hP⟩ := wf.fireTransition_ok hS hfire
  rw [hfc] at hfc'
  simp only [Res.ok.injEq, Option.some.injEq] at hfc'
  subst hfc'
  rw [htb] at htt
  simp only [Option.some.injEq] at htt
  subst htt
  have hpE := (PathInv.done hP).2
  refine ⟨σ', L, path, E, hfire, hfc, hpath, by rw [hσ]; rfl, by rw [hσ]; rfl,
    List.Nodup.of_map _ hD.nodupE, hD.nodupE, hpE, ?_, ?_, ?_⟩
  · intro e he p hp hep
    exact List.inj_on_of_nodup_map hD.nodupE he (hpE p hp) hep
  · intro e he hne
    rcases hP.choice e he with h | h
    · exact absurd h hne
    · exact h
  · intro e he t ht
    rcases hD.entered_origin e he t ht with h | h
    · exact Or.inl (List.mem_singleton.1 h)
    · exact Or.inr h

/-- Witness of C28: grounded -> dead on started Scenario B. -/
theorem C28_enter_phase_witness :
    scenarioB.WF ∧ scenarioB.HasDefaults ∧
    (∀ s ∈ scenarioB_started.m_currentStates, s < scenarioB.stateHeap.length) ∧
    (1 : Nat) ∈ scenarioB_started.m_currentStates ∧
    scenarioB.stateTrack 1 = some 1 ∧ scenarioB.stateTrack 5 = some 0 ∧
    (scenarioB.isRoot 0 = true ∧ 0 ∈ scenarioB.ancestors 1 ∧ 0 ∈ scenarioB.ancestors 0) ∧
    (∀ c ∈ scenarioB.childTracks 5, c ∉ scenarioB.ancestors 1) ∧
    scenarioB.trackHeap.length + 1 ≤ 4 ∧
    ∃ (σ' : Runtime) (L : Nat) (path E : List StatePtr),
      fireTransition scenarioB 4 ⟨"fall", 1, 5⟩ scenarioB_started = Res.ok σ' ∧
      _FindClosestCommonTrack scenarioB 4 1 5 = Res.ok (some L) ∧
      pathLoop scenarioB (some L) 4 (some 0) [5] = Res.ok path ∧
      σ'.m_currentStates =
        scenarioB_started.m_currentStates.filter (fun s => !scenarioB.inSubtree L s) ++ E :=
  ⟨scenarioB_wf, by decide, by decide, by decide, by decide, by decide, by decide, by decide,
    by decide,
    (C28_enter_phase scenarioB scenarioB_wf (by decide) scenarioB_started ⟨"fall", 1, 5⟩
      1 0 0 4 (by decide) (by decide) (by decide) (by decide) (by decide) (by decide)
      (by decide)).imp (fun _ h => h.imp (fun _ h => h.imp (fun _ h => h.imp
        (fun _ h => ⟨h.1, h.2.1, h.2.2.1, h.2.2.2.1⟩))))⟩

/-! ## C29 : the feedback-loop diagnostic -/

theorem track_congr {M M' : Model} (hT : M'.trackHeap = M.trackHeap) (p : TrackPtr) :
    M'.track p = M.track p := by
  unfold Model.track
  rw [hT]

theorem state_congr {M M' : Model} (hS : M'.stateHeap = M.stateHeap) (p : StatePtr) :
    M'.state p = M.state p := by
  unfold Model.state
  rw [hS]

theorem IsInTrackLoop_congr {M M' : Model} (hT : M'.trackHeap = M.trackHeap)
    (hS : M'.stateHeap = M.stateHeap) (tr : Option TrackPtr) :
    ∀ (fuel : Nat) (cur : Option TrackPtr),
      IsInTrackLoop M' tr fuel cur = IsInTrackLoop M tr fuel cur := by
  intro fuel
  induction fuel with
  | zero => intro cur; rfl
  | succ n ih =>
    intro cur
    cases cur with
    | none => rfl
    | some c =>
      unfold IsInTrackLoop
      simp only [track_congr hT, state_congr hS, ih]

theorem IsInTrack_congr {M M' : Model} (hT : M'.trackHeap = M.trackHeap)
    (hS : M'.stateHeap = M.stateHeap) (fuel : Nat) (s : StatePtr) (tr : Option TrackPtr) :
    IsInTrack M' fuel s tr = IsInTrack M fuel s tr := by
  unfold IsInTrack
  simp only [state_congr hS, IsInTrackLoop_congr hT hS]

theorem ATracksLoop_congr {M M' : Model} (hT : M'.trackHeap = M.trackHeap)
    (hS : M'.stateHeap = M.stateHeap) :
    ∀ (fuel : Nat) (cur : Option TrackPtr) (A : List TrackPtr),
      ATracksLoop M' fuel cur A = ATracksLoop M fuel cur A := by
  intro fuel
  induction fuel with
  | zero => intro cur A; rfl
  | succ n ih =>
    intro cur A
    cases cur with
    | none => rfl
    | some c =>
      unfold ATracksLoop
      simp only [track_congr hT, state_congr hS, ih]

theorem BTracksLoop_congr {M M' : Model} (hT : M'.trackHeap = M.trackHeap)
    (hS : M'.stateHeap = M.stateHeap) (A : List TrackPtr) :
    ∀ (fuel : Nat) (cur : Option TrackPtr),
      BTracksLoop M' A fuel cur = BTracksLoop M A fuel cur := by
  intro fuel
  induction fuel with
  | zero => intro cur; rfl
  | succ n ih =>
    intro cur
    cases cur with
    | none => rfl
    | some c =>
      unfold BTracksLoop
      simp only [track_congr hT, state_congr hS, ih]

theorem fcct_congr {M M' : Model} (hT : M'.trackHeap = M.trackHeap)
    (hS : M'.stateHeap = M.stateHeap) (fuel : Nat) (a b : StatePtr) :
    _FindClosestCommonTrack M' fuel a b = _FindClosestCommonTrack M fuel a b := by
  unfold _FindClosestCommonTrack
  simp only [state_congr hS, ATracksLoop_congr hT hS, BTracksLoop_congr hT hS]

theorem pathLoop_congr {M M' : Model} (hT : M'.trackHeap = M.trackHeap)
    (hS : M'.stateHeap = M.stateHeap) (L : Option TrackPtr) :
    ∀ (fuel : Nat) (cur : Option TrackPtr) (path : List StatePtr),
      pathLoop M' L fuel cur path = pathLoop M L fuel cur path := by
  intro fuel
  induction fuel with
  | zero => intro cur path; rfl
  | succ n ih =>
    intro cur path
    unfold pathLoop
    simp only [track_congr hT, state_congr hS, ih]

theorem exitLoop_congr {M M' : Model} (hT : M'.trackHeap = M.trackHeap)
    (hS : M'.stateHeap = M.stateHeap) (fuel : Nat) (L : Option TrackPtr) :
    ∀ cur : List StatePtr, exitLoop M' fuel L cur = exitLoop M fuel L cur := by
  intro cur
  induction cur with
  | nil => rfl
  | cons s rest ih =>
    rw [exitLoop_cons, exitLoop_cons, ih]
    simp only [IsInTrack_congr hT hS]

theorem enterLoop_congr {M M' : Model} (hT : M'.trackHeap = M.trackHeap)
    (hS : M'.stateHeap = M.stateHeap) :
    ∀ (fuel : Nat) (ts : List TrackPtr) (path cur : List StatePtr) (calls : List HookCall),
      enterLoop M' fuel ts path cur calls = enterLoop M fuel ts path cur calls := by
  intro fuel
  induction fuel with
  | zero => intro ts path cur calls; rfl
  | succ n ih =>
    intro ts path cur calls
    unfold enterLoop
    simp only [track_congr hT, state_congr hS, ih]

theorem fireTransition_congr {M M' : Model} (hT : M'.trackHeap = M.trackHeap)
    (hS : M'.stateHeap = M.stateHeap) (fuel : Nat) (tr : EventTransition) (σ : Runtime) :
    fireTransition M' fuel tr σ = fireTransition M fuel tr σ := by
  unfold fireTransition
  simp only [fcct_congr hT hS, state_congr hS, pathLoop_congr hT hS, exitLoop_congr hT hS,
    enterLoop_congr hT hS]

theorem fireTransitions_congr {M M' : Model} (hT : M'.trackHeap = M.trackHeap)
    (hS : M'.stateHeap = M.stateHeap) (fuel : Nat) :
    ∀ (trs : List EventTransition) (σ : Runtime),
      fireTransitions M' fuel trs σ = fireTransitions M fuel trs σ := by
  intro trs
  induction trs with
  | nil => intro σ; rfl
  | cons tr rest ih =>
    intro σ
    rw [fireTransitions_cons, fireTransitions_cons, fireTransition_congr hT hS]
    simp only [ih]

/-! ## The states entered do not depend on the configuration they are appended to -/

theorem enterLoop_cur (M : Model) :
    ∀ (fuel : Nat) (ts : List TrackPtr) (path cur : List StatePtr) (calls : List HookCall),
      enterLoop M fuel ts path cur calls =
        (enterLoop M fuel ts path [] [] >>= fun r => Res.ok (cur ++ r.1, calls ++ r.2)) := by
  intro fuel
  induction fuel with
  | zero => intro ts path cur calls; rfl
  | succ n ih =>
    intro ts path cur calls
    have tail : ∀ (cs0 : Option StatePtr) (p1 : List StatePtr),
        (match cs0 with
          | none => (Res.fault Fault.nullDeref : Res (List StatePtr × List HookCall))
          | some cs => do
            let s ← M.state cs
            enterLoop M n (ts.dropLast ++ s.m_tracks.map Prod.snd) p1
              (cur ++ [cs]) (calls ++ [HookCall.enter cs])) =
        ((match cs0 with
          | none => (Res.fault Fault.nullDeref : Res (List StatePtr × List HookCall))
          | some cs => do
            let s ← M.state cs
            enterLoop M n (ts.dropLast ++ s.m_tracks.map Prod.snd) p1
              ([] ++ [cs]) ([] ++ [HookCall.enter cs])) >>= fun r =>
          Res.ok (cur ++ r.1, calls ++ r.2)) := by
      intro cs0 p1
      cases cs0 with
      | none => rfl
      | some c =>
        simp only
        cases M.state c with
        | fault e => rfl
        | ok s =>
          simp only [Res.ok_bind]
          rw [ih _ _ (cur ++ [c]), ih _ _ ([] ++ [c])]
          cases enterLoop M n (ts.dropLast ++ s.m_tracks.map Prod.snd) p1 [] [] with
          | fault e => rfl
          | ok r => simp
    unfold enterLoop
    cases ts.getLast? with
    | none => simp
    | some ct =>
      simp only
      cases M.track ct with
      | fault e => rfl
      | ok t =>
        simp only [Res.ok_bind]
        cases path with
        | nil =>
          simp only [Res.ok_bind]
          exact tail t.m_defaultState []
        | cons p0 prest =>
          simp only
          cases M.state p0 with
          | fault e => rfl
          | ok ps =>
            simp only [Res.ok_bind]
            cases tmapFind t.m_states ps.m_name with
            | none =>
              simp only [Res.ok_bind]
              exact tail t.m_defaultState (p0 :: prest)
            | some result =>
              simp only [Res.ok_bind]
              exact tail (some result) prest

/-! ## Transitions in orthogonal regions -/

/-- Shape of the result of a transition that fires with common track `L`: the states entered
are those the enter loop yields from `L` and the explicit path alone; they lie in the subtree
of `L` and the target is one of them. -/
theorem Model.WF.fireTransition_shape {M : Model} (wf : M.WF) {fuel L : Nat}
    {tr : EventTransition} {σ σ' : Runtime} (hS : tr.source ∈ σ.m_currentStates)
    (hfc : _FindClosestCommonTrack M fuel tr.source tr.target = Res.ok (some L))
    (h : fireTransition M fuel tr σ = Res.ok σ') :
    ∃ (tb : Nat) (path E : List StatePtr) (C : List HookCall),
      M.stateTrack tr.target = some tb ∧
      pathLoop M (some L) fuel (some tb) [tr.target] = Res.ok path ∧
      enterLoop M fuel [L] path [] [] = Res.ok (E, C) ∧
      σ'.m_currentStates = σ.m_currentStates.filter (fun s => !M.inSubtree L s) ++ E ∧
      tr.target ∈ E ∧ (∀ e ∈ E, M.inSubtree L e = true) ∧
      (∀ e ∈ E, e < M.stateHeap.length) := by
  obtain ⟨L', tb, path, E, hfc', _, htb, hpath, hσ, hD, hP⟩ := wf.fireTransition_ok hS h
  rw [hfc] at hfc'
  simp only [Res.ok.injEq, Option.some.injEq] at hfc'
  subst hfc'
  obtain ⟨tgt, htgt, htgt'⟩ := stateTrack_eq_some.1 htb
  have h' := h
  unfold fireTransition at h'
  simp only [hS, not_true_eq_false, if_false, hfc, Res.ok_bind, state_eq_ok.2 htgt, htgt',
    hpath] at h'
  obtain ⟨r, hexit, h'⟩ := Res.bind_eq_ok.1 h'
  have hr := wf.exitLoop_ok _ _ hexit
  subst hr
  obtain ⟨r2, henter, h'⟩ := Res.bind_eq_ok.1 h'
  simp only [Res.pure_eq, Res.ok.injEq] at h'
  rw [enterLoop_cur] at henter
  obtain ⟨r0, h0, hr0⟩ := Res.bind_eq_ok.1 henter
  simp only [Res.ok.injEq] at hr0
  have hcs : σ'.m_currentStates = (exitResult M L σ.m_currentStates).1 ++ r0.1 := by
    rw [← h', ← hr0]
  have hE : r0.1 = E := by
    have : (exitResult M L σ.m_currentStates).1 ++ r0.1 =
        (exitResult M L σ.m_currentStates).1 ++ E := by
      rw [← hcs, hσ]
    exact List.append_cancel_left this
  obtain ⟨pre, hpre, _, _⟩ := pathLoop_ok fuel tb [tr.target] path hpath
    (by intro x hx; simp at hx; subst hx; exact htb) (List.chain'_singleton _)
  refine ⟨tb, path, E, r0.2, htb, hpath, by rw [← hE]; exact h0, by rw [hσ]; rfl, ?_, ?_, ?_⟩
  · exact (PathInv.done hP).2 _ (by rw [hpre]; simp)
  · intro s hsE
    obtain ⟨t, ht⟩ := Option.isSome_iff_exists.1 (hD.valid s hsE)
    obtain ⟨r, hr, hra⟩ := (hD.under_root t (Or.inr ⟨s, hsE, ht⟩)).1
    rw [List.mem_singleton.1 hr] at hra
    exact (inSubtree_iff ht).2 hra
  · intro s hsE
    obtain ⟨t, ht⟩ := Option.isSome_iff_exists.1 (hD.valid s hsE)
    exact (wf.stateTrack_lt ht).1

/-- The source of a transition whose common track `L2` has a subtree disjoint from that of
`L1` lies outside the subtree of `L1`. -/
theorem Model.WF.source_outside {M : Model} (wf : M.WF) {fuel a b L1 L2 : Nat}
    (hfc : _FindClosestCommonTrack M fuel a b = Res.ok (some L2))
    (hdisj : ∀ t < M.trackHeap.length, L1 ∈ M.ancestors t → L2 ∉ M.ancestors t) :
    M.inSubtree L1 a = false := by
  obtain ⟨L, ta, tb, hL, hta, htb, hcase⟩ := wf.fcct_ok hfc
  simp only [Option.some.injEq] at hL
  subst hL
  have hta_lt := (wf.stateTrack_lt hta).2
  by_contra hin
  have hin' : M.inSubtree L1 a = true := by simpa using hin
  have hL1 : L1 ∈ M.ancestors ta := (inSubtree_iff hta).1 hin'
  rcases hcase with ⟨_, h⟩ | ⟨_, h, _⟩
  · subst h
    exact hdisj L2 hta_lt hL1 (wf.mem_ancestors_self hta_lt)
  · rcases List.mem_append.1 h with h | h
    · obtain ⟨hpar, hlt⟩ := wf.childTracks_parent h
      have hanc := wf.ancestors_step hpar hta
      refine hdisj L2 hlt ?_ (wf.mem_ancestors_self hlt)
      rw [hanc]
      exact List.mem_cons_of_mem _ hL1
    · exact hdisj ta hta_lt hL1 h

/-- Two transitions with active sources whose common tracks have disjoint subtrees, fired
one after the other: both return and the configuration left is the former one without the
two subtrees, followed by the states entered by the first, then by those entered by the
second. -/
theorem Model.WF.fire_two {M : Model} (wf : M.WF) (hd : M.HasDefaults) {fuel : Nat}
    {tr1 tr2 : EventTransition} {σ : Runtime} {L1 L2 tb1 tb2 : Nat}
    {path1 path2 E1 E2 : List StatePtr} {C1 C2 : List HookCall}
    (hvalid : ∀ s ∈ σ.m_currentStates, s < M.stateHeap.length)
    (hS1 : tr1.source ∈ σ.m_currentStates) (hS2 : tr2.source ∈ σ.m_currentStates)
    (hfc1 : _FindClosestCommonTrack M fuel tr1.source tr1.target = Res.ok (some L1))
    (hfc2 : _FindClosestCommonTrack M fuel tr2.source tr2.target = Res.ok (some L2))
    (htb1 : M.stateTrack tr1.target = some tb1) (htb2 : M.stateTrack tr2.target = some tb2)
    (hL1 : L1 ∈ M.ancestors tb1) (hL2 : L2 ∈ M.ancestors tb2)
    (hp1 : pathLoop M (some L1) fuel (some tb1) [tr1.target] = Res.ok path1)
    (hp2 : pathLoop M (some L2) fuel (some tb2) [tr2.target] = Res.ok path2)
    (he1 : enterLoop M fuel [L1] path1 [] [] = Res.ok (E1, C1))
    (he2 : enterLoop M fuel [L2] path2 [] [] = Res.ok (E2, C2))
    (hE1 : ∀ e ∈ E1, M.inSubtree L1 e = true)
    (hdisj : ∀ t < M.trackHeap.length, L1 ∈ M.ancestors t → L2 ∉ M.ancestors t)
    (hf : M.trackHeap.length + 1 ≤ fuel) :
    ∃ σ12 : Runtime, fireTransitions M fuel [tr1, tr2] σ = Res.ok σ12 ∧
      σ12.m_currentStates =
        (σ.m_currentStates.filter (fun s => !M.inSubtree L1 s)).filter
          (fun s => !M.inSubtree L2 s) ++ E1 ++ E2 := by
  obtain ⟨σ1, hfire1⟩ := wf.fireTransition_returns hd hvalid hS1 htb1 hfc1 hL1 hf
  obtain ⟨tb1', path1', E1', C1', htb1', hp1', he1', hcs1, _, _, hv1⟩ :=
    wf.fireTransition_shape hS1 hfc1 hfire1
  rw [htb1] at htb1'
  simp only [Option.some.injEq] at htb1'
  subst htb1'
  rw [hp1] at hp1'
  simp only [Res.ok.injEq] at hp1'
  subst hp1'
  rw [he1] at he1'
  simp only [Res.ok.injEq, Prod.mk.injEq] at he1'
  obtain ⟨hE, _⟩ := he1'
  subst hE
  have hS2' : tr2.source ∈ σ1.m_currentStates := by
    rw [hcs1]
    refine List.mem_append_left _ (List.mem_filter.2 ⟨hS2, ?_⟩)
    rw [wf.source_outside hfc2 hdisj]
    rfl
  have hvalid1 : ∀ s ∈ σ1.m_currentStates, s < M.stateHeap.length := by
    intro s hs
    rw [hcs1] at hs
    rcases List.mem_append.1 hs with h | h
    · exact hvalid s (List.mem_filter.1 h).1
    · exact hv1 s h
  obtain ⟨σ12, hfire2⟩ := wf.fireTransition_returns hd hvalid1 hS2' htb2 hfc2 hL2 hf
  obtain ⟨tb2', path2', E2', C2', htb2', hp2', he2', hcs2, _, _, _⟩ :=
    wf.fireTransition_shape hS2' hfc2 hfire2
  rw [htb2] at htb2'
  simp only [Option.some.injEq] at htb2'
  subst htb2'
  rw [hp2] at hp2'
  simp only [Res.ok.injEq] at hp2'
  subst hp2'
  rw [he2] at he2'
  simp only [Res.ok.injEq, Prod.mk.injEq] at he2'
  obtain ⟨hE, _⟩ := he2'
  subst hE
  refine ⟨σ12, ?_, ?_⟩
  · rw [fireTransitions_cons, hfire1, Res.ok_bind, fireTransitions_singleton, hfire2]
  · rw [hcs2, hcs1, List.filter_append]
    have hkeep : E1.filter (fun s => !M.inSubtree L2 s) = E1 := by
      rw [List.filter_eq_self]
      intro e he
      obtain ⟨t, ht, hLt⟩ := inSubtree_track (hE1 e he)
      have hlt := (wf.stateTrack_lt ht).2
      have : M.inSubtree L2 e = false := by
        by_contra hc
        have hc' : M.inSubtree L2 e = true := by simpa using hc
        exact hdisj t hlt hLt ((inSubtree_iff ht).1 hc')
      simp [this]
    rw [hkeep]

/-- The machines `scenarioB_hit` and `scenarioB_hit_swapped` are Scenario B after the two
registrations of `hit`, in one order and in the other. -/
theorem scenarioB_hit_built :
    (AddEventTransition scenarioB "hit" "grounded" "jumping" >>= fun M =>
      AddEventTransition M "hit" "healthy" "hurt") = Res.ok scenarioB_hit ∧
    (AddEventTransition scenarioB "hit" "healthy" "hurt" >>= fun M =>
      AddEventTransition M "hit" "grounded" "jumping") = Res.ok scenarioB_hit_swapped := by
  refine ⟨by decide, by decide⟩

/-- Transitions in orthogonal regions fire together when each target lies in the subtree of its
common track. On a well-formed model where every track has a default state,
let an event register `S1 -> T1` then `S2 -> T2`, and let a model with the same tracks and
states register them in the other order. Let `S1` and `S2` be active (in a configuration of
valid states), let the common tracks `L1` and `L2` that `_FindClosestCommonTrack` returns for
the two transitions have disjoint subtrees (no track has both on its ancestor chain), each
target lying in the subtree of its common track. Then, given more iterations than the model
has tracks, processing the event returns on both models, `T1` and `T2` are active in both
results, and the two resulting configurations hold the same states (one is a permutation of
the other). -/
theorem orthogonal_regions_fire_together (M M' : Model) (wf : M.WF) (hd : M.HasDefaults)
    (hT : M'.trackHeap = M.trackHeap) (hSt : M'.stateHeap = M.stateHeap)
    (ev : FName) (tr1 tr2 : EventTransition)
    (h12 : tmapFind M.m_eventTransitions ev = some [tr1, tr2])
    (h21 : tmapFind M'.m_eventTransitions ev = some [tr2, tr1])
    (σ : Runtime) (fuel L1 L2 tb1 tb2 : Nat)
    (hvalid : ∀ s ∈ σ.m_currentStates, s < M.stateHeap.length)
    (hS1 : tr1.source ∈ σ.m_currentStates) (hS2 : tr2.source ∈ σ.m_currentStates)
    (hfc1 : _FindClosestCommonTrack M fuel tr1.source tr1.target = Res.ok (some L1))
    (hfc2 : _FindClosestCommonTrack M fuel tr2.source tr2.target = Res.ok (some L2))
    (htb1 : M.stateTrack tr1.target = some tb1) (htb2 : M.stateTrack tr2.target = some tb2)
    (hL1 : L1 ∈ M.ancestors tb1) (hL2 : L2 ∈ M.ancestors tb2)
    (hdisj : ∀ t < M.trackHeap.length, L1 ∈ M.ancestors t → L2 ∉ M.ancestors t)
    (hf : M.trackHeap.length + 1 ≤ fuel) :
    ∃ σ12 σ21 : Runtime,
      processEvent M fuel ev σ = Res.ok σ12 ∧ processEvent M' fuel ev σ = Res.ok σ21 ∧
      tr1.target ∈ σ12.m_currentStates ∧ tr2.target ∈ σ12.m_currentStates ∧
      tr1.target ∈ σ21.m_currentStates ∧ tr2.target ∈ σ21.m_currentStates ∧
      σ12.m_currentStates.Perm σ21.m_currentStates ∧
      (∀ s, s ∈ σ12.m_currentStates ↔ s ∈ σ21.m_currentStates) := by
  have hdisj' : ∀ t < M.trackHeap.length, L2 ∈ M.ancestors t → L1 ∉ M.ancestors t :=
    fun t ht h2 h1 => hdisj t ht h1 h2
  obtain ⟨σ1, hfire1⟩ := wf.fireTransition_returns hd hvalid hS1 htb1 hfc1 hL1 hf
  obtain ⟨tb1', path1, E1, C1, htb1', hp1, he1, _, hT1, hE1, _⟩ :=
    wf.fireTransition_shape hS1 hfc1 hfire1
  rw [htb1] at htb1'
  simp only [Option.some.injEq] at htb1'
  subst htb1'
  obtain ⟨σ2, hfire2⟩ := wf.fireTransition_returns hd hvalid hS2 htb2 hfc2 hL2 hf
  obtain ⟨tb2', path2, E2, C2, htb2', hp2, he2, _, hT2, hE2, _⟩ :=
    wf.fireTransition_shape hS2 hfc2 hfire2
  rw [htb2] at htb2'
  simp only [Option.some.injEq] at htb2'
  subst htb2'
  obtain ⟨σ12, h1, hcs12⟩ := wf.fire_two hd hvalid hS1 hS2 hfc1 hfc2 htb1 htb2 hL1 hL2
    hp1 hp2 he1 he2 hE1 hdisj hf
  obtain ⟨σ21, h2, hcs21⟩ := wf.fire_two hd hvalid hS2 hS1 hfc2 hfc1 htb2 htb1 hL2 hL1
    hp2 hp1 he2 he1 hE2 hdisj' hf
  have hperm : σ12.m_currentStates.Perm σ21.m_currentStates := by
    rw [hcs12, hcs21, List.filter_filter, List.filter_filter, List.append_assoc,
      List.append_assoc]
    have hc : (fun a => (!M.inSubtree L2 a) && !M.inSubtree L1 a) =
        (fun a => (!M.inSubtree L1 a) && !M.inSubtree L2 a) := by
      funext a
      exact Bool.and_comm _ _
    rw [hc]
    exact List.Perm.append_left _ List.perm_append_comm
  refine ⟨σ12, σ21, ?_, ?_, ?_, ?_, ?_, ?_, hperm, fun s => hperm.mem_iff⟩
  · rw [processEvent_registered h12, h1]
  · rw [processEvent_registered h21, fireTransitions_congr hT hSt, h2]
  · rw [hcs12]; simp [hT1]
  · rw [hcs12]; simp [hT2]
  · rw [hcs21]; simp [hT1]
  · rw [hcs21]; simp [hT2]

/-- The event `hit` on started Scenario B, registering grounded -> jumping
and healthy -> hurt in one order and in the other. -/
theorem orthogonal_regions_scenarioB :
    scenarioB_hit.WF ∧ scenarioB_hit.HasDefaults ∧
    scenarioB_hit_swapped.trackHeap = scenarioB_hit.trackHeap ∧
    scenarioB_hit_swapped.stateHeap = scenarioB_hit.stateHeap ∧
    tmapFind scenarioB_hit.m_eventTransitions "hit" =
      some [⟨"hit", 1, 2⟩, ⟨"hit", 3, 4⟩] ∧
    tmapFind scenarioB_hit_swapped.m_eventTransitions "hit" =
      some [⟨"hit", 3, 4⟩, ⟨"hit", 1, 2⟩] ∧
    (∀ s ∈ scenarioB_started.m_currentStates, s < scenarioB_hit.stateHeap.length) ∧
    (1 : Nat) ∈ scenarioB_started.m_currentStates ∧
    (3 : Nat) ∈ scenarioB_started.m_currentStates ∧
    _FindClosestCommonTrack scenarioB_hit 4 1 2 = Res.ok (some 1) ∧
    _FindClosestCommonTrack scenarioB_hit 4 3 4 = Res.ok (some 2) ∧
    scenarioB_hit.stateTrack 2 = some 1 ∧ scenarioB_hit.stateTrack 4 = some 2 ∧
    (1 : Nat) ∈ scenarioB_hit.ancestors 1 ∧ (2 : Nat) ∈ scenarioB_hit.ancestors 2 ∧
    (∀ t < scenarioB_hit.trackHeap.length,
      1 ∈ scenarioB_hit.ancestors t → 2 ∉ scenarioB_hit.ancestors t) ∧
    scenarioB_hit.trackHeap.length + 1 ≤ 4 ∧
    processEvent scenarioB_hit 4 "hit" scenarioB_started =
      Res.ok { scenarioB_started with
        m_currentStates := [0, 2, 4]
        calls := scenarioB_started.calls ++
          [HookCall.exit 1, HookCall.enter 2, HookCall.exit 3, HookCall.enter 4] } ∧
    processEvent scenarioB_hit_swapped 4 "hit" scenarioB_started =
      Res.ok { scenarioB_started with
        m_currentStates := [0, 4, 2]
        calls := scenarioB_started.calls ++
          [HookCall.exit 3, HookCall.enter 4, HookCall.exit 1, HookCall.enter 2] } ∧
    ∃ σ12 σ21 : Runtime,
      processEvent scenarioB_hit 4 "hit" scenarioB_started = Res.ok σ12 ∧
      processEvent scenarioB_hit_swapped 4 "hit" scenarioB_started = Res.ok σ21 ∧
      (2 : Nat) ∈ σ12.m_currentStates ∧ (4 : Nat) ∈ σ12.m_currentStates ∧
      (2 : Nat) ∈ σ21.m_currentStates ∧ (4 : Nat) ∈ σ21.m_currentStates ∧
      σ12.m_currentStates.Perm σ21.m_currentStates ∧
      (∀ s, s ∈ σ12.m_currentStates ↔ s ∈ σ21.m_currentStates) :=
  ⟨by decide, by decide, rfl, rfl, by decide, by decide, by decide, by decide, by decide,
    by decide, by decide, by decide, by decide, by decide, by decide, by decide, by decide,
    by decide, by decide,
    orthogonal_regions_fire_together scenarioB_hit scenarioB_hit_swapped (by decide) (by decide) rfl rfl
      "hit" ⟨"hit", 1, 2⟩ ⟨"hit", 3, 4⟩ (by decide) (by decide) scenarioB_started 4 1 2 1 2
      (by decide) (by decide) (by decide) (by decide) (by decide) (by decide) (by decide)
      (by decide) (by decide) (by decide) (by decide)⟩

/-! ## Maps and arenas under the builder operations -/

theorem mem_tmapAdd {α : Type} {m : List (FName × α)} {k : FName} {v : α} {e : FName × α}
    (h : e ∈ tmapAdd m k v) : e = (k, v) ∨ e ∈ m := by
  induction m with
  | nil =>
    simp only [tmapAdd, List.mem_singleton] at h
    exact Or.inl h
  | cons x rest ih =>
    obtain ⟨k', v'⟩ := x
    unfold tmapAdd at h
    by_cases hk : k' = k
    · simp only [hk, if_true, List.mem_cons] at h
      rcases h with h | h
      · exact Or.inl h
      · exact Or.inr (List.mem_cons_of_mem _ h)
    · simp only [hk, if_false, List.mem_cons] at h
      rcases h with h | h
      · exact Or.inr (by rw [h]; exact List.mem_cons_self _ _)
      · rcases ih h with h | h
        · exact Or.inl h
        · exact Or.inr (List.mem_cons_of_mem _ h)

theorem mem_tmapAdd_self {α : Type} (m : List (FName × α)) (k : FName) (v : α) :
    (k, v) ∈ tmapAdd m k v := by
  induction m with
  | nil => simp [tmapAdd]
  | cons x rest ih =>
    obtain ⟨k', v'⟩ := x
    unfold tmapAdd
    by_cases hk : k' = k
    · simp [hk]
    · simp only [hk, if_false]
      exact List.mem_cons_of_mem _ ih

theorem mem_tmapAdd_of_ne {α : Type} {m : List (FName × α)} {k : FName} {v : α}
    {e : FName × α} (h : e ∈ m) (hne : e.1 ≠ k) : e ∈ tmapAdd m k v := by
  induction m with
  | nil => simp at h
  | cons x rest ih =>
    obtain ⟨k', v'⟩ := x
    unfold tmapAdd
    rcases List.mem_cons.1 h with h | h
    · subst h
      have hk : ¬ k' = k := hne
      simp [hk]
    · by_cases hk : k' = k
      · simp only [hk, if_true]
        exact List.mem_cons_of_mem _ h
      · simp only [hk, if_false]
        exact List.mem_cons_of_mem _ (ih h)

theorem tmapAdd_fresh {α : Type} {m : List (FName × α)} {k : FName} {v : α}
    (h : ∀ e ∈ m, e.1 ≠ k) : tmapAdd m k v = m ++ [(k, v)] := by
  induction m with
  | nil => simp [tmapAdd]
  | cons x rest ih =>
    obtain ⟨k', v'⟩ := x
    unfold tmapAdd
    have hk : ¬ k' = k := h (k', v') (List.mem_cons_self _ _)
    simp only [hk, if_false, List.cons_append]
    rw [ih (fun e he => h e (List.mem_cons_of_mem _ he))]

theorem tmapFind_isSome_tmapAdd {α : Type} (m : List (FName × α)) (k k' : FName) (v : α)
    (h : (tmapFind m k').isSome = true) : (tmapFind (tmapAdd m k v) k').isSome = true := by
  by_cases hk : k' = k
  · subst hk
    rw [tmapFind_tmapAdd_self]
    rfl
  · rw [tmapFind_tmapAdd_ne m k k' v hk]
    exact h

theorem getElem?_snoc_some {α : Type} {l : List α} {a b : α} {i : Nat} :
    (l ++ [a])[i]? = some b ↔ l[i]? = some b ∨ (i = l.length ∧ b = a) := by
  by_cases h : i < l.length
  · rw [List.getElem?_append_left h]
    constructor
    · exact Or.inl
    · rintro (h' | ⟨h', _⟩)
      · exact h'
      · omega
  · rw [List.getElem?_append_right (Nat.le_of_not_lt h)]
    have hnone : l[i]? = none := List.getElem?_eq_none (Nat.le_of_not_lt h)
    rw [hnone]
    by_cases h2 : i = l.length
    · subst h2
      simp [eq_comm]
    · have : i - l.length ≠ 0 := by omega
      obtain ⟨n, hn⟩ := Nat.exists_eq_succ_of_ne_zero this
      rw [hn]
      simp [h2]

theorem getElem?_set_some {α : Type} {l : List α} {a b : α} {i j : Nat} :
    (l.set i a)[j]? = some b ↔
      (j ≠ i ∧ l[j]? = some b) ∨ (j = i ∧ i < l.length ∧ b = a) := by
  rw [List.getElem?_set]
  by_cases h : i = j
  · subst h
    by_cases h2 : i < l.length
    · simp [h2, eq_comm]
    · simp [h2]
  · have h' : j ≠ i := fun e => h e.symm
    simp [h, h']

/-! ## `Track::AddState` preserves the shape of the model -/

theorem isRoot_congr {M M' : Model} {t : Nat}
    (h : ∀ tk, M.trackHeap[t]? = some tk → ∃ tk', M'.trackHeap[t]? = some tk' ∧
      tk'.m_parent = tk.m_parent) (hr : M.isRoot t = true) : M'.isRoot t = true := by
  obtain ⟨tk, htk, hp⟩ := isRoot_iff.1 hr
  obtain ⟨tk', htk', hp'⟩ := h tk htk
  exact isRoot_iff.2 ⟨tk', htk', by rw [hp', hp]⟩

theorem Model.WF.wf_addState {M : Model} (wf : M.WF) (hreg : M.StatesRegistered) {self : Nat}
    {t : Track} {name : FName} (ht : M.trackHeap[self]? = some t)
    (hn : tmapFind M.m_states name = none) :
    Model.WF { M with
      stateHeap := M.stateHeap ++ [{ m_name := name, m_tracks := [], m_parent := self }]
      trackHeap := M.trackHeap.set self
        { t with m_states := tmapAdd t.m_states name M.stateHeap.length }
      m_states := tmapAdd M.m_states name M.stateHeap.length } := by
  have hself : self < M.trackHeap.length := lt_of_getElem?_eq_some ht
  have hfresh : ∀ (s : Nat) (st : State), M.stateHeap[s]? = some st → st.m_name ≠ name := by
    intro s st hst hname
    have h1 := hreg s (lt_of_getElem?_eq_some hst) st hst
    rw [hname, hn] at h1
    cases h1
  have hT : ∀ (u : Nat) (tk : Track),
      (M.trackHeap.set self
        { t with m_states := tmapAdd t.m_states name M.stateHeap.length })[u]? = some tk ↔
      (u ≠ self ∧ M.trackHeap[u]? = some tk) ∨
        (u = self ∧ tk = { t with m_states := tmapAdd t.m_states name M.stateHeap.length }) := by
    intro u tk
    rw [getElem?_set_some]
    constructor
    · rintro (h | ⟨h1, _, h2⟩)
      · exact Or.inl h
      · exact Or.inr ⟨h1, h2⟩
    · rintro (h | ⟨h1, h2⟩)
      · exact Or.inl h
      · exact Or.inr ⟨h1, hself, h2⟩
  have hTold : ∀ (u : Nat) (tk : Track), M.trackHeap[u]? = some tk →
      ∃ tk', (M.trackHeap.set self
        { t with m_states := tmapAdd t.m_states name M.stateHeap.length })[u]? = some tk' ∧
        tk'.m_parent = tk.m_parent ∧ tk'.m_name = tk.m_name ∧
        tk'.m_defaultState = tk.m_defaultState ∧
        (∀ e ∈ tk.m_states, e.1 ≠ name → e ∈ tk'.m_states) := by
    intro u tk htk
    by_cases hu : u = self
    · subst hu
      rw [ht] at htk
      cases htk
      exact ⟨_, (hT _ _).2 (Or.inr ⟨rfl, rfl⟩), rfl, rfl, rfl,
        fun e he hne => mem_tmapAdd_of_ne he hne⟩
    · exact ⟨tk, (hT _ _).2 (Or.inl ⟨hu, htk⟩), rfl, rfl, rfl, fun e he _ => he⟩
  have hSold : ∀ (s : Nat) (st : State), M.stateHeap[s]? = some st →
      (M.stateHeap ++ [({ m_name := name, m_tracks := [], m_parent := self } : State)])[s]? =
        some st := fun s st h => getElem?_snoc_some.2 (Or.inl h)
  refine ⟨?_, ?_, ?_, ?_, ?_, ?_, ?_, ?_, ?_, ?_, ?_⟩
  · -- state_in_track
    intro s _ st hst
    simp only [Option.mem_def] at hst ⊢
    rcases getElem?_snoc_some.1 hst with h | ⟨h1, h2⟩
    · obtain ⟨tk, htk, hmem⟩ := wf.state_in_track s (lt_of_getElem?_eq_some h) st h
      obtain ⟨tk', htk', _, _, _, hsub⟩ := hTold _ tk htk
      exact ⟨tk', htk', hsub _ hmem (hfresh s st h)⟩
    · subst h1 h2
      exact ⟨_, (hT _ _).2 (Or.inr ⟨rfl, rfl⟩), mem_tmapAdd_self _ _ _⟩
  · -- track_states
    intro u _ tk htk e he
    simp only [Option.mem_def] at htk ⊢
    rcases (hT _ _).1 htk with ⟨_, h⟩ | ⟨h1, h2⟩
    · obtain ⟨st, hst, hp⟩ := wf.track_states u (lt_of_getElem?_eq_some h) tk h e he
      exact ⟨st, hSold _ _ hst, hp⟩
    · subst h1 h2
      rcases mem_tmapAdd he with h | h
      · subst h
        exact ⟨_, getElem?_snoc_some.2 (Or.inr ⟨rfl, rfl⟩), rfl, rfl⟩
      · obtain ⟨st, hst, hp⟩ := wf.track_states u hself t ht e h
        exact ⟨st, hSold _ _ hst, hp⟩
  · -- track_parent
    intro u _ tk htk p hp
    simp only [Option.mem_def] at htk hp ⊢
    have hold : ∃ tk0, M.trackHeap[u]? = some tk0 ∧ tk0.m_parent = some p ∧
        tk0.m_name = tk.m_name := by
      rcases (hT _ _).1 htk with ⟨_, h⟩ | ⟨h1, h2⟩
      · exact ⟨tk, h, hp, rfl⟩
      · subst h1 h2
        exact ⟨t, ht, hp, rfl⟩
    obtain ⟨tk0, htk0, hp0, hname⟩ := hold
    obtain ⟨st, hst, hmem⟩ := wf.track_parent u (lt_of_getElem?_eq_some htk0) tk0 htk0 p hp0
    exact ⟨st, hSold _ _ hst, by rw [← hname]; exact hmem⟩
  · -- state_tracks
    intro s _ st hst e he
    simp only [Option.mem_def] at hst ⊢
    rcases getElem?_snoc_some.1 hst with h | ⟨h1, h2⟩
    · obtain ⟨tk, htk, hp, hname⟩ := wf.state_tracks s (lt_of_getElem?_eq_some h) st h e he
      obtain ⟨tk', htk', hp', hname', _⟩ := hTold _ tk htk
      exact ⟨tk', htk', by rw [hp', hp], by rw [hname', hname]⟩
    · subst h2
      simp at he
  · -- state_tracks_nodup
    intro s _ st hst
    simp only [Option.mem_def] at hst
    rcases getElem?_snoc_some.1 hst with h | ⟨h1, h2⟩
    · exact wf.state_tracks_nodup s (lt_of_getElem?_eq_some h) st h
    · subst h2
      simp
  · -- root_tracks
    intro r hr
    refine isRoot_congr ?_ (wf.root_tracks r hr)
    intro tk htk
    obtain ⟨tk', htk', hp', _⟩ := hTold _ tk htk
    exact ⟨tk', htk', hp'⟩
  · -- root_listed
    intro r hr hroot
    simp only [List.length_set] at hr
    refine wf.root_listed r hr ?_
    obtain ⟨tk, htk, hp⟩ := isRoot_iff.1 hroot
    rcases (hT _ _).1 htk with ⟨_, h⟩ | ⟨h1, h2⟩
    · exact isRoot_iff.2 ⟨tk, h, hp⟩
    · subst h1 h2
      exact isRoot_iff.2 ⟨t, ht, hp⟩
  · exact wf.root_nodup
  · -- state_names
    intro s _ s' _ st hst st' hst' hname
    simp only [Option.mem_def] at hst hst'
    rcases getElem?_snoc_some.1 hst with h | ⟨h1, h2⟩
    · rcases getElem?_snoc_some.1 hst' with h' | ⟨h1', h2'⟩
      · exact wf.state_names s (lt_of_getElem?_eq_some h) s' (lt_of_getElem?_eq_some h') st h
          st' h' hname
      · subst h2'
        exact absurd hname (hfresh s st h)
    · rcases getElem?_snoc_some.1 hst' with h' | ⟨h1', h2'⟩
      · subst h2
        exact absurd hname.symm (hfresh s' st' h')
      · rw [h1, h1']
  · -- default_state
    intro u _ tk htk d hd
    simp only [Option.mem_def] at htk hd ⊢
    have hold : ∃ tk0, M.trackHeap[u]? = some tk0 ∧ tk0.m_defaultState = some d := by
      rcases (hT _ _).1 htk with ⟨_, h⟩ | ⟨h1, h2⟩
      · exact ⟨tk, h, hd⟩
      · subst h1 h2
        exact ⟨t, ht, hd⟩
    obtain ⟨tk0, htk0, hd0⟩ := hold
    obtain ⟨st, hst, hp⟩ := wf.default_state u (lt_of_getElem?_eq_some htk0) tk0 htk0 d hd0
    exact ⟨st, hSold _ _ hst, hp⟩
  · -- transitions
    intro e he tr htr
    obtain ⟨h1, h2⟩ := wf.transitions e he tr htr
    simp only [List.length_append, List.length_singleton]
    exact ⟨Nat.lt_succ_of_lt h1, Nat.lt_succ_of_lt h2⟩

/-! ## The other builder operations preserve the shape of the model -/

theorem Model.WF.wf_setDefault {M : Model} (wf : M.WF) {self d : Nat} {t : Track}
    (ht : M.trackHeap[self]? = some t)
    (hd : ∃ st, M.stateHeap[d]? = some st ∧ st.m_parent = self) :
    Model.WF { M with
      trackHeap := M.trackHeap.set self { t with m_defaultState := some d } } := by
  have hself : self < M.trackHeap.length := lt_of_getElem?_eq_some ht
  have hT : ∀ (u : Nat) (tk : Track),
      (M.trackHeap.set self { t with m_defaultState := some d })[u]? = some tk ↔
      (u ≠ self ∧ M.trackHeap[u]? = some tk) ∨
        (u = self ∧ tk = { t with m_defaultState := some d }) := by
    intro u tk
    rw [getElem?_set_some]
    constructor
    · rintro (h | ⟨h1, _, h2⟩)
      · exact Or.inl h
      · exact Or.inr ⟨h1, h2⟩
    · rintro (h | ⟨h1, h2⟩)
      · exact Or.inl h
      · exact Or.inr ⟨h1, hself, h2⟩
  have hTold : ∀ (u : Nat) (tk : Track), M.trackHeap[u]? = some tk →
      ∃ tk', (M.trackHeap.set self { t with m_defaultState := some d })[u]? = some tk' ∧
        tk'.m_parent = tk.m_parent ∧ tk'.m_name = tk.m_name ∧ tk'.m_states = tk.m_states := by
    intro u tk htk
    by_cases hu : u = self
    · subst hu
      rw [ht] at htk
      cases htk
      exact ⟨_, (hT _ _).2 (Or.inr ⟨rfl, rfl⟩), rfl, rfl, rfl⟩
    · exact ⟨tk, (hT _ _).2 (Or.inl ⟨hu, htk⟩), rfl, rfl, rfl⟩
  have hTnew : ∀ (u : Nat) (tk : Track),
      (M.trackHeap.set self { t with m_defaultState := some d })[u]? = some tk →
      ∃ tk0, M.trackHeap[u]? = some tk0 ∧ tk0.m_parent = tk.m_parent ∧
        tk0.m_name = tk.m_name ∧ tk0.m_states = tk.m_states ∧
        (u ≠ self → tk0.m_defaultState = tk.m_defaultState) ∧
        (u = self → tk.m_defaultState = some d) := by
    intro u tk htk
    rcases (hT _ _).1 htk with ⟨h1, h⟩ | ⟨h1, h2⟩
    · exact ⟨tk, h, rfl, rfl, rfl, fun _ => rfl, fun e => absurd e h1⟩
    · subst h1 h2
      exact ⟨t, ht, rfl, rfl, rfl, fun e => absurd rfl e, fun _ => rfl⟩
  refine ⟨?_, ?_, ?_, ?_, ?_, ?_, ?_, ?_, ?_, ?_, ?_⟩
  · intro s hs st hst
    obtain ⟨tk, htk, hmem⟩ := wf.state_in_track s hs st hst
    obtain ⟨tk', htk', _, _, hst'⟩ := hTold _ tk htk
    exact ⟨tk', htk', by rw [hst']; exact hmem⟩
  · intro u _ tk htk e he
    simp only [Option.mem_def] at htk
    obtain ⟨tk0, htk0, _, _, hst0, _⟩ := hTnew _ tk htk
    exact wf.track_states u (lt_of_getElem?_eq_some htk0) tk0 htk0 e (by rw [hst0]; exact he)
  · intro u _ tk htk p hp
    simp only [Option.mem_def] at htk hp
    obtain ⟨tk0, htk0, hp0, hn0, _⟩ := hTnew _ tk htk
    have := wf.track_parent u (lt_of_getElem?_eq_some htk0) tk0 htk0 p (by rw [hp0]; exact hp)
    rw [hn0] at this
    exact this
  · intro s hs st hst e he
    obtain ⟨tk, htk, hp, hname⟩ := wf.state_tracks s hs st hst e he
    obtain ⟨tk', htk', hp', hname', _⟩ := hTold _ tk htk
    exact ⟨tk', htk', by rw [hp', hp], by rw [hname', hname]⟩
  · exact wf.state_tracks_nodup
  · intro r hr
    refine isRoot_congr ?_ (wf.root_tracks r hr)
    intro tk htk
    obtain ⟨tk', htk', hp', _⟩ := hTold _ tk htk
    exact ⟨tk', htk', hp'⟩
  · intro r hr hroot
    simp only [List.length_set] at hr
    refine wf.root_listed r hr ?_
    obtain ⟨tk, htk, hp⟩ := isRoot_iff.1 hroot
    obtain ⟨tk0, htk0, hp0, _⟩ := hTnew _ tk htk
    exact isRoot_iff.2 ⟨tk0, htk0, by rw [hp0]; exact hp⟩
  · exact wf.root_nodup
  · exact wf.state_names
  · intro u _ tk htk d' hd'
    simp only [Option.mem_def] at htk hd'
    obtain ⟨tk0, htk0, _, _, _, hne, heq⟩ := hTnew _ tk htk
    by_cases hu : u = self
    · have h1 := heq hu
      rw [h1] at hd'
      cases hd'
      obtain ⟨st, hst, hp⟩ := hd
      exact ⟨st, hst, by rw [hp, hu]⟩
    · exact wf.default_state u (lt_of_getElem?_eq_some htk0) tk0 htk0 d'
        (by rw [hne hu]; exact hd')
  · exact wf.transitions

theorem Model.WF.wf_addTrack {M : Model} (wf : M.WF) (hreg : M.TracksRegistered) {self : Nat}
    {s : State} {name : FName} (hs : M.stateHeap[self]? = some s)
    (hn : tmapFind M.m_tracks name = none) :
    Model.WF { M with
      trackHeap := M.trackHeap ++
        [{ m_name := name, m_states := [], m_parent := some self, m_defaultState := none }]
      stateHeap := M.stateHeap.set self
        { s with m_tracks := tmapAdd s.m_tracks name M.trackHeap.length }
      m_tracks := tmapAdd M.m_tracks name M.trackHeap.length } := by
  have hself : self < M.stateHeap.length := lt_of_getElem?_eq_some hs
  have hfresh : ∀ (u : Nat) (st : State), M.stateHeap[u]? = some st →
      ∀ e ∈ st.m_tracks, e.1 ≠ name := by
    intro u st hst e he hname
    have h1 := hreg u (lt_of_getElem?_eq_some hst) st hst e he
    rw [hname, hn] at h1
    cases h1
  have hS : ∀ (u : Nat) (st : State),
      (M.stateHeap.set self
        { s with m_tracks := tmapAdd s.m_tracks name M.trackHeap.length })[u]? = some st ↔
      (u ≠ self ∧ M.stateHeap[u]? = some st) ∨
        (u = self ∧ st = { s with m_tracks := tmapAdd s.m_tracks name M.trackHeap.length }) := by
    intro u st
    rw [getElem?_set_some]
    constructor
    · rintro (h | ⟨h1, _, h2⟩)
      · exact Or.inl h
      · exact Or.inr ⟨h1, h2⟩
    · rintro (h | ⟨h1, h2⟩)
      · exact Or.inl h
      · exact Or.inr ⟨h1, hself, h2⟩
  have hSold : ∀ (u : Nat) (st : State), M.stateHeap[u]? = some st →
      ∃ st', (M.stateHeap.set self
        { s with m_tracks := tmapAdd s.m_tracks name M.trackHeap.length })[u]? = some st' ∧
        st'.m_parent = st.m_parent ∧ st'.m_name = st.m_name ∧
        (∀ e ∈ st.m_tracks, e ∈ st'.m_tracks) := by
    intro u st hst
    by_cases hu : u = self
    · subst hu
      rw [hs] at hst
      cases hst
      exact ⟨_, (hS _ _).2 (Or.inr ⟨rfl, rfl⟩), rfl, rfl,
        fun e he => mem_tmapAdd_of_ne he (hfresh u s hs e he)⟩
    · exact ⟨st, (hS _ _).2 (Or.inl ⟨hu, hst⟩), rfl, rfl, fun e he => he⟩
  have hTold : ∀ (u : Nat) (tk : Track), M.trackHeap[u]? = some tk →
      (M.trackHeap ++
        [{ m_name := name, m_states := [], m_parent := some self, m_defaultState := none }])[u]?
        = some tk :=
    fun u tk h => getElem?_snoc_some.2 (Or.inl h)
  have hSnew' : ∀ (u : Nat) (st : State),
      (M.stateHeap.set self
        { s with m_tracks := tmapAdd s.m_tracks name M.trackHeap.length })[u]? = some st →
      ∃ st0, M.stateHeap[u]? = some st0 ∧ st0.m_parent = st.m_parent ∧
        st0.m_name = st.m_name ∧
        (st.m_tracks = st0.m_tracks ∨
          (u = self ∧ st.m_tracks = st0.m_tracks ++ [(name, M.trackHeap.length)])) := by
    intro u st hst
    rcases (hS _ _).1 hst with ⟨h1, h⟩ | ⟨h1, h2⟩
    · exact ⟨st, h, rfl, rfl, Or.inl rfl⟩
    · subst h1 h2
      exact ⟨s, hs, rfl, rfl, Or.inr ⟨rfl, tmapAdd_fresh (hfresh u s hs)⟩⟩
  refine ⟨?_, ?_, ?_, ?_, ?_, ?_, ?_, ?_, ?_, ?_, ?_⟩
  · -- state_in_track
    intro u _ st hst
    simp only [Option.mem_def] at hst ⊢
    obtain ⟨st0, hst0, hp0, hn0, _⟩ := hSnew' _ st hst
    obtain ⟨tk, htk, hmem⟩ := wf.state_in_track u (lt_of_getElem?_eq_some hst0) st0 hst0
    rw [hp0, hn0] at *
    exact ⟨tk, hTold _ _ htk, hmem⟩
  · -- track_states
    intro u _ tk htk e he
    simp only [Option.mem_def] at htk ⊢
    rcases getElem?_snoc_some.1 htk with h | ⟨h1, h2⟩
    · obtain ⟨st, hst, hp, hname⟩ := wf.track_states u (lt_of_getElem?_eq_some h) tk h e he
      obtain ⟨st', hst', hp', hname', _⟩ := hSold _ st hst
      exact ⟨st', hst', by rw [hp', hp], by rw [hname', hname]⟩
    · subst h2
      simp at he
  · -- track_parent
    intro u _ tk htk p hp
    simp only [Option.mem_def] at htk hp ⊢
    rcases getElem?_snoc_some.1 htk with h | ⟨h1, h2⟩
    · obtain ⟨st, hst, hmem, hlt⟩ := wf.track_parent u (lt_of_getElem?_eq_some h) tk h p hp
      obtain ⟨st', hst', hp', _, hsub⟩ := hSold _ st hst
      exact ⟨st', hst', hsub _ hmem, by rw [hp']; exact hlt⟩
    · subst h2
      simp only [Option.some.injEq] at hp
      subst hp
      refine ⟨_, (hS _ _).2 (Or.inr ⟨rfl, rfl⟩), ?_, ?_⟩
      · rw [h1]
        exact mem_tmapAdd_self _ _ _
      · obtain ⟨tk0, htk0, _⟩ := wf.state_in_track _ hself s hs
        rw [h1]
        exact lt_of_getElem?_eq_some htk0
  · -- state_tracks
    intro u _ st hst e he
    simp only [Option.mem_def] at hst ⊢
    obtain ⟨st0, hst0, _, _, htr⟩ := hSnew' _ st hst
    have hold : e ∈ st0.m_tracks → ∃ tk, (M.trackHeap ++
        [{ m_name := name, m_states := [], m_parent := some self, m_defaultState := none }])[e.2]?
          = some tk ∧ tk.m_parent = some u ∧ tk.m_name = e.1 := by
      intro he0
      obtain ⟨tk, htk, hp⟩ := wf.state_tracks u (lt_of_getElem?_eq_some hst0) st0 hst0 e he0
      exact ⟨tk, hTold _ _ htk, hp⟩
    rcases htr with h | ⟨h1, h2⟩
    · exact hold (by rw [← h]; exact he)
    · rw [h2] at he
      rcases List.mem_append.1 he with h | h
      · exact hold h
      · simp only [List.mem_singleton] at h
        subst h
        exact ⟨_, getElem?_snoc_some.2 (Or.inr ⟨rfl, rfl⟩), by rw [h1], rfl⟩
  · -- state_tracks_nodup
    intro u _ st hst
    simp only [Option.mem_def] at hst
    obtain ⟨st0, hst0, _, _, htr⟩ := hSnew' _ st hst
    have hnd := wf.state_tracks_nodup u (lt_of_getElem?_eq_some hst0) st0 hst0
    rcases htr with h | ⟨h1, h2⟩
    · rw [h]
      exact hnd
    · rw [h2, List.map_append, List.nodup_append]
      refine ⟨hnd, by simp, ?_⟩
      intro x hx hx'
      simp only [List.map_cons, List.map_nil, List.mem_singleton] at hx'
      obtain ⟨e, he, hex⟩ := List.mem_map.1 hx
      obtain ⟨tk, htk, _⟩ := wf.state_tracks u (lt_of_getElem?_eq_some hst0) st0 hst0 e he
      have hlt := lt_of_getElem?_eq_some htk
      rw [hex, hx'] at hlt
      exact absurd hlt (Nat.lt_irrefl _)
  · -- root_tracks
    intro r hr
    refine isRoot_congr ?_ (wf.root_tracks r hr)
    intro tk htk
    exact ⟨tk, hTold _ _ htk, rfl⟩
  · -- root_listed
    intro r _ hroot
    obtain ⟨tk, htk, hp⟩ := isRoot_iff.1 hroot
    rcases getElem?_snoc_some.1 htk with h | ⟨h1, h2⟩
    · exact wf.root_listed r (lt_of_getElem?_eq_some h) (isRoot_iff.2 ⟨tk, h, hp⟩)
    · subst h2
      simp at hp
  · exact wf.root_nodup
  · -- state_names
    intro u _ u' _ st hst st' hst' hname
    simp only [Option.mem_def] at hst hst'
    obtain ⟨st0, hst0, _, hn0, _⟩ := hSnew' _ st hst
    obtain ⟨st0', hst0', _, hn0', _⟩ := hSnew' _ st' hst'
    exact wf.state_names u (lt_of_getElem?_eq_some hst0) u' (lt_of_getElem?_eq_some hst0')
      st0 hst0 st0' hst0' (by rw [hn0, hn0']; exact hname)
  · -- default_state
    intro u _ tk htk d hd
    simp only [Option.mem_def] at htk hd ⊢
    rcases getElem?_snoc_some.1 htk with h | ⟨h1, h2⟩
    · obtain ⟨st, hst, hp⟩ := wf.default_state u (lt_of_getElem?_eq_some h) tk h d hd
      obtain ⟨st', hst', hp', _⟩ := hSold _ st hst
      exact ⟨st', hst', by rw [hp', hp]⟩
    · subst h2
      simp at hd
  · -- transitions
    intro e he tr htr
    simp only [List.length_set]
    exact wf.transitions e he tr htr

theorem Model.WF.wf_addRootTrack {M : Model} (wf : M.WF) (name : FName) :
    Model.WF { M with
      trackHeap := M.trackHeap ++
        [{ m_name := name, m_states := [], m_parent := none, m_defaultState := none }]
      m_rootTracks := M.m_rootTracks ++ [M.trackHeap.length]
      m_tracks := tmapAdd M.m_tracks name M.trackHeap.length } := by
  have hTold : ∀ (u : Nat) (tk : Track), M.trackHeap[u]? = some tk →
      (M.trackHeap ++
        [{ m_name := name, m_states := [], m_parent := none, m_defaultState := none }])[u]?
        = some tk :=
    fun u tk h => getElem?_snoc_some.2 (Or.inl h)
  refine ⟨?_, ?_, ?_, ?_, ?_, ?_, ?_, ?_, ?_, ?_, ?_⟩
  · intro s hs st hst
    obtain ⟨tk, htk, hmem⟩ := wf.state_in_track s hs st hst
    exact ⟨tk, hTold _ _ htk, hmem⟩
  · intro u _ tk htk e he
    simp only [Option.mem_def] at htk
    rcases getElem?_snoc_some.1 htk with h | ⟨h1, h2⟩
    · exact wf.track_states u (lt_of_getElem?_eq_some h) tk h e he
    · subst h2
      simp at he
  · intro u _ tk htk p hp
    simp only [Option.mem_def] at htk hp
    rcases getElem?_snoc_some.1 htk with h | ⟨h1, h2⟩
    · exact wf.track_parent u (lt_of_getElem?_eq_some h) tk h p hp
    · subst h2
      simp at hp
  · intro s hs st hst e he
    obtain ⟨tk, htk, hp⟩ := wf.state_tracks s hs st hst e he
    exact ⟨tk, hTold _ _ htk, hp⟩
  · exact wf.state_tracks_nodup
  · intro r hr
    rcases List.mem_append.1 hr with h | h
    · refine isRoot_congr ?_ (wf.root_tracks r h)
      intro tk htk
      exact ⟨tk, hTold _ _ htk, rfl⟩
    · simp only [List.mem_singleton] at h
      subst h
      exact isRoot_iff.2 ⟨_, getElem?_snoc_some.2 (Or.inr ⟨rfl, rfl⟩), rfl⟩
  · intro r _ hroot
    obtain ⟨tk, htk, hp⟩ := isRoot_iff.1 hroot
    rcases getElem?_snoc_some.1 htk with h | ⟨h1, h2⟩
    · exact List.mem_append_left _
        (wf.root_listed r (lt_of_getElem?_eq_some h) (isRoot_iff.2 ⟨tk, h, hp⟩))
    · exact List.mem_append_right _ (by simp [h1])
  · rw [List.nodup_append]
    refine ⟨wf.root_nodup, by simp, ?_⟩
    intro x hx hx'
    simp only [List.mem_singleton] at hx'
    obtain ⟨tk, htk, _⟩ := isRoot_iff.1 (wf.root_tracks x hx)
    have hlt := lt_of_getElem?_eq_some htk
    rw [hx'] at hlt
    exact absurd hlt (Nat.lt_irrefl _)
  · exact wf.state_names
  · intro u _ tk htk d hd
    simp only [Option.mem_def] at htk hd
    rcases getElem?_snoc_some.1 htk with h | ⟨h1, h2⟩
    · exact wf.default_state u (lt_of_getElem?_eq_some h) tk h d hd
    · subst h2
      simp at hd
  · exact wf.transitions

theorem Model.WF.wf_addTransition {M : Model} (wf : M.WF) (ev : FName) {tr : EventTransition}
    (hs : tr.source < M.stateHeap.length) (ht : tr.target < M.stateHeap.length) :
    Model.WF { M with
      m_eventTransitions := tmapAdd M.m_eventTransitions ev
        ((tmapFind M.m_eventTransitions ev).getD [] ++ [tr]) } := by
  refine ⟨wf.state_in_track, wf.track_states, wf.track_parent, wf.state_tracks,
    wf.state_tracks_nodup, wf.root_tracks, wf.root_listed, wf.root_nodup, wf.state_names,
    wf.default_state, ?_⟩
  intro e he tr' htr'
  rcases mem_tmapAdd he with h | h
  · subst h
    rcases List.mem_append.1 htr' with h' | h'
    · cases hf : tmapFind M.m_eventTransitions ev with
      | none => simp [hf] at h'
      | some l =>
        simp only [hf, Option.getD_some] at h'
        exact wf.transitions (ev, l) (tmapFind_mem hf) tr' h'
    · simp only [List.mem_singleton] at h'
      subst h'
      exact ⟨hs, ht⟩
  · exact wf.transitions e h tr' htr'

/-! ## Machines made with the builders -/

theorem AddState_eq {M M' : Model} {self : Nat} {name : FName} {state : Nat}
    (h : Track.AddState M self name = Res.ok (M', state)) :
    ∃ t, M.trackHeap[self]? = some t ∧ tmapFind M.m_states name = none ∧
      state = M.stateHeap.length ∧
      M' = { M with
        stateHeap := M.stateHeap ++ [{ m_name := name, m_tracks := [], m_parent := self }]
        trackHeap := M.trackHeap.set self
          { t with m_states := tmapAdd t.m_states name M.stateHeap.length }
        m_states := tmapAdd M.m_states name M.stateHeap.length } := by
  unfold Track.AddState at h
  obtain ⟨t, ht, h⟩ := Res.bind_eq_ok.1 h
  cases hn : tmapFind M.m_states name with
  | some v => simp [hn] at h
  | none =>
    simp only [hn, Option.isSome_none, Bool.false_eq_true, if_false, Res.ok.injEq,
      Prod.mk.injEq] at h
    exact ⟨t, track_eq_ok.1 ht, rfl, h.2.symm, h.1.symm⟩

theorem AddTrack_eq {M M' : Model} {self : Nat} {name : FName} {track : Nat}
    (h : State.AddTrack M self name = Res.ok (M', track)) :
    ∃ s, M.stateHeap[self]? = some s ∧ tmapFind M.m_tracks name = none ∧
      track = M.trackHeap.length ∧
      M' = { M with
        trackHeap := M.trackHeap ++
          [{ m_name := name, m_states := [], m_parent := some self, m_defaultState := none }]
        stateHeap := M.stateHeap.set self
          { s with m_tracks := tmapAdd s.m_tracks name M.trackHeap.length }
        m_tracks := tmapAdd M.m_tracks name M.trackHeap.length } := by
  unfold State.AddTrack at h
  obtain ⟨s, hs, h⟩ := Res.bind_eq_ok.1 h
  cases hn : tmapFind M.m_tracks name with
  | some v => simp [hn] at h
  | none =>
    simp only [hn, Option.isSome_none, Bool.false_eq_true, if_false, Res.ok.injEq,
      Prod.mk.injEq] at h
    exact ⟨s, state_eq_ok.1 hs, rfl, h.2.symm, h.1.symm⟩

theorem Model.BuilderInv.inv_addState {M M' : Model} {self : Nat} {name : FName} {state : Nat}
    (inv : M.BuilderInv) (h : Track.AddState M self name = Res.ok (M', state)) :
    M'.BuilderInv ∧ M'.m_rootTracks = M.m_rootTracks ∧
      M'.trackHeap.length = M.trackHeap.length ∧
      ∃ st, M'.stateHeap[state]? = some st ∧ st.m_parent = self := by
  have hreg' := StatesRegistered.addState inv.states_registered h
  obtain ⟨t, ht, hn, hstate, hM⟩ := AddState_eq h
  subst hM hstate
  refine ⟨⟨inv.wf.wf_addState inv.states_registered ht hn, hreg', ?_, ?_⟩, rfl, ?_, ?_⟩
  · intro e he
    simp only [List.length_append, List.length_singleton]
    rcases mem_tmapAdd he with h1 | h1
    · subst h1
      exact Nat.lt_succ_self _
    · exact Nat.lt_succ_of_lt (inv.states_listed e h1)
  · intro s _ st hst e he
    simp only [Option.mem_def] at hst
    rcases getElem?_snoc_some.1 hst with h1 | ⟨_, h2⟩
    · exact inv.tracks_registered s (lt_of_getElem?_eq_some h1) st h1 e he
    · subst h2
      simp at he
  · simp only [List.length_set]
  · exact ⟨_, getElem?_snoc_some.2 (Or.inr ⟨rfl, rfl⟩), rfl⟩

theorem Model.BuilderInv.inv_setDefault {M : Model} (inv : M.BuilderInv) {self d : Nat} {t : Track}
    (ht : M.trackHeap[self]? = some t)
    (hd : ∃ st, M.stateHeap[d]? = some st ∧ st.m_parent = self) :
    Model.BuilderInv { M with
      trackHeap := M.trackHeap.set self { t with m_defaultState := some d } } :=
  ⟨inv.wf.wf_setDefault ht hd, inv.states_registered, inv.states_listed, inv.tracks_registered⟩

theorem Model.BuilderInv.inv_addDefaultState {M M' : Model} {self : Nat} {name : FName}
    {state : Nat} (inv : M.BuilderInv)
    (h : Track.AddDefaultState M self name = Res.ok (M', state)) :
    M'.BuilderInv ∧ M'.m_rootTracks = M.m_rootTracks ∧
      M'.trackHeap.length = M.trackHeap.length := by
  unfold Track.AddDefaultState at h
  obtain ⟨r, h1, h⟩ := Res.bind_eq_ok.1 h
  obtain ⟨M1, s1⟩ := r
  obtain ⟨t, ht, h⟩ := Res.bind_eq_ok.1 h
  simp only [Res.ok.injEq, Prod.mk.injEq] at h
  obtain ⟨hM, hs⟩ := h
  subst hM hs
  obtain ⟨inv1, hroot, hlen, hd⟩ := inv.inv_addState h1
  exact ⟨inv1.inv_setDefault (track_eq_ok.1 ht) hd, hroot, by simp only [List.length_set]; exact hlen⟩

theorem Model.BuilderInv.inv_addDefaultStateWithDelegates {M M' : Model} {self : Nat}
    {name : FName} {state : Nat} (inv : M.BuilderInv)
    (h : Track.AddDefaultStateWithDelegates M self name = Res.ok (M', state)) :
    M'.BuilderInv ∧ M'.m_rootTracks = M.m_rootTracks ∧
      M'.trackHeap.length = M.trackHeap.length := by
  unfold Track.AddDefaultStateWithDelegates at h
  obtain ⟨t0, _, h⟩ := Res.bind_eq_ok.1 h
  split at h
  · exact absurd h (by simp)
  · obtain ⟨r, h1, h⟩ := Res.bind_eq_ok.1 h
    obtain ⟨M1, s1⟩ := r
    obtain ⟨t, ht, h⟩ := Res.bind_eq_ok.1 h
    simp only [Res.ok.injEq, Prod.mk.injEq] at h
    obtain ⟨hM, hs⟩ := h
    subst hM hs
    obtain ⟨inv1, hroot, hlen, hd⟩ := inv.inv_addState h1
    exact ⟨inv1.inv_setDefault (track_eq_ok.1 ht) hd, hroot,
      by simp only [List.length_set]; exact hlen⟩

theorem Model.BuilderInv.inv_addTrack {M M' : Model} {self : Nat} {name : FName} {track : Nat}
    (inv : M.BuilderInv) (h : State.AddTrack M self name = Res.ok (M', track)) :
    M'.BuilderInv ∧ M'.m_rootTracks = M.m_rootTracks ∧
      M.trackHeap.length ≤ M'.trackHeap.length := by
  have hreg' := StatesRegistered.addTrack inv.states_registered h
  obtain ⟨s, hs, hn, htrack, hM⟩ := AddTrack_eq h
  subst hM htrack
  refine ⟨⟨inv.wf.wf_addTrack inv.tracks_registered hs hn, hreg', ?_, ?_⟩, rfl, ?_⟩
  · intro e he
    simp only [List.length_set]
    exact inv.states_listed e he
  · intro u _ st hst e he
    simp only [Option.mem_def] at hst
    rcases getElem?_set_some.1 hst with ⟨_, h1⟩ | ⟨_, _, h2⟩
    · exact tmapFind_isSome_tmapAdd _ _ _ _
        (inv.tracks_registered u (lt_of_getElem?_eq_some h1) st h1 e he)
    · subst h2
      rcases mem_tmapAdd he with h3 | h3
      · subst h3
        show (tmapFind (tmapAdd M.m_tracks name M.trackHeap.length) name).isSome = true
        rw [tmapFind_tmapAdd_self]
        rfl
      · exact tmapFind_isSome_tmapAdd _ _ _ _
          (inv.tracks_registered self (lt_of_getElem?_eq_some hs) s hs e h3)
  · simp only [List.length_append, List.length_singleton]
    exact Nat.le_succ _

theorem Model.BuilderInv.inv_addRootTrack {M M' : Model} {name : FName} {track : Nat}
    (inv : M.BuilderInv) (h : AddRootTrack M name = Res.ok (M', track)) : M'.BuilderInv := by
  have hreg' := StatesRegistered.addRootTrack inv.states_registered h
  unfold AddRootTrack at h
  split at h
  · exact absurd h (by simp)
  · simp only [Res.ok.injEq, Prod.mk.injEq] at h
    obtain ⟨hM, _⟩ := h
    subst hM
    refine ⟨inv.wf.wf_addRootTrack name, hreg', inv.states_listed, ?_⟩
    intro u hu st hst e he
    exact tmapFind_isSome_tmapAdd _ _ _ _ (inv.tracks_registered u hu st hst e he)

theorem Model.BuilderInv.inv_addEventTransition {M M' : Model} {ev src tgt : FName}
    (inv : M.BuilderInv) (h : AddEventTransition M ev src tgt = Res.ok M') :
    M'.BuilderInv ∧ M'.m_rootTracks = M.m_rootTracks ∧
      M'.trackHeap.length = M.trackHeap.length := by
  have hreg' := StatesRegistered.addEventTransition inv.states_registered h
  unfold AddEventTransition at h
  split at h
  · rename_i s t hs ht
    simp only [Res.ok.injEq] at h
    subst h
    exact ⟨⟨inv.wf.wf_addTransition ev (inv.states_listed _ (tmapFind_mem hs))
      (inv.states_listed _ (tmapFind_mem ht)), hreg', inv.states_listed,
      inv.tracks_registered⟩, rfl, rfl⟩
  · exact absurd h (by simp)

theorem Model.BuilderInv.inv_empty : Model.empty.BuilderInv := by decide

/-! ## Machines made with the builder of `HSM` -/

theorem hsm_AddState_eq : HSM.Track.AddState = Track.AddState := rfl

theorem hsm_AddDefaultState_eq :
    HSM.Track.AddDefaultState = Track.AddDefaultStateWithDelegates := rfl

theorem hsm_AddTrack_eq : HSM.State.AddTrack = State.AddTrack := rfl

theorem hsm_AddEventTransition_eq (M : Model) (src tgt ev : FName) :
    HSM.AddEventTransition M src tgt ev = AddEventTransition M ev src tgt := rfl

theorem hsm_built_inv {M : Model} (hb : HSM.Built M) :
    M.BuilderInv ∧ M.m_rootTracks = [HSM.GetRootTrack] ∧ 0 < M.trackHeap.length := by
  induction hb with
  | init => exact ⟨by decide, rfl, by decide⟩
  | addState _ h ih =>
    rw [hsm_AddState_eq] at h
    obtain ⟨i1, i2, i3, _⟩ := ih.1.inv_addState h
    exact ⟨i1, i2.trans ih.2.1, by rw [i3]; exact ih.2.2⟩
  | addDefaultState _ h ih =>
    rw [hsm_AddDefaultState_eq] at h
    obtain ⟨i1, i2, i3⟩ := ih.1.inv_addDefaultStateWithDelegates h
    exact ⟨i1, i2.trans ih.2.1, by rw [i3]; exact ih.2.2⟩
  | addTrack _ h ih =>
    rw [hsm_AddTrack_eq] at h
    obtain ⟨i1, i2, i3⟩ := ih.1.inv_addTrack h
    exact ⟨i1, i2.trans ih.2.1, Nat.lt_of_lt_of_le ih.2.2 i3⟩
  | addEventTransition _ h ih =>
    rw [hsm_AddEventTransition_eq] at h
    obtain ⟨i1, i2, i3⟩ := ih.1.inv_addEventTransition h
    exact ⟨i1, i2.trans ih.2.1, by rw [i3]; exact ih.2.2⟩

/-! ## The target-active guard of `UStateMachineComponent` and `HSM` -/

theorem smc_fireTransition_skip (M : Model) (fuel : Nat) {tr : EventTransition} {σ : Runtime}
    (h : tr.source ∉ σ.m_currentStates ∨ tr.target ∈ σ.m_currentStates) :
    UStateMachineComponent.fireTransition M fuel tr σ = Res.ok σ := by
  unfold UStateMachineComponent.fireTransition
  rw [if_pos h]

theorem hsm_fireTransition_skip (M : Model) (fuel : Nat) {tr : EventTransition} {σ : Runtime}
    (h : tr.source ∉ σ.m_currentStates ∨ tr.target ∈ σ.m_currentStates) :
    HSM.fireTransition M fuel tr σ = Res.ok σ := by
  unfold HSM.fireTransition
  rw [if_pos h]

theorem smc_fireTransitions_skip (M : Model) (fuel : Nat) (σ : Runtime) :
    ∀ trs : List EventTransition,
      (∀ tr ∈ trs, tr.source ∉ σ.m_currentStates ∨ tr.target ∈ σ.m_currentStates) →
      UStateMachineComponent.fireTransitions M fuel trs σ = Res.ok σ := by
  intro trs
  induction trs with
  | nil => intro _; rfl
  | cons tr rest ih =>
    intro h
    unfold UStateMachineComponent.fireTransitions
    rw [smc_fireTransition_skip M fuel (h tr (List.mem_cons_self _ _))]
    exact ih (fun x hx => h x (List.mem_cons_of_mem _ hx))

theorem hsm_fireTransitions_skip (M : Model) (fuel : Nat) (σ : Runtime) :
    ∀ trs : List EventTransition,
      (∀ tr ∈ trs, tr.source ∉ σ.m_currentStates ∨ tr.target ∈ σ.m_currentStates) →
      HSM.fireTransitions M fuel trs σ = Res.ok σ := by
  intro trs
  induction trs with
  | nil => intro _; rfl
  | cons tr rest ih =>
    intro h
    unfold HSM.fireTransitions
    rw [hsm_fireTransition_skip M fuel (h tr (List.mem_cons_self _ _))]
    exact ih (fun x hx => h x (List.mem_cons_of_mem _ hx))

theorem self_transition_skipped (tr : EventTransition) (σ : Runtime)
    (h : tr.source = tr.target) :
    tr.source ∉ σ.m_currentStates ∨ tr.target ∈ σ.m_currentStates := by
  by_cases hs : tr.source ∈ σ.m_currentStates
  · exact Or.inr (h ▸ hs)
  · exact Or.inl hs

theorem smc_DequeueEvents_single (M : Model) (fuel limit : Nat) (evt : FName)
    (trs : List EventTransition) (σ : Runtime)
    (hev : tmapFind M.m_eventTransitions evt = some trs)
    (hskip : ∀ tr ∈ trs, tr.source ∉ σ.m_currentStates ∨ tr.target ∈ σ.m_currentStates)
    (hlimit : 0 < limit % 2 ^ 16) :
    UStateMachineComponent.DequeueEvents M fuel limit { σ with m_eventsQueue := [evt] } =
      Res.ok { σ with m_eventsQueue := [] } := by
  have hproc : UStateMachineComponent.processEvent M fuel evt { σ with m_eventsQueue := [] } =
      Res.ok { σ with m_eventsQueue := [] } := by
    unfold UStateMachineComponent.processEvent
    rw [hev]
    exact smc_fireTransitions_skip M fuel _ trs hskip
  obtain ⟨k, hk⟩ : ∃ k, limit % 2 ^ 16 = k + 1 := ⟨limit % 2 ^ 16 - 1, by omega⟩
  have hne : ¬ (((k + 1 : Nat) : Int) = -1) := by omega
  have hloop : UStateMachineComponent.dequeueLoop M fuel (k + 1) 0
      { σ with m_eventsQueue := [evt] } = Res.ok (1, { σ with m_eventsQueue := [] }) := by
    conv_lhs => unfold UStateMachineComponent.dequeueLoop
    simp only [List.getLast?_singleton, List.dropLast_single, hproc, Res.ok_bind, Nat.zero_add]
    cases k with
    | zero => rfl
    | succ n =>
      conv_lhs => unfold UStateMachineComponent.dequeueLoop
      rfl
  unfold UStateMachineComponent.DequeueEvents
  simp only [hk, hne, if_false, hloop, Res.ok_bind]
  have h5 : ¬ (1 ≥ STATEMACHINE_DEQUEUEEVENTS_DEFAULTLIMIT) := by decide
  simp only [h5, if_false, Res.pure_eq]

theorem hsm_UnqueueEvents_single (M : Model) (fuel n : Nat) (evt : FName)
    (trs : List EventTransition) (σ : Runtime)
    (hev : tmapFind M.m_eventTransitions evt = some trs)
    (hskip : ∀ tr ∈ trs, tr.source ∉ σ.m_currentStates ∨ tr.target ∈ σ.m_currentStates) :
    HSM.UnqueueEvents M fuel (n + 2) { σ with m_eventsQueue := [evt] } =
      Res.ok { σ with m_eventsQueue := [] } := by
  have hproc : HSM.processEvent M fuel evt { σ with m_eventsQueue := [] } =
      Res.ok { σ with m_eventsQueue := [] } := by
    unfold HSM.processEvent
    rw [hev]
    exact hsm_fireTransitions_skip M fuel _ trs hskip
  conv_lhs => unfold HSM.UnqueueEvents
  simp only [List.getLast?_singleton, List.dropLast_single, hproc, Res.ok_bind]
  conv_lhs => unfold HSM.UnqueueEvents
  rfl

/-- C31 (target-active guard of the sibling implementations). In the transition loop of
`UStateMachineComponent::DequeueEvents` and of `HSM::UnqueueEvents`, a transition whose target
is in the active configuration is skipped, whether its source is active or not: the run-time
state, record of delegate calls included, is returned unchanged. The same holds for every
self-transition `S -> S`. An event all of whose transitions have an active target is
dequeued without any effect but its removal from the queue. -/
theorem C31_target_active_guard (M : Model) (fuel : Nat) :
    (∀ (tr : EventTransition) (σ : Runtime), tr.target ∈ σ.m_currentStates →
      UStateMachineComponent.fireTransition M fuel tr σ = Res.ok σ ∧
      HSM.fireTransition M fuel tr σ = Res.ok σ) ∧
    (∀ (tr : EventTransition) (σ : Runtime), tr.source = tr.target →
      UStateMachineComponent.fireTransition M fuel tr σ = Res.ok σ ∧
      HSM.fireTransition M fuel tr σ = Res.ok σ) ∧
    (∀ (evt : FName) (trs : List EventTransition) (σ : Runtime),
      tmapFind M.m_eventTransitions evt = some trs →
      (∀ tr ∈ trs, tr.target ∈ σ.m_currentStates) →
      (∀ limit : Nat, 0 < limit % 2 ^ 16 →
        UStateMachineComponent.DequeueEvents M fuel limit { σ with m_eventsQueue := [evt] } =
          Res.ok { σ with m_eventsQueue := [] }) ∧
      (∀ n : Nat, HSM.UnqueueEvents M fuel (n + 2) { σ with m_eventsQueue := [evt] } =
          Res.ok { σ with m_eventsQueue := [] })) := by
  refine ⟨?_, ?_, ?_⟩
  · intro tr σ h
    exact ⟨smc_fireTransition_skip M fuel (Or.inr h), hsm_fireTransition_skip M fuel (Or.inr h)⟩
  · intro tr σ h
    exact ⟨smc_fireTransition_skip M fuel (self_transition_skipped tr σ h),
      hsm_fireTransition_skip M fuel (self_transition_skipped tr σ h)⟩
  · intro evt trs σ hev hall
    exact ⟨fun limit hl => smc_DequeueEvents_single M fuel limit evt trs σ hev
        (fun tr htr => Or.inr (hall tr htr)) hl,
      fun n => hsm_UnqueueEvents_single M fuel n evt trs σ hev
        (fun tr htr => Or.inr (hall tr htr))⟩

/-! ## Transitions between states of one track -/

theorem fcct_same_track {M : Model} {fuel a b t : Nat} (ha : M.stateTrack a = some t)
    (hb : M.stateTrack b = some t) :
    _FindClosestCommonTrack M fuel a b = Res.ok (some t) := by
  obtain ⟨sa, hsa, hpa⟩ := stateTrack_eq_some.1 ha
  obtain ⟨sb, hsb, hpb⟩ := stateTrack_eq_some.1 hb
  unfold _FindClosestCommonTrack
  simp only [state_eq_ok.2 hsa, state_eq_ok.2 hsb, Res.ok_bind, hpa, hpb, if_true, Res.pure_eq]

theorem inSubtree_congr {M : Model} {L s e : Nat} (h : M.stateTrack s = M.stateTrack e) :
    M.inSubtree L s = M.inSubtree L e := by
  unfold Model.inSubtree
  rw [h]

theorem mem_exitResult {M : Model} {L s : Nat} {cur : List StatePtr} :
    HookCall.exit s ∈ (exitResult M L cur).2 ↔ s ∈ cur ∧ M.inSubtree L s = true := by
  unfold exitResult
  simp only [List.mem_map, List.mem_reverse, List.mem_filter]
  constructor
  · rintro ⟨x, hx, hxs⟩
    cases hxs
    exact hx
  · intro h
    exact ⟨s, h, rfl⟩

theorem enter_not_mem_exitResult {M : Model} {L s : Nat} {cur : List StatePtr} :
    HookCall.enter s ∉ (exitResult M L cur).2 := by
  unfold exitResult
  simp only [List.mem_map, List.mem_reverse, List.mem_filter, not_exists, not_and]
  intro x _ h
  cases h

theorem Model.WF.fire_sibling {M : Model} (wf : M.WF) (hd : M.HasDefaults) {σ : Runtime}
    (tr : EventTransition) {t fuel : Nat}
    (hvalid : ∀ s ∈ σ.m_currentStates, s < M.stateHeap.length)
    (hnd : (σ.m_currentStates.map M.stateTrack).Nodup)
    (hS : tr.source ∈ σ.m_currentStates)
    (hSt : M.stateTrack tr.source = some t) (hTt : M.stateTrack tr.target = some t)
    (hf : M.trackHeap.length + 1 ≤ fuel) :
    ∃ (σ' : Runtime) (E : List StatePtr), fireTransition M fuel tr σ = Res.ok σ' ∧
      σ'.m_currentStates = σ.m_currentStates.filter (fun s => !M.inSubtree t s) ++ E ∧
      σ'.calls = σ.calls ++ (exitResult M t σ.m_currentStates).2 ++ E.map HookCall.enter ∧
      tr.target ∈ E ∧ (E.map M.stateTrack).Nodup ∧ (∀ e ∈ E, M.inSubtree t e = true) ∧
      (∀ s ∈ σ'.m_currentStates, s < M.stateHeap.length) ∧
      (σ'.m_currentStates.map M.stateTrack).Nodup := by
  have ht := (wf.stateTrack_lt hTt).2
  have hfc : _FindClosestCommonTrack M fuel tr.source tr.target = Res.ok (some t) :=
    fcct_same_track hSt hTt
  obtain ⟨σ', h⟩ := wf.fireTransition_returns hd hvalid hS hTt hfc (wf.mem_ancestors_self ht) hf
  obtain ⟨L, tt, path, E, hfc', _, htt, hpath, hσ', hD, hP⟩ := wf.fireTransition_ok hS h
  have hL : L = t := by
    rw [hfc] at hfc'
    simp only [Res.ok.injEq, Option.some.injEq] at hfc'
    exact hfc'.symm
  subst hL
  obtain ⟨pre, hpre, _, _⟩ := pathLoop_ok fuel tt [tr.target] path hpath
    (by intro x hx; simp at hx; subst hx; exact htt) (List.chain'_singleton _)
  have hTE : tr.target ∈ E := hP.done.2 _ (by rw [hpre]; simp)
  have hsub : ∀ e ∈ E, M.inSubtree L e = true := by
    intro e he
    have hv := hD.valid e he
    obtain ⟨u, hu⟩ := Option.isSome_iff_exists.1 hv
    obtain ⟨⟨r, hr, hru⟩, _⟩ := hD.under_root u (Or.inr ⟨e, he, hu⟩)
    rw [List.mem_singleton.1 hr] at hru
    exact (inSubtree_iff hu).2 hru
  have hcs : σ'.m_currentStates =
      σ.m_currentStates.filter (fun s => !M.inSubtree L s) ++ E := by
    rw [hσ']
    rfl
  have hcalls : σ'.calls =
      σ.calls ++ (exitResult M L σ.m_currentStates).2 ++ E.map HookCall.enter := by
    rw [hσ']
  refine ⟨σ', E, h, hcs, hcalls, hTE, hD.nodupE, hsub, ?_, ?_⟩
  · intro s hs
    rw [hcs] at hs
    rcases List.mem_append.1 hs with h1 | h1
    · exact hvalid s (List.mem_of_mem_filter h1)
    · obtain ⟨u, hu⟩ := Option.isSome_iff_exists.1 (hD.valid s h1)
      exact (wf.stateTrack_lt hu).1
  · rw [hcs, List.map_append, List.nodup_append]
    refine ⟨(hnd.sublist ((List.filter_sublist _).map _)), hD.nodupE, ?_⟩
    intro x hx hx'
    obtain ⟨s, hs, hsx⟩ := List.mem_map.1 hx
    obtain ⟨e, he, hex⟩ := List.mem_map.1 hx'
    have h1 : M.inSubtree L s = M.inSubtree L e := inSubtree_congr (hsx.trans hex.symm)
    have h2 := (List.mem_filter.1 hs).2
    rw [h1, hsub e he] at h2
    simp at h2

theorem eq_of_same_track {M : Model} {E : List StatePtr} (hnd : (E.map M.stateTrack).Nodup)
    {x y : Nat} (hx : x ∈ E) (hy : y ∈ E) (h : M.stateTrack x = M.stateTrack y) : x = y :=
  List.inj_on_of_nodup_map hnd hx hy h

theorem not_mem_after_fire {M : Model} {t x T : Nat} {cs E : List StatePtr}
    (hxt : M.stateTrack x = some t) (hTt : M.stateTrack T = some t)
    (hself : t ∈ M.ancestors t) (hTE : T ∈ E) (hnd : (E.map M.stateTrack).Nodup)
    (hne : x ≠ T) : x ∉ cs.filter (fun s => !M.inSubtree t s) ++ E := by
  intro hx
  rcases List.mem_append.1 hx with h | h
  · have h2 := (List.mem_filter.1 h).2
    rw [(inSubtree_iff hxt).2 hself] at h2
    simp at h2
  · exact hne (eq_of_same_track hnd h hTE (hxt.trans hTt.symm))

/-- C33 (transitions of one event see each other's effects). The loop over the transitions of
an event passes the run-time state left by a transition to the next one, and a transition
whose source is not in that state is skipped. On a well-formed model where every track has a
default state, for three distinct states `A`, `B`, `C` of one track `t`, in a configuration of
valid states, one per track, with `A` active: an event registering `A -> B` then `B -> C`
returns with `C` active and `A`, `B` inactive, after the calls exit `A`, enter `B`, exit `B`,
enter `C` in this order; an event registering `B -> C` then `A -> B` returns with `B` active
and `A`, `C` inactive, `C` never entered and `B` never exited. -/
theorem C33_transitions_see_effects (M : Model) (σ : Runtime) (A B C t fuel : Nat)
    (wf : M.WF) (hd : M.HasDefaults)
    (hvalid : ∀ s ∈ σ.m_currentStates, s < M.stateHeap.length)
    (hnd : (σ.m_currentStates.map M.stateTrack).Nodup)
    (hA : M.stateTrack A = some t) (hB : M.stateTrack B = some t)
    (hC : M.stateTrack C = some t) (hAB : A ≠ B) (hBC : B ≠ C) (hAC : A ≠ C)
    (hact : A ∈ σ.m_currentStates) (hf : M.trackHeap.length + 1 ≤ fuel) :
    (∀ (tr : EventTransition) (rest : List EventTransition) (σ0 : Runtime),
      fireTransitions M fuel (tr :: rest) σ0 =
        (fireTransition M fuel tr σ0 >>= fireTransitions M fuel rest)) ∧
    (∀ (tr : EventTransition) (σ0 : Runtime), tr.source ∉ σ0.m_currentStates →
      fireTransition M fuel tr σ0 = Res.ok σ0) ∧
    (∀ evt : FName,
      tmapFind M.m_eventTransitions evt =
        some [{ name := evt, source := A, target := B }, { name := evt, source := B, target := C }] →
      ∃ (σ2 : Runtime) (new : List HookCall), processEvent M fuel evt σ = Res.ok σ2 ∧
        C ∈ σ2.m_currentStates ∧ B ∉ σ2.m_currentStates ∧ A ∉ σ2.m_currentStates ∧
        σ2.calls = σ.calls ++ new ∧
        [HookCall.exit A, HookCall.enter B, HookCall.exit B, HookCall.enter C].Sublist new) ∧
    (∀ evt : FName,
      tmapFind M.m_eventTransitions evt =
        some [{ name := evt, source := B, target := C }, { name := evt, source := A, target := B }] →
      ∃ (σ1 : Runtime) (new : List HookCall), processEvent M fuel evt σ = Res.ok σ1 ∧
        B ∈ σ1.m_currentStates ∧ C ∉ σ1.m_currentStates ∧ A ∉ σ1.m_currentStates ∧
        σ1.calls = σ.calls ++ new ∧
        [HookCall.exit A, HookCall.enter B].Sublist new ∧
        HookCall.enter C ∉ new ∧ HookCall.exit B ∉ new) := by
  have ht := (wf.stateTrack_lt hA).2
  have hself := wf.mem_ancestors_self ht
  refine ⟨fun tr rest σ0 => fireTransitions_cons M fuel tr rest σ0, ?_, ?_, ?_⟩
  · intro tr σ0 h
    unfold fireTransition
    rw [if_pos h]
  · intro evt hev
    obtain ⟨σ1, E1, h1, hcs1, hcalls1, hB1, hnd1, _, hvalid1, hndσ1⟩ :=
      wf.fire_sibling hd { name := evt, source := A, target := B } hvalid hnd hact
        hA hB hf
    have hBact : B ∈ σ1.m_currentStates := by
      rw [hcs1]
      exact List.mem_append_right _ hB1
    obtain ⟨σ2, E2, h2, hcs2, hcalls2, hC2, hnd2, _, _, _⟩ :=
      wf.fire_sibling hd { name := evt, source := B, target := C } hvalid1 hndσ1 hBact
        hB hC hf
    refine ⟨σ2, (exitResult M t σ.m_currentStates).2 ++ E1.map HookCall.enter ++
      (exitResult M t σ1.m_currentStates).2 ++ E2.map HookCall.enter, ?_, ?_, ?_, ?_, ?_, ?_⟩
    · unfold processEvent
      rw [hev]
      show fireTransitions M fuel _ σ = _
      rw [fireTransitions_cons, h1, Res.ok_bind, fireTransitions_cons, h2, Res.ok_bind]
      rfl
    · rw [hcs2]
      exact List.mem_append_right _ hC2
    · rw [hcs2]
      exact not_mem_after_fire hB hC hself hC2 hnd2 hBC
    · rw [hcs2]
      exact not_mem_after_fire hA hC hself hC2 hnd2 hAC
    · rw [hcalls2, hcalls1]
      simp only [List.append_assoc]
    · have e1 : [HookCall.exit A].Sublist (exitResult M t σ.m_currentStates).2 :=
        List.singleton_sublist.2 (mem_exitResult.2 ⟨hact, (inSubtree_iff hA).2 hself⟩)
      have e2 : [HookCall.enter B].Sublist (E1.map HookCall.enter) :=
        List.singleton_sublist.2 (List.mem_map_of_mem _ hB1)
      have e3 : [HookCall.exit B].Sublist (exitResult M t σ1.m_currentStates).2 :=
        List.singleton_sublist.2 (mem_exitResult.2 ⟨hBact, (inSubtree_iff hB).2 hself⟩)
      have e4 : [HookCall.enter C].Sublist (E2.map HookCall.enter) :=
        List.singleton_sublist.2 (List.mem_map_of_mem _ hC2)
      exact ((e1.append e2).append e3).append e4
  · intro evt hev
    have hBnot : B ∉ σ.m_currentStates := by
      intro hBin
      exact hAB (eq_of_same_track hnd hact hBin (hA.trans hB.symm))
    have h0 : fireTransition M fuel { name := evt, source := B, target := C } σ = Res.ok σ := by
      unfold fireTransition
      rw [if_pos hBnot]
    obtain ⟨σ1, E1, h1, hcs1, hcalls1, hB1, hnd1, _, _, _⟩ :=
      wf.fire_sibling hd { name := evt, source := A, target := B } hvalid hnd hact
        hA hB hf
    refine ⟨σ1, (exitResult M t σ.m_currentStates).2 ++ E1.map HookCall.enter,
      ?_, ?_, ?_, ?_, ?_, ?_, ?_, ?_⟩
    · unfold processEvent
      rw [hev]
      show fireTransitions M fuel _ σ = _
      rw [fireTransitions_cons, h0, Res.ok_bind, fireTransitions_cons, h1, Res.ok_bind]
      rfl
    · rw [hcs1]
      exact List.mem_append_right _ hB1
    · rw [hcs1]
      exact not_mem_after_fire hC hB hself hB1 hnd1 (fun e => hBC e.symm)
    · rw [hcs1]
      exact not_mem_after_fire hA hB hself hB1 hnd1 hAB
    · rw [hcalls1]
      simp only [List.append_assoc]
    · have e1 : [HookCall.exit A].Sublist (exitResult M t σ.m_currentStates).2 :=
        List.singleton_sublist.2 (mem_exitResult.2 ⟨hact, (inSubtree_iff hA).2 hself⟩)
      have e2 : [HookCall.enter B].Sublist (E1.map HookCall.enter) :=
        List.singleton_sublist.2 (List.mem_map_of_mem _ hB1)
      exact e1.append e2
    · intro hmem
      rcases List.mem_append.1 hmem with h | h
      · exact enter_not_mem_exitResult h
      · obtain ⟨x, hx, hxe⟩ := List.mem_map.1 h
        cases hxe
        exact hBC (eq_of_same_track hnd1 hB1 hx (hB.trans hC.symm))
    · intro hmem
      rcases List.mem_append.1 hmem with h | h
      · exact hBnot (mem_exitResult.1 h).1
      · obtain ⟨x, _, hxe⟩ := List.mem_map.1 h
        cases hxe

/-- Witness for C33 on the machine with the sibling states `A`, `B`, `C` : with `A -> B`
registered before `B -> C` the event `go` leaves `C` active, with the other order it leaves
`B` active. -/
theorem C33_transitions_see_effects_witness :
    (∃ (σ2 : Runtime) (new : List HookCall),
      processEvent siblings 2 "go" siblings_started = Res.ok σ2 ∧
        2 ∈ σ2.m_currentStates ∧ 1 ∉ σ2.m_currentStates ∧ 0 ∉ σ2.m_currentStates ∧
        σ2.calls = siblings_started.calls ++ new ∧
        [HookCall.exit 0, HookCall.enter 1, HookCall.exit 1, HookCall.enter 2].Sublist new) ∧
    processEvent siblings 2 "go" siblings_started =
      Res.ok { siblings_started with
        m_currentStates := [2]
        calls := [HookCall.enter 0, HookCall.exit 0, HookCall.enter 1, HookCall.exit 1,
          HookCall.enter 2] } ∧
    processEvent siblingsSwapped 2 "go" siblings_started =
      Res.ok { siblings_started with
        m_currentStates := [1]
        calls := [HookCall.enter 0, HookCall.exit 0, HookCall.enter 1] } :=
  ⟨(C33_transitions_see_effects siblings siblings_started 0 1 2 0 2 (by decide) (by decide)
      (by decide) (by decide) (by decide) (by decide) (by decide) (by decide) (by decide)
      (by decide) (by decide) (by decide)).2.2.1 "go" (by decide),
    by decide, by decide⟩

/-! ## The common-track functions compared -/

theorem ATracksLoop_acc {M : Model} :
    ∀ (fuel : Nat) (cur : Option TrackPtr) (acc : List TrackPtr),
      ATracksLoop M fuel cur acc =
        (ATracksLoop M fuel cur [] >>= fun r => Res.ok (acc ++ r)) := by
  intro fuel
  induction fuel with
  | zero => intro cur acc; cases cur <;> simp [ATracksLoop]
  | succ n ih =>
    intro cur acc
    cases cur with
    | none => simp [ATracksLoop]
    | some c =>
      conv_lhs => unfold ATracksLoop
      conv_rhs => unfold ATracksLoop
      cases htk : M.track c with
      | fault e => simp
      | ok tk =>
        simp only [Res.ok_bind]
        cases hp : tk.m_parent with
        | none =>
          simp only
          rw [ih none (acc ++ [c]), ih none ([] ++ [c])]
          cases ATracksLoop M n none [] with
          | fault e => simp
          | ok r => simp
        | some p =>
          simp only
          cases hps : M.state p with
          | fault e => simp
          | ok ps =>
            simp only [Res.ok_bind]
            rw [ih (some ps.m_parent) (acc ++ [c]), ih (some ps.m_parent) ([] ++ [c])]
            cases ATracksLoop M n (some ps.m_parent) [] with
            | fault e => simp
            | ok r => simp

theorem Model.WF.BTracksLoop_congr_mem {M : Model} (wf : M.WF) {A A' : List TrackPtr} :
    ∀ (fuel u : Nat), u < M.trackHeap.length →
      (∀ x ∈ M.ancestors u, x ∈ A ↔ x ∈ A') →
      BTracksLoop M A fuel (some u) = BTracksLoop M A' fuel (some u) := by
  intro fuel
  induction fuel with
  | zero => intro u _ _; simp [BTracksLoop]
  | succ n ih =>
    intro u hu h
    conv_lhs => unfold BTracksLoop
    conv_rhs => unfold BTracksLoop
    have hself := h u (wf.mem_ancestors_self hu)
    by_cases huA : u ∈ A
    · have huA' := hself.1 huA
      simp only [huA, huA', if_true]
    · have huA' : u ∉ A' := fun e => huA (hself.2 e)
      simp only [huA, huA', if_false]
      obtain ⟨tk, htk, htk'⟩ := track_of_lt hu
      simp only [htk', Res.ok_bind]
      cases hp : tk.m_parent with
      | none => rfl
      | some p =>
        simp only
        cases hps : M.state p with
        | fault e => rfl
        | ok ps =>
          simp only [Res.ok_bind]
          have htp : M.trackParent u = some p := trackParent_eq_some.2 ⟨tk, htk, hp⟩
          have hsp : M.stateTrack p = some ps.m_parent :=
            stateTrack_eq_some.2 ⟨ps, state_eq_ok.1 hps, rfl⟩
          refine ih ps.m_parent (wf.stateTrack_lt hsp).2 ?_
          intro x hx
          exact h x (by rw [wf.ancestors_step htp hsp]; exact List.mem_cons_of_mem _ hx)

theorem Model.WF.fcct_agree {M : Model} (wf : M.WF) {S T ta tb : Nat}
    (hS : M.stateTrack S = some ta) (hT : M.stateTrack T = some tb)
    (hST : ∀ c ∈ M.childTracks S, c ∉ M.ancestors tb)
    (hTS : ∀ c ∈ M.childTracks T, c ∉ M.ancestors ta) (fuel : Nat) :
    _FindClosestCommonTrack M fuel S T =
      UStateMachineComponent._FindClosestCommonTrack M fuel S T := by
  obtain ⟨sa, hsa, hpa⟩ := stateTrack_eq_some.1 hS
  obtain ⟨sb, hsb, hpb⟩ := stateTrack_eq_some.1 hT
  have hta := (wf.stateTrack_lt hS).2
  have htb := (wf.stateTrack_lt hT).2
  have hcS : M.childTracks S = sa.m_tracks.map Prod.snd := by
    unfold Model.childTracks
    rw [hsa]
  have hcT : M.childTracks T = sb.m_tracks.map Prod.snd := by
    unfold Model.childTracks
    rw [hsb]
  unfold _FindClosestCommonTrack UStateMachineComponent._FindClosestCommonTrack
  simp only [state_eq_ok.2 hsa, state_eq_ok.2 hsb, Res.ok_bind, hpa, hpb]
  by_cases hab : ta = tb
  · simp only [hab, if_true]
  · simp only [hab, if_false]
    rw [ATracksLoop_acc fuel (some ta) (sa.m_tracks.map Prod.snd)]
    cases hA : ATracksLoop M fuel (some ta) [] with
    | fault e => rfl
    | ok r =>
      simp only [Res.ok_bind]
      have hr : r = M.ancestors ta := by
        have := (wf.ATracksLoop_spec ta hta fuel []).2 r hA
        simpa using this
      subst hr
      have hnone : (sb.m_tracks.map Prod.snd).find?
          (fun t => decide (t ∈ sa.m_tracks.map Prod.snd ++ M.ancestors ta)) = none := by
        rw [List.find?_eq_none]
        intro c hc
        simp only [decide_eq_true_eq]
        intro hmem
        rw [← hcT] at hc
        rcases List.mem_append.1 hmem with h | h
        · rw [← hcS] at h
          have h1 := (wf.childTracks_parent h).1
          have h2 := (wf.childTracks_parent hc).1
          rw [h1] at h2
          simp only [Option.some.injEq] at h2
          rw [h2] at hS
          rw [hS] at hT
          simp only [Option.some.injEq] at hT
          exact hab hT
        · exact hTS c hc h
      simp only [hnone]
      refine wf.BTracksLoop_congr_mem fuel tb htb ?_
      intro x hx
      constructor
      · intro hmem
        rcases List.mem_append.1 hmem with h | h
        · rw [← hcS] at h
          exact absurd hx (hST x h)
        · exact h
      · intro hmem
        exact List.mem_append_right _ hmem

/-- C35 (agreement of the common-track functions off the ancestor case). On a well-formed
model, for two states `S` and `T` whose ancestor-track chains hold the same root track, such
that `T` lies under no child track of `S` and `S` under no child track of `T`,
`UHierarchicalStateMachine::_FindClosestCommonTrack(S, T)` and
`UStateMachineComponent::_FindClosestCommonTrack(S, T)` have the same result for every bound on
the number of loop iterations; with a bound above the number of tracks both return the same
track, which is on both chains. -/
theorem C35_common_track_agreement (M : Model) (S T ta tb : Nat) (wf : M.WF)
    (hS : M.stateTrack S = some ta) (hT : M.stateTrack T = some tb)
    (hroot : ∃ r, M.isRoot r = true ∧ r ∈ M.ancestors ta ∧ r ∈ M.ancestors tb)
    (hST : ∀ c ∈ M.childTracks S, c ∉ M.ancestors tb)
    (hTS : ∀ c ∈ M.childTracks T, c ∉ M.ancestors ta) :
    (∀ fuel : Nat, _FindClosestCommonTrack M fuel S T =
      UStateMachineComponent._FindClosestCommonTrack M fuel S T) ∧
    (∀ fuel : Nat, M.trackHeap.length + 1 ≤ fuel →
      ∃ L : Nat, _FindClosestCommonTrack M fuel S T = Res.ok (some L) ∧
        UStateMachineComponent._FindClosestCommonTrack M fuel S T = Res.ok (some L) ∧
        L ∈ M.ancestors ta ∧ L ∈ M.ancestors tb) := by
  have hagree := wf.fcct_agree hS hT hST hTS
  refine ⟨hagree, ?_⟩
  intro fuel hf
  obtain ⟨r, _, hra, hrb⟩ := hroot
  obtain ⟨L, hL, hLb, hLa⟩ := wf.fcct_total hS hT ⟨r, hrb, hra⟩ hTS hf
  refine ⟨L, hL, by rw [← hagree fuel]; exact hL, ?_, hLb⟩
  rcases hLa with h | h
  · exact h
  · exact absurd hLb (hST L h)

/-- Witness for C35 on Scenario B : for `jumping` and `hurt` both functions return the root
track `life`. -/
theorem C35_common_track_agreement_witness :
    (∀ fuel : Nat, _FindClosestCommonTrack scenarioB fuel 2 4 =
      UStateMachineComponent._FindClosestCommonTrack scenarioB fuel 2 4) ∧
    (∀ fuel : Nat, scenarioB.trackHeap.length + 1 ≤ fuel →
      ∃ L : Nat, _FindClosestCommonTrack scenarioB fuel 2 4 = Res.ok (some L) ∧
        UStateMachineComponent._FindClosestCommonTrack scenarioB fuel 2 4 = Res.ok (some L) ∧
        L ∈ scenarioB.ancestors 1 ∧ L ∈ scenarioB.ancestors 2) :=
  C35_common_track_agreement scenarioB 2 4 1 2 (by decide) (by decide) (by decide)
    ⟨0, by decide, by decide, by decide⟩ (by decide) (by decide)

/-- In the ancestor case the two functions differ: on Scenario B, for `alive` and `grounded`
in either order, `UHierarchicalStateMachine::_FindClosestCommonTrack` returns the child track
`motion` and `UStateMachineComponent::_FindClosestCommonTrack` the root track `life`. -/
theorem fcct_differ_ancestor :
    _FindClosestCommonTrack scenarioB 4 0 1 = Res.ok (some 1) ∧
    UStateMachineComponent._FindClosestCommonTrack scenarioB 4 0 1 = Res.ok (some 0) ∧
    _FindClosestCommonTrack scenarioB 4 1 0 = Res.ok (some 1) ∧
    UStateMachineComponent._FindClosestCommonTrack scenarioB 4 1 0 = Res.ok (some 0) := by
  decide

/-! ## `HSM::FindClosestCommonTrack` on machines made with the builder of `HSM` -/

theorem Model.WF.ancestors_last_root {M : Model} (wf : M.WF) :
    ∀ (t : Nat), t < M.trackHeap.length →
      ∃ r : Nat, (M.ancestors t).getLast? = some r ∧ M.isRoot r = true := by
  intro t
  induction t using Nat.strong_induction_on with
  | _ t ih =>
    intro ht
    obtain ⟨tk, htk, _⟩ := track_of_lt ht
    cases hp : tk.m_parent with
    | none =>
      have hroot : M.isRoot t = true := isRoot_iff.2 ⟨tk, htk, hp⟩
      exact ⟨t, by rw [wf.ancestors_root hroot]; rfl, hroot⟩
    | some p =>
      have htp : M.trackParent t = some p := trackParent_eq_some.2 ⟨tk, htk, hp⟩
      obtain ⟨_, _, v, hv, hvt⟩ := wf.trackParent_lt htp
      obtain ⟨r, hr, hroot⟩ := ih v hvt (wf.stateTrack_lt hv).2
      refine ⟨r, ?_, hroot⟩
      rw [wf.ancestors_step htp hv]
      have hne : M.ancestors v ≠ [] := by
        intro e
        rw [e] at hr
        simp at hr
      obtain ⟨y, ys, hys⟩ := List.exists_cons_of_ne_nil hne
      rw [hys] at hr ⊢
      rw [List.getLast?_cons_cons]
      exact hr

theorem Model.WF.ATracksLoop_safe {M : Model} (wf : M.WF) :
    ∀ (fuel u : Nat) (acc : List TrackPtr), u < M.trackHeap.length →
      ATracksLoop M fuel (some u) acc = Res.ok (acc ++ M.ancestors u) ∨
      ATracksLoop M fuel (some u) acc = Res.fault Fault.outOfFuel := by
  intro fuel
  induction fuel with
  | zero => intro u acc _; exact Or.inr rfl
  | succ n ih =>
    intro u acc hu
    obtain ⟨tk, htk, htk'⟩ := track_of_lt hu
    have hstep : ATracksLoop M (n + 1) (some u) acc =
        (match tk.m_parent with
          | none => ATracksLoop M n none (acc ++ [u])
          | some p => M.state p >>= fun ps => ATracksLoop M n (some ps.m_parent) (acc ++ [u])) := by
      conv_lhs => unfold ATracksLoop
      simp only [htk', Res.ok_bind]
      try rfl
    rw [hstep]
    cases hp : tk.m_parent with
    | none =>
      simp only
      have hroot : M.isRoot u = true := isRoot_iff.2 ⟨tk, htk, hp⟩
      rw [wf.ancestors_root hroot]
      cases n with
      | zero => exact Or.inr rfl
      | succ m => exact Or.inl rfl
    | some p =>
      simp only
      have htp : M.trackParent u = some p := trackParent_eq_some.2 ⟨tk, htk, hp⟩
      obtain ⟨_, _, v, hv, _⟩ := wf.trackParent_lt htp
      obtain ⟨ps, hps, hpv⟩ := stateTrack_eq_some.1 hv
      simp only [state_eq_ok.2 hps, Res.ok_bind, hpv]
      rw [wf.ancestors_step htp hv]
      have := ih v (acc ++ [u]) (wf.stateTrack_lt hv).2
      simpa using this

theorem Model.WF.BTracksLoop_safe {M : Model} (wf : M.WF) {A : List TrackPtr} :
    ∀ (fuel u : Nat), u < M.trackHeap.length → (∃ x ∈ M.ancestors u, x ∈ A) →
      (∃ L : Nat, BTracksLoop M A fuel (some u) = Res.ok (some L) ∧ L ∈ A ∧
        L ∈ M.ancestors u) ∨
      BTracksLoop M A fuel (some u) = Res.fault Fault.outOfFuel := by
  intro fuel
  induction fuel with
  | zero => intro u _ _; exact Or.inr rfl
  | succ n ih =>
    intro u hu hshare
    by_cases huA : u ∈ A
    · refine Or.inl ⟨u, ?_, huA, wf.mem_ancestors_self hu⟩
      unfold BTracksLoop
      simp only [huA, if_true]
    · obtain ⟨tk, htk, htk'⟩ := track_of_lt hu
      have hstep : BTracksLoop M A (n + 1) (some u) =
          (match tk.m_parent with
            | none => Res.fault Fault.nullDeref
            | some p => M.state p >>= fun ps => BTracksLoop M A n (some ps.m_parent)) := by
        conv_lhs => unfold BTracksLoop
        simp only [huA, if_false, htk', Res.ok_bind]
        try rfl
      rw [hstep]
      cases hp : tk.m_parent with
      | none =>
        have hroot : M.isRoot u = true := isRoot_iff.2 ⟨tk, htk, hp⟩
        obtain ⟨x, hx, hxA⟩ := hshare
        rw [wf.ancestors_root hroot, List.mem_singleton] at hx
        rw [hx] at hxA
        exact absurd hxA huA
      | some p =>
        simp only
        have htp : M.trackParent u = some p := trackParent_eq_some.2 ⟨tk, htk, hp⟩
        obtain ⟨_, _, v, hv, _⟩ := wf.trackParent_lt htp
        obtain ⟨ps, hps, hpv⟩ := stateTrack_eq_some.1 hv
        simp only [state_eq_ok.2 hps, Res.ok_bind, hpv]
        have hanc := wf.ancestors_step htp hv
        have hshare' : ∃ x ∈ M.ancestors v, x ∈ A := by
          obtain ⟨x, hx, hxA⟩ := hshare
          rw [hanc] at hx
          rcases List.mem_cons.1 hx with h | h
          · rw [h] at hxA
            exact absurd hxA huA
          · exact ⟨x, h, hxA⟩
        rcases ih v (wf.stateTrack_lt hv).2 hshare' with ⟨L, h1, h2, h3⟩ | h
        · exact Or.inl ⟨L, h1, h2, by rw [hanc]; exact List.mem_cons_of_mem _ h3⟩
        · exact Or.inr h

theorem Model.WF.hsm_fcct_safe {M : Model} (wf : M.WF) {a b ta tb : Nat}
    (ha : M.stateTrack a = some ta) (hb : M.stateTrack b = some tb)
    (hshare : ∃ x ∈ M.ancestors tb, x ∈ M.ancestors ta) (fuel : Nat) :
    (∃ L : Nat, HSM.FindClosestCommonTrack M fuel a b = Res.ok (some L) ∧
      L ∈ M.ancestors ta ∧ L ∈ M.ancestors tb) ∨
    HSM.FindClosestCommonTrack M fuel a b = Res.fault Fault.outOfFuel := by
  obtain ⟨sa, hsa, hpa⟩ := stateTrack_eq_some.1 ha
  obtain ⟨sb, hsb, hpb⟩ := stateTrack_eq_some.1 hb
  have hta := (wf.stateTrack_lt ha).2
  have htb := (wf.stateTrack_lt hb).2
  unfold HSM.FindClosestCommonTrack
  simp only [state_eq_ok.2 hsa, state_eq_ok.2 hsb, Res.ok_bind, hpa, hpb]
  by_cases hab : ta = tb
  · subst hab
    simp only [if_true]
    exact Or.inl ⟨ta, rfl, wf.mem_ancestors_self hta, wf.mem_ancestors_self hta⟩
  · simp only [hab, if_false]
    rcases wf.ATracksLoop_safe fuel ta [] hta with hA | hA
    · simp only [hA, Res.ok_bind, List.nil_append]
      rcases wf.BTracksLoop_safe (A := M.ancestors ta) fuel tb htb hshare with
        ⟨L, h1, h2, h3⟩ | h
      · simp only [h1, Res.ok_bind]
        exact Or.inl ⟨L, rfl, h2, h3⟩
      · simp only [h, Res.fault_bind]
        exact Or.inr trivial
    · simp only [hA, Res.fault_bind]
      exact Or.inr trivial

theorem Model.WF.hsm_fcct_total {M : Model} (wf : M.WF) {a b ta tb fuel : Nat}
    (ha : M.stateTrack a = some ta) (hb : M.stateTrack b = some tb)
    (hshare : ∃ x ∈ M.ancestors tb, x ∈ M.ancestors ta)
    (hf : M.trackHeap.length + 1 ≤ fuel) :
    ∃ L : Nat, HSM.FindClosestCommonTrack M fuel a b = Res.ok (some L) ∧
      L ∈ M.ancestors ta ∧ L ∈ M.ancestors tb := by
  rcases wf.hsm_fcct_safe ha hb hshare fuel with h | h
  · exact h
  · exfalso
    obtain ⟨sa, hsa, hpa⟩ := stateTrack_eq_some.1 ha
    obtain ⟨sb, hsb, hpb⟩ := stateTrack_eq_some.1 hb
    have hta : ta < M.trackHeap.length := (wf.stateTrack_lt ha).2
    have htb : tb < M.trackHeap.length := (wf.stateTrack_lt hb).2
    unfold HSM.FindClosestCommonTrack at h
    simp only [state_eq_ok.2 hsa, state_eq_ok.2 hsb, Res.ok_bind, hpa, hpb] at h
    by_cases hab : ta = tb
    · simp [hab] at h
    · simp only [hab, if_false] at h
      rw [(wf.ATracksLoop_spec ta hta fuel []).1 (by omega)] at h
      simp only [Res.ok_bind, List.nil_append] at h
      obtain ⟨L, hL⟩ := wf.BTracksLoop_total (A := M.ancestors ta) tb htb fuel hshare (by omega)
      rw [hL] at h
      simp at h

theorem hsm_built_of_buildExample {M : Model} (h : HSM.buildExample = Res.ok M) :
    HSM.Built M := by
  unfold HSM.buildExample at h
  obtain ⟨⟨M1, alive⟩, h1, h⟩ := Res.bind_eq_ok.1 h
  obtain ⟨⟨M2, motion⟩, h2, h⟩ := Res.bind_eq_ok.1 h
  obtain ⟨⟨M3, s3⟩, h3, h⟩ := Res.bind_eq_ok.1 h
  obtain ⟨⟨M4, s4⟩, h4, h⟩ := Res.bind_eq_ok.1 h
  obtain ⟨⟨M5, health⟩, h5, h⟩ := Res.bind_eq_ok.1 h
  obtain ⟨⟨M6, s6⟩, h6, h⟩ := Res.bind_eq_ok.1 h
  obtain ⟨⟨M7, s7⟩, h7, h⟩ := Res.bind_eq_ok.1 h
  obtain ⟨⟨M8, s8⟩, h8, h⟩ := Res.bind_eq_ok.1 h
  exact HSM.Built.addEventTransition
    (HSM.Built.addState
      (HSM.Built.addState
        (HSM.Built.addDefaultState
          (HSM.Built.addTrack
            (HSM.Built.addState
              (HSM.Built.addDefaultState
                (HSM.Built.addTrack
                  (HSM.Built.addDefaultState HSM.Built.init h1) h2) h3) h4) h5) h6) h7) h8) h

theorem hsm_example_built : HSM.Built HSM.exampleMachine :=
  hsm_built_of_buildExample (by decide)

/-- C34 (`HSM::FindClosestCommonTrack` never reaches `checkNoEntry`). On a machine made with the
builder of `HSM` (the constructor, then calls of `Track::AddState`, `Track::AddDefaultState`,
`State::AddTrack` and `AddEventTransition` that return), for any two states of the arena: the
ancestor-track chains of both end at the root track `m_root`, which has no parent; for every
bound on the number of loop iterations the function neither fails its `checkNoEntry` nor
dereferences a null pointer; and with a bound above the number of tracks it returns a track
that lies on both chains. -/
theorem C34_hsm_common_track (M : Model) (a b : Nat) (hbuilt : HSM.Built M)
    (ha : a < M.stateHeap.length) (hb : b < M.stateHeap.length) :
    ∃ ta tb : Nat, M.stateTrack a = some ta ∧ M.stateTrack b = some tb ∧
      (M.ancestors ta).getLast? = some HSM.GetRootTrack ∧
      (M.ancestors tb).getLast? = some HSM.GetRootTrack ∧
      M.isRoot HSM.GetRootTrack = true ∧
      (∀ fuel : Nat,
        HSM.FindClosestCommonTrack M fuel a b ≠ Res.fault Fault.assertFailed ∧
        HSM.FindClosestCommonTrack M fuel a b ≠ Res.fault Fault.nullDeref) ∧
      (∀ fuel : Nat, M.trackHeap.length + 1 ≤ fuel →
        ∃ L : Nat, HSM.FindClosestCommonTrack M fuel a b = Res.ok (some L) ∧
          L ∈ M.ancestors ta ∧ L ∈ M.ancestors tb) := by
  obtain ⟨inv, hroots, _⟩ := hsm_built_inv hbuilt
  have wf := inv.wf
  obtain ⟨sa, hsa, _⟩ := state_of_lt ha
  obtain ⟨sb, hsb, _⟩ := state_of_lt hb
  have hta : M.stateTrack a = some sa.m_parent := stateTrack_eq_some.2 ⟨sa, hsa, rfl⟩
  have htb : M.stateTrack b = some sb.m_parent := stateTrack_eq_some.2 ⟨sb, hsb, rfl⟩
  have hlast : ∀ t : Nat, t < M.trackHeap.length →
      (M.ancestors t).getLast? = some HSM.GetRootTrack ∧ M.isRoot HSM.GetRootTrack = true := by
    intro t ht
    obtain ⟨r, hr, hroot⟩ := wf.ancestors_last_root t ht
    obtain ⟨tk, htk, _⟩ := isRoot_iff.1 hroot
    have hmem := wf.root_listed r (lt_of_getElem?_eq_some htk) hroot
    rw [hroots, List.mem_singleton] at hmem
    subst hmem
    exact ⟨hr, hroot⟩
  have hla := hlast _ (wf.stateTrack_lt hta).2
  have hlb := hlast _ (wf.stateTrack_lt htb).2
  have hshare : ∃ x ∈ M.ancestors sb.m_parent, x ∈ M.ancestors sa.m_parent :=
    ⟨HSM.GetRootTrack, List.mem_of_mem_getLast? hlb.1, List.mem_of_mem_getLast? hla.1⟩
  refine ⟨sa.m_parent, sb.m_parent, hta, htb, hla.1, hlb.1, hla.2, ?_, ?_⟩
  · intro fuel
    rcases wf.hsm_fcct_safe hta htb hshare fuel with ⟨L, h, _⟩ | h
    · rw [h]
      exact ⟨by simp, by simp⟩
    · rw [h]
      exact ⟨by simp, by simp⟩
  · intro fuel hf
    exact wf.hsm_fcct_total hta htb hshare hf

/-- Witness for C34 on the example of `HSM.h` : the states `jumping` and `hurt`. -/
theorem C34_hsm_common_track_witness :
    ∃ ta tb : Nat, HSM.exampleMachine.stateTrack 2 = some ta ∧
      HSM.exampleMachine.stateTrack 4 = some tb ∧
      (HSM.exampleMachine.ancestors ta).getLast? = some HSM.GetRootTrack ∧
      (HSM.exampleMachine.ancestors tb).getLast? = some HSM.GetRootTrack ∧
      HSM.exampleMachine.isRoot HSM.GetRootTrack = true ∧
      (∀ fuel : Nat,
        HSM.FindClosestCommonTrack HSM.exampleMachine fuel 2 4 ≠ Res.fault Fault.assertFailed ∧
        HSM.FindClosestCommonTrack HSM.exampleMachine fuel 2 4 ≠ Res.fault Fault.nullDeref) ∧
      (∀ fuel : Nat, HSM.exampleMachine.trackHeap.length + 1 ≤ fuel →
        ∃ L : Nat, HSM.FindClosestCommonTrack HSM.exampleMachine fuel 2 4 = Res.ok (some L) ∧
          L ∈ HSM.exampleMachine.ancestors ta ∧ L ∈ HSM.exampleMachine.ancestors tb) :=
  C34_hsm_common_track HSM.exampleMachine 2 4 hsm_example_built (by decide) (by decide)

/-! ## Number of steps of the upward walks -/

theorem ancestorsAux_length_le (M : Model) :
    ∀ (n t : Nat), (M.ancestorsAux n t).length ≤ n := by
  intro n
  induction n with
  | zero => intro t; simp [Model.ancestorsAux]
  | succ k ih =>
    intro t
    unfold Model.ancestorsAux
    simp only [List.length_cons]
    apply Nat.succ_le_succ
    split
    · simp
    · split
      · simp
      · exact ih _

theorem depth_le (M : Model) (t : Nat) : M.depth t ≤ M.trackHeap.length :=
  ancestorsAux_length_le M _ t

theorem Model.WF.depth_root {M : Model} (wf : M.WF) {t : Nat} (h : M.isRoot t = true) :
    M.depth t = 1 := by
  unfold Model.depth
  rw [wf.ancestors_root h]
  rfl

theorem Model.WF.depth_step {M : Model} (wf : M.WF) {t v p : Nat}
    (hp : M.trackParent t = some p) (hv : M.stateTrack p = some v) :
    M.depth t = M.depth v + 1 := by
  unfold Model.depth
  rw [wf.ancestors_step hp hv]
  rfl

theorem Model.WF.up {M : Model} (wf : M.WF) {u : Nat} (hu : u < M.trackHeap.length) :
    ∃ tk, M.track u = Res.ok tk ∧
      ((tk.m_parent = none ∧ M.isRoot u = true) ∨
       (∃ (p v : Nat) (ps : State), tk.m_parent = some p ∧ M.state p = Res.ok ps ∧
          ps.m_parent = v ∧ M.trackParent u = some p ∧ M.stateTrack p = some v ∧ v < u ∧
          v < M.trackHeap.length)) := by
  obtain ⟨tk, htk, htk'⟩ := track_of_lt hu
  refine ⟨tk, htk', ?_⟩
  cases hp : tk.m_parent with
  | none => exact Or.inl ⟨rfl, isRoot_iff.2 ⟨tk, htk, hp⟩⟩
  | some p =>
    have htp : M.trackParent u = some p := trackParent_eq_some.2 ⟨tk, htk, hp⟩
    obtain ⟨_, _, v, hv, hvu⟩ := wf.trackParent_lt htp
    obtain ⟨ps, hps, hpv⟩ := stateTrack_eq_some.1 hv
    exact Or.inr ⟨p, v, ps, rfl, state_eq_ok.2 hps, hpv, htp, hv, hvu, (wf.stateTrack_lt hv).2⟩

theorem Model.WF.IsInTrackLoop_depth {M : Model} (wf : M.WF) (tr : Option TrackPtr) :
    ∀ (u : Nat), u < M.trackHeap.length → ∀ fuel : Nat, M.depth u + 1 ≤ fuel →
      ∃ b, IsInTrackLoop M tr fuel (some u) = Res.ok b := by
  intro u
  induction u using Nat.strong_induction_on with
  | _ u ih =>
    intro hu fuel hf
    obtain ⟨n, rfl⟩ : ∃ n, fuel = n + 1 := ⟨fuel - 1, by omega⟩
    by_cases hc : some u = tr
    · refine ⟨true, ?_⟩
      unfold IsInTrackLoop
      simp only [hc, if_true]
    · obtain ⟨tk, htk, hcase⟩ := wf.up hu
      rcases hcase with ⟨hp, hroot⟩ | ⟨p, v, ps, hp, hps, hpv, htp, hv, hvu, hvlt⟩
      · have hd := wf.depth_root hroot
        obtain ⟨m, rfl⟩ : ∃ m, n = m + 1 := ⟨n - 1, by omega⟩
        refine ⟨false, ?_⟩
        conv_lhs => unfold IsInTrackLoop
        simp only [hc, if_false, htk, Res.ok_bind, hp]
        rfl
      · have hd := wf.depth_step htp hv
        obtain ⟨b, hb⟩ := ih v hvu hvlt n (by omega)
        refine ⟨b, ?_⟩
        conv_lhs => unfold IsInTrackLoop
        simp only [hc, if_false, htk, Res.ok_bind, hp, hps, hpv]
        exact hb

theorem Model.WF.IsInTrackLoop_tight {M : Model} (wf : M.WF) (L : Nat) :
    ∀ (u : Nat), u < M.trackHeap.length → L ∉ M.ancestors u →
      IsInTrackLoop M (some L) (M.depth u) (some u) = Res.fault Fault.outOfFuel := by
  intro u
  induction u using Nat.strong_induction_on with
  | _ u ih =>
    intro hu hL
    have hc : ¬ (some u = some L) := by
      intro e
      simp only [Option.some.injEq] at e
      exact hL (e ▸ wf.mem_ancestors_self hu)
    obtain ⟨tk, htk, hcase⟩ := wf.up hu
    rcases hcase with ⟨hp, hroot⟩ | ⟨p, v, ps, hp, hps, hpv, htp, hv, hvu, hvlt⟩
    · rw [wf.depth_root hroot]
      conv_lhs => unfold IsInTrackLoop
      simp only [hc, if_false, htk, Res.ok_bind, hp]
      rfl
    · rw [wf.depth_step htp hv]
      conv_lhs => unfold IsInTrackLoop
      simp only [hc, if_false, htk, Res.ok_bind, hp, hps, hpv]
      refine ih v hvu hvlt ?_
      intro e
      exact hL (by rw [wf.ancestors_step htp hv]; exact List.mem_cons_of_mem _ e)

theorem Model.WF.ATracksLoop_depth {M : Model} (wf : M.WF) :
    ∀ (u : Nat), u < M.trackHeap.length → ∀ (fuel : Nat) (acc : List TrackPtr),
      M.depth u + 1 ≤ fuel → ATracksLoop M fuel (some u) acc = Res.ok (acc ++ M.ancestors u) := by
  intro u
  induction u using Nat.strong_induction_on with
  | _ u ih =>
    intro hu fuel acc hf
    obtain ⟨n, rfl⟩ : ∃ n, fuel = n + 1 := ⟨fuel - 1, by omega⟩
    obtain ⟨tk, htk, hcase⟩ := wf.up hu
    rcases hcase with ⟨hp, hroot⟩ | ⟨p, v, ps, hp, hps, hpv, htp, hv, hvu, hvlt⟩
    · have hd := wf.depth_root hroot
      obtain ⟨m, rfl⟩ : ∃ m, n = m + 1 := ⟨n - 1, by omega⟩
      conv_lhs => unfold ATracksLoop
      simp only [htk, Res.ok_bind, hp]
      rw [wf.ancestors_root hroot]
      rfl
    · have hd := wf.depth_step htp hv
      conv_lhs => unfold ATracksLoop
      simp only [htk, Res.ok_bind, hp, hps, hpv]
      rw [ih v hvu hvlt n (acc ++ [u]) (by omega), wf.ancestors_step htp hv]
      simp

theorem Model.WF.BTracksLoop_depth {M : Model} (wf : M.WF) (A : List TrackPtr) :
    ∀ (u : Nat), u < M.trackHeap.length → ∀ (fuel fuel' : Nat),
      M.depth u + 1 ≤ fuel → M.depth u + 1 ≤ fuel' →
      BTracksLoop M A fuel (some u) ≠ Res.fault Fault.outOfFuel ∧
      BTracksLoop M A fuel' (some u) = BTracksLoop M A fuel (some u) := by
  intro u
  induction u using Nat.strong_induction_on with
  | _ u ih =>
    intro hu fuel fuel' hf hf'
    obtain ⟨n, rfl⟩ : ∃ n, fuel = n + 1 := ⟨fuel - 1, by omega⟩
    obtain ⟨n', rfl⟩ : ∃ n', fuel' = n' + 1 := ⟨fuel' - 1, by omega⟩
    by_cases hc : u ∈ A
    · have h1 : ∀ k, BTracksLoop M A (k + 1) (some u) = Res.ok (some u) := by
        intro k
        unfold BTracksLoop
        simp only [hc, if_true]
      rw [h1 n, h1 n']
      exact ⟨by simp, rfl⟩
    · obtain ⟨tk, htk, hcase⟩ := wf.up hu
      rcases hcase with ⟨hp, hroot⟩ | ⟨p, v, ps, hp, hps, hpv, htp, hv, hvu, hvlt⟩
      · have h1 : ∀ k, BTracksLoop M A (k + 1) (some u) = Res.fault Fault.nullDeref := by
          intro k
          unfold BTracksLoop
          simp only [hc, if_false, htk, Res.ok_bind, hp]
        rw [h1 n, h1 n']
        exact ⟨by simp, rfl⟩
      · have hd := wf.depth_step htp hv
        have h1 : ∀ k, BTracksLoop M A (k + 1) (some u) = BTracksLoop M A k (some v) := by
          intro k
          conv_lhs => unfold BTracksLoop
          simp only [hc, if_false, htk, Res.ok_bind, hp, hps, hpv]
        rw [h1 n, h1 n']
        exact ih v hvu hvlt n n' (by omega) (by omega)

theorem Model.WF.isInTrack_depth {M : Model} (wf : M.WF) {s t fuel : Nat}
    (tr : Option TrackPtr) (hs : M.stateTrack s = some t) (hf : M.depth t + 1 ≤ fuel) :
    ∃ b, IsInTrack M fuel s tr = Res.ok b := by
  obtain ⟨st, hst, hp⟩ := stateTrack_eq_some.1 hs
  unfold IsInTrack
  simp only [state_eq_ok.2 hst, Res.ok_bind, hp]
  exact wf.IsInTrackLoop_depth tr t (wf.stateTrack_lt hs).2 fuel hf

theorem Model.WF.isInTrack_tight {M : Model} (wf : M.WF) {s t L : Nat}
    (hs : M.stateTrack s = some t) (hL : M.inSubtree L s = false) :
    IsInTrack M (M.depth t) s (some L) = Res.fault Fault.outOfFuel := by
  obtain ⟨st, hst, hp⟩ := stateTrack_eq_some.1 hs
  unfold IsInTrack
  simp only [state_eq_ok.2 hst, Res.ok_bind, hp]
  refine wf.IsInTrackLoop_tight L t (wf.stateTrack_lt hs).2 ?_
  intro e
  rw [(inSubtree_iff hs).2 e] at hL
  cases hL

theorem Model.WF.fcct_depth {M : Model} (wf : M.WF) {a b ta tb fuel fuel' : Nat}
    (ha : M.stateTrack a = some ta) (hb : M.stateTrack b = some tb)
    (hfa : M.depth ta + 1 ≤ fuel) (hfb : M.depth tb + 1 ≤ fuel) (hle : fuel ≤ fuel') :
    _FindClosestCommonTrack M fuel a b ≠ Res.fault Fault.outOfFuel ∧
    _FindClosestCommonTrack M fuel' a b = _FindClosestCommonTrack M fuel a b := by
  obtain ⟨sa, hsa, hpa⟩ := stateTrack_eq_some.1 ha
  obtain ⟨sb, hsb, hpb⟩ := stateTrack_eq_some.1 hb
  have hta := (wf.stateTrack_lt ha).2
  have htb := (wf.stateTrack_lt hb).2
  have hunf : ∀ f : Nat, M.depth ta + 1 ≤ f →
      _FindClosestCommonTrack M f a b =
        if ta = tb then Res.ok (some ta)
        else
          match (sb.m_tracks.map Prod.snd).find?
              (fun t => decide (t ∈ sa.m_tracks.map Prod.snd ++ M.ancestors ta)) with
          | some t => Res.ok (some t)
          | none => BTracksLoop M (sa.m_tracks.map Prod.snd ++ M.ancestors ta) f (some tb) := by
    intro f hf
    unfold _FindClosestCommonTrack
    simp only [state_eq_ok.2 hsa, state_eq_ok.2 hsb, Res.ok_bind, hpa, hpb]
    by_cases hab : ta = tb
    · simp only [hab, if_true, Res.pure_eq]
    · simp only [hab, if_false, wf.ATracksLoop_depth ta hta f _ hf, Res.ok_bind]
      cases (sb.m_tracks.map Prod.snd).find?
          (fun t => decide (t ∈ sa.m_tracks.map Prod.snd ++ M.ancestors ta)) with
      | some t => rfl
      | none => rfl
  rw [hunf fuel hfa, hunf fuel' (by omega)]
  by_cases hab : ta = tb
  · simp [hab]
  · simp only [hab, if_false]
    cases (sb.m_tracks.map Prod.snd).find?
        (fun t => decide (t ∈ sa.m_tracks.map Prod.snd ++ M.ancestors ta)) with
    | some t => exact ⟨by simp, rfl⟩
    | none => exact wf.BTracksLoop_depth _ tb htb fuel fuel' hfb (by omega)

/-! ## Firing a transition terminates -/

theorem Model.WF.fcct_terminates {M : Model} (wf : M.WF) {fuel : Nat}
    (hf : M.trackHeap.length + 1 ≤ fuel) (a b : Nat) :
    _FindClosestCommonTrack M fuel a b ≠ Res.fault Fault.outOfFuel := by
  cases hsa : M.stateHeap[a]? with
  | none =>
    unfold _FindClosestCommonTrack Model.state
    simp [hsa]
  | some sa =>
    cases hsb : M.stateHeap[b]? with
    | none =>
      unfold _FindClosestCommonTrack Model.state
      simp [hsa, hsb]
    | some sb =>
      have ha : M.stateTrack a = some sa.m_parent := stateTrack_eq_some.2 ⟨sa, hsa, rfl⟩
      have hb : M.stateTrack b = some sb.m_parent := stateTrack_eq_some.2 ⟨sb, hsb, rfl⟩
      have h1 := depth_le M sa.m_parent
      have h2 := depth_le M sb.m_parent
      exact (wf.fcct_depth ha hb (by omega) (by omega) (Nat.le_refl fuel)).1

theorem Model.WF.pathLoop_terminates {M : Model} (wf : M.WF) (ct : Option TrackPtr) :
    ∀ (u : Nat), u < M.trackHeap.length → ∀ (fuel : Nat) (path : List StatePtr),
      u + 1 ≤ fuel → pathLoop M ct fuel (some u) path ≠ Res.fault Fault.outOfFuel := by
  intro u
  induction u using Nat.strong_induction_on with
  | _ u ih =>
    intro hu fuel path hf
    obtain ⟨n, rfl⟩ : ∃ n, fuel = n + 1 := ⟨fuel - 1, by omega⟩
    by_cases hc : some u = ct
    · unfold pathLoop
      simp [hc]
    · obtain ⟨tk, htk, hcase⟩ := wf.up hu
      rcases hcase with ⟨hp, _⟩ | ⟨p, v, ps, hp, hps, hpv, _, _, hvu, hvlt⟩
      · unfold pathLoop
        simp [hc, htk, hp]
      · have hstep : pathLoop M ct (n + 1) (some u) path =
            pathLoop M ct n (some v) (p :: path) := by
          conv_lhs => unfold pathLoop
          simp only [hc, if_false, htk, Res.ok_bind, hp, hps, hpv]
        rw [hstep]
        exact ih v hvu hvlt n _ (by omega)

theorem Model.WF.exitLoop_terminates {M : Model} (wf : M.WF) {fuel L : Nat}
    (hf : M.trackHeap.length + 1 ≤ fuel) :
    ∀ cur : List StatePtr, exitLoop M fuel (some L) cur ≠ Res.fault Fault.outOfFuel := by
  intro cur
  induction cur with
  | nil => simp [exitLoop]
  | cons s rest ih =>
    rw [exitLoop_cons]
    cases hr : exitLoop M fuel (some L) rest with
    | fault e =>
      rw [hr] at ih
      simpa using ih
    | ok ke =>
      obtain ⟨kept, calls⟩ := ke
      simp only [Res.ok_bind]
      cases hs : M.stateHeap[s]? with
      | none =>
        unfold IsInTrack Model.state
        simp [hs]
      | some st =>
        have hst : M.stateTrack s = some st.m_parent := stateTrack_eq_some.2 ⟨st, hs, rfl⟩
        rw [wf.isInTrack_total hst hf]
        simp only [Res.ok_bind]
        split <;> simp

theorem Model.WF.enterLoop_terminates {M : Model} (wf : M.WF) {Roots : List TrackPtr}
    {P : List StatePtr} :
    ∀ (fuel : Nat) (E : List StatePtr) (stack : List TrackPtr) (path cur : List StatePtr)
      (calls : List HookCall),
      Descent M Roots E stack → PathInv M P E stack path →
      M.trackHeap.length < fuel + E.length →
      enterLoop M fuel stack path cur calls ≠ Res.fault Fault.outOfFuel := by
  intro fuel
  induction fuel with
  | zero =>
    intro E stack path cur calls hD _ hf
    have := hD.length_le wf
    omega
  | succ fuel ih =>
    intro E stack path cur calls hD hP hf
    rcases list_nil_or_snoc stack with rfl | ⟨rest, t, rfl⟩
    · simp [enterLoop]
    · have ht := (hD.stack_origin t (by simp)).1
      rw [wf.enterLoop_step ht (Descent.head_valid hP)]
      cases hc : (enterChoice M t path).1 with
      | none => simp
      | some c =>
        simp only
        have hct := enterChoice_track wf hc
        have hD' := hD.descent_step wf hct
        have hP' := hP.path_step wf hc
        apply ih _ _ _ _ _ hD' hP'
        simp only [List.length_append, List.length_singleton]
        omega

theorem Model.WF.fireTransition_terminates {M : Model} (wf : M.WF) {fuel : Nat}
    (hf : M.trackHeap.length + 1 ≤ fuel) (tr : EventTransition) (σ : Runtime) :
    fireTransition M fuel tr σ ≠ Res.fault Fault.outOfFuel := by
  unfold fireTransition
  by_cases hs : tr.source ∈ σ.m_currentStates
  · simp only [hs, not_true_eq_false, if_false]
    have h1 := wf.fcct_terminates hf tr.source tr.target
    cases hfc : _FindClosestCommonTrack M fuel tr.source tr.target with
    | fault e =>
      rw [hfc] at h1
      simpa using h1
    | ok r =>
      obtain ⟨L, ta, tb, rfl, hta, htb, hLrel⟩ := wf.fcct_ok hfc
      have hLlt : L < M.trackHeap.length := by
        rcases hLrel with ⟨_, h2⟩ | ⟨_, h2, _⟩
        · rw [h2]; exact (wf.stateTrack_lt hta).2
        · rcases List.mem_append.1 h2 with h3 | h3
          · exact (wf.childTracks_parent h3).2
          · exact wf.mem_ancestors_lt (wf.stateTrack_lt hta).2 h3
      obtain ⟨tgt, htgt, hptgt⟩ := stateTrack_eq_some.1 htb
      have htblt : tb < M.trackHeap.length := (wf.stateTrack_lt htb).2
      simp only [Res.ok_bind, state_eq_ok.2 htgt, hptgt]
      have h2 := wf.pathLoop_terminates (some L) tb htblt fuel [tr.target] (by omega)
      cases hpath : pathLoop M (some L) fuel (some tb) [tr.target] with
      | fault e =>
        rw [hpath] at h2
        simpa using h2
      | ok path =>
        simp only [Res.ok_bind]
        have h3 := wf.exitLoop_terminates (L := L) hf σ.m_currentStates
        cases hexit : exitLoop M fuel (some L) σ.m_currentStates with
        | fault e =>
          rw [hexit] at h3
          simpa using h3
        | ok ke =>
          obtain ⟨kept, exits⟩ := ke
          simp only [Res.ok_bind]
          obtain ⟨pre, hpre, hchain, hhead⟩ := pathLoop_ok fuel tb [tr.target] path hpath
            (by intro x hx; simp at hx; subst hx; exact htb) (List.chain'_singleton _)
          have hP0 : PathInv M path [] [L] path :=
            ⟨⟨[], by simp, by simp⟩, fun x hx => ⟨L, by simp, hhead x hx⟩, hchain, by simp⟩
          have h4 := wf.enterLoop_terminates fuel [] [L] path kept (σ.calls ++ exits)
            (Descent.init_single wf hLlt) hP0 (by simp only [List.length_nil]; omega)
          cases henter : enterLoop M fuel [L] path kept (σ.calls ++ exits) with
          | fault e =>
            rw [henter] at h4
            simpa using h4
          | ok r => simp
  · simp [hs]

theorem Descent.enter_bound {M : Model} (wf : M.WF) {L : Nat} {E : List StatePtr}
    (hD : Descent M [L] E []) :
    E.length ≤ M.subtreeSize L ∧ ∀ e ∈ E, M.inSubtree L e = true := by
  have hin : ∀ e ∈ E, ∃ t, M.stateTrack e = some t ∧ L ∈ M.ancestors t := by
    intro e he
    obtain ⟨u, hu⟩ := Option.isSome_iff_exists.1 (hD.valid e he)
    obtain ⟨⟨r, hr, hru⟩, _⟩ := hD.under_root u (Or.inr ⟨e, he, hu⟩)
    rw [List.mem_singleton.1 hr] at hru
    exact ⟨u, hu, hru⟩
  constructor
  · have hsub : E.map M.stateTrack ⊆
        ((List.range M.trackHeap.length).filter
          (fun t => decide (L ∈ M.ancestors t))).map some := by
      intro x hx
      obtain ⟨e, he, rfl⟩ := List.mem_map.1 hx
      obtain ⟨t, ht, hLt⟩ := hin e he
      rw [ht]
      exact List.mem_map.2 ⟨t, List.mem_filter.2
        ⟨List.mem_range.2 (wf.stateTrack_lt ht).2, by simpa using hLt⟩, rfl⟩
    have := (hD.nodupE.subperm hsub).length_le
    simpa [Model.subtreeSize] using this
  · intro e he
    obtain ⟨t, ht, hLt⟩ := hin e he
    exact (inSubtree_iff ht).2 hLt

/-- C32 (bounded single pass). On a well-formed model (a finite arena whose parent links form
a tree), with a bound on loop iterations above the number of tracks: firing a transition never
exhausts the bound, whatever the transition and the configuration; when it returns, the enter
phase has entered a list `E` of states of pairwise distinct tracks, one per track popped, all
in the subtree of the common track `L`, so that the number of on-enter calls is at most the
number of tracks of that subtree; and it does return when every track has a default state,
the configuration holds valid states and the common track is on the chain of the target.
The steps counted are the iterations of the walks up the parent links, and the depth of a state
is the length of the ancestor-track chain of its track. `State::IsInTrack` returns as soon as
the bound exceeds the depth of the state, and does not with the depth itself as bound when the
track sought is not on the chain; in `_FindClosestCommonTrack` each of the two walks has the
bound to itself, and the function never exhausts a bound that exceeds the depths of both
states, its result being the same for every larger bound. -/
theorem C32_bounded_single_pass (M : Model) (fuel : Nat) (wf : M.WF)
    (hf : M.trackHeap.length + 1 ≤ fuel) :
    (∀ (tr : EventTransition) (σ : Runtime),
      fireTransition M fuel tr σ ≠ Res.fault Fault.outOfFuel) ∧
    (∀ (tr : EventTransition) (σ σ' : Runtime), tr.source ∈ σ.m_currentStates →
      fireTransition M fuel tr σ = Res.ok σ' →
      ∃ (L : Nat) (E : List StatePtr),
        _FindClosestCommonTrack M fuel tr.source tr.target = Res.ok (some L) ∧
        σ'.m_currentStates = (exitResult M L σ.m_currentStates).1 ++ E ∧
        σ'.calls = σ.calls ++ (exitResult M L σ.m_currentStates).2 ++ E.map HookCall.enter ∧
        (E.map M.stateTrack).Nodup ∧ (∀ e ∈ E, M.inSubtree L e = true) ∧
        E.length ≤ M.subtreeSize L) ∧
    (∀ (tr : EventTransition) (σ : Runtime) (tb L : Nat), M.HasDefaults →
      (∀ s ∈ σ.m_currentStates, s < M.stateHeap.length) → tr.source ∈ σ.m_currentStates →
      M.stateTrack tr.target = some tb →
      _FindClosestCommonTrack M fuel tr.source tr.target = Res.ok (some L) →
      L ∈ M.ancestors tb → ∃ σ' : Runtime, fireTransition M fuel tr σ = Res.ok σ') ∧
    (∀ (s t : Nat) (track : Option TrackPtr), M.stateTrack s = some t →
      ∀ f : Nat, M.depth t + 1 ≤ f → ∃ b : Bool, IsInTrack M f s track = Res.ok b) ∧
    (∀ (s t L : Nat), M.stateTrack s = some t → M.inSubtree L s = false →
      IsInTrack M (M.depth t) s (some L) = Res.fault Fault.outOfFuel) ∧
    (∀ (a b ta tb : Nat), M.stateTrack a = some ta → M.stateTrack b = some tb →
      ∀ f : Nat, M.depth ta + 1 ≤ f → M.depth tb + 1 ≤ f →
        _FindClosestCommonTrack M f a b ≠ Res.fault Fault.outOfFuel ∧
        ∀ f' : Nat, f ≤ f' →
          _FindClosestCommonTrack M f' a b = _FindClosestCommonTrack M f a b) ∧
    (∀ t : Nat, M.depth t ≤ M.trackHeap.length) := by
  refine ⟨wf.fireTransition_terminates hf, ?_, ?_, ?_, ?_, ?_, depth_le M⟩
  · intro tr σ σ' hs h
    obtain ⟨L, tt, path, E, hfc, _, _, _, hσ', hD, _⟩ := wf.fireTransition_ok hs h
    obtain ⟨hlen, hsub⟩ := hD.enter_bound wf
    exact ⟨L, E, hfc, by rw [hσ'], by rw [hσ'], hD.nodupE, hsub, hlen⟩
  · intro tr σ tb L hd hvalid hS htb hfc hLb
    exact wf.fireTransition_returns hd hvalid hS htb hfc hLb hf
  · intro s t track hs f hfd
    exact wf.isInTrack_depth track hs hfd
  · intro s t L hs hL
    exact wf.isInTrack_tight hs hL
  · intro a b ta tb ha hb f hfa hfb
    exact ⟨(wf.fcct_depth ha hb hfa hfb (Nat.le_refl f)).1,
      fun f' hle => (wf.fcct_depth ha hb hfa hfb hle).2⟩

/-- Witness for C32 on Scenario B, with four loop iterations allowed for its three tracks. -/
theorem C32_bounded_single_pass_witness :
    (∀ (tr : EventTransition) (σ : Runtime),
      fireTransition scenarioB 4 tr σ ≠ Res.fault Fault.outOfFuel) ∧
    (∀ (tr : EventTransition) (σ σ' : Runtime), tr.source ∈ σ.m_currentStates →
      fireTransition scenarioB 4 tr σ = Res.ok σ' →
      ∃ (L : Nat) (E : List StatePtr),
        _FindClosestCommonTrack scenarioB 4 tr.source tr.target = Res.ok (some L) ∧
        σ'.m_currentStates = (exitResult scenarioB L σ.m_currentStates).1 ++ E ∧
        σ'.calls =
          σ.calls ++ (exitResult scenarioB L σ.m_currentStates).2 ++ E.map HookCall.enter ∧
        (E.map scenarioB.stateTrack).Nodup ∧ (∀ e ∈ E, scenarioB.inSubtree L e = true) ∧
        E.length ≤ scenarioB.subtreeSize L) ∧
    (∀ (tr : EventTransition) (σ : Runtime) (tb L : Nat), scenarioB.HasDefaults →
      (∀ s ∈ σ.m_currentStates, s < scenarioB.stateHeap.length) →
      tr.source ∈ σ.m_currentStates →
      scenarioB.stateTrack tr.target = some tb →
      _FindClosestCommonTrack scenarioB 4 tr.source tr.target = Res.ok (some L) →
      L ∈ scenarioB.ancestors tb → ∃ σ' : Runtime, fireTransition scenarioB 4 tr σ = Res.ok σ') ∧
    (∀ (s t : Nat) (track : Option TrackPtr), scenarioB.stateTrack s = some t →
      ∀ f : Nat, scenarioB.depth t + 1 ≤ f → ∃ b : Bool, IsInTrack scenarioB f s track = Res.ok b) ∧
    (∀ (s t L : Nat), scenarioB.stateTrack s = some t → scenarioB.inSubtree L s = false →
      IsInTrack scenarioB (scenarioB.depth t) s (some L) = Res.fault Fault.outOfFuel) ∧
    (∀ (a b ta tb : Nat), scenarioB.stateTrack a = some ta → scenarioB.stateTrack b = some tb →
      ∀ f : Nat, scenarioB.depth ta + 1 ≤ f → scenarioB.depth tb + 1 ≤ f →
        _FindClosestCommonTrack scenarioB f a b ≠ Res.fault Fault.outOfFuel ∧
        ∀ f' : Nat, f ≤ f' →
          _FindClosestCommonTrack scenarioB f' a b = _FindClosestCommonTrack scenarioB f a b) ∧
    (∀ t : Nat, scenarioB.depth t ≤ scenarioB.trackHeap.length) :=
  C32_bounded_single_pass scenarioB 4 (by decide) (by decide)

/-- On Scenario B the event `die` fired from the started configuration enters one state, in the
root track, whose subtree has three tracks; `grounded` is at depth two. -/
theorem scenarioB_bounds :
    scenarioB.subtreeSize 0 = 3 ∧ scenarioB.subtreeSize 1 = 1 ∧ scenarioB.depth 1 = 2 ∧
    scenarioB.depth 0 = 1 ∧
    IsInTrack scenarioB 3 1 (some 2) = Res.ok false ∧
    IsInTrack scenarioB 2 1 (some 2) = Res.fault Fault.outOfFuel := by
  decide

/-! ## Machines made with the builder of `UHierarchicalStateMachine` -/

theorem constructed_inv {M : Model} (hc : Constructed M) : M.BuilderInv := by
  induction hc with
  | empty => exact Model.BuilderInv.inv_empty
  | addRootTrack _ h ih => exact ih.inv_addRootTrack h
  | addState _ h ih => exact (ih.inv_addState h).1
  | addDefaultState _ h ih => exact (ih.inv_addDefaultState h).1
  | addDefaultStateWithDelegates _ h ih => exact (ih.inv_addDefaultStateWithDelegates h).1
  | addTrack _ h ih => exact (ih.inv_addTrack h).1
  | addEventTransition _ h ih => exact (ih.inv_addEventTransition h).1

theorem constructed_of_buildScenarioB {M : Model} (h : buildScenarioB = Res.ok M) :
    Constructed M := by
  unfold buildScenarioB at h
  obtain ⟨⟨M1, life⟩, h1, h⟩ := Res.bind_eq_ok.1 h
  obtain ⟨⟨M2, alive⟩, h2, h⟩ := Res.bind_eq_ok.1 h
  obtain ⟨⟨M3, motion⟩, h3, h⟩ := Res.bind_eq_ok.1 h
  obtain ⟨⟨M4, s4⟩, h4, h⟩ := Res.bind_eq_ok.1 h
  obtain ⟨⟨M5, s5⟩, h5, h⟩ := Res.bind_eq_ok.1 h
  obtain ⟨⟨M6, health⟩, h6, h⟩ := Res.bind_eq_ok.1 h
  obtain ⟨⟨M7, s7⟩, h7, h⟩ := Res.bind_eq_ok.1 h
  obtain ⟨⟨M8, s8⟩, h8, h⟩ := Res.bind_eq_ok.1 h
  obtain ⟨⟨M9, s9⟩, h9, h⟩ := Res.bind_eq_ok.1 h
  obtain ⟨M10, h10, h⟩ := Res.bind_eq_ok.1 h
  obtain ⟨M11, h11, h⟩ := Res.bind_eq_ok.1 h
  exact Constructed.addEventTransition
    (Constructed.addEventTransition
      (Constructed.addEventTransition
        (Constructed.addState
          (Constructed.addState
            (Constructed.addDefaultState
              (Constructed.addTrack
                (Constructed.addState
                  (Constructed.addDefaultState
                    (Constructed.addTrack
                      (Constructed.addDefaultState
                        (Constructed.addRootTrack Constructed.empty h1) h2) h3) h4) h5) h6)
              h7) h8) h9) h10) h11) h

theorem scenarioB_constructed : Constructed scenarioB :=
  constructed_of_buildScenarioB buildScenarioB_eq

/-! ## `PostEvent` called by a delegate that `DequeueEvents` runs -/

/-- C17 (code bug: a `PostEvent` made by a delegate that `DequeueEvents` runs starts a nested
`DequeueEvents`). `PostEvent` dequeues at once unless `m_ticking` is set, and `m_ticking` is
set around the on-tick loop of `Tick` only. On started Scenario B with immediate dequeuing and
`m_ticking` clear:
the `Enter` delegate of `jumping` posting `die`, then `PostEvent(jump)` : the call made by the
delegate, from the configuration [alive, healthy] of that moment, exits `healthy` and `alive`
and enters `dead`; the outer call then appends `jumping`, and `PostEvent(jump)` returns with
the configuration [dead, jumping], which is neither ordered nor one state per reachable track;
the `Exit` delegate of `grounded` posting `wound` (healthy -> hurt), then `PostEvent(die)` :
the call made by the delegate exits `healthy` and appends `hurt`, so that the `RemoveAt(2)`
of the outer exit loop removes `hurt`, never exited, instead of `grounded`, which the loop
meets and exits a second time at index 1; with inert delegates the same call exits
`grounded`, `healthy`, `alive` once each. -/
theorem C17_nested_dequeue_from_delegate :
    scenarioB_started.bImmediatelyDequeueEvents = true ∧
    scenarioB_started.m_ticking = false ∧
    scenarioB_started.m_currentStates = [0, 3, 1] ∧
    runHook (reentry scenarioB 4 hooksPostInEnter 1) (hooksPostInEnter.Enter 2)
        { scenarioB_started with
          m_currentStates := [0, 3]
          calls := scenarioB_started.calls ++ [HookCall.exit 1, HookCall.enter 2] } =
      Res.ok { scenarioB_started with
        m_currentStates := [5]
        m_eventsQueue := []
        calls := scenarioB_started.calls ++
          [HookCall.exit 1, HookCall.enter 2, HookCall.exit 3, HookCall.exit 0,
            HookCall.enter 5] } ∧
    PostEventH scenarioB 4 hooksPostInEnter (reentry scenarioB 4 hooksPostInEnter 1) "jump"
        scenarioB_started =
      Res.ok { scenarioB_started with
        m_currentStates := [5, 2]
        calls := scenarioB_started.calls ++
          [HookCall.exit 1, HookCall.enter 2, HookCall.exit 3, HookCall.exit 0,
            HookCall.enter 5] } ∧
    ¬ Ordered scenarioB [5, 2] ∧ ¬ OnePerTrack scenarioB [5, 2] ∧
    AddEventTransition scenarioB "wound" "healthy" "hurt" = Res.ok scenarioB_wound ∧
    runHook (reentry scenarioB_wound 4 hooksPostInExit 1) (hooksPostInExit.Exit 1)
        { scenarioB_started with calls := scenarioB_started.calls ++ [HookCall.exit 1] } =
      Res.ok { scenarioB_started with
        m_currentStates := [0, 1, 4]
        calls := scenarioB_started.calls ++
          [HookCall.exit 1, HookCall.exit 3, HookCall.enter 4] } ∧
    PostEventH scenarioB_wound 4 hooksPostInExit (reentry scenarioB_wound 4 hooksPostInExit 1)
        "die" scenarioB_started =
      Res.ok { scenarioB_started with
        m_currentStates := [5]
        calls := scenarioB_started.calls ++
          [HookCall.exit 1, HookCall.exit 3, HookCall.enter 4, HookCall.exit 1,
            HookCall.exit 0, HookCall.enter 5] } ∧
    PostEventH scenarioB_wound 4 Hooks.inert (reentry scenarioB_wound 4 Hooks.inert 1)
        "die" scenarioB_started =
      Res.ok { scenarioB_started with
        m_currentStates := [5]
        calls := scenarioB_started.calls ++
          [HookCall.exit 1, HookCall.exit 3, HookCall.exit 0, HookCall.enter 5] } := by
  refine ⟨by decide, by decide, by decide, by decide, by decide, by decide, by decide,
    by decide, by decide, by decide, by decide⟩

/-! ## Orthogonal regions with a target above its source -/

theorem scenarioB_up_never_returns (fuel : Nat) (σ' : Runtime) :
    processEvent scenarioB_up fuel "up" scenarioB_started ≠ Res.ok σ' := by
  intro h
  rw [processEvent_registered
    (by decide : tmapFind scenarioB_up.m_eventTransitions "up" =
      some [⟨"up", 1, 0⟩, ⟨"up", 3, 4⟩]), fireTransitions_cons] at h
  obtain ⟨σ1, h1, _⟩ := Res.bind_eq_ok.1 h
  have wf : scenarioB_up.WF := by decide
  exact wf.fireTransition_ancestor_target (by decide)
    (by decide : scenarioB_up.stateTrack 1 = some 1) ⟨1, by decide, by decide⟩ h1

theorem scenarioB_up_swapped_never_returns (fuel : Nat) (σ' : Runtime) :
    processEvent scenarioB_up_swapped fuel "up" scenarioB_started ≠ Res.ok σ' := by
  intro h
  rw [processEvent_registered
    (by decide : tmapFind scenarioB_up_swapped.m_eventTransitions "up" =
      some [⟨"up", 3, 4⟩, ⟨"up", 1, 0⟩]), fireTransitions_cons] at h
  obtain ⟨σ1, h1, h2⟩ := Res.bind_eq_ok.1 h
  rw [fireTransitions_cons] at h2
  obtain ⟨σ2, h3, _⟩ := Res.bind_eq_ok.1 h2
  have h4 : fireTransition scenarioB_up_swapped 4 ⟨"up", 3, 4⟩ scenarioB_started =
      Res.ok { scenarioB_started with
        m_currentStates := [0, 1, 4]
        calls := scenarioB_started.calls ++ [HookCall.exit 3, HookCall.enter 4] } := by
    decide
  have h5 := fireTransition_mono (Nat.le_max_left fuel 4) h1
  have h6 := fireTransition_mono (Nat.le_max_right fuel 4) h4
  rw [h5] at h6
  simp only [Res.ok.injEq] at h6
  subst h6
  have wf : scenarioB_up_swapped.WF := by decide
  exact wf.fireTransition_ancestor_target (by decide)
    (by decide : scenarioB_up_swapped.stateTrack 1 = some 1) ⟨1, by decide, by decide⟩ h3

/-- C30 (code bug: orthogonal transitions, one with its target above its source). Scenario B
with the event `up` registering grounded -> alive and healthy -> hurt, in either order, on the
configuration [alive, healthy, grounded] that `Start` leaves: both sources are active, the
common tracks that `_FindClosestCommonTrack` returns are `motion` and `health`, two different
tracks with disjoint subtrees, and the model is well formed with a default state in every
track. Processing the event dereferences the null parent of the root track, in both orders
(with healthy -> hurt registered first, `hurt` is entered, then grounded -> alive faults): it
returns for no bound on the number of loop iterations, `alive` is never entered again, and
`PostEvent(up)` does not return either. -/
theorem C30_orthogonal_ancestor_target_faults :
    (AddEventTransition scenarioB "up" "grounded" "alive" >>= fun M =>
      AddEventTransition M "up" "healthy" "hurt") = Res.ok scenarioB_up ∧
    (AddEventTransition scenarioB "up" "healthy" "hurt" >>= fun M =>
      AddEventTransition M "up" "grounded" "alive") = Res.ok scenarioB_up_swapped ∧
    scenarioB_up.WF ∧ scenarioB_up.HasDefaults ∧
    Start scenarioB_up 4 (Runtime.initial true) = Res.ok scenarioB_started ∧
    (1 : Nat) ∈ scenarioB_started.m_currentStates ∧
    (3 : Nat) ∈ scenarioB_started.m_currentStates ∧
    _FindClosestCommonTrack scenarioB_up 4 1 0 = Res.ok (some 1) ∧
    _FindClosestCommonTrack scenarioB_up 4 3 4 = Res.ok (some 2) ∧
    (∀ t < scenarioB_up.trackHeap.length,
      1 ∈ scenarioB_up.ancestors t → 2 ∉ scenarioB_up.ancestors t) ∧
    processEvent scenarioB_up 4 "up" scenarioB_started = Res.fault Fault.nullDeref ∧
    processEvent scenarioB_up_swapped 4 "up" scenarioB_started = Res.fault Fault.nullDeref ∧
    fireTransition scenarioB_up_swapped 4 ⟨"up", 3, 4⟩ scenarioB_started =
      Res.ok { scenarioB_started with
        m_currentStates := [0, 1, 4]
        calls := scenarioB_started.calls ++ [HookCall.exit 3, HookCall.enter 4] } ∧
    (∀ (fuel : Nat) (σ' : Runtime),
      processEvent scenarioB_up fuel "up" scenarioB_started ≠ Res.ok σ') ∧
    (∀ (fuel : Nat) (σ' : Runtime),
      processEvent scenarioB_up_swapped fuel "up" scenarioB_started ≠ Res.ok σ') ∧
    PostEvent scenarioB_up 4 "up" scenarioB_started = Res.fault Fault.nullDeref ∧
    PostEvent scenarioB_up_swapped 4 "up" scenarioB_started = Res.fault Fault.nullDeref := by
  refine ⟨by decide, by decide, by decide, by decide, by decide, by decide, by decide,
    by decide, by decide, by decide, by decide, by decide, by decide,
    scenarioB_up_never_returns, scenarioB_up_swapped_never_returns, by decide, by decide⟩

end HSM
